import Mathlib

/-!
# NetFlow : routage sur un graphe pondéré

Shallow embedding of `graphe.c`, `dijkstra.c`, `securite.c` and of the priority
queue of `liste_chainee.c`.

Modelling conventions
* node identifiers are natural numbers (the C code rejects negative identifiers
  in `noeud_existe`);
* a `float` is the whole number it holds, an `Int`: the attributes are finite
  floats of whole value, `F32_INF` and `-F32_INF` stand for the two infinities
  and the sentinel `INFINI` is the value of `FLT_MAX`; the addition of two
  floats is `fadd`, the binary32 addition of IEEE 754 (the exact sum rounded to
  24 significant bits, to nearest, ties to even, an overflow giving an
  infinity), expressions being evaluated in the format `float` itself; the
  comparisons are exact; no NaN arises from finite attributes;
* a C string is the `String` whose characters have the codes of its bytes, one
  `Char` for each `char` (a code from 1 to 255): the length of a name and the
  bound of `strncpy` count bytes;
* C arrays owned by the graph are lists, scratch arrays indexed by node
  (`dist`, `pred`, `traite`, `visite`) are total functions on node identifiers;
* a linked list with a `taille` counter is a list;
* the predecessor sentinel `-1` is `none`;
* a `while` loop or a recursion whose bound is not syntactic takes a `fuel`
  argument and answers `none` when the fuel runs out; `bellman_ford`, which
  indexes `dist` by a source and a destination that it never tests, also
  answers `none` when that index is out of bounds.
-/

set_option maxRecDepth 100000

namespace NetFlow

/-! ## Constants and structures (`interfaces.h`) -/

/-- The value of `FLT_MAX`, used by the code as "no edge" and "unreached". -/
def INFINI : Int := 340282346638528859811704183484516925440

/-! ### Binary32 arithmetic (`float`) -/

/-- Exponent of the unit in the last place of a natural number in binary32: the
least `e` with `n < 2 ^ (24 + e)`; the first argument bounds the search. -/
def exposant_f32 : Nat → Nat → Nat
  | 0, _ => 0
  | fuel + 1, n => if n < 2 ^ 24 then 0 else exposant_f32 fuel (n / 2) + 1

/-- Rounding of a natural number to 24 significant bits, to nearest, ties to
even. -/
def arrondi_nat (n : Nat) : Nat :=
  let e := exposant_f32 n n
  let q := n / 2 ^ e
  let r := n % 2 ^ e
  if 2 * r < 2 ^ e then q * 2 ^ e
  else if 2 ^ e < 2 * r then (q + 1) * 2 ^ e
  else if q % 2 = 0 then q * 2 ^ e
  else (q + 1) * 2 ^ e

/-- Rounding of an integer to 24 significant bits; the rounding is symmetric
about zero. -/
def arrondi_f32 (x : Int) : Int :=
  if 0 ≤ x then (arrondi_nat x.toNat : Int) else -(arrondi_nat (-x).toNat : Int)

/-- The value `2 ^ 128`, which stands for the infinity of binary32: a rounded
result that reaches it has overflowed. -/
def F32_INF : Int := 340282366920938463463374607431768211456

/-- Overflow of a rounded result to an infinity. -/
def borner_f32 (s : Int) : Int :=
  if F32_INF ≤ s then F32_INF else if s ≤ -F32_INF then -F32_INF else s

/-- The operator `+` of C on two `float` operands: an infinite operand gives
that infinity, otherwise the exact sum is rounded and may overflow. -/
def fadd (a b : Int) : Int :=
  if F32_INF ≤ a ∨ F32_INF ≤ b then F32_INF
  else if a ≤ -F32_INF ∨ b ≤ -F32_INF then -F32_INF
  else borner_f32 (arrondi_f32 (a + b))

/-- Size of the `nom` buffer of a node. -/
def TAILLE_MAX_NOM : Nat := 50

/-- An entry of an adjacency list. -/
structure Arete where
  destination : Nat
  latence : Int
  bande_passante : Int
  cout : Int
  securite : Int
deriving DecidableEq, Repr

/-- A slot of the node table. -/
structure Noeud where
  id : Nat
  nom : String
  actif : Bool
  aretes : List Arete
deriving DecidableEq, Repr

/-- The graph: node table plus the four attribute matrices. -/
structure Graphe where
  nb_noeuds : Int
  nb_aretes : Int
  capacite_max : Nat
  est_oriente : Bool
  noeuds : List Noeud
  matrice_latence : List (List Int)
  matrice_bw : List (List Int)
  matrice_cout : List (List Int)
  matrice_sec : List (List Int)
deriving DecidableEq, Repr

/-- A path with its metrics; `noeuds` is the linked list starting at `tete`. -/
structure Chemin where
  noeuds : List Nat
  longueur : Int
  latence_totale : Int
  bw_minimale : Int
  cout_total : Int
  securite_min : Int
deriving DecidableEq, Repr

/-- Constraints of the backtracking search. -/
structure Contraintes where
  bw_min_requise : Int
  cout_max_autorise : Int
  securite_min : Int
  noeuds_oblgatoires : List Nat
  noeuds_exclus : List Nat
deriving DecidableEq, Repr

/-! ## Graph store (`graphe.c`) -/

/-- A zeroed slot, as produced by `calloc`. -/
def noeud_vide : Noeud := ⟨0, "", false, []⟩

/-- Read `g->noeuds[u]`. -/
def noeud (g : Graphe) (u : Nat) : Noeud := g.noeuds.getD u noeud_vide

/-- Read `g->noeuds[u].aretes`. -/
def aretes_de (g : Graphe) (u : Nat) : List Arete := (noeud g u).aretes

/-- Write `m[i][j] = x` in a matrix. -/
def ecrire_matrice (m : List (List Int)) (i j : Nat) (x : Int) : List (List Int) :=
  m.set i ((m.getD i []).set j x)

/-- Embedding of `creer_graphe`. -/
def creer_graphe (capacite_max : Nat) (est_oriente : Bool) : Graphe :=
  { nb_noeuds := 0
    nb_aretes := 0
    capacite_max := capacite_max
    est_oriente := est_oriente
    noeuds := List.replicate capacite_max noeud_vide
    matrice_latence := List.replicate capacite_max (List.replicate capacite_max INFINI)
    matrice_bw := List.replicate capacite_max (List.replicate capacite_max 0)
    matrice_cout := List.replicate capacite_max (List.replicate capacite_max INFINI)
    matrice_sec := List.replicate capacite_max (List.replicate capacite_max (-1)) }

/-- Embedding of `noeud_existe`. -/
def noeud_existe (g : Graphe) (id : Nat) : Bool :=
  if id ≥ g.capacite_max then false else (noeud g id).actif

/-- Embedding of `ajouter_noeud`: the new graph and the return code. The name
is copied by `strncpy` with the bound `TAILLE_MAX_NOM - 1` and closed at that
index: the slot holds the first `TAILLE_MAX_NOM - 1` bytes of `nom`, one `Char`
standing for one byte. -/
def ajouter_noeud (g : Graphe) (id : Nat) (nom : String) : Graphe × Int :=
  if id ≥ g.capacite_max then (g, -1)
  else if noeud_existe g id then (g, -1)
  else
    ({ g with
        noeuds := g.noeuds.set id ⟨id, nom.take (TAILLE_MAX_NOM - 1), true, []⟩
        nb_noeuds := g.nb_noeuds + 1 }, 0)

/-- Embedding of `ajouter_arete`. The recursive call made for a non-oriented
graph is bounded by `fuel`; `none` means the fuel ran out. -/
def ajouter_arete : Nat → Graphe → Nat → Nat → Int → Int → Int → Int → Option (Graphe × Int)
  | 0, _, _, _, _, _, _, _ => none
  | fuel + 1, g, src, dest, latence, bande_passante, cout, securite =>
    if !noeud_existe g src || !noeud_existe g dest then some (g, -1)
    else
      let nouvelle : Arete := ⟨dest, latence, bande_passante, cout, securite⟩
      let n := noeud g src
      let g1 : Graphe :=
        { g with
            noeuds := g.noeuds.set src { n with aretes := nouvelle :: n.aretes }
            matrice_latence := ecrire_matrice g.matrice_latence src dest latence
            matrice_bw := ecrire_matrice g.matrice_bw src dest bande_passante
            matrice_cout := ecrire_matrice g.matrice_cout src dest cout
            matrice_sec := ecrire_matrice g.matrice_sec src dest securite }
      if !g1.est_oriente then
        match ajouter_arete fuel g1 dest src latence bande_passante cout securite with
        | none => none
        | some (g2, _) => some ({ g2 with nb_aretes := g2.nb_aretes + 1 }, 0)
      else some ({ g1 with nb_aretes := g1.nb_aretes + 1 }, 0)

/-! ## Paths (`dijkstra.c`, utilities) -/

/-- Embedding of `creer_chemin` (`calloc`: every field is zero). -/
def creer_chemin : Chemin := ⟨[], 0, 0, 0, 0, 0⟩

/-- Embedding of `ajouter_noeud_chemin`: append at the tail. -/
def ajouter_noeud_chemin (c : Chemin) (id_noeud : Nat) : Chemin :=
  { c with noeuds := c.noeuds ++ [id_noeud], longueur := c.longueur + 1 }

/-- Embedding of `chemin_contient`. -/
def chemin_contient (c : Chemin) (id_noeud : Nat) : Bool :=
  c.noeuds.any (fun n => n == id_noeud)

/-- Embedding of `copier_chemin`. -/
def copier_chemin (src : Chemin) : Chemin :=
  { List.foldl ajouter_noeud_chemin creer_chemin src.noeuds with
      latence_totale := src.latence_totale
      cout_total := src.cout_total
      bw_minimale := src.bw_minimale
      securite_min := src.securite_min }

/-! ## Priority queue of Dijkstra -/

/-- An entry of the sorted linked list. -/
structure EntreePQ where
  noeud : Nat
  distance : Int
deriving DecidableEq, Repr

/-- The inner `while` of `pq_inserer`: walk past the entries whose distance is
at most `distance`, then link the new entry. -/
def pq_inserer_apres (noeud : Nat) (distance : Int) : List EntreePQ → List EntreePQ
  | [] => [⟨noeud, distance⟩]
  | e :: reste =>
    if e.distance ≤ distance then e :: pq_inserer_apres noeud distance reste
    else ⟨noeud, distance⟩ :: e :: reste

/-- Embedding of `pq_inserer`. -/
def pq_inserer (pq : List EntreePQ) (noeud : Nat) (distance : Int) : List EntreePQ :=
  match pq with
  | [] => [⟨noeud, distance⟩]
  | tete :: reste =>
    if distance < tete.distance then ⟨noeud, distance⟩ :: tete :: reste
    else tete :: pq_inserer_apres noeud distance reste

/-- Embedding of `pq_extraire_min`: the extracted entry (`none` for `-1`) and
the remaining queue. -/
def pq_extraire_min (pq : List EntreePQ) : Option EntreePQ × List EntreePQ :=
  match pq with
  | [] => (none, [])
  | min :: reste => (some min, reste)

/-- Embedding of `pq_vide`. -/
def pq_vide (pq : List EntreePQ) : Bool := pq.length == 0

/-! ## Dijkstra -/

/-- Scratch state of `dijkstra_tout`. -/
structure EtatDijkstra where
  dist : Nat → Int
  pred : Nat → Option Nat
  traite : Nat → Bool
  pq : List EntreePQ

/-- The relaxation loop `while (a)` of `dijkstra_tout` over the adjacency list
of `u`. -/
def relaxer_voisins (u : Nat) : List Arete → EtatDijkstra → EtatDijkstra
  | [], e => e
  | a :: reste, e =>
    let v := a.destination
    let nouvelle_dist := fadd (e.dist u) a.latence
    if nouvelle_dist < e.dist v then
      relaxer_voisins u reste
        { e with
            dist := Function.update e.dist v nouvelle_dist
            pred := Function.update e.pred v (some u)
            pq := pq_inserer e.pq v nouvelle_dist }
    else relaxer_voisins u reste e

/-- The main loop `while (!pq_vide(pq))` of `dijkstra_tout`. -/
def dijkstra_boucle (g : Graphe) : Nat → EtatDijkstra → Option EtatDijkstra
  | 0, e => if pq_vide e.pq then some e else none
  | fuel + 1, e =>
    if pq_vide e.pq then some e
    else
      match pq_extraire_min e.pq with
      | (none, _) => none
      | (some min, reste) =>
        let u := min.noeud
        if e.traite u then dijkstra_boucle g fuel { e with pq := reste }
        else
          dijkstra_boucle g fuel
            (relaxer_voisins u (aretes_de g u)
              { e with pq := reste, traite := Function.update e.traite u true })

/-- Embedding of `dijkstra_tout`: the final `dist` and `pred` arrays. -/
def dijkstra_tout (fuel : Nat) (g : Graphe) (source : Nat) :
    Option ((Nat → Int) × (Nat → Option Nat)) :=
  let e0 : EtatDijkstra :=
    { dist := Function.update (fun _ => INFINI) source 0
      pred := fun _ => none
      traite := fun _ => false
      pq := pq_inserer [] source 0 }
  match dijkstra_boucle g fuel e0 with
  | none => none
  | some e => some (e.dist, e.pred)

/-- The first loop of `reconstruire_chemin`: push the nodes met while following
the predecessor links. The head of the list is the top of the stack. -/
def remonter (pred : Nat → Option Nat) : Nat → Option Nat → List Nat → Option (List Nat)
  | _, none, pile => some pile
  | 0, some _, _ => none
  | fuel + 1, some n, pile => remonter pred fuel (pred n) (n :: pile)

/-- Embedding of `reconstruire_chemin`; the outer `Option` is the fuel, the
inner one is the `NULL` result. -/
def reconstruire_chemin (fuel : Nat) (pred : Nat → Option Nat) (dist : Nat → Int)
    (dest : Nat) : Option (Option Chemin) :=
  if dist dest = INFINI then some none
  else
    match remonter pred fuel (some dest) [] with
    | none => none
    | some pile =>
      some (some { List.foldl ajouter_noeud_chemin creer_chemin pile with
                     latence_totale := dist dest })

/-- Embedding of `dijkstra`. -/
def dijkstra (fuel : Nat) (g : Graphe) (source destination : Nat) : Option (Option Chemin) :=
  if !noeud_existe g source || !noeud_existe g destination then some none
  else
    match dijkstra_tout fuel g source with
    | none => none
    | some (dist, pred) => reconstruire_chemin fuel pred dist destination

/-! ## Bellman-Ford -/

/-- Scratch state of a relaxation pass of `bellman_ford`. -/
structure EtatBF where
  dist : Nat → Int
  pred : Nat → Option Nat
  modification : Bool

/-- The inner `while (a)` of a relaxation pass, over the adjacency list of `u`. -/
def bf_relaxer (u : Nat) : List Arete → EtatBF → EtatBF
  | [], e => e
  | a :: reste, e =>
    let nouvelle_dist := fadd (e.dist u) a.latence
    if nouvelle_dist < e.dist a.destination then
      bf_relaxer u reste
        { dist := Function.update e.dist a.destination nouvelle_dist
          pred := Function.update e.pred a.destination (some u)
          modification := true }
    else bf_relaxer u reste e

/-- The loop `for (u = 0; u < V; u++)` of a relaxation pass; the list holds the
values of `u` still to visit. -/
def bf_passe (g : Graphe) : List Nat → EtatBF → EtatBF
  | [], e => e
  | u :: us, e =>
    if !(noeud g u).actif || e.dist u = INFINI then bf_passe g us e
    else bf_passe g us (bf_relaxer u (aretes_de g u) e)

/-- The loop `for (iteration = 0; iteration < V - 1; iteration++)` with its
early exit; the first argument is the number of iterations left. -/
def bf_iterations (g : Graphe) : Nat → (Nat → Int) → (Nat → Option Nat) →
    (Nat → Int) × (Nat → Option Nat)
  | 0, dist, pred => (dist, pred)
  | n + 1, dist, pred =>
    let e := bf_passe g (List.range g.capacite_max) ⟨dist, pred, false⟩
    if !e.modification then (e.dist, e.pred)
    else bf_iterations g n e.dist e.pred

/-- The inner `while (a)` of the detection pass: `true` when an edge of `u`
can still be relaxed. -/
def bf_arete_relaxable (dist : Nat → Int) (u : Nat) : List Arete → Bool
  | [] => false
  | a :: reste =>
    if fadd (dist u) a.latence < dist a.destination then true
    else bf_arete_relaxable dist u reste

/-- The detection pass of `bellman_ford`: `true` when it returns early with the
negative-cycle flag set. -/
def bf_detecter (g : Graphe) (dist : Nat → Int) : List Nat → Bool
  | [] => false
  | u :: us =>
    if !(noeud g u).actif || dist u = INFINI then bf_detecter g dist us
    else if bf_arete_relaxable dist u (aretes_de g u) then true
    else bf_detecter g dist us

/-- Embedding of `bellman_ford`: the returned path (`none` for `NULL`) and the
final value of `*a_cycle_negatif`. The code writes `dist[source]` and, when no
cycle is flagged, reads `dist[destination]` without a test: outside the `V`
cells of `dist` the call has no defined result, which is the outer `none`, as
is the fuel of the path reconstruction running out. -/
def bellman_ford (fuel : Nat) (g : Graphe) (source destination : Nat) :
    Option (Option Chemin × Int) :=
  let V := g.capacite_max
  if V ≤ source then none
  else
    let r := bf_iterations g (V - 1) (Function.update (fun _ => INFINI) source 0) (fun _ => none)
    if bf_detecter g r.1 (List.range V) then some (none, 1)
    else if V ≤ destination then none
    else
      match reconstruire_chemin fuel r.2 r.1 destination with
      | none => none
      | some c => some (c, 0)

/-! ## Constrained search by backtracking -/

/-- The mutable part of `ContextBacktrack`. -/
structure ContextBacktrack where
  visite : Nat → Bool
  meilleur : Option Chemin
  courant : Chemin

/-- Embedding of `contrainte_respectee`. -/
def contrainte_respectee (a : Arete) (c : Contraintes) : Bool :=
  decide (a.bande_passante ≥ c.bw_min_requise) && decide (a.securite ≥ c.securite_min)

/-- Embedding of `noeud_exclu`. -/
def noeud_exclu (id : Nat) (c : Contraintes) : Bool :=
  c.noeuds_exclus.any (fun x => x == id)

/-- Embedding of `tous_obligatoires_visites`. -/
def tous_obligatoires_visites (c_chemin : Chemin) (c : Contraintes) : Bool :=
  c.noeuds_oblgatoires.all (fun x => chemin_contient c_chemin x)

/-- The loop `while (a)` of `backtrack_recursif`; `appel` is the recursive
call. -/
def explorer_voisins (c : Contraintes)
    (appel : ContextBacktrack → Nat → Int → Int → Int → Option ContextBacktrack)
    (lat_acc cout_acc bw_min_acc : Int) :
    List Arete → ContextBacktrack → Option ContextBacktrack
  | [], ctx => some ctx
  | a :: reste, ctx =>
    let v := a.destination
    if !ctx.visite v && !noeud_exclu v c && contrainte_respectee a c then
      if (match ctx.meilleur with
          | none => false
          | some m => decide (fadd lat_acc a.latence ≥ m.latence_totale)) then
        explorer_voisins c appel lat_acc cout_acc bw_min_acc reste ctx
      else
        let ctx1 : ContextBacktrack :=
          { ctx with
              visite := Function.update ctx.visite v true
              courant := ajouter_noeud_chemin ctx.courant v }
        let nouvelle_bw := if bw_min_acc < a.bande_passante then bw_min_acc else a.bande_passante
        match appel ctx1 v (fadd lat_acc a.latence) (fadd cout_acc a.cout) nouvelle_bw with
        | none => none
        | some ctx2 =>
          explorer_voisins c appel lat_acc cout_acc bw_min_acc reste
            { ctx2 with visite := Function.update ctx2.visite v false }
    else explorer_voisins c appel lat_acc cout_acc bw_min_acc reste ctx

/-- Embedding of `backtrack_recursif`; `fuel` bounds the recursion depth. -/
def backtrack_recursif (g : Graphe) (c : Contraintes) (destination : Nat) :
    Nat → ContextBacktrack → Nat → Int → Int → Int → Option ContextBacktrack
  | 0, _, _, _, _, _ => none
  | fuel + 1, ctx, noeud_actuel, lat_acc, cout_acc, bw_min_acc =>
    if cout_acc > c.cout_max_autorise then some ctx
    else if noeud_actuel = destination then
      if !tous_obligatoires_visites ctx.courant c then some ctx
      else if (match ctx.meilleur with
               | none => true
               | some m => decide (lat_acc < m.latence_totale)) then
        some { ctx with
                 meilleur := some { copier_chemin ctx.courant with
                                      latence_totale := lat_acc
                                      cout_total := cout_acc
                                      bw_minimale := bw_min_acc } }
      else some ctx
    else
      explorer_voisins c (backtrack_recursif g c destination fuel)
        lat_acc cout_acc bw_min_acc (aretes_de g noeud_actuel) ctx

/-- Embedding of `chemin_contraint_backtracking`. -/
def chemin_contraint_backtracking (fuel : Nat) (g : Graphe) (source destination : Nat)
    (c : Contraintes) : Option (Option Chemin) :=
  if !noeud_existe g source || !noeud_existe g destination then some none
  else
    let ctx : ContextBacktrack :=
      { visite := Function.update (fun _ => false) source true
        meilleur := none
        courant := ajouter_noeud_chemin creer_chemin source }
    match backtrack_recursif g c destination fuel ctx source 0 0 INFINI with
    | none => none
    | some ctx1 => some ctx1.meilleur

/-! ## K shortest paths -/

/-- Splice of a candidate: the root nodes, then the nodes of the spur path that
are not yet in the candidate; the latency is the one of the spur path. -/
def construire_candidat (racine : List Nat) (spur_path : Chemin) : Chemin :=
  { List.foldl
      (fun cand s => if !chemin_contient cand s then ajouter_noeud_chemin cand s else cand)
      (List.foldl ajouter_noeud_chemin creer_chemin racine) spur_path.noeuds with
      latence_totale := spur_path.latence_totale }

/-- The loop `while (spur_node && spur_node->suivant)`: `racine` holds the
nodes of the reference path before `spur_node`, the list argument the nodes
from `spur_node` on. New candidates are linked at the head. -/
def generer_candidats (fuel : Nat) (g : Graphe) (destination : Nat) :
    List Nat → List Nat → List Chemin → Option (List Chemin)
  | _, [], candidats => some candidats
  | _, [_], candidats => some candidats
  | racine, spur_id :: suivant :: reste, candidats =>
    match dijkstra fuel g spur_id destination with
    | none => none
    | some none =>
      generer_candidats fuel g destination (racine ++ [spur_id]) (suivant :: reste) candidats
    | some (some spur_path) =>
      generer_candidats fuel g destination (racine ++ [spur_id]) (suivant :: reste)
        (construire_candidat racine spur_path :: candidats)

/-- The scan for the candidate of minimal latency: position of the best
candidate met so far (`i` is the position of the head of the list). -/
def position_meilleur (meilleur : Chemin) (pos_meilleur i : Nat) : List Chemin → Nat
  | [] => pos_meilleur
  | c :: reste =>
    if c.latence_totale < meilleur.latence_totale then position_meilleur c i (i + 1) reste
    else position_meilleur meilleur pos_meilleur (i + 1) reste

/-- The loop `while (nb_trouves < k)`; the first argument is `k - nb_trouves`,
`liste` is the result list and `queue_liste` its last element. -/
def kpc_boucle (fuel : Nat) (g : Graphe) (destination : Nat) :
    Nat → List Chemin → Chemin → List Chemin → Option (List Chemin)
  | 0, liste, _, _ => some liste
  | n + 1, liste, queue_liste, candidats =>
    match generer_candidats fuel g destination [] queue_liste.noeuds candidats with
    | none => none
    | some [] => some liste
    | some (c0 :: cs) =>
      let pos := position_meilleur c0 0 1 cs
      let meilleur := (c0 :: cs).getD pos c0
      kpc_boucle fuel g destination n (liste ++ [meilleur]) meilleur ((c0 :: cs).eraseIdx pos)

/-- Embedding of `k_plus_courts_chemins`; the empty list stands for `NULL`. -/
def k_plus_courts_chemins (fuel : Nat) (g : Graphe) (source destination : Nat) (k : Int) :
    Option (List Chemin) :=
  if k ≤ 0 then some []
  else
    match dijkstra fuel g source destination with
    | none => none
    | some none => some []
    | some (some premier) => kpc_boucle fuel g destination (k - 1).toNat [premier] premier []

/-! ## Example graphs -/

/-- Add an active node to an example graph. -/
def avec_noeud (g : Graphe) (id : Nat) (nom : String) : Graphe := (ajouter_noeud g id nom).1

/-- Add an edge to an oriented example graph. -/
def avec_arete (g : Graphe) (src dest : Nat) (latence bande_passante cout securite : Int) :
    Graphe :=
  match ajouter_arete 1 g src dest latence bande_passante cout securite with
  | some (g1, _) => g1
  | none => g

/-- An oriented graph of `n` active nodes `0 .. n-1` without edges. -/
def graphe_noeuds (n : Nat) : Graphe :=
  (List.range n).foldl (fun g i => avec_noeud g i "n") (creer_graphe n true)

/-- The chain `0 -> 1 -> 2` with latencies 1, 1. -/
def g_chaine3 : Graphe :=
  avec_arete (avec_arete (graphe_noeuds 3) 0 1 1 10 1 5) 1 2 1 10 1 5

/-- Two nodes and one edge `0 -> 1` whose latency is `FLT_MAX`. -/
def g_infini : Graphe := avec_arete (graphe_noeuds 2) 0 1 INFINI 10 1 5

/-- Node 0 joined to node 1 by an edge of latency `FLT_MAX`; node 1 carries a
loop of latency -1. -/
def g_cycle_loin : Graphe :=
  avec_arete (avec_arete (graphe_noeuds 2) 0 1 INFINI 10 1 5) 1 1 (-1) 10 1 5

/-- Node 0 joined to node 1 by an edge of latency 1; node 1 carries a loop of
latency -1. -/
def g_cycle_proche : Graphe :=
  avec_arete (avec_arete (graphe_noeuds 2) 0 1 1 10 1 5) 1 1 (-1) 10 1 5

/-- Three nodes; the adjacency list of node 0 is `[0 -> 1, 0 -> 2]` and node 1
is a dead end. -/
def g_impasse : Graphe :=
  avec_arete (avec_arete (graphe_noeuds 3) 0 2 5 10 1 5) 0 1 1 10 1 5

/-- Three nodes; the adjacency list of node 0 is `[0 -> 2, 0 -> 1]`, the direct
edge has latency 10 and the detour `0 -> 1 -> 2` has latency 2. -/
def g_detour : Graphe :=
  avec_arete (avec_arete (avec_arete (graphe_noeuds 3) 0 1 1 10 1 5) 0 2 10 10 1 5) 1 2 1 10 1 5

/-- Constraints that every edge of the example graphs meets. -/
def c_libre : Contraintes := ⟨0, 100, 0, [], []⟩

/-! ## Removal of edges and nodes (`graphe.c`) -/

/-- The scan of `supprimer_arete`: unlink the first entry whose destination is
`dest`; `none` when the list holds none. -/
def retirer_premiere (dest : Nat) : List Arete → Option (List Arete)
  | [] => none
  | a :: reste =>
    if a.destination = dest then some reste
    else
      match retirer_premiere dest reste with
      | none => none
      | some l => some (a :: l)

/-- Embedding of `supprimer_arete`: the new graph and the return code. -/
def supprimer_arete (g : Graphe) (src dest : Nat) : Graphe × Int :=
  if !noeud_existe g src then (g, -1)
  else
    match retirer_premiere dest (aretes_de g src) with
    | none => (g, -1)
    | some l =>
      ({ g with
          noeuds := g.noeuds.set src { noeud g src with aretes := l }
          matrice_latence := ecrire_matrice g.matrice_latence src dest INFINI
          nb_aretes := g.nb_aretes - 1 }, 0)

/-- The first loop of `supprimer_noeud`, over the outgoing edges of `id`. -/
def vider_aretes (id : Nat) : List Arete → Graphe → Graphe
  | [], g => g
  | a :: reste, g =>
    vider_aretes id reste
      { g with
          matrice_latence := ecrire_matrice g.matrice_latence id a.destination INFINI
          nb_aretes := g.nb_aretes - 1 }

/-- The second loop of `supprimer_noeud`: one call of `supprimer_arete(g, i, id)`
for every other active node `i`. -/
def supprimer_entrantes (id : Nat) : List Nat → Graphe → Graphe
  | [], g => g
  | i :: reste, g =>
    if (noeud g i).actif && i != id then
      supprimer_entrantes id reste (supprimer_arete g i id).1
    else supprimer_entrantes id reste g

/-- Embedding of `supprimer_noeud`: the new graph and the return code. -/
def supprimer_noeud (g : Graphe) (id : Nat) : Graphe × Int :=
  if !noeud_existe g id then (g, -1)
  else
    let g1 := vider_aretes id (aretes_de g id) g
    let g2 : Graphe := { g1 with noeuds := g1.noeuds.set id { noeud g1 id with aretes := [] } }
    let g3 := supprimer_entrantes id (List.range g2.capacite_max) g2
    ({ g3 with
        noeuds := g3.noeuds.set id { noeud g3 id with actif := false }
        nb_noeuds := g3.nb_noeuds - 1 }, 0)

/-! ## Persisted topology (`graphe.c`)

The text file is modelled by its parsed content: the two counts and the two
blocks of lines. What is written is what is read back under the conventions of
this file: a name holds no white space (the `%s` of `fscanf` stops at white
space) and fits the `nom` buffer, and an attribute is a float of whole value,
which `%.2f` prints with all its digits and `%f` reads back unchanged. -/

/-- A line `<src> <dst> <latency> <bandwidth> <cost> <security>`. -/
structure LigneArete where
  src : Nat
  dest : Nat
  latence : Int
  bande_passante : Int
  cout : Int
  securite : Int
deriving DecidableEq, Repr

/-- Content of a topology file. -/
structure FichierReseau where
  nb_noeuds : Int
  lignes_noeuds : List (Nat × String)
  nb_aretes : Int
  lignes_aretes : List LigneArete
deriving DecidableEq, Repr

/-- Embedding of `sauvegarder_graphe`: one node line per active slot, one edge
line per adjacency entry of an active slot. -/
def sauvegarder_graphe (g : Graphe) : FichierReseau :=
  { nb_noeuds := g.nb_noeuds
    lignes_noeuds :=
      ((List.range g.capacite_max).filter (fun i => (noeud g i).actif)).map
        (fun i => ((noeud g i).id, (noeud g i).nom))
    nb_aretes := g.nb_aretes
    lignes_aretes :=
      ((List.range g.capacite_max).filter (fun i => (noeud g i).actif)).flatMap
        (fun i => (aretes_de g i).map
          (fun a => ⟨i, a.destination, a.latence, a.bande_passante, a.cout, a.securite⟩)) }

/-- Embedding of `charger_graphe`: a directed graph whose capacity is the node
count of the header, filled by `ajouter_noeud` and `ajouter_arete`. -/
def charger_graphe (f : FichierReseau) : Graphe :=
  let g0 := creer_graphe f.nb_noeuds.toNat true
  let g1 := (f.lignes_noeuds.take f.nb_noeuds.toNat).foldl
    (fun g l => (ajouter_noeud g l.1 l.2).1) g0
  (f.lignes_aretes.take f.nb_aretes.toNat).foldl
    (fun g l =>
      match ajouter_arete 1 g l.src l.dest l.latence l.bande_passante l.cout l.securite with
      | some (g2, _) => g2
      | none => g) g1

/-! ## Cycle detection (`securite.c`) -/

/-- Colour of a node not yet met. -/
def NON_VISITE : Nat := 0

/-- Colour of a node under exploration. -/
def EN_COURS : Nat := 1

/-- Colour of a node whose exploration is over. -/
def VISITE : Nat := 2

/-- The loop `while (a)` of `cycle_dfs`; `appel` is the recursive call. The
result is the value returned so far and the `couleur` array. -/
def cycle_voisins (appel : Nat → (Nat → Nat) → Option (Bool × (Nat → Nat))) :
    List Arete → (Nat → Nat) → Option (Bool × (Nat → Nat))
  | [], couleur => some (false, couleur)
  | a :: reste, couleur =>
    let v := a.destination
    if couleur v = EN_COURS then some (true, couleur)
    else if couleur v = NON_VISITE then
      match appel v couleur with
      | none => none
      | some (true, c2) => some (true, c2)
      | some (false, c2) => cycle_voisins appel reste c2
    else cycle_voisins appel reste couleur

/-- Embedding of `cycle_dfs`; `fuel` bounds the recursion depth. -/
def cycle_dfs (g : Graphe) : Nat → Nat → (Nat → Nat) → Option (Bool × (Nat → Nat))
  | 0, _, _ => none
  | fuel + 1, u, couleur =>
    match cycle_voisins (cycle_dfs g fuel) (aretes_de g u)
        (Function.update couleur u EN_COURS) with
    | none => none
    | some (true, c2) => some (true, c2)
    | some (false, c2) => some (false, Function.update c2 u VISITE)

/-- The loop `for (i = 0; i < V && !a_cycle; i++)` of `detecter_cycle`. -/
def detecter_boucle (fuel : Nat) (g : Graphe) : List Nat → (Nat → Nat) → Option Bool
  | [], _ => some false
  | i :: reste, couleur =>
    if (noeud g i).actif && couleur i = NON_VISITE then
      match cycle_dfs g fuel i couleur with
      | none => none
      | some (true, _) => some true
      | some (false, c2) => detecter_boucle fuel g reste c2
    else detecter_boucle fuel g reste couleur

/-- Embedding of `detecter_cycle`. -/
def detecter_cycle (fuel : Nat) (g : Graphe) : Option Int :=
  match detecter_boucle fuel g (List.range g.capacite_max) (fun _ => NON_VISITE) with
  | none => none
  | some b => some (if b then 1 else 0)

/-! ## Articulation points and bridges (`securite.c`) -/

/-- The mutable part of `ContextArticulation`; `nb_ponts` is the length of
`ponts`. -/
structure ContextArticulation where
  disc : Nat → Int
  low : Nat → Int
  parent : Nat → Int
  est_ap : Nat → Bool
  timer : Int
  ponts : List (Nat × Nat)

/-- The loop `while (a)` of `ap_dfs`; `appel` is the recursive call and the
integer argument is `nb_enfants`. -/
def ap_voisins (appel : ContextArticulation → Nat → Option ContextArticulation) (u : Nat) :
    List Arete → Int → ContextArticulation → Option ContextArticulation
  | [], _, ctx => some ctx
  | a :: reste, nb_enfants, ctx =>
    let v := a.destination
    if ctx.disc v = -1 then
      match appel { ctx with parent := Function.update ctx.parent v (u : Int) } v with
      | none => none
      | some c1 =>
        let c2 : ContextArticulation :=
          if c1.low v < c1.low u then { c1 with low := Function.update c1.low u (c1.low v) }
          else c1
        let c3 : ContextArticulation :=
          if c2.parent u = -1 ∧ nb_enfants + 1 > 1 then
            { c2 with est_ap := Function.update c2.est_ap u true }
          else c2
        let c4 : ContextArticulation :=
          if c3.parent u ≠ -1 ∧ c3.low v ≥ c3.disc u then
            { c3 with est_ap := Function.update c3.est_ap u true }
          else c3
        let c5 : ContextArticulation :=
          if c4.low v > c4.disc u then { c4 with ponts := c4.ponts ++ [(u, v)] }
          else c4
        ap_voisins appel u reste (nb_enfants + 1) c5
    else if (v : Int) ≠ ctx.parent u then
      ap_voisins appel u reste nb_enfants
        (if ctx.disc v < ctx.low u then
          { ctx with low := Function.update ctx.low u (ctx.disc v) }
         else ctx)
    else ap_voisins appel u reste nb_enfants ctx

/-- Embedding of `ap_dfs`; `fuel` bounds the recursion depth. -/
def ap_dfs (g : Graphe) : Nat → ContextArticulation → Nat → Option ContextArticulation
  | 0, _, _ => none
  | fuel + 1, ctx, u =>
    ap_voisins (ap_dfs g fuel) u (aretes_de g u) 0
      { ctx with
          disc := Function.update ctx.disc u ctx.timer
          low := Function.update ctx.low u ctx.timer
          timer := ctx.timer + 1 }

/-- The loop of `trouver_points_articulation` over the roots. -/
def ap_racines (fuel : Nat) (g : Graphe) :
    List Nat → ContextArticulation → Option ContextArticulation
  | [], ctx => some ctx
  | i :: reste, ctx =>
    if (noeud g i).actif && ctx.disc i = -1 then
      match ap_dfs g fuel ctx i with
      | none => none
      | some c1 => ap_racines fuel g reste c1
    else ap_racines fuel g reste ctx

/-- Result of the security analysis (`interfaces.h`); `composantes` lists the
array `composantes[0 .. V-1]`. -/
structure ResultatSecurite where
  points_articulation : List Nat
  nb_points_articulation : Int
  ponts : List (Nat × Nat)
  nb_ponts : Int
  composantes : List Int
  nb_composantes : Int
  a_cycle : Int
deriving DecidableEq, Repr

/-- The final state of the traversal run by `trouver_points_articulation`. -/
def ap_parcours (fuel : Nat) (g : Graphe) : Option ContextArticulation :=
  ap_racines fuel g (List.range g.capacite_max)
    { disc := fun _ => -1
      low := fun _ => -1
      parent := fun _ => -1
      est_ap := fun _ => false
      timer := 0
      ponts := [] }

/-- Embedding of `trouver_points_articulation`. -/
def trouver_points_articulation (fuel : Nat) (g : Graphe) (res : ResultatSecurite) :
    Option ResultatSecurite :=
  match ap_parcours fuel g with
  | none => none
  | some ctx =>
    let points := (List.range g.capacite_max).filter (fun i => ctx.est_ap i)
    some { res with
             points_articulation := points
             nb_points_articulation := points.length
             ponts := ctx.ponts
             nb_ponts := ctx.ponts.length }

/-! ## Strongly connected components (`securite.c`) -/

/-- The mutable part of `ContextTarjan`; the head of `pile` is its top. -/
structure ContextTarjan where
  disc : Nat → Int
  low : Nat → Int
  sur_pile : Nat → Bool
  composante : Nat → Int
  pile : List Nat
  timer : Int
  nb_scc : Int

/-- The loop `do ... while (v != u)` of `tarjan_dfs`; `none` when the stack
runs out before `u` is met. -/
def depiler_composante (u : Nat) : List Nat → ContextTarjan → Option ContextTarjan
  | [], _ => none
  | v :: reste, ctx =>
    let c1 : ContextTarjan :=
      { ctx with
          pile := reste
          sur_pile := Function.update ctx.sur_pile v false
          composante := Function.update ctx.composante v ctx.nb_scc }
    if v = u then some c1 else depiler_composante u reste c1

/-- The loop `while (a)` of `tarjan_dfs`; `appel` is the recursive call. -/
def tarjan_voisins (appel : ContextTarjan → Nat → Option ContextTarjan) (u : Nat) :
    List Arete → ContextTarjan → Option ContextTarjan
  | [], ctx => some ctx
  | a :: reste, ctx =>
    let v := a.destination
    if ctx.disc v = -1 then
      match appel ctx v with
      | none => none
      | some c1 =>
        tarjan_voisins appel u reste
          (if c1.low v < c1.low u then { c1 with low := Function.update c1.low u (c1.low v) }
           else c1)
    else if ctx.sur_pile v then
      tarjan_voisins appel u reste
        (if ctx.disc v < ctx.low u then
          { ctx with low := Function.update ctx.low u (ctx.disc v) }
         else ctx)
    else tarjan_voisins appel u reste ctx

/-- Embedding of `tarjan_dfs`; `fuel` bounds the recursion depth. -/
def tarjan_dfs (g : Graphe) : Nat → ContextTarjan → Nat → Option ContextTarjan
  | 0, _, _ => none
  | fuel + 1, ctx, u =>
    match tarjan_voisins (tarjan_dfs g fuel) u (aretes_de g u)
        { ctx with
            disc := Function.update ctx.disc u ctx.timer
            low := Function.update ctx.low u ctx.timer
            timer := ctx.timer + 1
            pile := u :: ctx.pile
            sur_pile := Function.update ctx.sur_pile u true } with
    | none => none
    | some c1 =>
      if c1.low u = c1.disc u then
        match depiler_composante u c1.pile c1 with
        | none => none
        | some c2 => some { c2 with nb_scc := c2.nb_scc + 1 }
      else some c1

/-- The loop of `tarjan_scc` over the roots. -/
def tarjan_racines (fuel : Nat) (g : Graphe) : List Nat → ContextTarjan → Option ContextTarjan
  | [], ctx => some ctx
  | i :: reste, ctx =>
    if (noeud g i).actif && ctx.disc i = -1 then
      match tarjan_dfs g fuel ctx i with
      | none => none
      | some c1 => tarjan_racines fuel g reste c1
    else tarjan_racines fuel g reste ctx

/-- The final state of the traversal run by `tarjan_scc`. The arrays `low` and
`disc` come from `malloc`; only `disc` is initialised by the code and `low[u]`
is written before it is read, so the model starts `low` at -1. -/
def tarjan_parcours (fuel : Nat) (g : Graphe) : Option ContextTarjan :=
  tarjan_racines fuel g (List.range g.capacite_max)
    { disc := fun _ => -1
      low := fun _ => -1
      sur_pile := fun _ => false
      composante := fun _ => -1
      pile := []
      timer := 0
      nb_scc := 0 }

/-- Embedding of `tarjan_scc`. -/
def tarjan_scc (fuel : Nat) (g : Graphe) (res : ResultatSecurite) : Option ResultatSecurite :=
  match tarjan_parcours fuel g with
  | none => none
  | some ctx =>
    some { res with
             composantes := (List.range g.capacite_max).map ctx.composante
             nb_composantes := ctx.nb_scc }

/-- Embedding of `analyser_securite`. -/
def analyser_securite (fuel : Nat) (g : Graphe) : Option ResultatSecurite :=
  match detecter_cycle fuel g with
  | none => none
  | some c =>
    match trouver_points_articulation fuel g ⟨[], 0, [], 0, [], 0, c⟩ with
    | none => none
    | some r1 => tarjan_scc fuel g r1

/-! ## More example graphs -/

/-- The chain `0 -> 1 -> 2 -> 3 -> 4` with every latency equal to 1. -/
def g_chaine5 : Graphe :=
  avec_arete (avec_arete (avec_arete (avec_arete (graphe_noeuds 5) 0 1 1 10 1 5) 1 2 1 10 1 5)
    2 3 1 10 1 5) 3 4 1 10 1 5

/-- Read `m[i][j]` in a matrix. -/
def lire_matrice (m : List (List Int)) (i j : Nat) : Int := (m.getD i []).getD j 0

/-- Two active nodes, the edge `0 -> 1` added then removed. -/
def g_ajout_retrait : Graphe :=
  (supprimer_arete (avec_arete (graphe_noeuds 2) 0 1 1 10 1 5) 0 1).1

/-- Two active nodes and the edge `1 -> 0` added twice. -/
def g_double : Graphe :=
  avec_arete (avec_arete (graphe_noeuds 2) 1 0 1 10 1 5) 1 0 1 10 1 5

/-- A table of two slots of which only slot 0 is active. -/
def g_un_actif : Graphe := avec_noeud (creer_graphe 2 true) 0 "n"

/-- A table of two slots of which only slot 1 is active. -/
def g_creux : Graphe := avec_noeud (creer_graphe 2 true) 1 "n"

/-- Two active nodes, not oriented, without edge. -/
def g_non_oriente : Graphe := avec_noeud (avec_noeud (creer_graphe 2 false) 0 "n") 1 "n"

/-- The graph `g_double` after `supprimer_noeud` on node 0: node 1 keeps an
edge to the inactive node 0. -/
def g_perime : Graphe := (supprimer_noeud g_double 0).1

/-- Three active nodes and the edges `0 -> 1` and `2 -> 1`. -/
def g_convergent : Graphe :=
  avec_arete (avec_arete (graphe_noeuds 3) 0 1 1 10 1 5) 2 1 1 10 1 5

/-- The path `0 - 1 - 2` with each edge stored as two arcs. -/
def g_chemin_sym : Graphe :=
  avec_arete (avec_arete (avec_arete (avec_arete (graphe_noeuds 3) 0 1 1 10 1 5) 1 0 1 10 1 5)
    1 2 1 10 1 5) 2 1 1 10 1 5

/-- A name of sixty characters, longer than the `nom` buffer of a node. -/
def nom_long : String := String.mk (List.replicate 60 'a')

/-- The chain `0 -> 1 -> 2` with latencies 5 and -2. -/
def g_negatif : Graphe :=
  avec_arete (avec_arete (graphe_noeuds 3) 0 1 5 10 1 5) 1 2 (-2) 10 1 5

/-! ## Specification vocabulary -/

/-- A walk of the graph from `u`: each edge is taken from the adjacency list of
the node reached so far. -/
def est_marche (g : Graphe) : Nat → List Arete → Prop
  | _, [] => True
  | u, a :: reste => a ∈ aretes_de g u ∧ est_marche g a.destination reste

/-- The node at which a walk from `u` ends. -/
def extremite : Nat → List Arete → Nat
  | u, [] => u
  | _, a :: reste => extremite a.destination reste

/-- Sum of the latencies of the edges of a walk. -/
def poids (es : List Arete) : Int := (es.map Arete.latence).sum

/-- A value of the type `float`: it is its own rounding and lies between the
two infinities. -/
def flottant (x : Int) : Prop := arrondi_f32 x = x ∧ -F32_INF ≤ x ∧ x ≤ F32_INF

/-- A natural number with at most 24 significant bits. -/
def representable (f : Nat) : Prop := ∃ m e : Nat, m < 2 ^ 24 ∧ f = m * 2 ^ e

/-- The latency accumulated along a walk the way the code does it: starting
from `d`, the latency of each edge is added in binary32, in the order of the
walk. -/
def cumul (d : Int) (es : List Arete) : Int := es.foldl (fun acc a => fadd acc a.latence) d

/-- The bytes of a C string, in order: one `Char` of the model stands for one
`char` of the code and its code is the value of that byte. -/
def octets (s : String) : List Nat := s.data.map Char.toNat

/-- The node sequence of a walk from `u`. -/
def sommets (u : Nat) (es : List Arete) : List Nat := u :: es.map Arete.destination

/-- Two nodes joined by an edge of the graph. -/
def relie (g : Graphe) (a b : Nat) : Prop := ∃ e ∈ aretes_de g a, e.destination = b

/-- The shape of a graph built by the operations of `graphe.c`: the node table
has `capacite_max` slots, an inactive slot has no adjacency list and every
edge points to a slot of the table. -/
def bien_forme (g : Graphe) : Prop :=
  g.noeuds.length = g.capacite_max ∧
  ∀ n ∈ g.noeuds, (n.actif = false → n.aretes = []) ∧
    ∀ a ∈ n.aretes, a.destination < g.capacite_max

/-- Every edge latency is non-negative. -/
def latences_positives (g : Graphe) : Prop :=
  ∀ n ∈ g.noeuds, ∀ a ∈ n.aretes, 0 ≤ a.latence

/-- Total number of adjacency-list entries of the graph. -/
def nombre_aretes (g : Graphe) : Nat := (g.noeuds.map (fun n => n.aretes.length)).sum

/-- Fuel that suffices for the loops of `dijkstra` and `bellman_ford`. -/
def carburant (g : Graphe) : Nat := g.capacite_max + nombre_aretes g + 1

instance flottant_decidable (x : Int) : Decidable (flottant x) :=
  inferInstanceAs (Decidable (_ ∧ _))

instance est_marche_decidable (g : Graphe) : ∀ u es, Decidable (est_marche g u es)
  | _, [] => isTrue trivial
  | u, a :: reste =>
    match est_marche_decidable g a.destination reste with
    | isTrue h =>
      if h1 : a ∈ aretes_de g u then isTrue ⟨h1, h⟩ else isFalse (fun h2 => h1 h2.1)
    | isFalse h => isFalse (fun h2 => h h2.2)

instance relie_decidable (g : Graphe) (a b : Nat) : Decidable (relie g a b) :=
  inferInstanceAs (Decidable (∃ e ∈ aretes_de g a, e.destination = b))

instance bien_forme_decidable (g : Graphe) : Decidable (bien_forme g) :=
  inferInstanceAs (Decidable (g.noeuds.length = g.capacite_max ∧
    ∀ n ∈ g.noeuds, (n.actif = false → n.aretes = []) ∧
      ∀ a ∈ n.aretes, a.destination < g.capacite_max))

instance latences_positives_decidable (g : Graphe) : Decidable (latences_positives g) :=
  inferInstanceAs (Decidable (∀ n ∈ g.noeuds, ∀ a ∈ n.aretes, 0 ≤ a.latence))

/-- Invariant of the pair (`dist`, `pred`) kept by every edge relaxation when
latencies are non-negative. A distance is a `float`; a finite one is the
latency accumulated along a walk from `s`. The rank `r` orders the predecessor
links that join nodes of equal distance. -/
structure InvRelax (g : Graphe) (s : Nat) (dist : Nat → Int) (pred : Nat → Option Nat) :
    Prop where
  source : dist s = 0 ∧ pred s = none
  bornes : ∀ v, 0 ≤ dist v ∧ dist v ≤ INFINI
  flottants : ∀ v, flottant (dist v)
  atteint : ∀ v, dist v < INFINI →
    ∃ es, est_marche g s es ∧ extremite s es = v ∧ cumul 0 es = dist v
  pred_defini : ∀ v, dist v < INFINI → v ≠ s → ∃ u, pred v = some u
  lien : ∃ r : Nat → Nat, ∀ v u, pred v = some u →
    u < g.capacite_max ∧ dist u < INFINI ∧
    (∃ a ∈ aretes_de g u, a.destination = v ∧ fadd (dist u) a.latence ≤ dist v) ∧
    (dist u < dist v ∨ r u < r v)

/-- Every edge leaving a reached node is relaxed. -/
def sature (g : Graphe) (dist : Nat → Int) : Prop :=
  ∀ u, dist u < INFINI → ∀ a ∈ aretes_de g u, dist a.destination ≤ fadd (dist u) a.latence

/-- The queue is sorted by increasing distance. -/
def pq_triee (pq : List EntreePQ) : Prop :=
  List.Pairwise (fun x y => x.distance ≤ y.distance) pq

/-- Invariant of the main loop of `dijkstra_tout`. -/
structure InvDijkstra (g : Graphe) (s : Nat) (e : EtatDijkstra) : Prop where
  base : InvRelax g s e.dist e.pred
  file_ok : ∀ x ∈ e.pq, x.noeud < g.capacite_max ∧ e.dist x.noeud ≤ x.distance ∧
    x.distance < INFINI
  file_couvre : ∀ v, e.dist v < INFINI → e.traite v = false →
    ∃ x ∈ e.pq, x.noeud = v ∧ x.distance = e.dist v
  triee : pq_triee e.pq
  traite_sature : ∀ u, e.traite u = true → e.dist u < INFINI ∧
    ∀ a ∈ aretes_de g u, e.dist a.destination ≤ fadd (e.dist u) a.latence
  traite_min : ∀ u, e.traite u = true → ∀ x ∈ e.pq, e.dist u ≤ x.distance

/-- Invariant of the relaxation loop of `dijkstra_tout` while the edges of the
node `u`, extracted at distance `du`, are scanned. -/
structure InvVoisins (g : Graphe) (s u : Nat) (du : Int) (e : EtatDijkstra) : Prop where
  base : InvRelax g s e.dist e.pred
  file_ok : ∀ x ∈ e.pq, x.noeud < g.capacite_max ∧ e.dist x.noeud ≤ x.distance ∧
    x.distance < INFINI
  file_couvre : ∀ v, e.dist v < INFINI → e.traite v = false →
    ∃ x ∈ e.pq, x.noeud = v ∧ x.distance = e.dist v
  triee : pq_triee e.pq
  courant : e.dist u = du ∧ e.traite u = true ∧ u < g.capacite_max ∧ du < INFINI
  traite_sature : ∀ x, e.traite x = true → x ≠ u → e.dist x < INFINI ∧
    ∀ a ∈ aretes_de g x, e.dist a.destination ≤ fadd (e.dist x) a.latence
  traite_min : ∀ x, e.traite x = true → ∀ y ∈ e.pq, e.dist x ≤ y.distance
  traite_le : ∀ x, e.traite x = true → e.dist x ≤ du

/-- Number of adjacency entries of the nodes not yet settled. -/
def degres_restants (g : Graphe) (traite : Nat → Bool) : Nat :=
  ((List.range g.capacite_max).map
    (fun u => if traite u then 0 else (aretes_de g u).length)).sum

/-- The distances are at most the accumulated latency of every walk from `s`
of at most `k` edges. -/
def borne_sauts (g : Graphe) (s k : Nat) (dist : Nat → Int) : Prop :=
  ∀ es, est_marche g s es → es.length ≤ k → dist (extremite s es) ≤ cumul 0 es

/-- What `backtrack_recursif` keeps true of the current path and of the best
path found so far: the first node is the source and no later node is excluded;
the best path ends at the destination, holds every required node and its cost
is within the budget. -/
def InvBacktrack (s d : Nat) (c : Contraintes) (ctx : ContextBacktrack) : Prop :=
  (∃ reste, ctx.courant.noeuds = s :: reste ∧ ∀ x ∈ reste, x ∉ c.noeuds_exclus) ∧
  ∀ m, ctx.meilleur = some m →
    (∃ reste, m.noeuds = s :: reste ∧ ∀ x ∈ reste, x ∉ c.noeuds_exclus) ∧
    m.noeuds.getLast? = some d ∧
    (∀ x ∈ c.noeuds_oblgatoires, x ∈ m.noeuds) ∧
    m.cout_total ≤ c.cout_max_autorise

/-- Number of slots of the node table not marked in `visite`. -/
def non_visites (g : Graphe) (visite : Nat → Bool) : Nat :=
  ((List.range g.capacite_max).map (fun u => if visite u then 0 else 1)).sum

/-- Colours are among the three constants of the code. -/
def couleurs_valides (c : Nat → Nat) : Prop :=
  ∀ x, c x = NON_VISITE ∨ c x = EN_COURS ∨ c x = VISITE

/-- Every edge leaving a finished node leads to a node finished before it: the
rank `rank` orders the finished nodes by the time they were finished. -/
def noirs_clos (g : Graphe) (c : Nat → Nat) : Prop :=
  ∃ (rank : Nat → Nat) (N : Nat), (∀ x, c x = VISITE → rank x < N) ∧
    ∀ x, c x = VISITE → ∀ a ∈ aretes_de g x,
      c a.destination = VISITE ∧ rank a.destination < rank x

/-- Every node under exploration reaches `u`. -/
def gris_atteignent (g : Graphe) (c : Nat → Nat) (u : Nat) : Prop :=
  ∀ x, c x = EN_COURS → ∃ es, est_marche g x es ∧ extremite x es = u

/-- Number of slots of the node table still `NON_VISITE`. -/
def nb_blancs (g : Graphe) (c : Nat → Nat) : Nat :=
  ((List.range g.capacite_max).map (fun x => if c x = NON_VISITE then 1 else 0)).sum

/-- The graph holds a closed walk of at least one edge. -/
def a_un_cycle (g : Graphe) : Prop :=
  ∃ u es, es ≠ [] ∧ est_marche g u es ∧ extremite u es = u

/-- What a colouring `c2` may differ from `c` in: nodes `NON_VISITE` in `c`
that are `VISITE` in `c2`. -/
def blanchis_noircis (c c2 : Nat → Nat) : Prop :=
  ∀ x, c2 x = c x ∨ (c x = NON_VISITE ∧ c2 x = VISITE)

/-- The node `y` is reached from `x` by a walk of the graph (of any length,
zero included). -/
def atteint (g : Graphe) (x y : Nat) : Prop :=
  ∃ es, est_marche g x es ∧ extremite x es = y

/-- Every edge of the graph leads to an active node. -/
def aretes_vers_actifs (g : Graphe) : Prop :=
  ∀ n ∈ g.noeuds, ∀ a ∈ n.aretes, noeud_existe g a.destination = true

instance aretes_vers_actifs_decidable (g : Graphe) : Decidable (aretes_vers_actifs g) :=
  inferInstanceAs (Decidable (∀ n ∈ g.noeuds, ∀ a ∈ n.aretes,
    noeud_existe g a.destination = true))

/-- Number of slots of the node table not yet discovered by `tarjan_dfs`. -/
def tarjan_blancs (g : Graphe) (c : ContextTarjan) : Nat :=
  ((List.range g.capacite_max).map (fun x => if c.disc x = -1 then 1 else 0)).sum

/-- Invariant of the state of `tarjan_scc` between two calls of `tarjan_dfs`:
discovery times are below the timer, a discovered node is on the stack or
labelled, labels do not increase along edges, and two nodes of equal label
reach each other. -/
structure InvTarjan (g : Graphe) (c : ContextTarjan) : Prop where
  temps : 0 ≤ c.timer ∧ ∀ x, c.disc x = -1 ∨ (0 ≤ c.disc x ∧ c.disc x < c.timer)
  pile_ok : c.pile.Nodup ∧ ∀ x, c.sur_pile x = true ↔ x ∈ c.pile
  pile_visite : ∀ x ∈ c.pile, c.disc x ≠ -1 ∧ c.composante x = -1
  comp_ok : ∀ x, c.composante x ≠ -1 →
    c.disc x ≠ -1 ∧ 0 ≤ c.composante x ∧ c.composante x < c.nb_scc
  visite_ok : ∀ x, c.disc x ≠ -1 → x ∈ c.pile ∨ c.composante x ≠ -1
  borne : ∀ x, c.disc x ≠ -1 → x < g.capacite_max
  actifs : aretes_vers_actifs g → ∀ x, c.disc x ≠ -1 → noeud_existe g x = true
  mono : ∀ x, c.composante x ≠ -1 → ∀ a ∈ aretes_de g x,
    c.composante a.destination ≠ -1 ∧ c.composante a.destination ≤ c.composante x
  scc : ∀ x y, c.composante x ≠ -1 → c.composante x = c.composante y → atteint g x y
  surj : 0 ≤ c.nb_scc ∧ ∀ k, 0 ≤ k → k < c.nb_scc → ∃ x, c.composante x = k

/-- What a call of `tarjan_dfs` keeps of the state `c0` it starts from. -/
structure EtendTarjan (c0 c1 : ContextTarjan) : Prop where
  temps : 0 ≤ c0.timer ∧ c0.timer ≤ c1.timer
  anciens : ∀ x, c0.disc x ≠ -1 → c1.disc x = c0.disc x
  nouveaux : ∀ x, c0.disc x = -1 → c1.disc x = -1 ∨ c0.timer ≤ c1.disc x
  pile : ∃ seg, c1.pile = seg ++ c0.pile
  low : ∀ x ∈ c0.pile, c1.low x = c0.low x

/-- A node `x` left on the stack above the stack of `c0` by the call on `u`:
discovered from time `t` on, it reaches `u` and is reached from it, its edges
lead to discovered nodes, and those that lead into the stack of `c0` are
accounted for in `low[u]`. -/
def segment_ok (g : Graphe) (c0 c : ContextTarjan) (t : Int) (u x : Nat) : Prop :=
  t ≤ c.disc x ∧ atteint g u x ∧ atteint g x u ∧
  ∀ a ∈ aretes_de g x, c.disc a.destination ≠ -1 ∧
    (a.destination ∈ c0.pile → c.low u ≤ c.disc a.destination)

/-- Pre-condition of `tarjan_dfs` on `u`. -/
def PreTarjan (g : Graphe) (c : ContextTarjan) (u : Nat) : Prop :=
  InvTarjan g c ∧ c.disc u = -1 ∧ u < g.capacite_max ∧
  (aretes_vers_actifs g → noeud_existe g u = true) ∧ ∀ x ∈ c.pile, atteint g x u

/-- Post-condition of `tarjan_dfs` on `u`, started in `c0`: either the
component of `u` was popped and the stack is the one of `c0`, or `low[u]` is
the discovery time of a node of the stack of `c0` reached from `u`. -/
def PostTarjan (g : Graphe) (c0 : ContextTarjan) (u : Nat) (c1 : ContextTarjan) : Prop :=
  InvTarjan g c1 ∧ EtendTarjan c0 c1 ∧ c1.disc u = c0.timer ∧
  ∃ seg, c1.pile = seg ++ c0.pile ∧
    ((seg = [] ∧ c1.low u = c1.disc u) ∨
     (c1.low u < c1.disc u ∧ (∃ w ∈ c0.pile, c1.disc w = c1.low u ∧ atteint g u w) ∧
       ∀ x ∈ seg, segment_ok g c0 c1 c0.timer u x))

/-- Invariant of the loop of `tarjan_dfs` on `u`, started in `c0`. -/
structure BoucleTarjan (g : Graphe) (c0 : ContextTarjan) (u : Nat) (c : ContextTarjan) :
    Prop where
  inv : InvTarjan g c
  etend : EtendTarjan c0 c
  racine : c.disc u = c0.timer ∧ c0.disc u = -1
  pile : ∃ seg, c.pile = seg ++ u :: c0.pile ∧
    ∀ x ∈ seg, segment_ok g c0 c (c0.timer + 1) u x
  low_ok : c.low u ≤ c.disc u ∧ ∃ w ∈ u :: c0.pile, c.disc w = c.low u ∧ atteint g u w
  base : ∀ x ∈ c0.pile, atteint g x u

/-! ## Connectivity and cut vertices -/

/-- The nodes `x` and `y` are adjacent in the underlying undirected graph: an
arc leads from one to the other. -/
def lies (g : Graphe) (x y : Nat) : Prop :=
  (∃ a ∈ aretes_de g x, a.destination = y) ∨ (∃ a ∈ aretes_de g y, a.destination = x)

instance lies_decidable (g : Graphe) (x y : Nat) : Decidable (lies g x y) :=
  inferInstanceAs (Decidable ((∃ a ∈ aretes_de g x, a.destination = y) ∨
    (∃ a ∈ aretes_de g y, a.destination = x)))

/-- A chain of the underlying undirected graph from `x`, given by the nodes
that follow `x`. -/
def chaine (g : Graphe) : Nat → List Nat → Prop
  | _, [] => True
  | x, y :: reste => lies g x y ∧ chaine g y reste

/-- The node at which a chain from `x` ends. -/
def bout : Nat → List Nat → Nat
  | x, [] => x
  | _, y :: reste => bout y reste

/-- The nodes `x` and `y` are joined by a chain all of whose nodes satisfy
`S`. -/
def connectes_dans (g : Graphe) (S : Nat → Prop) (x y : Nat) : Prop :=
  ∃ l, chaine g x l ∧ bout x l = y ∧ ∀ v ∈ x :: l, S v

/-- The nodes `x` and `y` are in the same connected component of the active
nodes. -/
def connectes (g : Graphe) (x y : Nat) : Prop :=
  connectes_dans g (fun v => noeud_existe g v = true) x y

/-- The nodes `x` and `y` are still connected once `u` is removed. -/
def connectes_sans (g : Graphe) (u x y : Nat) : Prop :=
  connectes_dans g (fun v => noeud_existe g v = true ∧ v ≠ u) x y

/-- Removing `u` disconnects two of the remaining active nodes that were
connected: `u` is a cut vertex. -/
def separe (g : Graphe) (u : Nat) : Prop :=
  ∃ x y, x ≠ u ∧ y ≠ u ∧ connectes g x y ∧ ¬ connectes_sans g u x y

/-- Every arc `u -> v` of the graph has a reverse arc `v -> u`. -/
def symetrique (g : Graphe) : Prop :=
  ∀ u ∈ List.range g.capacite_max, ∀ a ∈ aretes_de g u,
    ∃ b ∈ aretes_de g a.destination, b.destination = u

instance symetrique_decidable (g : Graphe) : Decidable (symetrique g) :=
  inferInstanceAs (Decidable (∀ u ∈ List.range g.capacite_max, ∀ a ∈ aretes_de g u,
    ∃ b ∈ aretes_de g a.destination, b.destination = u))

/-! ## Invariants of `ap_dfs` -/

/-- The updates of `ap_dfs` on `u` that follow the return of the recursive
call on the child `v`, as `ap_voisins` performs them: `low[u]`, the two
articulation rules and the bridge rule; `nb_enfants` is the count before
this child. -/
def ap_retour (u v : Nat) (nb_enfants : Int) (c1 : ContextArticulation) : ContextArticulation :=
  let c2 : ContextArticulation :=
    if c1.low v < c1.low u then { c1 with low := Function.update c1.low u (c1.low v) }
    else c1
  let c3 : ContextArticulation :=
    if c2.parent u = -1 ∧ nb_enfants + 1 > 1 then
      { c2 with est_ap := Function.update c2.est_ap u true }
    else c2
  let c4 : ContextArticulation :=
    if c3.parent u ≠ -1 ∧ c3.low v ≥ c3.disc u then
      { c3 with est_ap := Function.update c3.est_ap u true }
    else c3
  if c4.low v > c4.disc u then { c4 with ponts := c4.ponts ++ [(u, v)] } else c4

/-- Number of slots of the node table not yet discovered by `ap_dfs`. -/
def ap_blancs (g : Graphe) (c : ContextArticulation) : Nat :=
  ((List.range g.capacite_max).map (fun x => if c.disc x = -1 then 1 else 0)).sum

/-- The node `x` is discovered between the states `c0` and `c`. -/
def nouveau (c0 c : ContextArticulation) (x : Nat) : Prop :=
  c0.disc x = -1 ∧ c.disc x ≠ -1

/-- Any two nodes of the list of open calls are joined inside it. -/
def chemin_gris (g : Graphe) (P : List Nat) : Prop :=
  ∀ x ∈ P, ∀ y ∈ P, connectes_dans g (fun v => v ∈ P) x y

/-- The entry `parent[u]` is the caller of `u`, the head of the list `P` of
open calls, or -1 when there is none. -/
def pere_ok (g : Graphe) (P : List Nat) (par : Int) (u : Nat) : Prop :=
  (P = [] ∧ par = -1) ∨ (∃ p Q, P = p :: Q ∧ par = (p : Int) ∧ lies g p u)

/-- Invariant of the state of `trouver_points_articulation`, `P` being the
nodes whose call of `ap_dfs` is open: a discovered node outside `P` has all
its neighbours discovered, a flagged node is a cut vertex, and an unflagged
discovered node outside `P` is not. -/
structure InvAP (g : Graphe) (P : List Nat) (c : ContextArticulation) : Prop where
  temps : 0 ≤ c.timer ∧ ∀ x, c.disc x = -1 ∨ (0 ≤ c.disc x ∧ c.disc x < c.timer)
  actifs : ∀ x, c.disc x ≠ -1 → noeud_existe g x = true
  gris : ∀ x ∈ P, c.disc x ≠ -1
  clos : ∀ x, c.disc x ≠ -1 → x ∈ P ∨ ∀ a ∈ aretes_de g x, c.disc a.destination ≠ -1
  ap_sur : ∀ x, c.est_ap x = true → c.disc x ≠ -1 ∧ separe g x
  ap_complet : ∀ x, c.disc x ≠ -1 → x ∉ P → c.est_ap x = false → ¬ separe g x

/-- What a call of `ap_dfs` keeps of the state `c0` it starts from. -/
structure EtendAP (c0 c1 : ContextArticulation) : Prop where
  temps : c0.timer ≤ c1.timer
  anciens : ∀ x, c0.disc x ≠ -1 →
    c1.disc x = c0.disc x ∧ c1.low x = c0.low x ∧ c1.est_ap x = c0.est_ap x
  nouveaux : ∀ x, c0.disc x = -1 → c1.disc x = -1 ∨ c0.timer ≤ c1.disc x
  parents : ∀ x, c0.disc x ≠ -1 ∨ c1.disc x = -1 → c1.parent x = c0.parent x

/-- Pre-condition of `ap_dfs` on `u` with the open calls `P`. -/
def PreAP (g : Graphe) (P : List Nat) (c : ContextArticulation) (u : Nat) : Prop :=
  InvAP g P c ∧ chemin_gris g P ∧ c.disc u = -1 ∧ noeud_existe g u = true ∧
  pere_ok g P (c.parent u) u

/-- Post-condition of `ap_dfs` on `u`, started in `c0` with the open calls
`P`: `low[u]` is the discovery time of a neighbour of a node discovered by the
call, it is below the discovery time of every node of `P` that such a node
leads to (the parent of `u` seen from `u` apart), and the nodes discovered by
the call are joined to `u` among themselves. -/
structure PostAP (g : Graphe) (P : List Nat) (c0 : ContextArticulation) (u : Nat)
    (c1 : ContextArticulation) : Prop where
  inv : InvAP g P c1
  etend : EtendAP c0 c1
  racine : c1.disc u = c0.timer ∧ c1.parent u = c0.parent u
  low_borne : 0 ≤ c1.low u ∧ c1.low u ≤ c1.disc u
  low_atteint : c1.low u < c1.disc u →
    ∃ x, nouveau c0 c1 x ∧ ∃ a ∈ aretes_de g x, c1.disc a.destination = c1.low u
  low_min : ∀ x, nouveau c0 c1 x → ∀ a ∈ aretes_de g x, a.destination ∈ P →
    (x = u ∧ (a.destination : Int) = c0.parent u) ∨ c1.low u ≤ c1.disc a.destination
  dans : ∀ x, nouveau c0 c1 x → connectes_dans g (nouveau c0 c1) u x

/-- Invariant of the loop of `ap_dfs` on `u`, started in `c0` with the open
calls `P`; `n` is `nb_enfants`. -/
structure BoucleAP (g : Graphe) (P : List Nat) (c0 : ContextArticulation) (u : Nat) (n : Int)
    (c : ContextArticulation) : Prop where
  base : PreAP g P c0 u
  inv : InvAP g (u :: P) c
  etend : EtendAP c0 c
  racine : c.disc u = c0.timer ∧ c.parent u = c0.parent u
  low_borne : 0 ≤ c.low u ∧ c.low u ≤ c.disc u
  low_atteint : c.low u < c.disc u →
    ∃ x, nouveau c0 c x ∧ ∃ a ∈ aretes_de g x, c.disc a.destination = c.low u
  low_min : ∀ x, nouveau c0 c x → x ≠ u → ∀ a ∈ aretes_de g x, a.destination ∈ P →
    c.low u ≤ c.disc a.destination
  dans : ∀ x, nouveau c0 c x → connectes_dans g (nouveau c0 c) u x
  enfants : 0 ≤ n ∧ (n = 0 → ∀ x, nouveau c0 c x → x = u) ∧
    (0 < n → ∃ x, nouveau c0 c x ∧ x ≠ u)
  complet : c.est_ap u = false → ∀ y z,
    (y ≠ u ∧ (y ∈ P ∨ nouveau c0 c y)) → (z ≠ u ∧ (z ∈ P ∨ nouveau c0 c z)) →
    connectes_sans g u y z

/-! ## Priority queue of packets (`liste_chainee.c`)

The doubly linked list that runs from `tete` to `queue` is the list `paquets`;
the links `precedent` and `suivant` are the neighbours in that list. -/

/-- A packet of the queue, without its two links. -/
structure Paquet where
  id : Int
  priorite : Int
  taille_Mo : Int
  source : Int
  destination : Int
  timestamp_arrivee : Int
deriving DecidableEq, Repr

/-- The priority queue with its counters. -/
structure FileAttente where
  paquets : List Paquet
  taille_actuelle : Int
  capacite_max : Int
  total_insere : Int
  total_perdu : Int
  temps_attente_cumule : Int
deriving DecidableEq, Repr

/-- Embedding of `creer_file_attente`. -/
def creer_file_attente (capacite_max : Int) : FileAttente := ⟨[], 0, capacite_max, 0, 0, 0⟩

/-- Embedding of `file_vide`. -/
def file_vide (f : FileAttente) : Bool := decide (f.taille_actuelle = 0)

/-- Embedding of `file_pleine`. -/
def file_pleine (f : FileAttente) : Bool := decide (f.taille_actuelle ≥ f.capacite_max)

/-- The search loop of `enqueue` on a queue that is not empty,
`while (courant && courant->priorite >= nouveau->priorite)`, and the linking
that follows it: at the end when the loop ran off the list, at the head or
between two packets otherwise, in each case right before `courant`. -/
def inserer_paquet (nouveau : Paquet) : List Paquet → List Paquet
  | [] => [nouveau]
  | courant :: reste =>
    if courant.priorite ≥ nouveau.priorite then courant :: inserer_paquet nouveau reste
    else nouveau :: courant :: reste

/-- Embedding of `enqueue`: the new queue and the return code. -/
def enqueue (f : FileAttente) (id priorite taille source destination timestamp : Int) :
    FileAttente × Int :=
  let f1 : FileAttente := { f with total_insere := f.total_insere + 1 }
  if file_pleine f1 then ({ f1 with total_perdu := f1.total_perdu + 1 }, -1)
  else
    let nouveau : Paquet := ⟨id, priorite, taille, source, destination, timestamp⟩
    match f1.paquets with
    | [] => ({ f1 with paquets := [nouveau], taille_actuelle := f1.taille_actuelle + 1 }, 0)
    | tete :: reste =>
      ({ f1 with
          paquets := inserer_paquet nouveau (tete :: reste)
          taille_actuelle := f1.taille_actuelle + 1 }, 0)

/-- Embedding of `dequeue`: the new queue and the packet (`none` for `NULL`). -/
def dequeue (f : FileAttente) : FileAttente × Option Paquet :=
  match f.paquets with
  | [] => (f, none)
  | paquet :: reste =>
    ({ f with paquets := reste, taille_actuelle := f.taille_actuelle - 1 }, some paquet)

/-- Embedding of `peek`. -/
def peek (f : FileAttente) : Option Paquet := f.paquets.head?

/-- A call made on the queue: `enqueue` with its six arguments, or `dequeue`. -/
inductive Operation where
  | enfiler (id priorite taille source destination timestamp : Int)
  | defiler
deriving DecidableEq, Repr

/-- One call applied to the queue. -/
def appliquer (f : FileAttente) : Operation → FileAttente
  | Operation.enfiler id priorite taille source destination timestamp =>
    (enqueue f id priorite taille source destination timestamp).1
  | Operation.defiler => (dequeue f).1

/-- The queue built from `creer_file_attente` by a sequence of calls. -/
def executer (capacite_max : Int) (ops : List Operation) : FileAttente :=
  ops.foldl appliquer (creer_file_attente capacite_max)

/-- Specification side: the earliest packet of maximal priority of a list of
packets given in arrival order. -/
def plus_prioritaire : List Paquet → Option Paquet
  | [] => none
  | p :: reste =>
    match plus_prioritaire reste with
    | none => some p
    | some q => if q.priorite > p.priorite then some q else some p

/-- Specification side: one call applied to the packets that wait, kept in
arrival order. An accepted packet goes to the end; a dequeue takes away the
earliest packet of maximal priority. -/
def journal_appliquer (capacite_max : Int) (j : List Paquet) : Operation → List Paquet
  | Operation.enfiler id priorite taille source destination timestamp =>
    if (j.length : Int) ≥ capacite_max then j
    else j ++ [⟨id, priorite, taille, source, destination, timestamp⟩]
  | Operation.defiler =>
    match plus_prioritaire j with
    | none => j
    | some p => j.erase p

/-- Specification side: the packets that wait after a sequence of calls, in
arrival order. -/
def journal_arrivees (capacite_max : Int) (ops : List Operation) : List Paquet :=
  ops.foldl (journal_appliquer capacite_max) []

/-- What links the queue of the code to the packets that wait in arrival
order: the queue is sorted by non-increasing priority, it holds the same
packets, and the packets of each priority are in arrival order. -/
structure InvFile (capacite_max : Int) (f : FileAttente) (j : List Paquet) : Prop where
  triee : f.paquets.Pairwise (fun x y => x.priorite ≥ y.priorite)
  memes : ∀ q : Int, f.paquets.filter (fun x => decide (x.priorite = q)) =
    j.filter (fun x => decide (x.priorite = q))
  longueur : f.paquets.length = j.length
  taille : f.taille_actuelle = f.paquets.length
  capacite : f.capacite_max = capacite_max

/-! ## Bellman-Ford with signed latencies -/

/-- The running total latency of a walk stays below `INFINI` after each of its
edges. -/
def sous_plafond (es : List Arete) : Prop := ∀ k, poids (es.take k) < INFINI

/-- No cycle of negative total latency is reached from `s`. -/
def sans_cycle_negatif (g : Graphe) (s : Nat) : Prop :=
  ∀ es cyc, est_marche g s (es ++ cyc) → extremite (extremite s es) cyc = extremite s es →
    0 ≤ poids cyc

/-- The node met after following `k` predecessor links from `x`. -/
def iter_pred (pred : Nat → Option Nat) : Nat → Nat → Option Nat
  | 0, x => some x
  | k + 1, x =>
    match pred x with
    | none => none
    | some u => iter_pred pred k u

/-- Invariant of the pair (`dist`, `pred`) kept by every edge relaxation of
`bellman_ford` when no negative cycle is reached from `s`: a finite distance
is the latency of a walk from `s` that stays below `INFINI`, a predecessor
link follows an edge that is relaxed or tight, and the links have no cycle. -/
structure InvBF (g : Graphe) (s : Nat) (dist : Nat → Int) (pred : Nat → Option Nat) :
    Prop where
  source : dist s = 0 ∧ pred s = none
  bornes : ∀ v, dist v ≤ INFINI
  atteint : ∀ v, dist v < INFINI →
    ∃ es, est_marche g s es ∧ extremite s es = v ∧ poids es = dist v ∧ sous_plafond es
  pred_defini : ∀ v, dist v < INFINI → v ≠ s → ∃ u, pred v = some u
  lien : ∀ v u, pred v = some u →
    u < g.capacite_max ∧ dist u < INFINI ∧ dist v < INFINI ∧
    ∃ a ∈ aretes_de g u, a.destination = v ∧ dist u + a.latence ≤ dist v
  rang : ∃ r : Nat → Nat, ∀ v u, pred v = some u → r u < r v

/-- The distances are at most the latency of every walk from `s` of at most
`k` edges that stays below `INFINI`. -/
def borne_plafond (g : Graphe) (s k : Nat) (dist : Nat → Int) : Prop :=
  ∀ es, est_marche g s es → es.length ≤ k → sous_plafond es →
    dist (extremite s es) ≤ poids es

/-! ### Bellman-Ford over exact sums

Reference copies of the loops of `bellman_ford` in which the latency is added
without rounding. The code is compared with them under a bound on the
latencies that makes every binary32 sum exact. -/

/-- The loop `bf_relaxer` with exact sums. -/
def bf_relaxer_exact (u : Nat) : List Arete → EtatBF → EtatBF
  | [], e => e
  | a :: reste, e =>
    let nouvelle_dist := e.dist u + a.latence
    if nouvelle_dist < e.dist a.destination then
      bf_relaxer_exact u reste
        { dist := Function.update e.dist a.destination nouvelle_dist
          pred := Function.update e.pred a.destination (some u)
          modification := true }
    else bf_relaxer_exact u reste e

/-- The loop `bf_passe` with exact sums. -/
def bf_passe_exact (g : Graphe) : List Nat → EtatBF → EtatBF
  | [], e => e
  | u :: us, e =>
    if !(noeud g u).actif || e.dist u = INFINI then bf_passe_exact g us e
    else bf_passe_exact g us (bf_relaxer_exact u (aretes_de g u) e)

/-- The loop `bf_iterations` with exact sums. -/
def bf_iterations_exact (g : Graphe) : Nat → (Nat → Int) → (Nat → Option Nat) →
    (Nat → Int) × (Nat → Option Nat)
  | 0, dist, pred => (dist, pred)
  | n + 1, dist, pred =>
    let e := bf_passe_exact g (List.range g.capacite_max) ⟨dist, pred, false⟩
    if !e.modification then (e.dist, e.pred)
    else bf_iterations_exact g n e.dist e.pred

/-- The test `bf_arete_relaxable` with exact sums. -/
def bf_arete_relaxable_exact (dist : Nat → Int) (u : Nat) : List Arete → Bool
  | [] => false
  | a :: reste =>
    if dist u + a.latence < dist a.destination then true
    else bf_arete_relaxable_exact dist u reste

/-- The detection pass `bf_detecter` with exact sums. -/
def bf_detecter_exact (g : Graphe) (dist : Nat → Int) : List Nat → Bool
  | [] => false
  | u :: us =>
    if !(noeud g u).actif || dist u = INFINI then bf_detecter_exact g dist us
    else if bf_arete_relaxable_exact dist u (aretes_de g u) then true
    else bf_detecter_exact g dist us

/-- No edge leaving a reached node can be relaxed, the sums being exact. -/
def sature_exact (g : Graphe) (dist : Nat → Int) : Prop :=
  ∀ u, dist u < INFINI → ∀ a ∈ aretes_de g u, dist a.destination ≤ dist u + a.latence

/-- Every edge latency has a magnitude of at most `M`. -/
def latences_bornees (g : Graphe) (M : Int) : Prop :=
  ∀ n ∈ g.noeuds, ∀ a ∈ n.aretes, -M ≤ a.latence ∧ a.latence ≤ M

instance latences_bornees_decidable (g : Graphe) (M : Int) : Decidable (latences_bornees g M) :=
  inferInstanceAs (Decidable (∀ n ∈ g.noeuds, ∀ a ∈ n.aretes, -M ≤ a.latence ∧ a.latence ≤ M))

/-- Every distance is the sentinel or has a magnitude of at most `c`. -/
def distances_bornees (c : Int) (dist : Nat → Int) : Prop :=
  ∀ v, dist v = INFINI ∨ (-c ≤ dist v ∧ dist v ≤ c)

/-- Number of adjacency entries of the nodes of a list. -/
def degres (g : Graphe) (us : List Nat) : Nat := (us.map (fun u => (aretes_de g u).length)).sum

/-! ## The counters of the graph

The states of a directed graph reached from `creer_graphe` by the four calls
that change it. -/

/-- A call that changes the graph, with its arguments. -/
inductive Modification where
  | ajout_noeud (id : Nat) (nom : String)
  | retrait_noeud (id : Nat)
  | ajout_arete (src dest : Nat) (latence bande_passante cout securite : Int)
  | retrait_arete (src dest : Nat)
deriving DecidableEq, Repr

/-- One call applied to the graph. On a directed graph `ajouter_arete` makes
no recursive call, so one unit of fuel is enough. -/
def modifier (g : Graphe) : Modification → Graphe
  | Modification.ajout_noeud id nom => (ajouter_noeud g id nom).1
  | Modification.retrait_noeud id => (supprimer_noeud g id).1
  | Modification.ajout_arete src dest latence bande_passante cout securite =>
    match ajouter_arete 1 g src dest latence bande_passante cout securite with
    | some (g1, _) => g1
    | none => g
  | Modification.retrait_arete src dest => (supprimer_arete g src dest).1

/-- The directed graph built from `creer_graphe` by a sequence of calls. -/
def construire (capacite_max : Nat) (ms : List Modification) : Graphe :=
  ms.foldl modifier (creer_graphe capacite_max true)

/-- Number of active slots of the node table. -/
def nombre_actifs (g : Graphe) : Nat := g.noeuds.countP (fun n => n.actif)

/-- The counters agree with the node table. -/
structure InvCompteurs (g : Graphe) : Prop where
  oriente : g.est_oriente = true
  longueur : g.noeuds.length = g.capacite_max
  noeuds : g.nb_noeuds = (nombre_actifs g : Int)
  aretes : g.nb_aretes = (nombre_aretes g : Int)
  inactifs : ∀ n ∈ g.noeuds, n.actif = false → n.aretes = []

/-! ## Shortest walks -/

/-- Every edge latency is strictly positive. -/
def latences_strictes (g : Graphe) : Prop :=
  ∀ n ∈ g.noeuds, ∀ a ∈ n.aretes, 0 < a.latence

/-- A walk from `s` to `d` of minimal total latency. -/
def marche_minimale (g : Graphe) (s d : Nat) (es : List Arete) : Prop :=
  est_marche g s es ∧ extremite s es = d ∧
  ∀ es2, est_marche g s es2 → extremite s es2 = d → poids es ≤ poids es2

/-- A path record whose nodes start at `s` and include `d`. -/
def relie_extremites (s d : Nat) (p : Chemin) : Prop :=
  p.noeuds.head? = some s ∧ d ∈ p.noeuds

/-- A path record whose node sequence is the one of a walk from `s` to `d` of
minimal total latency and holds no node twice. -/
def chemin_minimal (g : Graphe) (s d : Nat) (p : Chemin) : Prop :=
  ∃ es, marche_minimale g s d es ∧ p.noeuds = sommets s es ∧ p.noeuds.Nodup

/-- A diamond: `0 -> 1 -> 3` and `0 -> 2 -> 3` with latencies 1, and the direct
edge `0 -> 3` of latency 5. -/
def g_losange : Graphe :=
  avec_arete (avec_arete (avec_arete (avec_arete (avec_arete (graphe_noeuds 4)
    0 1 1 10 1 5) 1 3 1 10 1 5) 0 2 1 10 1 5) 2 3 1 10 1 5) 0 3 5 10 1 5

instance latences_strictes_decidable (g : Graphe) : Decidable (latences_strictes g) :=
  inferInstanceAs (Decidable (∀ n ∈ g.noeuds, ∀ a ∈ n.aretes, 0 < a.latence))

/-! ## Admissible paths of the constrained search -/

/-- Sum of the costs of the edges of a walk. -/
def cout_marche (es : List Arete) : Int := (es.map Arete.cout).sum

/-- Every edge cost is non-negative. -/
def couts_positifs (g : Graphe) : Prop :=
  ∀ n ∈ g.noeuds, ∀ a ∈ n.aretes, 0 ≤ a.cout

/-- The cost accumulated along a walk the way the code does it: starting from
`d`, the cost of each edge is added in binary32, in the order of the walk. -/
def cumul_cout (d : Int) (es : List Arete) : Int := es.foldl (fun acc a => fadd acc a.cout) d

/-- A simple path from `s` to `d` that the constraints admit: every edge is at
or above the bandwidth and security floors, no node of the path is excluded
and the cost accumulated from `s` is within the budget. -/
def chemin_admissible (g : Graphe) (c : Contraintes) (s d : Nat) (es : List Arete) : Prop :=
  est_marche g s es ∧ extremite s es = d ∧ (sommets s es).Nodup ∧
  (∀ a ∈ es, contrainte_respectee a c = true) ∧
  (∀ x ∈ sommets s es, noeud_exclu x c = false) ∧
  cumul_cout 0 es ≤ c.cout_max_autorise

/-- A way to go on from the node `x` to `d` through nodes that are not marked
in `visite`, no node twice, along edges and into nodes that the constraints
admit. -/
def prolongement (g : Graphe) (c : Contraintes) (d : Nat) (visite : Nat → Bool) (x : Nat)
    (es : List Arete) : Prop :=
  est_marche g x es ∧ extremite x es = d ∧ (es.map Arete.destination).Nodup ∧
  ∀ a ∈ es, visite a.destination = false ∧ noeud_exclu a.destination c = false ∧
    contrainte_respectee a c = true

/-- What a call of `backtrack_recursif` on `x`, or a run of its loop, does to
the best path: the marks are restored, the best latency does not grow, it is
at most the latency accumulated from `lat` along every way to go on (among
those selected by `P`) whose cost accumulated from `cout` is within the
budget, and it is the former best latency or the accumulated latency of such
a way. -/
structure PostBacktrack (g : Graphe) (c : Contraintes) (d : Nat) (ctx : ContextBacktrack)
    (x : Nat) (lat cout : Int) (P : List Arete → Prop) (ctx2 : ContextBacktrack) : Prop where
  visite : ctx2.visite = ctx.visite
  mono : ∀ m, ctx.meilleur = some m →
    ∃ m2, ctx2.meilleur = some m2 ∧ m2.latence_totale ≤ m.latence_totale
  couvre : ∀ es, P es → prolongement g c d ctx.visite x es →
    cumul_cout cout es ≤ c.cout_max_autorise →
    ∃ m2, ctx2.meilleur = some m2 ∧ m2.latence_totale ≤ cumul lat es
  atteint : ∀ m2, ctx2.meilleur = some m2 →
    (∃ m, ctx.meilleur = some m ∧ m.latence_totale = m2.latence_totale) ∨
    ∃ es, P es ∧ prolongement g c d ctx.visite x es ∧
      cumul_cout cout es ≤ c.cout_max_autorise ∧ m2.latence_totale = cumul lat es

instance couts_positifs_decidable (g : Graphe) : Decidable (couts_positifs g) :=
  inferInstanceAs (Decidable (∀ n ∈ g.noeuds, ∀ a ∈ n.aretes, 0 ≤ a.cout))

/-! ## Counting connected components -/

/-- The list `R` holds one node of each connected component of the nodes that
satisfy `S`: its nodes satisfy `S`, no two of them are joined, and every node
that satisfies `S` is joined to one of them. -/
def representants (g : Graphe) (S : Nat → Prop) (R : List Nat) : Prop :=
  (∀ r ∈ R, S r) ∧ R.Pairwise (fun x y => ¬ connectes_dans g S x y) ∧
  ∀ x, S x → ∃ r ∈ R, connectes_dans g S x r

/-- The nodes that satisfy `S` form `n` connected components. -/
def nombre_composantes (g : Graphe) (S : Nat → Prop) (n : Nat) : Prop :=
  ∃ R, representants g S R ∧ R.length = n

/-! ## Bridges -/

/-- The graph without the undirected edge `{u, v}`: the arcs `u -> v` and
`v -> u` are taken out of the adjacency lists. -/
def sans_arete (g : Graphe) (u v : Nat) : Graphe :=
  { g with
      noeuds := (List.range g.noeuds.length).map (fun i =>
        { noeud g i with
            aretes := (aretes_de g i).filter (fun a =>
              !((i == u && a.destination == v) || (i == v && a.destination == u))) }) }

/-- The edge `{x, y}` is a bridge: `x` and `y` are adjacent and are no longer
connected once the edge is removed. -/
def pont (g : Graphe) (x y : Nat) : Prop :=
  lies g x y ∧ ¬ connectes (sans_arete g x y) x y

/-- What holds of the bridge list in every state of the traversal: a recorded
pair is a bridge, its second node was discovered from the first (its DFS
parent) and after it, and no pair is recorded twice. -/
structure InvPonts (g : Graphe) (c : ContextArticulation) : Prop where
  sur : ∀ p ∈ c.ponts, pont g p.1 p.2 ∧ c.parent p.2 = (p.1 : Int) ∧ c.disc p.1 ≠ -1 ∧
    c.disc p.1 < c.disc p.2
  nodup : c.ponts.Nodup

/-- Every bridge that leaves a discovered node outside the open calls `P` is
recorded, in one direction or the other, the edges allowed by `exempt`
apart. -/
def ponts_complets (g : Graphe) (P : List Nat) (c : ContextArticulation)
    (exempt : Nat → Nat → Prop) : Prop :=
  ∀ x, c.disc x ≠ -1 → x ∉ P → ∀ a ∈ aretes_de g x, pont g x a.destination →
    (x, a.destination) ∈ c.ponts ∨ (a.destination, x) ∈ c.ponts ∨ exempt x a.destination

/-- What a call of `ap_dfs` expects of the bridge list. -/
def PrePonts (g : Graphe) (P : List Nat) (c : ContextArticulation) : Prop :=
  InvPonts g c ∧ ponts_complets g P c (fun _ _ => False)

/-- What a call of `ap_dfs` on `u`, started in `c0` with the open calls `P`,
leaves of the bridge list: the edge from `u` to its parent is the only one not
decided yet, the pairs recorded before are kept, the pairs added end at nodes
discovered by the call other than `u`, and `low[u]`, when below `disc[u]`, is the discovery time of the end of
an edge that is not the edge from `u` to its parent. -/
structure PostPonts (g : Graphe) (P : List Nat) (c0 : ContextArticulation) (u : Nat)
    (c1 : ContextArticulation) : Prop where
  inv : InvPonts g c1
  complet : ponts_complets g P c1 (fun x y => x = u ∧ (y : Int) = c0.parent u)
  garde : ∀ p ∈ c0.ponts, p ∈ c1.ponts
  ajouts : ∀ p ∈ c1.ponts, p ∈ c0.ponts ∨ (nouveau c0 c1 p.2 ∧ p.2 ≠ u)
  low_hors_pere : c1.low u < c1.disc u →
    ∃ x, nouveau c0 c1 x ∧ ∃ a ∈ aretes_de g x, c1.disc a.destination = c1.low u ∧
      (x = u → (a.destination : Int) ≠ c0.parent u)

/-- Invariant of the loop of `ap_dfs` on `u` for the bridge list. -/
structure BouclePonts (g : Graphe) (P : List Nat) (c0 : ContextArticulation) (u : Nat)
    (c : ContextArticulation) : Prop where
  inv : InvPonts g c
  complet : ponts_complets g (u :: P) c (fun _ _ => False)
  garde : ∀ p ∈ c0.ponts, p ∈ c.ponts
  ajouts : ∀ p ∈ c.ponts, p ∈ c0.ponts ∨ (nouveau c0 c p.2 ∧ p.2 ≠ u)
  low_hors_pere : c.low u < c.disc u →
    ∃ x, nouveau c0 c x ∧ ∃ a ∈ aretes_de g x, c.disc a.destination = c.low u ∧
      (x = u → (a.destination : Int) ≠ c0.parent u)
  fils : ∀ y, nouveau c0 c y → y ≠ u → pont g u y → (u, y) ∈ c.ponts

/-! ## Example graphs for the binary32 sums -/

/-- The chain `0 -> 1 -> 2` with latencies `2 ^ 24` and 1: the sum of the two
latencies has 25 significant bits. -/
def g_arrondi : Graphe :=
  avec_arete (avec_arete (graphe_noeuds 3) 0 1 16777216 10 1 5) 1 2 1 10 1 5

/-- Node 0 joined to node 1 by an edge of latency `2 ^ 100`; node 1 carries a
loop of latency -1. -/
def g_cycle_absorbe : Graphe :=
  avec_arete (avec_arete (graphe_noeuds 2) 0 1 1267650600228229401496703205376 10 1 5)
    1 1 (-1) 10 1 5

/-- The chain `0 -> 1 -> 2` with latencies `FLT_MAX - 2 ^ 104` and
`3 * 2 ^ 102`: the exact sum of the two is below `FLT_MAX`, and its rounding to
24 significant bits is `FLT_MAX`. -/
def g_plafond : Graphe :=
  avec_arete
    (avec_arete (graphe_noeuds 3) 0 1 340282326356119256160033759537265639424 10 1 5)
    1 2 15211807202738752817960438464512 10 1 5

/-- Five nodes: the chain `0 -> 1 -> 2 -> 3 -> 4` with latencies `2 ^ 24`, 1, 1
and 1, of total latency `2 ^ 24 + 3`, and the direct edge `0 -> 4` of latency
`2 ^ 24 + 2`. -/
def g_choix : Graphe :=
  avec_arete (avec_arete (avec_arete (avec_arete (avec_arete (graphe_noeuds 5)
    0 1 16777216 10 1 5) 1 2 1 10 1 5) 2 3 1 10 1 5) 3 4 1 10 1 5) 0 4 16777218 10 1 5

/-- The chain `0 -> 1 -> 2` with costs `2 ^ 24` and 1: the sum of the two costs
has 25 significant bits. -/
def g_budget : Graphe :=
  avec_arete (avec_arete (graphe_noeuds 3) 0 1 1 10 16777216 5) 1 2 1 10 1 5

/-! ## Binary32 addition -/

theorem exposant_f32_spec (fuel n : Nat) (h : n ≤ fuel) :
    n < 2 ^ (24 + exposant_f32 fuel n) ∧
      (exposant_f32 fuel n ≠ 0 → 2 ^ (23 + exposant_f32 fuel n) ≤ n) := by
  induction fuel generalizing n with
  | zero =>
    have : n = 0 := by omega
    subst this
    simp [exposant_f32]
  | succ k ih =>
    unfold exposant_f32
    by_cases h1 : n < 2 ^ 24
    · rw [if_pos h1]
      simp
      exact h1
    · rw [if_neg h1]
      have h2 : n / 2 ≤ k := by omega
      obtain ⟨i1, i2⟩ := ih (n / 2) h2
      generalize exposant_f32 k (n / 2) = e at i1 i2
      have p1 : 2 ^ (24 + (e + 1)) = 2 * 2 ^ (24 + e) := by
        rw [← Nat.add_assoc, Nat.pow_succ]; ring
      have p2 : 2 ^ (23 + (e + 1)) = 2 * 2 ^ (23 + e) := by
        rw [← Nat.add_assoc, Nat.pow_succ]; ring
      refine ⟨by rw [p1]; omega, fun _ => ?_⟩
      rw [p2]
      by_cases he : e = 0
      · subst he
        simp at h1 ⊢
        omega
      · have := i2 he
        omega

theorem arrondi_choix (p q r : Nat) (_hr : r < p) :
    ((if 2 * r < p then q * p else if p < 2 * r then (q + 1) * p
        else if q % 2 = 0 then q * p else (q + 1) * p) = q * p ∧
      2 * (p * q + r) ≤ q * p + (q + 1) * p) ∨
    ((if 2 * r < p then q * p else if p < 2 * r then (q + 1) * p
        else if q % 2 = 0 then q * p else (q + 1) * p) = (q + 1) * p ∧
      q * p + (q + 1) * p ≤ 2 * (p * q + r)) := by
  have e1 : q * p = p * q := Nat.mul_comm _ _
  have e2 : (q + 1) * p = p * q + p := by ring
  split_ifs <;> [left; right; left; right] <;> refine ⟨rfl, ?_⟩ <;> rw [e2, e1] <;> omega

/-- The two neighbours of `n` on the grid of its binade. -/
theorem arrondi_nat_voisins (n : Nat) :
    ∃ e q : Nat, q * 2 ^ e ≤ n ∧ n < (q + 1) * 2 ^ e ∧ q < 2 ^ 24 ∧ (e ≠ 0 → 2 ^ 23 ≤ q) ∧
      ((arrondi_nat n = q * 2 ^ e ∧ 2 * n ≤ q * 2 ^ e + (q + 1) * 2 ^ e) ∨
        (arrondi_nat n = (q + 1) * 2 ^ e ∧ q * 2 ^ e + (q + 1) * 2 ^ e ≤ 2 * n)) := by
  obtain ⟨s1, s2⟩ := exposant_f32_spec n n (le_refl n)
  refine ⟨exposant_f32 n n, n / 2 ^ exposant_f32 n n, ?_, ?_, ?_, ?_, ?_⟩
  · exact Nat.div_mul_le_self n _
  · have := Nat.lt_div_mul_add (a := n) (b := 2 ^ exposant_f32 n n) (by positivity)
    rw [Nat.add_mul, Nat.one_mul]
    exact this
  · rw [Nat.div_lt_iff_lt_mul (by positivity)]
    rw [← Nat.pow_add]
    exact s1
  · intro he
    have := s2 he
    rw [Nat.le_div_iff_mul_le (by positivity), ← Nat.pow_add]
    exact this
  · have hd := Nat.div_add_mod n (2 ^ exposant_f32 n n)
    have hm := Nat.mod_lt n (show 0 < 2 ^ exposant_f32 n n by positivity)
    have hc := arrondi_choix (2 ^ exposant_f32 n n) (n / 2 ^ exposant_f32 n n)
      (n % 2 ^ exposant_f32 n n) hm
    rw [hd] at hc
    exact hc

theorem representable_hors_voisins (e q f : Nat) (hq : e ≠ 0 → 2 ^ 23 ≤ q)
    (hf : representable f) : f ≤ q * 2 ^ e ∨ (q + 1) * 2 ^ e ≤ f := by
  obtain ⟨m, k, hm, rfl⟩ := hf
  by_cases hk : e ≤ k
  · obtain ⟨d, rfl⟩ := Nat.exists_eq_add_of_le hk
    have hmd : m * 2 ^ (e + d) = (m * 2 ^ d) * 2 ^ e := by rw [Nat.pow_add]; ring
    rw [hmd]
    by_cases h : m * 2 ^ d ≤ q
    · left; exact Nat.mul_le_mul_right _ h
    · right; exact Nat.mul_le_mul_right _ (show q + 1 ≤ m * 2 ^ d by omega)
  · left
    have he : e ≠ 0 := by omega
    have h1 := hq he
    obtain ⟨d, rfl⟩ := Nat.exists_eq_add_of_le (show k + 1 ≤ e by omega)
    calc m * 2 ^ k ≤ 2 ^ 24 * 2 ^ k := Nat.mul_le_mul_right _ (le_of_lt hm)
      _ = 2 ^ 23 * 2 ^ (k + 1) := by rw [Nat.pow_succ]; ring
      _ ≤ 2 ^ 23 * 2 ^ (k + 1 + d) := Nat.mul_le_mul_left _ (Nat.pow_le_pow_right (by norm_num) (by omega))
      _ ≤ q * 2 ^ (k + 1 + d) := Nat.mul_le_mul_right _ h1

theorem arrondi_nat_representable (n : Nat) : representable (arrondi_nat n) := by
  obtain ⟨e, q, _, _, h3, _, h5⟩ := arrondi_nat_voisins n
  rcases h5 with ⟨h, _⟩ | ⟨h, _⟩
  · exact ⟨q, e, h3, h⟩
  · by_cases hq : q + 1 < 2 ^ 24
    · exact ⟨q + 1, e, hq, h⟩
    · refine ⟨2 ^ 23, e + 1, by norm_num, ?_⟩
      have : q + 1 = 2 ^ 24 := by omega
      rw [h, this, Nat.pow_succ]
      ring

/-- The value of `arrondi_nat n` is a representable number nearest to `n`. -/
theorem arrondi_nat_proche (n f : Nat) (hf : representable f) :
    |(arrondi_nat n : Int) - n| ≤ |(f : Int) - n| := by
  obtain ⟨e, q, h1, h2, _, h4, h5⟩ := arrondi_nat_voisins n
  have h6 := representable_hors_voisins e q f h4 hf
  generalize q * 2 ^ e = lo at h1 h5 h6
  generalize (q + 1) * 2 ^ e = hi at h2 h5 h6
  rcases h5 with ⟨h, h7⟩ | ⟨h, h7⟩ <;> rw [h] <;> rw [abs_le] <;>
    rcases h6 with h6 | h6 <;> rcases le_abs_self ((f : Int) - n) with _ <;>
    have a1 := le_abs_self ((f : Int) - n) <;>
    have a2 := neg_abs_le ((f : Int) - n) <;>
    constructor <;> omega

theorem arrondi_nat_fixe (f : Nat) (hf : representable f) : arrondi_nat f = f := by
  have := arrondi_nat_proche f f hf
  simp at this
  omega

theorem arrondi_nat_mono (m n : Nat) (h : m ≤ n) : arrondi_nat m ≤ arrondi_nat n := by
  by_contra hc
  have h1 := arrondi_nat_proche m (arrondi_nat n) (arrondi_nat_representable n)
  have h2 := arrondi_nat_proche n (arrondi_nat m) (arrondi_nat_representable m)
  rw [abs_le] at h1 h2
  have a1 := le_abs_self ((arrondi_nat n : Int) - m)
  have a2 := neg_abs_le ((arrondi_nat n : Int) - m)
  have a3 := le_abs_self ((arrondi_nat m : Int) - n)
  have a4 := neg_abs_le ((arrondi_nat m : Int) - n)
  have hmn : m = n := by
    rcases abs_cases ((arrondi_nat n : Int) - m) with ⟨b1, _⟩ | ⟨b1, _⟩ <;>
      rcases abs_cases ((arrondi_nat m : Int) - n) with ⟨b2, _⟩ | ⟨b2, _⟩ <;>
      rw [b1] at h1 <;> rw [b2] at h2 <;> omega
  subst hmn
  exact hc (le_refl _)

theorem arrondi_nat_idem (n : Nat) : arrondi_nat (arrondi_nat n) = arrondi_nat n :=
  arrondi_nat_fixe _ (arrondi_nat_representable n)

theorem arrondi_nat_petit (n : Nat) (h : n ≤ 2 ^ 24) : arrondi_nat n = n := by
  apply arrondi_nat_fixe
  by_cases h1 : n < 2 ^ 24
  · exact ⟨n, 0, h1, by simp⟩
  · exact ⟨2 ^ 23, 1, by norm_num, by omega⟩

theorem arrondi_f32_mono (x y : Int) (h : x ≤ y) : arrondi_f32 x ≤ arrondi_f32 y := by
  unfold arrondi_f32
  by_cases hx : 0 ≤ x
  · have hy : 0 ≤ y := le_trans hx h
    rw [if_pos hx, if_pos hy]
    exact Int.ofNat_le.mpr (arrondi_nat_mono _ _ (by omega))
  · rw [if_neg hx]
    by_cases hy : 0 ≤ y
    · rw [if_pos hy]
      omega
    · rw [if_neg hy]
      have := arrondi_nat_mono (-y).toNat (-x).toNat (by omega)
      omega

theorem arrondi_f32_idem (x : Int) : arrondi_f32 (arrondi_f32 x) = arrondi_f32 x := by
  unfold arrondi_f32
  by_cases hx : 0 ≤ x
  · rw [if_pos hx, if_pos (by omega)]
    simp only [Int.toNat_ofNat, arrondi_nat_idem]
  · rw [if_neg hx]
    by_cases h0 : arrondi_nat (-x).toNat = 0
    · rw [h0]
      simp [arrondi_nat_petit]
    · rw [if_neg (by omega)]
      simp only [neg_neg, Int.toNat_ofNat, arrondi_nat_idem]

theorem arrondi_f32_petit (x : Int) (h1 : -(2 ^ 24) ≤ x) (h2 : x ≤ 2 ^ 24) :
    arrondi_f32 x = x := by
  unfold arrondi_f32
  by_cases hx : 0 ≤ x
  · rw [if_pos hx, arrondi_nat_petit _ (by omega)]
    omega
  · rw [if_neg hx, arrondi_nat_petit _ (by omega)]
    omega

theorem arrondi_f32_INF : arrondi_f32 F32_INF = F32_INF := by decide

theorem arrondi_f32_neg_INF : arrondi_f32 (-F32_INF) = -F32_INF := by decide

theorem F32_INF_pos : 0 < F32_INF := by decide

theorem INFINI_lt_INF : INFINI < F32_INF := by decide

theorem flottant_zero : flottant 0 := by decide

theorem flottant_INFINI : flottant INFINI := by decide

/-- Values of `fadd` at the edges of the format: above `2 ^ 24` the spacing
is 2 and a tie goes to the even significand; the sum of `FLT_MAX` and half a
unit in the last place overflows, a smaller sum does not; a small operand is
absorbed by a large one. -/
theorem fadd_exemples :
    fadd 16777216 1 = 16777216 ∧ fadd 16777216 3 = 16777220 ∧ fadd 16777218 1 = 16777220 ∧
    fadd 5 7 = 12 ∧ fadd 5 (-7) = -2 ∧ fadd (-16777216) (-1) = -16777216 ∧
    fadd INFINI (2 ^ 103) = F32_INF ∧ fadd INFINI (2 ^ 103 - 1) = INFINI ∧
    fadd (2 ^ 100) (-1) = 2 ^ 100 ∧ fadd (-1) INFINI = INFINI ∧
    fadd F32_INF (-1) = F32_INF ∧ fadd (-F32_INF) 1 = -F32_INF := by
  decide

/-- The result of a binary32 addition is a binary32 value. -/
theorem fadd_flottant (a b : Int) : flottant (fadd a b) := by
  have p := F32_INF_pos
  unfold fadd borner_f32
  split_ifs with h1 h2 h3 h4
  · exact ⟨arrondi_f32_INF, by omega, le_refl _⟩
  · exact ⟨arrondi_f32_neg_INF, le_refl _, by omega⟩
  · exact ⟨arrondi_f32_INF, by omega, le_refl _⟩
  · exact ⟨arrondi_f32_neg_INF, le_refl _, by omega⟩
  · exact ⟨arrondi_f32_idem _, by omega, by omega⟩

theorem fadd_comm (a b : Int) : fadd a b = fadd b a := by
  unfold fadd
  rw [Int.add_comm a b]
  split_ifs <;> first | rfl | omega

/-- Binary32 addition is monotone in its first operand. -/
theorem fadd_mono (a c b : Int) (h : a ≤ c) : fadd a b ≤ fadd c b := by
  have p := F32_INF_pos
  have hm := arrondi_f32_mono (a + b) (c + b) (by omega)
  unfold fadd borner_f32
  split_ifs <;> omega

theorem fadd_mono_droite (a b c : Int) (h : b ≤ c) : fadd a b ≤ fadd a c := by
  rw [fadd_comm a b, fadd_comm a c]
  exact fadd_mono b c a h

/-- Adding a non-negative value to a binary32 value does not decrease it. -/
theorem fadd_croit (a b : Int) (ha : flottant a) (hb : 0 ≤ b) : a ≤ fadd a b := by
  have p := F32_INF_pos
  obtain ⟨f1, f2, f3⟩ := ha
  have hm := arrondi_f32_mono a (a + b) (by omega)
  rw [f1] at hm
  unfold fadd borner_f32
  split_ifs <;> omega

/-- Adding a non-positive value to a binary32 value does not increase it. -/
theorem fadd_decroit (a b : Int) (ha : flottant a) (hb : b ≤ 0) : fadd a b ≤ a := by
  have p := F32_INF_pos
  obtain ⟨f1, f2, f3⟩ := ha
  have hm := arrondi_f32_mono (a + b) a (by omega)
  rw [f1] at hm
  unfold fadd borner_f32
  split_ifs <;> omega

/-- A sum of magnitude at most `2 ^ 24` is exact. -/
theorem fadd_exact (a b : Int) (ha1 : -F32_INF < a) (ha2 : a < F32_INF) (hb1 : -F32_INF < b)
    (hb2 : b < F32_INF) (h1 : -(2 ^ 24) ≤ a + b) (h2 : a + b ≤ 2 ^ 24) : fadd a b = a + b := by
  have p : (2 : Int) ^ 24 < F32_INF := by decide
  have hm := arrondi_f32_petit (a + b) h1 h2
  unfold fadd borner_f32
  rw [hm]
  split_ifs <;> omega

theorem fadd_zero (a : Int) (ha : flottant a) : fadd a 0 = a := by
  have p := F32_INF_pos
  obtain ⟨f1, f2, f3⟩ := ha
  unfold fadd borner_f32
  rw [add_zero, f1]
  split_ifs <;> omega

/-- A sum that reaches `2 ^ 24` is rounded to a value that reaches `2 ^ 24`. -/
theorem fadd_grand (a b : Int) (h : 2 ^ 24 ≤ a + b) : 2 ^ 24 ≤ fadd a b := by
  have p : (2 : Int) ^ 24 < F32_INF := by decide
  have hm := arrondi_f32_mono (2 ^ 24) (a + b) h
  rw [arrondi_f32_petit _ (by norm_num) (le_refl _)] at hm
  unfold fadd borner_f32
  split_ifs <;> omega

/-! ## Walks -/

theorem est_marche_append (g : Graphe) (es1 es2 : List Arete) (u : Nat) :
    est_marche g u (es1 ++ es2) ↔ est_marche g u es1 ∧ est_marche g (extremite u es1) es2 := by
  induction es1 generalizing u with
  | nil => simp [est_marche, extremite]
  | cons a r ih => simp [est_marche, extremite, ih, and_assoc]

theorem extremite_append (es1 es2 : List Arete) (u : Nat) :
    extremite u (es1 ++ es2) = extremite (extremite u es1) es2 := by
  induction es1 generalizing u with
  | nil => simp [extremite]
  | cons a r ih => simp [extremite, ih]

theorem poids_append (es1 es2 : List Arete) : poids (es1 ++ es2) = poids es1 + poids es2 := by
  simp [poids]

theorem poids_cons (a : Arete) (es : List Arete) : poids (a :: es) = a.latence + poids es := by
  simp [poids]

theorem sommets_append_un (u : Nat) (es : List Arete) (a : Arete) :
    sommets u (es ++ [a]) = sommets u es ++ [a.destination] := by
  simp [sommets]

theorem sommets_dernier (u : Nat) (es : List Arete) :
    (sommets u es).getLast? = some (extremite u es) := by
  induction es generalizing u with
  | nil => simp [sommets, extremite]
  | cons a r ih =>
    have h := ih a.destination
    simp only [sommets, List.map_cons, extremite] at h ⊢
    rw [List.getLast?_cons_cons]
    exact h

theorem sommets_chaine (g : Graphe) (u : Nat) (es : List Arete) (h : est_marche g u es) :
    List.Chain' (relie g) (sommets u es) := by
  induction es generalizing u with
  | nil => simp [sommets]
  | cons a r ih =>
    obtain ⟨h1, h2⟩ := h
    have h3 := ih a.destination h2
    simp only [sommets, List.map_cons] at h3 ⊢
    exact List.Chain'.cons ⟨a, h1, rfl⟩ h3

/-! ## Well-formed graphs -/

theorem arete_noeud_mem (g : Graphe) (u : Nat) (a : Arete) (h : a ∈ aretes_de g u) :
    noeud g u ∈ g.noeuds ∧ u < g.noeuds.length := by
  unfold aretes_de at h
  by_cases hu : u < g.noeuds.length
  · refine ⟨?_, hu⟩
    unfold noeud
    rw [List.getD_eq_getElem _ _ hu]
    exact List.getElem_mem hu
  · exfalso
    have : noeud g u = noeud_vide := List.getD_eq_default _ _ (by omega)
    rw [this] at h
    simp [noeud_vide] at h

theorem latence_positive (g : Graphe) (hp : latences_positives g) (u : Nat) (a : Arete)
    (h : a ∈ aretes_de g u) : 0 ≤ a.latence :=
  hp _ (arete_noeud_mem g u a h).1 a h

theorem arete_origine (g : Graphe) (hb : bien_forme g) (u : Nat) (a : Arete)
    (h : a ∈ aretes_de g u) :
    u < g.capacite_max ∧ (noeud g u).actif = true ∧ a.destination < g.capacite_max := by
  obtain ⟨hm, hu⟩ := arete_noeud_mem g u a h
  obtain ⟨h1, h2⟩ := hb.2 _ hm
  refine ⟨by rw [← hb.1]; exact hu, ?_, h2 a h⟩
  by_contra hc
  have h3 := h1 (by simpa using hc)
  unfold aretes_de at h
  rw [h3] at h
  simp at h

theorem poids_positif (g : Graphe) (hp : latences_positives g) (es : List Arete) (u : Nat)
    (h : est_marche g u es) : 0 ≤ poids es := by
  induction es generalizing u with
  | nil => simp [poids]
  | cons a r ih =>
    obtain ⟨h1, h2⟩ := h
    have := latence_positive g hp u a h1
    have := ih _ h2
    rw [poids_cons]
    omega

theorem INFINI_pos : 0 < INFINI := by decide


/-! ## Accumulated latency -/

theorem cumul_nil (d : Int) : cumul d [] = d := rfl

theorem cumul_cons (d : Int) (a : Arete) (es : List Arete) :
    cumul d (a :: es) = cumul (fadd d a.latence) es := rfl

theorem cumul_append (d : Int) (es1 es2 : List Arete) :
    cumul d (es1 ++ es2) = cumul (cumul d es1) es2 := by
  simp [cumul, List.foldl_append]

theorem cumul_append_un (d : Int) (es : List Arete) (a : Arete) :
    cumul d (es ++ [a]) = fadd (cumul d es) a.latence := by
  rw [cumul_append]
  rfl

theorem cumul_mono (es : List Arete) (d c : Int) (h : d ≤ c) : cumul d es ≤ cumul c es := by
  induction es generalizing d c with
  | nil => exact h
  | cons a r ih =>
    rw [cumul_cons, cumul_cons]
    exact ih _ _ (fadd_mono d c a.latence h)

theorem cumul_flottant (es : List Arete) (d : Int) (h : flottant d) : flottant (cumul d es) := by
  induction es generalizing d with
  | nil => exact h
  | cons a r ih =>
    rw [cumul_cons]
    exact ih _ (fadd_flottant d a.latence)

/-- Along a walk of non-negative latencies the accumulated latency does not
decrease. -/
theorem cumul_croit (g : Graphe) (hp : latences_positives g) (es : List Arete) (u : Nat)
    (d : Int) (hm : est_marche g u es) (hd : flottant d) : d ≤ cumul d es := by
  induction es generalizing u d with
  | nil => exact le_refl _
  | cons a r ih =>
    obtain ⟨h1, h2⟩ := hm
    rw [cumul_cons]
    have := fadd_croit d a.latence hd (latence_positive g hp u a h1)
    have := ih _ _ h2 (fadd_flottant d a.latence)
    omega

theorem cumul_positif (g : Graphe) (hp : latences_positives g) (es : List Arete) (u : Nat)
    (h : est_marche g u es) : 0 ≤ cumul 0 es :=
  cumul_croit g hp es u 0 h flottant_zero

/-- Along a walk of non-negative latencies, an accumulated latency that stays
at or below `2 ^ 24` is the exact sum. -/
theorem cumul_exact (g : Graphe) (hp : latences_positives g) (es : List Arete) (u : Nat) (d : Int)
    (hm : est_marche g u es) (hd : 0 ≤ d) (h : d + poids es ≤ 2 ^ 24) :
    cumul d es = d + poids es := by
  have hI : (2 : Int) ^ 24 < F32_INF := by decide
  induction es generalizing u d with
  | nil => simp [cumul, poids]
  | cons a r ih =>
    obtain ⟨h1, h2⟩ := hm
    have hl := latence_positive g hp u a h1
    have hr := poids_positif g hp r _ h2
    rw [poids_cons] at h ⊢
    rw [cumul_cons, fadd_exact d a.latence (by omega) (by omega) (by omega) (by omega)
      (by omega) (by omega), ih _ _ h2 (by omega) (by omega)]
    omega

/-- Along a walk of non-negative latencies, an exact sum that reaches `2 ^ 24`
gives an accumulated latency that reaches `2 ^ 24`. -/
theorem cumul_grand (g : Graphe) (hp : latences_positives g) (es : List Arete) (u : Nat) (d : Int)
    (hm : est_marche g u es) (hd : 0 ≤ d) (hf : flottant d) (h : 2 ^ 24 ≤ d + poids es) :
    2 ^ 24 ≤ cumul d es := by
  induction es generalizing u d with
  | nil => simpa [cumul, poids] using h
  | cons a r ih =>
    obtain ⟨h1, h2⟩ := hm
    have hl := latence_positive g hp u a h1
    rw [poids_cons] at h
    rw [cumul_cons]
    have hc := fadd_croit d a.latence hf hl
    by_cases hg : 2 ^ 24 ≤ d + a.latence
    · have := fadd_grand d a.latence hg
      have := cumul_croit g hp r _ _ h2 (fadd_flottant d a.latence)
      omega
    · have hI : (2 : Int) ^ 24 < F32_INF := by decide
      have hex := fadd_exact d a.latence (by omega) (by omega) (by omega) (by omega)
        (by omega) (by omega)
      exact ih _ _ h2 (by omega) (fadd_flottant d a.latence) (by rw [hex]; omega)

/-- Below `2 ^ 24` the accumulated latency of a walk of non-negative latencies
is its total latency, and the two reach `2 ^ 24` together. -/
theorem cumul_poids (g : Graphe) (hp : latences_positives g) (es : List Arete) (u : Nat)
    (hm : est_marche g u es) :
    (poids es < 2 ^ 24 → cumul 0 es = poids es) ∧ (2 ^ 24 ≤ poids es → 2 ^ 24 ≤ cumul 0 es) := by
  constructor
  · intro h
    have := cumul_exact g hp es u 0 hm (le_refl _) (by omega)
    omega
  · intro h
    exact cumul_grand g hp es u 0 hm (le_refl _) flottant_zero (by omega)

/-! ## One relaxation step -/

theorem inv_initial (g : Graphe) (s : Nat) :
    InvRelax g s (Function.update (fun _ => INFINI) s 0) (fun _ => none) := by
  have hI := INFINI_pos
  refine ⟨by simp, ?_, ?_, ?_, ?_, ⟨fun _ => 0, by simp⟩⟩
  · intro v
    by_cases hv : v = s
    · subst hv; simp; omega
    · simp [Function.update_noteq hv]; omega
  · intro v
    by_cases hv : v = s
    · subst hv; simp; exact flottant_zero
    · simp [Function.update_noteq hv]; exact flottant_INFINI
  · intro v hv
    by_cases hvs : v = s
    · subst hvs
      exact ⟨[], trivial, rfl, by simp [cumul]⟩
    · simp [Function.update_noteq hvs] at hv
  · intro v hv hvs
    simp [Function.update_noteq hvs] at hv

theorem inv_relaxer (g : Graphe) (s : Nat) (dist : Nat → Int) (pred : Nat → Option Nat)
    (hinv : InvRelax g s dist pred) (u : Nat) (a : Arete) (ha : a ∈ aretes_de g u)
    (hu : u < g.capacite_max) (hdu : dist u < INFINI) (hp : latences_positives g)
    (hlt : fadd (dist u) a.latence < dist a.destination) :
    InvRelax g s (Function.update dist a.destination (fadd (dist u) a.latence))
      (Function.update pred a.destination (some u)) := by
  obtain ⟨hs, hb, hfl, hat, hpd, r, hl⟩ := hinv
  have hlat : 0 ≤ a.latence := latence_positive g hp u a ha
  have hcr : dist u ≤ fadd (dist u) a.latence := fadd_croit _ _ (hfl u) hlat
  have hvs : a.destination ≠ s := by
    intro h
    rw [h, hs.1] at hlt
    have := (hb u).1
    omega
  have huv : u ≠ a.destination := by
    intro h
    rw [← h] at hlt
    omega
  refine ⟨?_, ?_, ?_, ?_, ?_, ⟨Function.update r a.destination (r u + 1), ?_⟩⟩
  · rw [Function.update_noteq (Ne.symm hvs), Function.update_noteq (Ne.symm hvs)]
    exact hs
  · intro v
    by_cases hv : v = a.destination
    · subst hv
      rw [Function.update_same]
      have := (hb u).1
      have := (hb a.destination).2
      omega
    · rw [Function.update_noteq hv]
      exact hb v
  · intro v
    by_cases hv : v = a.destination
    · subst hv
      rw [Function.update_same]
      exact fadd_flottant _ _
    · rw [Function.update_noteq hv]
      exact hfl v
  · intro v hv
    by_cases hva : v = a.destination
    · subst hva
      rw [Function.update_same]
      obtain ⟨es, h1, h2, h3⟩ := hat u hdu
      refine ⟨es ++ [a], ?_, ?_, ?_⟩
      · rw [est_marche_append]
        exact ⟨h1, by rw [h2]; exact ⟨ha, trivial⟩⟩
      · rw [extremite_append]; rfl
      · rw [cumul_append_un, h3]
    · rw [Function.update_noteq hva] at hv ⊢
      exact hat v hv
  · intro v hv hvs2
    by_cases hva : v = a.destination
    · subst hva
      exact ⟨u, by rw [Function.update_same]⟩
    · rw [Function.update_noteq hva] at hv ⊢
      exact hpd v hv hvs2
  · intro v w hvw
    by_cases hva : v = a.destination
    · subst hva
      rw [Function.update_same] at hvw
      have hwu : w = u := (Option.some.inj hvw).symm
      subst hwu
      rw [Function.update_same, Function.update_noteq huv, Function.update_same,
        Function.update_noteq huv]
      exact ⟨hu, hdu, ⟨a, ha, rfl, le_refl _⟩, Or.inr (Nat.lt_succ_self _)⟩
    · rw [Function.update_noteq hva] at hvw
      obtain ⟨h1, h2, ⟨b, hb1, hb2, hb3⟩, h4⟩ := hl v w hvw
      rw [Function.update_noteq hva, Function.update_noteq hva]
      by_cases hwa : w = a.destination
      · subst hwa
        rw [Function.update_same]
        have hbl := (hb (a.destination)).2
        have hb0 : 0 ≤ b.latence := latence_positive g hp _ b hb1
        have hm1 := fadd_mono _ _ b.latence (le_of_lt hlt)
        have hc2 : fadd (dist u) a.latence ≤ fadd (fadd (dist u) a.latence) b.latence :=
          fadd_croit _ _ (fadd_flottant _ _) hb0
        have hc3 := fadd_croit (dist a.destination) b.latence (hfl _) hb0
        refine ⟨h1, by omega, ⟨b, hb1, hb2, by omega⟩, Or.inl (by omega)⟩
      · rw [Function.update_noteq hwa, Function.update_noteq hwa]
        exact ⟨h1, h2, ⟨b, hb1, hb2, hb3⟩, h4⟩

/-! ## Consequences of saturation -/

theorem sature_borne (g : Graphe) (hp : latences_positives g) (dist : Nat → Int)
    (hb : ∀ v, 0 ≤ dist v ∧ dist v ≤ INFINI) (hs : sature g dist) (es : List Arete) (u : Nat)
    (hm : est_marche g u es) (hu : dist u < INFINI) :
    dist (extremite u es) ≤ cumul (dist u) es := by
  induction es generalizing u with
  | nil => simp [extremite, cumul]
  | cons a r ih =>
    obtain ⟨h1, h2⟩ := hm
    have h3 := hs u hu a h1
    rw [cumul_cons]
    simp only [extremite]
    by_cases h5 : dist a.destination < INFINI
    · have := ih _ h2 h5
      have := cumul_mono r _ _ h3
      omega
    · have := (hb (extremite a.destination r)).2
      have := (hb a.destination).2
      have := cumul_croit g hp r _ _ h2 (fadd_flottant (dist u) a.latence)
      omega

theorem sature_minimal (g : Graphe) (hp : latences_positives g) (s : Nat) (dist : Nat → Int)
    (pred : Nat → Option Nat) (hinv : InvRelax g s dist pred) (hs : sature g dist)
    (es : List Arete) (hm : est_marche g s es) : dist (extremite s es) ≤ cumul 0 es := by
  have h := sature_borne g hp dist hinv.bornes hs es s hm (by rw [hinv.source.1]; exact INFINI_pos)
  rw [hinv.source.1] at h
  exact h

/-- Two saturated states of the same source hold the same distances. -/
theorem sature_unique (g : Graphe) (hp : latences_positives g) (s : Nat)
    (d1 d2 : Nat → Int) (p1 p2 : Nat → Option Nat) (h1 : InvRelax g s d1 p1)
    (h2 : InvRelax g s d2 p2) (s1 : sature g d1) (s2 : sature g d2) (v : Nat) :
    d1 v = d2 v := by
  have b1 := h1.bornes v
  have b2 := h2.bornes v
  by_cases c1 : d1 v < INFINI
  · obtain ⟨es, e1, e2, e3⟩ := h1.atteint v c1
    have m2 := sature_minimal g hp s d2 p2 h2 s2 es e1
    rw [e2] at m2
    have c2 : d2 v < INFINI := by omega
    obtain ⟨es2, f1, f2, f3⟩ := h2.atteint v c2
    have m1 := sature_minimal g hp s d1 p1 h1 s1 es2 f1
    rw [f2] at m1
    omega
  · by_cases c2 : d2 v < INFINI
    · obtain ⟨es2, f1, f2, f3⟩ := h2.atteint v c2
      have m1 := sature_minimal g hp s d1 p1 h1 s1 es2 f1
      rw [f2] at m1
      omega
    · omega

/-! ## Following the predecessor links -/

theorem longueur_sans_doublon (V : Nat) (l : List Nat) (hn : l.Nodup) (hl : ∀ x ∈ l, x < V) :
    l.length ≤ V := by
  have h1 : l.toFinset ⊆ Finset.range V := by
    intro x hx
    rw [List.mem_toFinset] at hx
    exact Finset.mem_range.mpr (hl x hx)
  have h2 := Finset.card_le_card h1
  rw [List.toFinset_card_of_nodup hn, Finset.card_range] at h2
  exact h2

theorem remonter_ok (g : Graphe) (dist : Nat → Int) (pred : Nat → Option Nat) (r : Nat → Nat)
    (hl : ∀ v u, pred v = some u → u < g.capacite_max ∧
      (∃ a ∈ aretes_de g u, a.destination = v ∧ dist v = fadd (dist u) a.latence) ∧
      (dist u < dist v ∨ (dist u = dist v ∧ r u < r v))) :
    ∀ (fuel v : Nat) (vis pile : List Nat), v < g.capacite_max → vis.Nodup →
      (∀ x ∈ vis, x < g.capacite_max ∧ (dist v < dist x ∨ (dist v = dist x ∧ r v < r x))) →
      g.capacite_max ≤ fuel + vis.length →
      ∃ root es, pred root = none ∧ est_marche g root es ∧ extremite root es = v ∧
        dist v = cumul (dist root) es ∧ es.length + vis.length < g.capacite_max ∧
        remonter pred fuel (some v) pile = some (sommets root es ++ pile) := by
  intro fuel
  induction fuel with
  | zero =>
    intro v vis pile hv hn hvis hlen
    exfalso
    have hnot : v ∉ vis := by
      intro hmem
      have := (hvis v hmem).2
      omega
    have h1 : (v :: vis).Nodup := List.nodup_cons.mpr ⟨hnot, hn⟩
    have h2 : ∀ x ∈ v :: vis, x < g.capacite_max := by
      intro x hx
      rcases List.mem_cons.mp hx with h | h
      · rw [h]; exact hv
      · exact (hvis x h).1
    have := longueur_sans_doublon _ _ h1 h2
    simp at this
    omega
  | succ k ih =>
    intro v vis pile hv hn hvis hlen
    have hnot : v ∉ vis := by
      intro hmem
      have := (hvis v hmem).2
      omega
    have h1 : (v :: vis).Nodup := List.nodup_cons.mpr ⟨hnot, hn⟩
    have h0 : ∀ x ∈ v :: vis, x < g.capacite_max := by
      intro x hx
      rcases List.mem_cons.mp hx with h | h
      · rw [h]; exact hv
      · exact (hvis x h).1
    have hcard := longueur_sans_doublon _ _ h1 h0
    simp only [List.length_cons] at hcard
    cases hp : pred v with
    | none =>
      refine ⟨v, [], hp, trivial, rfl, by simp [cumul], by simp; omega, ?_⟩
      simp [remonter, hp, sommets]
    | some u =>
      obtain ⟨hu, ⟨a, ha1, ha2, ha3⟩, hprec⟩ := hl v u hp
      have h2 : ∀ x ∈ v :: vis, x < g.capacite_max ∧
          (dist u < dist x ∨ (dist u = dist x ∧ r u < r x)) := by
        intro x hx
        rcases List.mem_cons.mp hx with h | h
        · rw [h]; exact ⟨hv, hprec⟩
        · have := hvis x h
          refine ⟨this.1, ?_⟩
          omega
      obtain ⟨root, es, e1, e2, e3, e4, elen, e5⟩ :=
        ih u (v :: vis) (v :: pile) hu h1 h2 (by simp; omega)
      refine ⟨root, es ++ [a], e1, ?_, ?_, ?_, ?_, ?_⟩
      · rw [est_marche_append, e3]
        exact ⟨e2, ha1, trivial⟩
      · rw [extremite_append]; simpa [extremite] using ha2
      · rw [cumul_append_un, ← e4]; exact ha3
      · simp only [List.length_append, List.length_cons, List.length_nil] at elen ⊢
        omega
      · simp only [remonter, hp]
        rw [e5, sommets_append_un, ha2]
        simp

theorem foldl_ajouter_noeuds (l : List Nat) (c : Chemin) :
    (List.foldl ajouter_noeud_chemin c l).noeuds = c.noeuds ++ l := by
  induction l generalizing c with
  | nil => simp
  | cons x r ih => simp [ih, ajouter_noeud_chemin]

/-- From a saturated state, `reconstruire_chemin` returns the node sequence of a
walk from the source whose accumulated latency is the distance of the
destination. -/
theorem reconstruire_ok (g : Graphe) (hp : latences_positives g) (s d : Nat)
    (dist : Nat → Int) (pred : Nat → Option Nat) (hinv : InvRelax g s dist pred)
    (hs : sature g dist) (hd : d < g.capacite_max) (hfin : dist d ≠ INFINI) (fuel : Nat)
    (hfuel : g.capacite_max ≤ fuel) :
    ∃ p es, reconstruire_chemin fuel pred dist d = some (some p) ∧ est_marche g s es ∧
      extremite s es = d ∧ p.noeuds = sommets s es ∧ p.latence_totale = cumul 0 es ∧
      p.latence_totale = dist d ∧ es.length < g.capacite_max := by
  obtain ⟨r, hl⟩ := hinv.lien
  have hl2 : ∀ v u, pred v = some u → u < g.capacite_max ∧
      (∃ a ∈ aretes_de g u, a.destination = v ∧ dist v = fadd (dist u) a.latence) ∧
      (dist u < dist v ∨ (dist u = dist v ∧ r u < r v)) := by
    intro v u hvu
    obtain ⟨h1, h2, ⟨a, ha1, ha2, ha3⟩, h4⟩ := hl v u hvu
    have h5 := hs u h2 a ha1
    rw [ha2] at h5
    have h6 := fadd_croit (dist u) a.latence (hinv.flottants u) (latence_positive g hp u a ha1)
    refine ⟨h1, ⟨a, ha1, ha2, by omega⟩, ?_⟩
    omega
  have hfin_chain : ∀ (es : List Arete) (root v : Nat), est_marche g root es →
      extremite root es = v → dist v = cumul (dist root) es → dist v < INFINI →
      dist root < INFINI := by
    intro es root v h1 _ h3 h4
    have := cumul_croit g hp es root _ h1 (hinv.flottants root)
    omega
  obtain ⟨root, es, e1, e2, e3, e4, elen, e5⟩ :=
    remonter_ok g dist pred r hl2 fuel d [] [] hd List.nodup_nil (by simp) (by simpa using hfuel)
  have hdlt : dist d < INFINI := by
    have := (hinv.bornes d).2
    omega
  have hroot : root = s := by
    by_contra hne
    obtain ⟨u, hu⟩ := hinv.pred_defini root (hfin_chain es root d e2 e3 e4 hdlt) hne
    rw [e1] at hu
    exact Option.noConfusion hu
  subst hroot
  have hpd : dist d = cumul 0 es := by
    rw [e4, hinv.source.1]
  refine ⟨{ List.foldl ajouter_noeud_chemin creer_chemin (sommets root es) with
              latence_totale := dist d }, es, ?_, e2, e3, ?_, hpd, rfl, by simpa using elen⟩
  · unfold reconstruire_chemin
    rw [if_neg hfin, e5]
    simp
  · simp [foldl_ajouter_noeuds, creer_chemin]

/-! ## The sorted queue -/

theorem mem_pq_inserer_apres (n : Nat) (d : Int) (l : List EntreePQ) (x : EntreePQ) :
    x ∈ pq_inserer_apres n d l ↔ x = ⟨n, d⟩ ∨ x ∈ l := by
  induction l with
  | nil => simp [pq_inserer_apres]
  | cons e r ih =>
    unfold pq_inserer_apres
    split
    · simp only [List.mem_cons, ih]; tauto
    · simp only [List.mem_cons]

theorem mem_pq_inserer (pq : List EntreePQ) (n : Nat) (d : Int) (x : EntreePQ) :
    x ∈ pq_inserer pq n d ↔ x = ⟨n, d⟩ ∨ x ∈ pq := by
  cases pq with
  | nil => simp [pq_inserer]
  | cons e r =>
    simp only [pq_inserer]
    split
    · simp only [List.mem_cons]
    · simp only [List.mem_cons, mem_pq_inserer_apres]; tauto

theorem length_pq_inserer_apres (n : Nat) (d : Int) (l : List EntreePQ) :
    (pq_inserer_apres n d l).length = l.length + 1 := by
  induction l with
  | nil => simp [pq_inserer_apres]
  | cons e r ih =>
    unfold pq_inserer_apres
    split <;> simp [ih]

theorem length_pq_inserer (pq : List EntreePQ) (n : Nat) (d : Int) :
    (pq_inserer pq n d).length = pq.length + 1 := by
  cases pq with
  | nil => simp [pq_inserer]
  | cons e r =>
    simp only [pq_inserer]
    split <;> simp [length_pq_inserer_apres]

theorem triee_pq_inserer_apres (n : Nat) (d : Int) (l : List EntreePQ) (h : pq_triee l) :
    pq_triee (pq_inserer_apres n d l) := by
  induction l with
  | nil => simp [pq_inserer_apres, pq_triee]
  | cons e r ih =>
    unfold pq_triee at h ih ⊢
    rw [List.pairwise_cons] at h
    unfold pq_inserer_apres
    split
    · rename_i hle
      rw [List.pairwise_cons]
      refine ⟨?_, ih h.2⟩
      intro x hx
      rcases (mem_pq_inserer_apres n d r x).mp hx with hx | hx
      · rw [hx]; exact hle
      · exact h.1 x hx
    · rename_i hle
      rw [List.pairwise_cons, List.pairwise_cons]
      refine ⟨?_, h⟩
      intro x hx
      rcases List.mem_cons.mp hx with hx | hx
      · rw [hx]; show d ≤ e.distance; omega
      · have := h.1 x hx
        show d ≤ x.distance
        omega

theorem triee_pq_inserer (pq : List EntreePQ) (n : Nat) (d : Int) (h : pq_triee pq) :
    pq_triee (pq_inserer pq n d) := by
  cases pq with
  | nil => simp [pq_inserer, pq_triee]
  | cons e r =>
    simp only [pq_inserer]
    split
    · rename_i hlt
      unfold pq_triee at h ⊢
      rw [List.pairwise_cons]
      refine ⟨?_, h⟩
      rw [List.pairwise_cons] at h
      intro x hx
      rcases List.mem_cons.mp hx with hx | hx
      · rw [hx]; show d ≤ e.distance; omega
      · have := h.1 x hx
        show d ≤ x.distance
        omega
    · rename_i hlt
      have h2 := triee_pq_inserer_apres n d (e :: r) h
      unfold pq_inserer_apres at h2
      rw [if_pos (by omega)] at h2
      exact h2

/-! ## The relaxation loop of Dijkstra -/

theorem voisins_un_pas (g : Graphe) (hb : bien_forme g) (hp : latences_positives g)
    (s u : Nat) (du : Int) (e : EtatDijkstra) (hinv : InvVoisins g s u du e) (a : Arete)
    (ha : a ∈ aretes_de g u) (hlt : fadd (e.dist u) a.latence < e.dist a.destination) :
    InvVoisins g s u du
      { e with
          dist := Function.update e.dist a.destination (fadd (e.dist u) a.latence)
          pred := Function.update e.pred a.destination (some u)
          pq := pq_inserer e.pq a.destination (fadd (e.dist u) a.latence) } := by
  obtain ⟨hbase, hfo, hfc, htr, ⟨hc1, hc2, hc3, hc4⟩, hts, htm, htl⟩ := hinv
  have hlat := latence_positive g hp u a ha
  have hcr := fadd_croit (e.dist u) a.latence (hbase.flottants u) hlat
  have hvV := (arete_origine g hb u a ha).2.2
  have hvt : e.traite a.destination = false := by
    by_contra hc
    have := htl a.destination (by simpa using hc)
    omega
  have huv : u ≠ a.destination := by
    intro h
    rw [← h, hc2] at hvt
    exact Bool.noConfusion hvt
  have hbv := (hbase.bornes a.destination).2
  have hmono : ∀ x, Function.update e.dist a.destination (fadd (e.dist u) a.latence) x ≤ e.dist x := by
    intro x
    by_cases hx : x = a.destination
    · subst hx; rw [Function.update_same]; omega
    · rw [Function.update_noteq hx]
  have hsame : ∀ x, e.traite x = true →
      Function.update e.dist a.destination (fadd (e.dist u) a.latence) x = e.dist x := by
    intro x hx
    have : x ≠ a.destination := by
      intro h
      rw [h, hvt] at hx
      exact Bool.noConfusion hx
    rw [Function.update_noteq this]
  refine ⟨inv_relaxer g s e.dist e.pred hbase u a ha hc3 (by omega) hp hlt, ?_, ?_,
    triee_pq_inserer _ _ _ htr, ⟨?_, hc2, hc3, hc4⟩, ?_, ?_, ?_⟩
  · intro x hx
    rcases (mem_pq_inserer _ _ _ x).mp hx with hx | hx
    · subst hx
      refine ⟨hvV, ?_, ?_⟩
      · show Function.update e.dist a.destination (fadd (e.dist u) a.latence) a.destination ≤ _
        rw [Function.update_same]
      · show fadd (e.dist u) a.latence < INFINI
        omega
    · obtain ⟨h1, h2, h3⟩ := hfo x hx
      exact ⟨h1, le_trans (hmono _) h2, h3⟩
  · intro v hv hvt2
    by_cases hva : v = a.destination
    · subst hva
      refine ⟨⟨a.destination, fadd (e.dist u) a.latence⟩, (mem_pq_inserer _ _ _ _).mpr (Or.inl rfl),
        rfl, ?_⟩
      show _ = Function.update e.dist a.destination (fadd (e.dist u) a.latence) a.destination
      rw [Function.update_same]
    · have hv2 : e.dist v < INFINI := by
        have : Function.update e.dist a.destination (fadd (e.dist u) a.latence) v = e.dist v :=
          Function.update_noteq hva _ _
        rw [← this]; exact hv
      obtain ⟨x, hx1, hx2, hx3⟩ := hfc v hv2 hvt2
      refine ⟨x, (mem_pq_inserer _ _ _ _).mpr (Or.inr hx1), hx2, ?_⟩
      show _ = Function.update e.dist a.destination (fadd (e.dist u) a.latence) v
      rw [Function.update_noteq hva]; exact hx3
  · show Function.update e.dist a.destination (fadd (e.dist u) a.latence) u = du
    rw [Function.update_noteq huv]; exact hc1
  · intro x hx hxu
    obtain ⟨h1, h2⟩ := hts x hx hxu
    show Function.update e.dist a.destination (fadd (e.dist u) a.latence) x < INFINI ∧
      ∀ b ∈ aretes_de g x,
        Function.update e.dist a.destination (fadd (e.dist u) a.latence) b.destination ≤
          fadd (Function.update e.dist a.destination (fadd (e.dist u) a.latence) x) b.latence
    rw [hsame x hx]
    exact ⟨h1, fun b hb2 => le_trans (hmono _) (h2 b hb2)⟩
  · intro x hx y hy
    show Function.update e.dist a.destination (fadd (e.dist u) a.latence) x ≤ y.distance
    rw [hsame x hx]
    rcases (mem_pq_inserer _ _ _ y).mp hy with hy | hy
    · subst hy
      have := htl x hx
      show e.dist x ≤ fadd (e.dist u) a.latence
      omega
    · exact htm x hx y hy
  · intro x hx
    show Function.update e.dist a.destination (fadd (e.dist u) a.latence) x ≤ du
    rw [hsame x hx]
    exact htl x hx

theorem relaxer_voisins_ok (g : Graphe) (hb : bien_forme g) (hp : latences_positives g)
    (s u : Nat) (du : Int) (l : List Arete) (hl : ∀ a ∈ l, a ∈ aretes_de g u)
    (e : EtatDijkstra) (hinv : InvVoisins g s u du e) :
    InvVoisins g s u du (relaxer_voisins u l e) ∧
      (relaxer_voisins u l e).traite = e.traite ∧
      (∀ x, (relaxer_voisins u l e).dist x ≤ e.dist x) ∧
      (∀ a ∈ l, (relaxer_voisins u l e).dist a.destination ≤ fadd du a.latence) ∧
      (relaxer_voisins u l e).pq.length ≤ e.pq.length + l.length := by
  induction l generalizing e with
  | nil => simp [relaxer_voisins, hinv]
  | cons a r ih =>
    have har : ∀ b ∈ r, b ∈ aretes_de g u := fun b hb2 => hl b (List.mem_cons_of_mem _ hb2)
    have ha : a ∈ aretes_de g u := hl a (List.mem_cons_self _ _)
    unfold relaxer_voisins
    simp only
    split
    · rename_i hlt
      have h1 := voisins_un_pas g hb hp s u du e hinv a ha hlt
      obtain ⟨i1, i2, i3, i4, i5⟩ := ih har _ h1
      refine ⟨i1, i2, ?_, ?_, ?_⟩
      · intro x
        refine le_trans (i3 x) ?_
        show Function.update e.dist a.destination (fadd (e.dist u) a.latence) x ≤ e.dist x
        by_cases hx : x = a.destination
        · subst hx; rw [Function.update_same]; omega
        · rw [Function.update_noteq hx]
      · intro b hb2
        rcases List.mem_cons.mp hb2 with hb2 | hb2
        · subst hb2
          refine le_trans (i3 _) ?_
          show Function.update e.dist b.destination (fadd (e.dist u) b.latence) b.destination ≤ _
          rw [Function.update_same, hinv.courant.1]
        · exact i4 b hb2
      · simp only [length_pq_inserer] at i5
        simp only [List.length_cons]
        omega
    · rename_i hlt
      obtain ⟨i1, i2, i3, i4, i5⟩ := ih har e hinv
      refine ⟨i1, i2, i3, ?_, by simp only [List.length_cons]; omega⟩
      intro b hb2
      rcases List.mem_cons.mp hb2 with hb2 | hb2
      · subst hb2
        have := i3 b.destination
        have hdu := hinv.courant.1
        rw [hdu] at hlt
        omega
      · exact i4 b hb2

/-! ## Termination and result of the main loop of Dijkstra -/

theorem somme_update_zero (l : List Nat) (f : Nat → Nat) (u : Nat) (hn : l.Nodup)
    (hu : u ∈ l) : (l.map (Function.update f u 0)).sum + f u = (l.map f).sum := by
  induction l with
  | nil => simp at hu
  | cons x r ih =>
    rw [List.nodup_cons] at hn
    rcases List.mem_cons.mp hu with h | h
    · subst h
      have h2 : r.map (Function.update f u 0) = r.map f := by
        apply List.map_congr_left
        intro y hy
        have : y ≠ u := fun hyu => hn.1 (hyu ▸ hy)
        rw [Function.update_noteq this]
      simp only [List.map_cons, List.sum_cons, Function.update_same, h2]
      omega
    · have hxu : x ≠ u := fun hxu => hn.1 (hxu ▸ h)
      have := ih hn.2 h
      simp only [List.map_cons, List.sum_cons, Function.update_noteq hxu]
      omega

theorem degres_restants_traiter (g : Graphe) (traite : Nat → Bool) (u : Nat)
    (hu : u < g.capacite_max) (ht : traite u = false) :
    degres_restants g (Function.update traite u true) + (aretes_de g u).length =
      degres_restants g traite := by
  unfold degres_restants
  have h := somme_update_zero (List.range g.capacite_max)
    (fun x => if traite x then 0 else (aretes_de g x).length) u (List.nodup_range _)
    (List.mem_range.mpr hu)
  simp only [ht] at h
  rw [← h]
  congr 2
  apply List.map_congr_left
  intro x _
  by_cases hx : x = u
  · subst hx; simp
  · simp [Function.update_noteq hx]

theorem degres_restants_initial (g : Graphe) (hb : bien_forme g) :
    degres_restants g (fun _ => false) = nombre_aretes g := by
  unfold degres_restants nombre_aretes aretes_de noeud
  rw [← hb.1]
  have h : ∀ (d : Noeud) (l : List Noeud),
      (List.range l.length).map (fun u => l.getD u d) = l := by
    intro d l
    apply List.ext_getElem
    · simp
    · intro i h1 h2
      simp only [List.getElem_map, List.getElem_range]
      exact List.getD_eq_getElem _ _ h2
  have h2 : g.noeuds.map (fun n => n.aretes.length) =
      (List.range g.noeuds.length).map
        (fun u => (g.noeuds.getD u noeud_vide).aretes.length) := by
    conv_lhs => rw [← h noeud_vide g.noeuds]
    rw [List.map_map]
    rfl
  rw [h2]
  simp

theorem dijkstra_boucle_ok (g : Graphe) (hb : bien_forme g) (hp : latences_positives g)
    (s : Nat) (fuel : Nat) (e : EtatDijkstra) (hinv : InvDijkstra g s e)
    (hfuel : e.pq.length + degres_restants g e.traite ≤ fuel) :
    ∃ e2, dijkstra_boucle g fuel e = some e2 ∧ InvDijkstra g s e2 ∧ e2.pq = [] := by
  induction fuel generalizing e with
  | zero =>
    have h0 : e.pq = [] := List.length_eq_zero.mp (by omega)
    exact ⟨e, by simp [dijkstra_boucle, pq_vide, h0], hinv, h0⟩
  | succ k ih =>
    cases hpq : e.pq with
    | nil => exact ⟨e, by simp [dijkstra_boucle, pq_vide, hpq], hinv, hpq⟩
    | cons x reste =>
      obtain ⟨hbase, hfo, hfc, htr, hts, htm⟩ := hinv
      rw [hpq] at hfo hfc htr htm hfuel
      have htr2 := htr
      unfold pq_triee at htr2
      rw [List.pairwise_cons] at htr2
      simp only [List.length_cons] at hfuel
      by_cases ht : e.traite x.noeud = true
      · have hinv2 : InvDijkstra g s { e with pq := reste } := by
          refine ⟨hbase, fun y hy => hfo y (List.mem_cons_of_mem _ hy), ?_, htr2.2, hts,
            fun u hu y hy => htm u hu y (List.mem_cons_of_mem _ hy)⟩
          intro v hv hvt
          obtain ⟨y, hy1, hy2, hy3⟩ := hfc v hv hvt
          rcases List.mem_cons.mp hy1 with h | h
          · exfalso
            rw [h] at hy2
            rw [hy2, hvt] at ht
            exact Bool.noConfusion ht
          · exact ⟨y, h, hy2, hy3⟩
        obtain ⟨e2, h1, h2, h3⟩ := ih { e with pq := reste } hinv2 (by
          show reste.length + degres_restants g e.traite ≤ k
          omega)
        refine ⟨e2, ?_, h2, h3⟩
        simp only [dijkstra_boucle, pq_vide, hpq, pq_extraire_min, List.length_cons, ht]
        simpa using h1
      · have htf : e.traite x.noeud = false := by simpa using ht
        obtain ⟨hx1, hx2, hx3⟩ := hfo x (List.mem_cons_self _ _)
        have hdx : x.distance = e.dist x.noeud := by
          obtain ⟨y, hy1, hy2, hy3⟩ := hfc x.noeud (by omega) htf
          rcases List.mem_cons.mp hy1 with h | h
          · rw [h] at hy3; exact hy3
          · have := htr2.1 y h
            omega
        have hinv1 : InvVoisins g s x.noeud x.distance
            { e with pq := reste, traite := Function.update e.traite x.noeud true } := by
          refine ⟨hbase, fun y hy => hfo y (List.mem_cons_of_mem _ hy), ?_, htr2.2,
            ⟨hdx.symm, by simp, hx1, hx3⟩, ?_, ?_, ?_⟩
          · intro v hv hvt
            have hvx : v ≠ x.noeud := by
              intro h
              subst h
              simp at hvt
            have hvt2 : e.traite v = false := by
              have : Function.update e.traite x.noeud true v = e.traite v :=
                Function.update_noteq hvx _ _
              rw [← this]; exact hvt
            obtain ⟨y, hy1, hy2, hy3⟩ := hfc v hv hvt2
            rcases List.mem_cons.mp hy1 with h | h
            · exfalso
              rw [h] at hy2
              exact hvx hy2.symm
            · exact ⟨y, h, hy2, hy3⟩
          · intro y hy hyx
            have : Function.update e.traite x.noeud true y = e.traite y :=
              Function.update_noteq hyx _ _
            exact hts y (by rw [← this]; exact hy)
          · intro y hy z hz
            by_cases hyx : y = x.noeud
            · subst hyx
              have := htr2.1 z hz
              show e.dist x.noeud ≤ z.distance
              omega
            · have : Function.update e.traite x.noeud true y = e.traite y :=
                Function.update_noteq hyx _ _
              exact htm y (by rw [← this]; exact hy) z (List.mem_cons_of_mem _ hz)
          · intro y hy
            by_cases hyx : y = x.noeud
            · subst hyx
              show e.dist x.noeud ≤ x.distance
              omega
            · have : Function.update e.traite x.noeud true y = e.traite y :=
                Function.update_noteq hyx _ _
              exact htm y (by rw [← this]; exact hy) x (List.mem_cons_self _ _)
        obtain ⟨i1, i2, i3, i4, i5⟩ :=
          relaxer_voisins_ok g hb hp s x.noeud x.distance (aretes_de g x.noeud)
            (fun a ha => ha) _ hinv1
        have hinv2 : InvDijkstra g s (relaxer_voisins x.noeud (aretes_de g x.noeud)
            { e with pq := reste, traite := Function.update e.traite x.noeud true }) := by
          obtain ⟨j1, j2, j3, j4, ⟨j5, j6, j7, j8⟩, j9, j10, j11⟩ := i1
          refine ⟨j1, j2, j3, j4, ?_, j10⟩
          intro y hy
          by_cases hyx : y = x.noeud
          · subst hyx
            rw [j5]
            exact ⟨j8, i4⟩
          · exact j9 y hy hyx
        have hdeg := degres_restants_traiter g e.traite x.noeud hx1 htf
        obtain ⟨e2, h1, h2, h3⟩ := ih _ hinv2 (by
          rw [i2]
          simp only at i5 ⊢
          omega)
        refine ⟨e2, ?_, h2, h3⟩
        simp only [dijkstra_boucle, pq_vide, hpq, pq_extraire_min, List.length_cons, htf]
        simpa using h1

theorem inv_dijkstra_initial (g : Graphe) (s : Nat) (hs : s < g.capacite_max) :
    InvDijkstra g s
      { dist := Function.update (fun _ => INFINI) s 0
        pred := fun _ => none
        traite := fun _ => false
        pq := pq_inserer [] s 0 } := by
  have hI := INFINI_pos
  refine ⟨inv_initial g s, ?_, ?_, by simp [pq_inserer, pq_triee], by simp, by simp⟩
  · intro x hx
    simp only [pq_inserer, List.mem_singleton] at hx
    subst hx
    simp
    exact ⟨hs, hI⟩
  · intro v hv _
    by_cases hvs : v = s
    · subst hvs
      exact ⟨⟨v, 0⟩, by simp [pq_inserer], rfl, by simp⟩
    · simp [Function.update_noteq hvs] at hv

/-- With enough fuel `dijkstra_tout` ends in a saturated state. -/
theorem dijkstra_tout_ok (g : Graphe) (hb : bien_forme g) (hp : latences_positives g)
    (s : Nat) (hs : s < g.capacite_max) (fuel : Nat) (hfuel : carburant g ≤ fuel) :
    ∃ dist pred, dijkstra_tout fuel g s = some (dist, pred) ∧ InvRelax g s dist pred ∧
      sature g dist := by
  have h0 := inv_dijkstra_initial g s hs
  obtain ⟨e2, h1, h2, h3⟩ := dijkstra_boucle_ok g hb hp s fuel _ h0 (by
    simp only [pq_inserer, List.length_singleton]
    rw [degres_restants_initial g hb]
    unfold carburant at hfuel
    omega)
  refine ⟨e2.dist, e2.pred, ?_, h2.base, ?_⟩
  · unfold dijkstra_tout
    simp only [h1]
  · intro u hu a ha
    by_cases ht : e2.traite u = true
    · exact (h2.traite_sature u ht).2 a ha
    · exfalso
      obtain ⟨x, hx, _⟩ := h2.file_couvre u hu (by simpa using ht)
      rw [h3] at hx
      simp at hx

/-! ## Dijkstra returns a shortest path -/

theorem noeud_existe_lt (g : Graphe) (u : Nat) (h : noeud_existe g u = true) :
    u < g.capacite_max := by
  unfold noeud_existe at h
  by_contra hc
  rw [if_pos (by omega)] at h
  exact Bool.noConfusion h

/-- With enough fuel `dijkstra` answers: no path when the distance of the
destination is still `INFINI`, otherwise the node sequence of a walk from the
source whose accumulated latency is that distance; the distances are
saturated. -/
theorem dijkstra_resultat (g : Graphe) (hb : bien_forme g) (hp : latences_positives g)
    (s d : Nat) (hs : noeud_existe g s = true) (hd : noeud_existe g d = true) (fuel : Nat)
    (hfuel : carburant g ≤ fuel) :
    ∃ dist pred, InvRelax g s dist pred ∧ sature g dist ∧
      ((dist d = INFINI ∧ dijkstra fuel g s d = some none) ∨
        (dist d ≠ INFINI ∧ ∃ p es, dijkstra fuel g s d = some (some p) ∧ est_marche g s es ∧
          extremite s es = d ∧ p.noeuds = sommets s es ∧ p.latence_totale = cumul 0 es ∧
          p.latence_totale = dist d ∧ es.length < g.capacite_max)) := by
  obtain ⟨dist, pred, h1, h2, h3⟩ :=
    dijkstra_tout_ok g hb hp s (noeud_existe_lt g s hs) fuel hfuel
  refine ⟨dist, pred, h2, h3, ?_⟩
  have hdij : dijkstra fuel g s d = reconstruire_chemin fuel pred dist d := by
    unfold dijkstra
    simp only [hs, hd, h1]
    simp
  by_cases hfin : dist d = INFINI
  · left
    refine ⟨hfin, ?_⟩
    rw [hdij]
    unfold reconstruire_chemin
    rw [if_pos hfin]
  · right
    refine ⟨hfin, ?_⟩
    obtain ⟨p, es, e1, e2⟩ := reconstruire_ok g hp s d dist pred h2 h3 (noeud_existe_lt g d hd)
      hfin fuel (by unfold carburant at hfuel; omega)
    exact ⟨p, es, by rw [hdij]; exact e1, e2⟩

/-- The only walk from node 0 to node 2 of `g_arrondi` is the chain of its two
edges, of total latency `2 ^ 24 + 1`. -/
theorem g_arrondi_marches (es : List Arete) (hm : est_marche g_arrondi 0 es)
    (he : extremite 0 es = 2) : poids es = 16777217 := by
  have h0 : aretes_de g_arrondi 0 = [⟨1, 16777216, 10, 1, 5⟩] := by decide
  have h1 : aretes_de g_arrondi 1 = [⟨2, 1, 10, 1, 5⟩] := by decide
  have h2 : aretes_de g_arrondi 2 = [] := by decide
  cases es with
  | nil => simp [extremite] at he
  | cons a r =>
    obtain ⟨ha, hr⟩ := hm
    rw [h0] at ha
    simp only [List.mem_singleton] at ha
    subst ha
    cases r with
    | nil => simp [extremite] at he
    | cons b r2 =>
      obtain ⟨hb2, hr2⟩ := hr
      simp only at hb2 hr2
      rw [h1] at hb2
      simp only [List.mem_singleton] at hb2
      subst hb2
      cases r2 with
      | nil => simp [poids]
      | cons c r3 =>
        obtain ⟨hc, _⟩ := hr2
        simp only at hc
        rw [h2] at hc
        simp at hc

/-- C1 (as amended): on a graph with non-negative latencies, for active source
and destination joined by a walk whose latency, accumulated edge by edge from
the source in binary32, is below `INFINI`, `dijkstra` returns a path that
starts at the source, ends at the destination and follows edges of the graph;
its `latence_totale` is the latency accumulated along that path and it is the
least accumulated latency of a walk from the source to the destination. -/
theorem dijkstra_plus_court_chemin (g : Graphe) (source destination fuel : Nat)
    (hb : bien_forme g) (hp : latences_positives g)
    (hs : noeud_existe g source = true) (hd : noeud_existe g destination = true)
    (hreach : ∃ es, est_marche g source es ∧ extremite source es = destination ∧
      cumul 0 es < INFINI)
    (hfuel : carburant g ≤ fuel) :
    ∃ p es, dijkstra fuel g source destination = some (some p) ∧
      p.noeuds.head? = some source ∧ p.noeuds.getLast? = some destination ∧
      List.Chain' (relie g) p.noeuds ∧
      est_marche g source es ∧ extremite source es = destination ∧
      p.noeuds = sommets source es ∧ p.latence_totale = cumul 0 es ∧
      ∀ es2, est_marche g source es2 → extremite source es2 = destination →
        p.latence_totale ≤ cumul 0 es2 := by
  obtain ⟨dist, pred, h2, h3, h4⟩ := dijkstra_resultat g hb hp source destination hs hd fuel hfuel
  have hmin : ∀ es2, est_marche g source es2 → extremite source es2 = destination →
      dist destination ≤ cumul 0 es2 := by
    intro es2 m1 m2
    have := sature_minimal g hp source dist pred h2 h3 es2 m1
    rw [m2] at this
    exact this
  rcases h4 with ⟨hinf, _⟩ | ⟨_, p, es, e1, e2, e3, e4, e5, e6, _⟩
  · exfalso
    obtain ⟨es, r1, r2, r3⟩ := hreach
    have := hmin es r1 r2
    omega
  · refine ⟨p, es, e1, ?_, ?_, ?_, e2, e3, e4, e5, ?_⟩
    · rw [e4]; rfl
    · rw [e4, sommets_dernier, e3]
    · rw [e4]; exact sommets_chaine g source es e2
    · intro es2 m1 m2
      rw [e6]
      exact hmin es2 m1 m2

/-- Instance of C1 on the chain `0 -> 1 -> 2`. -/
theorem dijkstra_plus_court_chemin_witness :
    (bien_forme g_chaine3 ∧ latences_positives g_chaine3 ∧ noeud_existe g_chaine3 0 = true ∧
      noeud_existe g_chaine3 2 = true ∧ carburant g_chaine3 ≤ 10 ∧
      dijkstra 10 g_chaine3 0 2 = some (some ⟨[0, 1, 2], 3, 2, 0, 0, 0⟩)) ∧
    ∃ p es, dijkstra 10 g_chaine3 0 2 = some (some p) ∧
      p.noeuds.head? = some 0 ∧ p.noeuds.getLast? = some 2 ∧
      List.Chain' (relie g_chaine3) p.noeuds ∧
      est_marche g_chaine3 0 es ∧ extremite 0 es = 2 ∧
      p.noeuds = sommets 0 es ∧ p.latence_totale = cumul 0 es ∧
      ∀ es2, est_marche g_chaine3 0 es2 → extremite 0 es2 = 2 →
        p.latence_totale ≤ cumul 0 es2 :=
  ⟨by decide,
   dijkstra_plus_court_chemin g_chaine3 0 2 10 (by decide) (by decide) (by decide) (by decide)
    ⟨[⟨1, 1, 10, 1, 5⟩, ⟨2, 1, 10, 1, 5⟩], by decide⟩ (by decide)⟩

/-- C1 as stated fails, in two ways. In `g_infini` all latencies are
non-negative, both nodes are active and node 1 is reached from node 0 by one
edge, yet `dijkstra` returns no path, the latency of that edge being the
sentinel `INFINI`. In `g_arrondi` every walk from node 0 to node 2 has the
total latency `2 ^ 24 + 1`, yet the path returned has the `latence_totale`
`2 ^ 24`: the sum is made in binary32, which rounds it. -/
theorem dijkstra_sentinelle_contre_exemple :
    (bien_forme g_infini ∧ latences_positives g_infini ∧ noeud_existe g_infini 0 = true ∧
      noeud_existe g_infini 1 = true ∧
      (est_marche g_infini 0 [⟨1, INFINI, 10, 1, 5⟩] ∧ extremite 0 [⟨1, INFINI, 10, 1, 5⟩] = 1) ∧
      carburant g_infini ≤ 10 ∧ dijkstra 10 g_infini 0 1 = some none) ∧
    (bien_forme g_arrondi ∧ latences_positives g_arrondi ∧ noeud_existe g_arrondi 0 = true ∧
      noeud_existe g_arrondi 2 = true ∧
      (est_marche g_arrondi 0 [⟨1, 16777216, 10, 1, 5⟩, ⟨2, 1, 10, 1, 5⟩] ∧
        extremite 0 [⟨1, 16777216, 10, 1, 5⟩, ⟨2, 1, 10, 1, 5⟩] = 2) ∧
      (∀ es, est_marche g_arrondi 0 es → extremite 0 es = 2 → poids es = 16777217) ∧
      carburant g_arrondi ≤ 10 ∧
      dijkstra 10 g_arrondi 0 2 = some (some ⟨[0, 1, 2], 3, 16777216, 0, 0, 0⟩)) := by
  exact ⟨by decide, by decide, by decide, by decide, by decide, by decide, g_arrondi_marches,
    by decide, by decide⟩

/-! ## Bellman-Ford on non-negative latencies -/

theorem bf_relaxer_ok (g : Graphe) (hp : latences_positives g) (s u : Nat)
    (hu : u < g.capacite_max) (l : List Arete) (hl : ∀ a ∈ l, a ∈ aretes_de g u) (e : EtatBF)
    (hinv : InvRelax g s e.dist e.pred) (hdu : e.dist u < INFINI) :
    InvRelax g s (bf_relaxer u l e).dist (bf_relaxer u l e).pred ∧
      (∀ x, (bf_relaxer u l e).dist x ≤ e.dist x) ∧
      (∀ a ∈ l, (bf_relaxer u l e).dist a.destination ≤ fadd (e.dist u) a.latence) ∧
      ((bf_relaxer u l e).modification = false →
        e.modification = false ∧ (bf_relaxer u l e).dist = e.dist ∧
          (bf_relaxer u l e).pred = e.pred) := by
  induction l generalizing e with
  | nil => simp [bf_relaxer, hinv]
  | cons a r ih =>
    have har : ∀ b ∈ r, b ∈ aretes_de g u := fun b hb2 => hl b (List.mem_cons_of_mem _ hb2)
    have ha : a ∈ aretes_de g u := hl a (List.mem_cons_self _ _)
    unfold bf_relaxer
    simp only
    split
    · rename_i hlt
      have hmono : ∀ x, Function.update e.dist a.destination (fadd (e.dist u) a.latence) x ≤
          e.dist x := by
        intro x
        by_cases hx : x = a.destination
        · subst hx; rw [Function.update_same]; omega
        · rw [Function.update_noteq hx]
      have h1 := inv_relaxer g s e.dist e.pred hinv u a ha hu hdu hp hlt
      obtain ⟨i1, i2, i3, i4⟩ := ih har
        { dist := Function.update e.dist a.destination (fadd (e.dist u) a.latence)
          pred := Function.update e.pred a.destination (some u)
          modification := true } h1 (lt_of_le_of_lt (hmono u) hdu)
      refine ⟨i1, fun x => le_trans (i2 x) (hmono x), ?_, ?_⟩
      · intro b hb2
        rcases List.mem_cons.mp hb2 with hb2 | hb2
        · subst hb2
          refine le_trans (i2 _) ?_
          show Function.update e.dist b.destination (fadd (e.dist u) b.latence) b.destination ≤ _
          rw [Function.update_same]
        · have h3 := i3 b hb2
          have h4 := fadd_mono _ _ b.latence (hmono u)
          simp only at h3 h4
          omega
      · intro hm
        have := (i4 hm).1
        simp at this
    · rename_i hlt
      obtain ⟨i1, i2, i3, i4⟩ := ih har e hinv hdu
      refine ⟨i1, i2, ?_, i4⟩
      intro b hb2
      rcases List.mem_cons.mp hb2 with hb2 | hb2
      · subst hb2
        have := i2 b.destination
        omega
      · exact i3 b hb2

theorem bf_passe_ok (g : Graphe) (hp : latences_positives g) (s : Nat) (us : List Nat)
    (hus : ∀ u ∈ us, u < g.capacite_max) (e : EtatBF) (hinv : InvRelax g s e.dist e.pred) :
    InvRelax g s (bf_passe g us e).dist (bf_passe g us e).pred ∧
      (∀ x, (bf_passe g us e).dist x ≤ e.dist x) ∧
      (∀ u ∈ us, (noeud g u).actif = true → e.dist u < INFINI → ∀ a ∈ aretes_de g u,
        (bf_passe g us e).dist a.destination ≤ fadd (e.dist u) a.latence) ∧
      ((bf_passe g us e).modification = false →
        e.modification = false ∧ (bf_passe g us e).dist = e.dist ∧
          (bf_passe g us e).pred = e.pred) := by
  induction us generalizing e with
  | nil => simp [bf_passe, hinv]
  | cons u r ih =>
    have hr : ∀ x ∈ r, x < g.capacite_max := fun x hx => hus x (List.mem_cons_of_mem _ hx)
    have huV : u < g.capacite_max := hus u (List.mem_cons_self _ _)
    unfold bf_passe
    split
    · rename_i hskip
      obtain ⟨i1, i2, i3, i4⟩ := ih hr e hinv
      refine ⟨i1, i2, ?_, i4⟩
      intro x hx hact hdx a ha
      rcases List.mem_cons.mp hx with hx | hx
      · exfalso
        subst hx
        simp only [Bool.or_eq_true, Bool.not_eq_true', decide_eq_true_eq] at hskip
        rcases hskip with h | h
        · rw [h] at hact; exact Bool.noConfusion hact
        · omega
      · exact i3 x hx hact hdx a ha
    · rename_i hskip
      simp only [Bool.or_eq_true, Bool.not_eq_true', decide_eq_true_eq, not_or] at hskip
      have hdu : e.dist u < INFINI := by
        have := (hinv.bornes u).2
        have := hskip.2
        omega
      obtain ⟨j1, j2, j3, j4⟩ :=
        bf_relaxer_ok g hp s u huV (aretes_de g u) (fun a ha => ha) e hinv hdu
      obtain ⟨i1, i2, i3, i4⟩ := ih hr _ j1
      refine ⟨i1, fun x => le_trans (i2 x) (j2 x), ?_, ?_⟩
      · intro x hx hact hdx a ha
        rcases List.mem_cons.mp hx with hx | hx
        · subst hx
          exact le_trans (i2 _) (j3 a ha)
        · have := i3 x hx hact (lt_of_le_of_lt (j2 x) hdx) a ha
          have := fadd_mono _ _ a.latence (j2 x)
          omega
      · intro hm
        obtain ⟨k1, k2, k3⟩ := i4 hm
        obtain ⟨l1, l2, l3⟩ := j4 k1
        exact ⟨l1, by rw [k2, l2], by rw [k3, l3]⟩

theorem marche_decompose (es : List Arete) :
    es = [] ∨ ∃ es0 a, es = es0 ++ [a] := by
  rcases List.eq_nil_or_concat es with h | ⟨l, a, h⟩
  · exact Or.inl h
  · exact Or.inr ⟨l, a, by rw [h, List.concat_eq_append]⟩

theorem borne_sauts_passe (g : Graphe) (hb : bien_forme g) (hp : latences_positives g)
    (s k : Nat) (e : EtatBF) (hinv : InvRelax g s e.dist e.pred)
    (hk : borne_sauts g s k e.dist) :
    borne_sauts g s (k + 1) (bf_passe g (List.range g.capacite_max) e).dist := by
  obtain ⟨i1, i2, i3, _⟩ :=
    bf_passe_ok g hp s (List.range g.capacite_max) (fun u hu => List.mem_range.mp hu) e hinv
  intro es hm hlen
  rcases marche_decompose es with h | ⟨es0, a, h⟩
  · subst h
    simp only [extremite, cumul, List.foldl_nil]
    have := i2 s
    rw [hinv.source.1] at this
    exact this
  · subst h
    rw [est_marche_append] at hm
    obtain ⟨hm0, ha, _⟩ := hm
    rw [cumul_append_un, extremite_append]
    simp only [extremite]
    have hlat := latence_positive g hp _ a ha
    have h0 := hk es0 hm0 (by simp at hlen; omega)
    obtain ⟨o1, o2, _⟩ := arete_origine g hb _ a ha
    by_cases hfin : e.dist (extremite s es0) < INFINI
    · have := i3 _ (List.mem_range.mpr o1) o2 hfin a ha
      have := fadd_mono _ _ a.latence h0
      omega
    · have := fadd_croit _ a.latence (cumul_flottant es0 0 flottant_zero) hlat
      have := (i1.bornes a.destination).2
      omega

theorem bf_iterations_ok (g : Graphe) (hb : bien_forme g) (hp : latences_positives g)
    (s : Nat) (n k : Nat) (dist : Nat → Int) (pred : Nat → Option Nat)
    (hinv : InvRelax g s dist pred) (hk : borne_sauts g s k dist) :
    InvRelax g s (bf_iterations g n dist pred).1 (bf_iterations g n dist pred).2 ∧
      borne_sauts g s (k + n) (bf_iterations g n dist pred).1 := by
  induction n generalizing k dist pred with
  | zero => exact ⟨hinv, hk⟩
  | succ m ih =>
    obtain ⟨i1, _, _, i4⟩ := bf_passe_ok g hp s (List.range g.capacite_max)
      (fun u hu => List.mem_range.mp hu) ⟨dist, pred, false⟩ hinv
    have hpas : ∀ j, borne_sauts g s j dist →
        borne_sauts g s (j + 1) (bf_passe g (List.range g.capacite_max) ⟨dist, pred, false⟩).dist :=
      fun j hj => borne_sauts_passe g hb hp s j ⟨dist, pred, false⟩ hinv hj
    unfold bf_iterations
    simp only
    split
    · rename_i hmod
      simp only [Bool.not_eq_true'] at hmod
      obtain ⟨_, k2, k3⟩ := i4 hmod
      simp only at k2 k3
      refine ⟨i1, ?_⟩
      rw [k2] at hpas ⊢
      have hall : ∀ j, borne_sauts g s (k + j) dist := by
        intro j
        induction j with
        | zero => exact hk
        | succ j ihj => exact hpas _ ihj
      exact hall (m + 1)
    · have := ih (k + 1) _ _ i1 (hpas k hk)
      rw [show k + (m + 1) = k + 1 + m by omega]
      exact this

theorem extremite_lt (g : Graphe) (hb : bien_forme g) (es : List Arete) (u : Nat)
    (hu : u < g.capacite_max) (hm : est_marche g u es) : extremite u es < g.capacite_max := by
  induction es generalizing u with
  | nil => exact hu
  | cons a r ih =>
    obtain ⟨h1, h2⟩ := hm
    exact ih _ (arete_origine g hb u a h1).2.2 h2

theorem bf_detecter_sature (g : Graphe) (dist : Nat → Int)
    (hbn : ∀ v, 0 ≤ dist v ∧ dist v ≤ INFINI) (hs : sature g dist) (us : List Nat) :
    bf_detecter g dist us = false := by
  have hrel : ∀ (u : Nat) (l : List Arete), dist u < INFINI → (∀ a ∈ l, a ∈ aretes_de g u) →
      bf_arete_relaxable dist u l = false := by
    intro u l hu
    induction l with
    | nil => intro _; rfl
    | cons a r ih =>
      intro hl
      unfold bf_arete_relaxable
      have := hs u hu a (hl a (List.mem_cons_self _ _))
      rw [if_neg (by omega)]
      exact ih (fun b hb2 => hl b (List.mem_cons_of_mem _ hb2))
  induction us with
  | nil => rfl
  | cons u r ih =>
    unfold bf_detecter
    split
    · exact ih
    · rename_i hskip
      simp only [Bool.or_eq_true, Bool.not_eq_true', decide_eq_true_eq, not_or] at hskip
      have hdu : dist u < INFINI := by
        have := (hbn u).2
        have := hskip.2
        omega
      rw [hrel u _ hdu (fun a ha => ha)]
      simpa using ih

/-- On non-negative latencies the relaxation passes of `bellman_ford` end in a
saturated state. -/
theorem bf_iterations_sature (g : Graphe) (hb : bien_forme g) (hp : latences_positives g)
    (s : Nat) (hs : s < g.capacite_max) :
    InvRelax g s
      (bf_iterations g (g.capacite_max - 1) (Function.update (fun _ => INFINI) s 0)
        (fun _ => none)).1
      (bf_iterations g (g.capacite_max - 1) (Function.update (fun _ => INFINI) s 0)
        (fun _ => none)).2 ∧
    sature g (bf_iterations g (g.capacite_max - 1) (Function.update (fun _ => INFINI) s 0)
        (fun _ => none)).1 := by
  have h0 : borne_sauts g s 0 (Function.update (fun _ => INFINI) s 0) := by
    intro es _ hlen
    have : es = [] := List.length_eq_zero.mp (by omega)
    subst this
    simp [extremite, cumul]
  obtain ⟨i1, i2⟩ := bf_iterations_ok g hb hp s (g.capacite_max - 1) 0 _ _ (inv_initial g s) h0
  refine ⟨i1, ?_⟩
  obtain ⟨dist, pred, _, d2, d3⟩ := dijkstra_tout_ok g hb hp s hs (carburant g) (le_refl _)
  generalize (bf_iterations g (g.capacite_max - 1) (Function.update (fun _ => INFINI) s 0)
        (fun _ => none)).1 = db at i1 i2 ⊢
  generalize (bf_iterations g (g.capacite_max - 1) (Function.update (fun _ => INFINI) s 0)
        (fun _ => none)).2 = pb at i1
  have heq : ∀ v, db v = dist v := by
    intro v
    have b1 := i1.bornes v
    have b2 := d2.bornes v
    have hle : dist v < INFINI → db v ≤ dist v := by
      intro hv
      obtain ⟨es0, m1, m2, _⟩ := d2.atteint v hv
      have hvV : v < g.capacite_max := by
        rw [← m2]; exact extremite_lt g hb es0 s hs m1
      obtain ⟨p, es, _, e2, e3, _, e5, e6, e7⟩ :=
        reconstruire_ok g hp s v dist pred d2 d3 hvV (by omega) g.capacite_max (le_refl _)
      have := i2 es e2 (by omega)
      rw [e3] at this
      omega
    have hge : db v < INFINI → dist v ≤ db v := by
      intro hv
      obtain ⟨es, m1, m2, m3⟩ := i1.atteint v hv
      have := sature_minimal g hp s dist pred d2 d3 es m1
      rw [m2] at this
      omega
    by_cases c1 : dist v < INFINI
    · have := hle c1
      have := hge (by omega)
      omega
    · by_cases c2 : db v < INFINI
      · have := hge c2
        omega
      · omega
  intro u hu a ha
  rw [heq u] at hu ⊢
  rw [heq a.destination]
  exact d3 u hu a ha

/-- With enough fuel and non-negative latencies `bellman_ford` leaves the flag
at 0 and answers from a saturated state. -/
theorem bellman_ford_resultat (g : Graphe) (hb : bien_forme g) (hp : latences_positives g)
    (s d : Nat) (hs : noeud_existe g s = true) (hd : noeud_existe g d = true) (fuel : Nat)
    (hfuel : carburant g ≤ fuel) :
    ∃ dist pred, InvRelax g s dist pred ∧ sature g dist ∧
      ((dist d = INFINI ∧ bellman_ford fuel g s d = some (none, 0)) ∨
        (dist d ≠ INFINI ∧ ∃ p es, bellman_ford fuel g s d = some (some p, 0) ∧
          est_marche g s es ∧ extremite s es = d ∧ p.noeuds = sommets s es ∧
          p.latence_totale = cumul 0 es ∧ p.latence_totale = dist d)) := by
  obtain ⟨i1, i2⟩ := bf_iterations_sature g hb hp s (noeud_existe_lt g s hs)
  have hdet := bf_detecter_sature g _ i1.bornes i2 (List.range g.capacite_max)
  refine ⟨_, _, i1, i2, ?_⟩
  have hbf : bellman_ford fuel g s d =
      (reconstruire_chemin fuel
        (bf_iterations g (g.capacite_max - 1) (Function.update (fun _ => INFINI) s 0)
          (fun _ => none)).2
        (bf_iterations g (g.capacite_max - 1) (Function.update (fun _ => INFINI) s 0)
          (fun _ => none)).1 d).map (fun c => (c, 0)) := by
    unfold bellman_ford
    simp only [hdet, Bool.false_eq_true, if_false,
      if_neg (not_le.mpr (noeud_existe_lt g s hs)), if_neg (not_le.mpr (noeud_existe_lt g d hd))]
    cases reconstruire_chemin fuel
        (bf_iterations g (g.capacite_max - 1) (Function.update (fun _ => INFINI) s 0)
          (fun _ => none)).2
        (bf_iterations g (g.capacite_max - 1) (Function.update (fun _ => INFINI) s 0)
          (fun _ => none)).1 d <;> rfl
  generalize (bf_iterations g (g.capacite_max - 1) (Function.update (fun _ => INFINI) s 0)
        (fun _ => none)).1 = db at i1 i2 hbf ⊢
  generalize (bf_iterations g (g.capacite_max - 1) (Function.update (fun _ => INFINI) s 0)
        (fun _ => none)).2 = pb at i1 hbf ⊢
  by_cases hfin : db d = INFINI
  · left
    refine ⟨hfin, ?_⟩
    rw [hbf]
    unfold reconstruire_chemin
    rw [if_pos hfin]
    rfl
  · right
    refine ⟨hfin, ?_⟩
    obtain ⟨p, es, e1, e2, e3, e4, e5, e6, _⟩ := reconstruire_ok g hp s d db pb i1 i2
      (noeud_existe_lt g d hd) hfin fuel (by unfold carburant at hfuel; omega)
    exact ⟨p, es, by rw [hbf, e1]; rfl, e2, e3, e4, e5, e6⟩

/-- C2: on a graph with non-negative latencies and for active source and
destination, `dijkstra` and `bellman_ford` both answer, one returns no path
exactly when the other does, the two returned paths have the same
`latence_totale`, and `bellman_ford` leaves the negative-cycle flag at 0. -/
theorem dijkstra_bellman_ford_accord (g : Graphe) (source destination fuel : Nat)
    (hb : bien_forme g) (hp : latences_positives g)
    (hs : noeud_existe g source = true) (hd : noeud_existe g destination = true)
    (hfuel : carburant g ≤ fuel) :
    ∃ r1 r2, dijkstra fuel g source destination = some r1 ∧
      bellman_ford fuel g source destination = some (r2, 0) ∧
      (r1 = none ↔ r2 = none) ∧
      ∀ p1 p2, r1 = some p1 → r2 = some p2 → p1.latence_totale = p2.latence_totale := by
  obtain ⟨d1, p1, a1, a2, a3⟩ := dijkstra_resultat g hb hp source destination hs hd fuel hfuel
  obtain ⟨d2, p2, b1, b2, b3⟩ :=
    bellman_ford_resultat g hb hp source destination hs hd fuel hfuel
  have heq := sature_unique g hp source d1 d2 p1 p2 a1 b1 a2 b2 destination
  rcases a3 with ⟨c1, c2⟩ | ⟨c1, q1, es1, c2, _, _, _, _, c3, _⟩
  · rcases b3 with ⟨e1, e2⟩ | ⟨e1, _⟩
    · exact ⟨none, none, c2, e2, Iff.rfl, fun _ _ h => Option.noConfusion h⟩
    · exact absurd (heq ▸ c1) e1
  · rcases b3 with ⟨e1, _⟩ | ⟨e1, q2, es2, e2, _, _, _, _, e3⟩
    · exact absurd (heq ▸ e1) c1
    · refine ⟨some q1, some q2, c2, e2, by simp, ?_⟩
      intro x y hx hy
      rw [← Option.some.inj hx, ← Option.some.inj hy, c3, e3, heq]

/-- Instance of C2 on the chain `0 -> 1 -> 2`. -/
theorem dijkstra_bellman_ford_accord_witness :
    (bien_forme g_chaine3 ∧ latences_positives g_chaine3 ∧ noeud_existe g_chaine3 0 = true ∧
      noeud_existe g_chaine3 2 = true ∧ carburant g_chaine3 ≤ 10) ∧
    ∃ r1 r2, dijkstra 10 g_chaine3 0 2 = some r1 ∧
      bellman_ford 10 g_chaine3 0 2 = some (r2, 0) ∧
      (r1 = none ↔ r2 = none) ∧
      ∀ p1 p2, r1 = some p1 → r2 = some p2 → p1.latence_totale = p2.latence_totale :=
  ⟨by decide,
   dijkstra_bellman_ford_accord g_chaine3 0 2 10 (by decide) (by decide) (by decide)
     (by decide) (by decide)⟩

/-! ## Bellman-Ford and negative cycles -/

theorem bf_relaxer_exact_mono (u : Nat) (l : List Arete) (e : EtatBF) (x : Nat) :
    (bf_relaxer_exact u l e).dist x ≤ e.dist x := by
  induction l generalizing e with
  | nil => simp [bf_relaxer_exact]
  | cons a r ih =>
    unfold bf_relaxer_exact
    simp only
    split
    · rename_i hlt
      refine le_trans (ih _) ?_
      show Function.update e.dist a.destination (e.dist u + a.latence) x ≤ e.dist x
      by_cases hx : x = a.destination
      · subst hx; rw [Function.update_same]; omega
      · rw [Function.update_noteq hx]
    · exact ih e

theorem bf_passe_exact_mono (g : Graphe) (us : List Nat) (e : EtatBF) (x : Nat) :
    (bf_passe_exact g us e).dist x ≤ e.dist x := by
  induction us generalizing e with
  | nil => simp [bf_passe_exact]
  | cons u r ih =>
    unfold bf_passe_exact
    split
    · exact ih e
    · exact le_trans (ih _) (bf_relaxer_exact_mono u _ e x)

theorem bf_iterations_exact_mono (g : Graphe) (n : Nat) (dist : Nat → Int)
    (pred : Nat → Option Nat) (x : Nat) : (bf_iterations_exact g n dist pred).1 x ≤ dist x := by
  induction n generalizing dist pred with
  | zero => simp [bf_iterations_exact]
  | succ m ih =>
    unfold bf_iterations_exact
    simp only
    split
    · exact bf_passe_exact_mono g _ ⟨dist, pred, false⟩ x
    · exact le_trans (ih _ _) (bf_passe_exact_mono g _ ⟨dist, pred, false⟩ x)

theorem bf_arete_relaxable_exact_false (dist : Nat → Int) (u : Nat) (l : List Arete)
    (h : bf_arete_relaxable_exact dist u l = false) (a : Arete) (ha : a ∈ l) :
    dist a.destination ≤ dist u + a.latence := by
  induction l with
  | nil => simp at ha
  | cons b r ih =>
    unfold bf_arete_relaxable_exact at h
    split at h
    · exact Bool.noConfusion h
    · rename_i hlt
      rcases List.mem_cons.mp ha with hab | hab
      · subst hab; omega
      · exact ih h hab

theorem bf_detecter_exact_false (g : Graphe) (dist : Nat → Int) (us : List Nat)
    (h : bf_detecter_exact g dist us = false) (u : Nat) (hu : u ∈ us)
    (hact : (noeud g u).actif = true) (hdu : dist u ≠ INFINI) (a : Arete)
    (ha : a ∈ aretes_de g u) : dist a.destination ≤ dist u + a.latence := by
  induction us with
  | nil => simp at hu
  | cons x r ih =>
    unfold bf_detecter_exact at h
    split at h
    · rename_i hskip
      rcases List.mem_cons.mp hu with hux | hux
      · exfalso
        subst hux
        simp only [Bool.or_eq_true, Bool.not_eq_true', decide_eq_true_eq] at hskip
        rcases hskip with h1 | h1
        · rw [h1] at hact; exact Bool.noConfusion hact
        · exact hdu h1
      · exact ih h hux
    · split at h
      · exact Bool.noConfusion h
      · rename_i hrel
        rcases List.mem_cons.mp hu with hux | hux
        · subst hux
          exact bf_arete_relaxable_exact_false dist u _ (by simpa using hrel) a ha
        · exact ih h hux

/-! ## Bellman-Ford: sums that are not rounded -/

theorem distances_bornees_mono (c d : Int) (dist : Nat → Int) (h : c ≤ d)
    (hb : distances_bornees c dist) : distances_bornees d dist := by
  intro v
  rcases hb v with h1 | h1
  · exact Or.inl h1
  · exact Or.inr ⟨by omega, by omega⟩

theorem distances_bornees_initial (s : Nat) :
    distances_bornees 0 (Function.update (fun _ => INFINI) s 0) := by
  intro v
  by_cases hv : v = s
  · subst hv; right; simp
  · left; simp [Function.update_noteq hv]

theorem deux_puissance_24_lt_INFINI : (2 : Int) ^ 24 < INFINI := by decide

/-- While the distances and the latencies are small enough, the relaxation
loop of the code makes the same updates as the loop without rounding. -/
theorem bf_relaxer_sans_arrondi (M : Int) (hM0 : 0 ≤ M) (u : Nat) (l : List Arete)
    (hl : ∀ a ∈ l, -M ≤ a.latence ∧ a.latence ≤ M) (c : Int) (e : EtatBF) (hc : 0 ≤ c)
    (hb : distances_bornees c e.dist) (hu : e.dist u ≠ INFINI)
    (hlim : c + l.length * M ≤ 2 ^ 24) :
    bf_relaxer u l e = bf_relaxer_exact u l e ∧
      distances_bornees (c + l.length * M) (bf_relaxer u l e).dist ∧
      (bf_relaxer u l e).dist u ≠ INFINI := by
  have hI := deux_puissance_24_lt_INFINI
  have hIF := INFINI_lt_INF
  induction l generalizing c e with
  | nil =>
    refine ⟨rfl, ?_, hu⟩
    simpa [bf_relaxer] using hb
  | cons a r ih =>
    have hr : ∀ b ∈ r, -M ≤ b.latence ∧ b.latence ≤ M :=
      fun b hb2 => hl b (List.mem_cons_of_mem _ hb2)
    obtain ⟨ha1, ha2⟩ := hl a (List.mem_cons_self _ _)
    have hlen : (((a :: r).length : Nat) : Int) * M = (r.length : Int) * M + M := by
      simp only [List.length_cons]
      push_cast
      ring
    rw [hlen] at hlim ⊢
    have hrM : 0 ≤ (r.length : Int) * M := mul_nonneg (Int.ofNat_nonneg _) hM0
    have hdu : -c ≤ e.dist u ∧ e.dist u ≤ c := by
      rcases hb u with h | h
      · exact absurd h hu
      · exact h
    have hex : fadd (e.dist u) a.latence = e.dist u + a.latence :=
      fadd_exact _ _ (by omega) (by omega) (by omega) (by omega) (by omega) (by omega)
    have hb1 : distances_bornees (c + M) e.dist := distances_bornees_mono c _ _ (by omega) hb
    unfold bf_relaxer bf_relaxer_exact
    simp only [hex]
    split
    · have hb2 : distances_bornees (c + M)
          (Function.update e.dist a.destination (e.dist u + a.latence)) := by
        intro v
        by_cases hv : v = a.destination
        · subst hv; right; rw [Function.update_same]; omega
        · rw [Function.update_noteq hv]; exact hb1 v
      have hu2 : Function.update e.dist a.destination (e.dist u + a.latence) u ≠ INFINI := by
        by_cases hv : u = a.destination
        · rw [hv, Function.update_same]; rw [← hv]; omega
        · rw [Function.update_noteq hv]; exact hu
      obtain ⟨i1, i2, i3⟩ := ih hr (c + M)
        { dist := Function.update e.dist a.destination (e.dist u + a.latence)
          pred := Function.update e.pred a.destination (some u)
          modification := true } (by omega) hb2 hu2 (by omega)
      rw [show c + ((r.length : Int) * M + M) = c + M + (r.length : Int) * M by ring]
      exact ⟨i1, i2, i3⟩
    · obtain ⟨i1, i2, i3⟩ := ih hr (c + M) e (by omega) hb1 hu (by omega)
      rw [show c + ((r.length : Int) * M + M) = c + M + (r.length : Int) * M by ring]
      exact ⟨i1, i2, i3⟩

theorem latences_bornees_arete (g : Graphe) (M : Int) (hM : latences_bornees g M) (u : Nat)
    (a : Arete) (ha : a ∈ aretes_de g u) : -M ≤ a.latence ∧ a.latence ≤ M :=
  hM _ (arete_noeud_mem g u a ha).1 a ha

theorem degres_cons (g : Graphe) (u : Nat) (us : List Nat) :
    degres g (u :: us) = (aretes_de g u).length + degres g us := by
  simp [degres]

theorem bf_passe_sans_arrondi (g : Graphe) (M : Int) (hM0 : 0 ≤ M) (hM : latences_bornees g M)
    (us : List Nat) (c : Int) (e : EtatBF) (hc : 0 ≤ c) (hb : distances_bornees c e.dist)
    (hlim : c + degres g us * M ≤ 2 ^ 24) :
    bf_passe g us e = bf_passe_exact g us e ∧
      distances_bornees (c + degres g us * M) (bf_passe g us e).dist := by
  induction us generalizing c e with
  | nil =>
    refine ⟨rfl, ?_⟩
    simpa [bf_passe, degres] using hb
  | cons u r ih =>
    have hdeg : ((degres g (u :: r) : Nat) : Int) * M =
        ((aretes_de g u).length : Int) * M + (degres g r : Int) * M := by
      rw [degres_cons]
      push_cast
      ring
    rw [hdeg] at hlim ⊢
    have h1 : 0 ≤ ((aretes_de g u).length : Int) * M := mul_nonneg (Int.ofNat_nonneg _) hM0
    have h2 : 0 ≤ (degres g r : Int) * M := mul_nonneg (Int.ofNat_nonneg _) hM0
    unfold bf_passe bf_passe_exact
    split
    · obtain ⟨i1, i2⟩ := ih (c + ((aretes_de g u).length : Int) * M) e (by omega)
        (distances_bornees_mono c _ _ (by omega) hb) (by omega)
      rw [← add_assoc]
      exact ⟨i1, i2⟩
    · rename_i hskip
      simp only [Bool.or_eq_true, Bool.not_eq_true', decide_eq_true_eq, not_or] at hskip
      obtain ⟨j1, j2, _⟩ := bf_relaxer_sans_arrondi M hM0 u (aretes_de g u)
        (fun a ha => latences_bornees_arete g M hM u a ha) c e hc hb hskip.2 (by omega)
      obtain ⟨i1, i2⟩ := ih (c + ((aretes_de g u).length : Int) * M) _ (by omega) j2 (by omega)
      rw [← add_assoc, ← j1]
      exact ⟨i1, i2⟩

theorem bf_iterations_sans_arrondi (g : Graphe) (M : Int) (hM0 : 0 ≤ M)
    (hM : latences_bornees g M) (n : Nat) (c : Int) (dist : Nat → Int)
    (pred : Nat → Option Nat) (hc : 0 ≤ c) (hb : distances_bornees c dist)
    (hlim : c + n * (degres g (List.range g.capacite_max) * M) ≤ 2 ^ 24) :
    bf_iterations g n dist pred = bf_iterations_exact g n dist pred ∧
      distances_bornees (c + n * (degres g (List.range g.capacite_max) * M))
        (bf_iterations g n dist pred).1 := by
  induction n generalizing c dist pred with
  | zero =>
    refine ⟨rfl, ?_⟩
    simpa [bf_iterations] using hb
  | succ m ih =>
    have hE : 0 ≤ (degres g (List.range g.capacite_max) : Int) * M :=
      mul_nonneg (Int.ofNat_nonneg _) hM0
    have hm : 0 ≤ (m : Int) * ((degres g (List.range g.capacite_max) : Int) * M) :=
      mul_nonneg (Int.ofNat_nonneg _) hE
    have hsucc : (((m + 1 : Nat) : Int)) * ((degres g (List.range g.capacite_max) : Int) * M) =
        (degres g (List.range g.capacite_max) : Int) * M +
          (m : Int) * ((degres g (List.range g.capacite_max) : Int) * M) := by
      push_cast
      ring
    rw [hsucc] at hlim ⊢
    obtain ⟨j1, j2⟩ := bf_passe_sans_arrondi g M hM0 hM (List.range g.capacite_max) c
      ⟨dist, pred, false⟩ hc hb (by omega)
    unfold bf_iterations bf_iterations_exact
    simp only
    rw [← j1]
    split
    · exact ⟨rfl, distances_bornees_mono _ _ _ (by omega) j2⟩
    · obtain ⟨i1, i2⟩ := ih (c + (degres g (List.range g.capacite_max) : Int) * M) _ _
        (by omega) j2 (by omega)
      rw [← add_assoc]
      exact ⟨i1, i2⟩

theorem bf_arete_relaxable_sans_arrondi (M c : Int) (dist : Nat → Int) (u : Nat)
    (l : List Arete) (hl : ∀ a ∈ l, -M ≤ a.latence ∧ a.latence ≤ M)
    (hu : -c ≤ dist u ∧ dist u ≤ c) (hlim : c + M ≤ 2 ^ 24) :
    bf_arete_relaxable dist u l = bf_arete_relaxable_exact dist u l := by
  have hIF := INFINI_lt_INF
  have hI := deux_puissance_24_lt_INFINI
  induction l with
  | nil => rfl
  | cons a r ih =>
    obtain ⟨ha1, ha2⟩ := hl a (List.mem_cons_self _ _)
    have hex : fadd (dist u) a.latence = dist u + a.latence :=
      fadd_exact _ _ (by omega) (by omega) (by omega) (by omega) (by omega) (by omega)
    unfold bf_arete_relaxable bf_arete_relaxable_exact
    rw [hex, ih (fun b hb2 => hl b (List.mem_cons_of_mem _ hb2))]

theorem bf_detecter_sans_arrondi (g : Graphe) (M c : Int) (hM : latences_bornees g M)
    (dist : Nat → Int) (hb : distances_bornees c dist) (hlim : c + M ≤ 2 ^ 24)
    (us : List Nat) : bf_detecter g dist us = bf_detecter_exact g dist us := by
  induction us with
  | nil => rfl
  | cons u r ih =>
    unfold bf_detecter bf_detecter_exact
    split
    · exact ih
    · rename_i hskip
      simp only [Bool.or_eq_true, Bool.not_eq_true', decide_eq_true_eq, not_or] at hskip
      have hu : -c ≤ dist u ∧ dist u ≤ c := by
        rcases hb u with h | h
        · exact absurd h hskip.2
        · exact h
      rw [bf_arete_relaxable_sans_arrondi M c dist u (aretes_de g u)
        (fun a ha => latences_bornees_arete g M hM u a ha) hu hlim, ih]

theorem degres_tous (g : Graphe) (hb : bien_forme g) :
    degres g (List.range g.capacite_max) = nombre_aretes g := by
  rw [← degres_restants_initial g hb]
  simp [degres, degres_restants]

/-- When the latencies are whole numbers of magnitude at most `M` and
`(V * E + 1) * M` is at most `2 ^ 24`, no sum made by `bellman_ford` is
rounded: its passes and its detection pass are those made with exact sums, and
the final distances have a magnitude of at most `V * E * M`. -/
theorem bellman_ford_sans_arrondi (g : Graphe) (hb : bien_forme g) (M : Int) (hM0 : 0 ≤ M)
    (hM : latences_bornees g M)
    (hlim : ((g.capacite_max : Int) * (nombre_aretes g : Int) + 1) * M ≤ 2 ^ 24) (s : Nat) :
    bf_iterations g (g.capacite_max - 1) (Function.update (fun _ => INFINI) s 0)
        (fun _ => none) =
      bf_iterations_exact g (g.capacite_max - 1) (Function.update (fun _ => INFINI) s 0)
        (fun _ => none) ∧
    distances_bornees ((g.capacite_max : Int) * (nombre_aretes g : Int) * M)
      (bf_iterations_exact g (g.capacite_max - 1) (Function.update (fun _ => INFINI) s 0)
        (fun _ => none)).1 ∧
    ∀ us, bf_detecter g (bf_iterations_exact g (g.capacite_max - 1)
        (Function.update (fun _ => INFINI) s 0) (fun _ => none)).1 us =
      bf_detecter_exact g (bf_iterations_exact g (g.capacite_max - 1)
        (Function.update (fun _ => INFINI) s 0) (fun _ => none)).1 us := by
  have hVE : 0 ≤ (g.capacite_max : Int) * (nombre_aretes g : Int) :=
    mul_nonneg (Int.ofNat_nonneg _) (Int.ofNat_nonneg _)
  have hEM : 0 ≤ (nombre_aretes g : Int) * M := mul_nonneg (Int.ofNat_nonneg _) hM0
  have hle : (((g.capacite_max - 1 : Nat)) : Int) * ((nombre_aretes g : Int) * M) ≤
      (g.capacite_max : Int) * (nombre_aretes g : Int) * M := by
    rw [mul_assoc]
    exact mul_le_mul_of_nonneg_right (by omega) hEM
  have hexp : ((g.capacite_max : Int) * (nombre_aretes g : Int) + 1) * M =
      (g.capacite_max : Int) * (nombre_aretes g : Int) * M + M := by ring
  rw [hexp] at hlim
  have h0 : 0 ≤ (((g.capacite_max - 1 : Nat)) : Int) * ((nombre_aretes g : Int) * M) :=
    mul_nonneg (Int.ofNat_nonneg _) hEM
  obtain ⟨i1, i2⟩ := bf_iterations_sans_arrondi g M hM0 hM (g.capacite_max - 1) 0
    (Function.update (fun _ => INFINI) s 0) (fun _ => none) (le_refl _)
    (distances_bornees_initial s) (by rw [degres_tous g hb]; omega)
  rw [degres_tous g hb, i1] at i2
  have i3 := distances_bornees_mono _ _ _ (show 0 + (((g.capacite_max - 1 : Nat)) : Int) *
    ((nombre_aretes g : Int) * M) ≤ (g.capacite_max : Int) * (nombre_aretes g : Int) * M
    by omega) i2
  exact ⟨i1, i3, fun us => bf_detecter_sans_arrondi g M _ hM _ i3 (by omega) us⟩

/-- In a state of bounded distances where no edge leaving a reached node can be
relaxed, every node of a walk that starts at a reached node is reached, and
the distance at the end of the walk is at most the distance at its start plus
the total latency of the walk. -/
theorem marche_bornee (g : Graphe) (M c : Int) (hM : latences_bornees g M)
    (dist : Nat → Int) (hb : distances_bornees c dist) (hlim : c + M ≤ 2 ^ 24)
    (hsat : ∀ u, dist u ≠ INFINI → ∀ a ∈ aretes_de g u, dist a.destination ≤ dist u + a.latence)
    (es : List Arete) (u : Nat) (hm : est_marche g u es) (hu : dist u ≠ INFINI) :
    dist (extremite u es) ≠ INFINI ∧ dist (extremite u es) ≤ dist u + poids es := by
  have hI := deux_puissance_24_lt_INFINI
  induction es generalizing u with
  | nil => exact ⟨hu, by simp [extremite, poids]⟩
  | cons a r ih =>
    obtain ⟨h1, h2⟩ := hm
    obtain ⟨m1, m2⟩ := latences_bornees_arete g M hM u a h1
    have h3 := hsat u hu a h1
    have hdu : -c ≤ dist u ∧ dist u ≤ c := by
      rcases hb u with h | h
      · exact absurd h hu
      · exact h
    obtain ⟨i1, i2⟩ := ih a.destination h2 (by omega)
    rw [poids_cons]
    simp only [extremite]
    exact ⟨i1, by omega⟩

/-- C3 (as amended): on a graph whose latencies are whole numbers of magnitude
at most `M`, with `(V * E + 1) * M` at most `2 ^ 24` for `V` node slots and `E`
edges, when a cycle of negative total latency is reached from an active source
`bellman_ford` sets the negative-cycle flag to 1 and returns no path, whatever
the destination. -/
theorem bellman_ford_cycle_negatif (g : Graphe) (source destination fuel : Nat) (M : Int)
    (es cyc : List Arete) (hb : bien_forme g) (hs : noeud_existe g source = true)
    (hM0 : 0 ≤ M) (hM : latences_bornees g M)
    (hlim : ((g.capacite_max : Int) * (nombre_aretes g : Int) + 1) * M ≤ 2 ^ 24)
    (hm : est_marche g source (es ++ cyc))
    (hcyc : extremite (extremite source es) cyc = extremite source es)
    (hneg : poids cyc < 0) :
    bellman_ford fuel g source destination = some (none, 1) := by
  have hI := INFINI_pos
  have hsV := noeud_existe_lt g source hs
  obtain ⟨t1, t2, t3⟩ := bellman_ford_sans_arrondi g hb M hM0 hM hlim source
  have hexp : ((g.capacite_max : Int) * (nombre_aretes g : Int) + 1) * M =
      (g.capacite_max : Int) * (nombre_aretes g : Int) * M + M := by ring
  rw [hexp] at hlim
  have hdet : bf_detecter g
      (bf_iterations g (g.capacite_max - 1) (Function.update (fun _ => INFINI) source 0)
        (fun _ => none)).1 (List.range g.capacite_max) = true := by
    rw [t1, t3]
    by_contra hc
    have hfalse := Bool.eq_false_iff.mpr hc
    have hmono := bf_iterations_exact_mono g (g.capacite_max - 1)
      (Function.update (fun _ => INFINI) source 0) (fun _ => none)
    generalize (bf_iterations_exact g (g.capacite_max - 1)
      (Function.update (fun _ => INFINI) source 0) (fun _ => none)).1 = dist at hfalse hmono t2
    have hsat : ∀ u, dist u ≠ INFINI → ∀ a ∈ aretes_de g u,
        dist a.destination ≤ dist u + a.latence := by
      intro u hu a ha
      obtain ⟨o1, o2, _⟩ := arete_origine g hb u a ha
      exact bf_detecter_exact_false g dist _ hfalse u (List.mem_range.mpr o1) o2 hu a ha
    have hsrc : dist source ≤ 0 := by
      have := hmono source
      simpa using this
    rw [est_marche_append] at hm
    obtain ⟨h1, _⟩ := marche_bornee g M _ hM dist t2 hlim hsat es source hm.1 (by omega)
    obtain ⟨_, h2⟩ := marche_bornee g M _ hM dist t2 hlim hsat cyc (extremite source es) hm.2 h1
    rw [hcyc] at h2
    omega
  unfold bellman_ford
  simp only [hdet, if_true, if_neg (not_le.mpr hsV)]

/-- Instance of C3: the loop of latency -1 on node 1 of `g_cycle_proche`. -/
theorem bellman_ford_cycle_negatif_witness :
    (bien_forme g_cycle_proche ∧ noeud_existe g_cycle_proche 0 = true ∧
      (0 : Int) ≤ 1 ∧ latences_bornees g_cycle_proche 1 ∧
      ((g_cycle_proche.capacite_max : Int) * (nombre_aretes g_cycle_proche : Int) + 1) * 1 ≤
        2 ^ 24 ∧
      est_marche g_cycle_proche 0 ([⟨1, 1, 10, 1, 5⟩] ++ [⟨1, -1, 10, 1, 5⟩]) ∧
      extremite (extremite 0 [⟨1, 1, 10, 1, 5⟩]) [⟨1, -1, 10, 1, 5⟩] =
        extremite 0 [⟨1, 1, 10, 1, 5⟩] ∧
      poids [⟨1, -1, 10, 1, 5⟩] < 0) ∧
    bellman_ford 10 g_cycle_proche 0 0 = some (none, 1) :=
  ⟨by decide,
   bellman_ford_cycle_negatif g_cycle_proche 0 0 10 1 [⟨1, 1, 10, 1, 5⟩] [⟨1, -1, 10, 1, 5⟩]
     (by decide) (by decide) (by decide) (by decide) (by decide) (by decide) (by decide)
     (by decide)⟩

/-- C3 as stated fails, in two ways. In `g_cycle_loin` the loop of latency -1
on node 1 is reached from the active source 0, yet `bellman_ford` leaves the
flag at 0 and returns the path `[0]`, because the edge `0 -> 1` has the latency
`INFINI`, the sentinel of an unreached node. In `g_cycle_absorbe` the edge
`0 -> 1` has the latency `2 ^ 100`: node 1 is reached at that distance, which
the addition of -1 in binary32 leaves unchanged, so the loop is never relaxed,
the flag stays at 0 and the path `[0, 1]` is returned. -/
theorem bellman_ford_cycle_contre_exemple :
    (bien_forme g_cycle_loin ∧ noeud_existe g_cycle_loin 0 = true ∧
      est_marche g_cycle_loin 0 ([⟨1, INFINI, 10, 1, 5⟩] ++ [⟨1, -1, 10, 1, 5⟩]) ∧
      extremite (extremite 0 [⟨1, INFINI, 10, 1, 5⟩]) [⟨1, -1, 10, 1, 5⟩] =
        extremite 0 [⟨1, INFINI, 10, 1, 5⟩] ∧
      poids [⟨1, -1, 10, 1, 5⟩] < 0 ∧
      bellman_ford 10 g_cycle_loin 0 0 = some (some ⟨[0], 1, 0, 0, 0, 0⟩, 0)) ∧
    (bien_forme g_cycle_absorbe ∧ noeud_existe g_cycle_absorbe 0 = true ∧
      est_marche g_cycle_absorbe 0
        ([⟨1, 1267650600228229401496703205376, 10, 1, 5⟩] ++ [⟨1, -1, 10, 1, 5⟩]) ∧
      extremite (extremite 0 [⟨1, 1267650600228229401496703205376, 10, 1, 5⟩])
          [⟨1, -1, 10, 1, 5⟩] =
        extremite 0 [⟨1, 1267650600228229401496703205376, 10, 1, 5⟩] ∧
      poids [⟨1, -1, 10, 1, 5⟩] < 0 ∧
      fadd 1267650600228229401496703205376 (-1) = 1267650600228229401496703205376 ∧
      bellman_ford 10 g_cycle_absorbe 0 1 =
        some (some ⟨[0, 1], 2, 1267650600228229401496703205376, 0, 0, 0⟩, 0)) := by
  decide

/-! ## K shortest paths -/

/-- C4 (code at the failing input): on the chain `0 -> 1 -> 2` with latencies
1 and 1, `k_plus_courts_chemins` with `k = 2` returns a first path of latency 2
followed by a path of latency 1: the list is not in non-decreasing order. -/
theorem k_plus_courts_chemins_decroit :
    k_plus_courts_chemins 10 g_chaine3 0 2 2 =
      some [⟨[0, 1, 2], 3, 2, 0, 0, 0⟩, ⟨[0, 1, 2], 3, 1, 0, 0, 0⟩] ∧
    ¬ ((2 : Int) ≤ 1) := by
  decide

/-! ## Constrained search -/

theorem noeud_exclu_false (x : Nat) (c : Contraintes) :
    noeud_exclu x c = false ↔ x ∉ c.noeuds_exclus := by
  unfold noeud_exclu
  rw [Bool.eq_false_iff]
  simp only [ne_eq, List.any_eq_true, beq_iff_eq, not_exists, not_and]
  constructor
  · intro h hx
    exact h x hx rfl
  · intro h y hy hyx
    exact h (hyx ▸ hy)

theorem copier_chemin_noeuds (p : Chemin) : (copier_chemin p).noeuds = p.noeuds := by
  unfold copier_chemin
  simp [foldl_ajouter_noeuds, creer_chemin]

theorem explorer_voisins_inv (s d : Nat) (c : Contraintes)
    (appel : ContextBacktrack → Nat → Int → Int → Int → Option ContextBacktrack)
    (happel : ∀ ctx n lat cout bw ctx2, InvBacktrack s d c ctx →
      ctx.courant.noeuds.getLast? = some n → appel ctx n lat cout bw = some ctx2 →
      InvBacktrack s d c ctx2)
    (lat cout bw : Int) (l : List Arete) (ctx ctx2 : ContextBacktrack)
    (hinv : InvBacktrack s d c ctx)
    (hres : explorer_voisins c appel lat cout bw l ctx = some ctx2) :
    InvBacktrack s d c ctx2 := by
  induction l generalizing ctx with
  | nil =>
    simp only [explorer_voisins, Option.some.injEq] at hres
    rw [← hres]; exact hinv
  | cons a r ih =>
    unfold explorer_voisins at hres
    simp only at hres
    split at hres
    · rename_i hcond
      split at hres
      · exact ih ctx hinv hres
      · split at hres
        · exact Option.noConfusion hres
        · rename_i ctx3 happ
          simp only [Bool.and_eq_true, Bool.not_eq_true'] at hcond
          have hnex := (noeud_exclu_false _ _).mp hcond.1.2
          have h1 : InvBacktrack s d c
              { ctx with
                  visite := Function.update ctx.visite a.destination true
                  courant := ajouter_noeud_chemin ctx.courant a.destination } := by
            obtain ⟨⟨reste, hr1, hr2⟩, hm⟩ := hinv
            refine ⟨⟨reste ++ [a.destination], ?_, ?_⟩, hm⟩
            · simp [ajouter_noeud_chemin, hr1]
            · intro x hx
              rcases List.mem_append.mp hx with hx | hx
              · exact hr2 x hx
              · simp only [List.mem_singleton] at hx
                rw [hx]; exact hnex
          have h2 := happel _ _ _ _ _ _ h1 (by simp [ajouter_noeud_chemin]) happ
          exact ih { ctx3 with visite := Function.update ctx3.visite a.destination false }
            ⟨h2.1, h2.2⟩ hres
    · exact ih ctx hinv hres

theorem backtrack_recursif_inv (g : Graphe) (s d : Nat) (c : Contraintes) (fuel : Nat)
    (ctx : ContextBacktrack) (n : Nat) (lat cout bw : Int) (ctx2 : ContextBacktrack)
    (hinv : InvBacktrack s d c ctx) (hlast : ctx.courant.noeuds.getLast? = some n)
    (hres : backtrack_recursif g c d fuel ctx n lat cout bw = some ctx2) :
    InvBacktrack s d c ctx2 := by
  induction fuel generalizing ctx n lat cout bw ctx2 with
  | zero => simp [backtrack_recursif] at hres
  | succ k ih =>
    unfold backtrack_recursif at hres
    split at hres
    · simp only [Option.some.injEq] at hres
      rw [← hres]; exact hinv
    · rename_i hcout
      split at hres
      · rename_i hnd
        split at hres
        · simp only [Option.some.injEq] at hres
          rw [← hres]; exact hinv
        · rename_i hobl
          split at hres
          · simp only [Option.some.injEq] at hres
            rw [← hres]
            refine ⟨hinv.1, ?_⟩
            intro m hm
            simp only [Option.some.injEq] at hm
            rw [← hm]
            simp only [copier_chemin_noeuds]
            refine ⟨hinv.1, by rw [hlast, hnd], ?_, by omega⟩
            intro x hx
            simp only [Bool.not_eq_true', Bool.not_eq_false] at hobl
            unfold tous_obligatoires_visites at hobl
            rw [List.all_eq_true] at hobl
            have := hobl x hx
            unfold chemin_contient at this
            rw [List.any_eq_true] at this
            obtain ⟨y, hy1, hy2⟩ := this
            rw [beq_iff_eq] at hy2
            rw [← hy2]; exact hy1
          · simp only [Option.some.injEq] at hres
            rw [← hres]; exact hinv
      · exact explorer_voisins_inv s d c (backtrack_recursif g c d k)
          (fun ctx3 n3 lat3 cout3 bw3 ctx4 h1 h2 h3 => ih ctx3 n3 lat3 cout3 bw3 ctx4 h1 h2 h3)
          lat cout bw _ ctx ctx2 hinv hres

/-- What holds of every path returned by `chemin_contraint_backtracking`. -/
theorem chemin_contraint_inv (g : Graphe) (s d : Nat) (c : Contraintes) (fuel : Nat)
    (p : Chemin) (hres : chemin_contraint_backtracking fuel g s d c = some (some p)) :
    (∃ reste, p.noeuds = s :: reste ∧ ∀ x ∈ reste, x ∉ c.noeuds_exclus) ∧
    p.noeuds.getLast? = some d ∧
    (∀ x ∈ c.noeuds_oblgatoires, x ∈ p.noeuds) ∧
    p.cout_total ≤ c.cout_max_autorise := by
  unfold chemin_contraint_backtracking at hres
  split at hres
  · simp at hres
  · simp only at hres
    split at hres
    · exact Option.noConfusion hres
    · rename_i ctx1 hbt
      simp only [Option.some.injEq] at hres
      have h0 : InvBacktrack s d c
          { visite := Function.update (fun _ => false) s true
            meilleur := none
            courant := ajouter_noeud_chemin creer_chemin s } := by
        refine ⟨⟨[], by simp [ajouter_noeud_chemin, creer_chemin], by simp⟩, ?_⟩
        intro m hm
        exact Option.noConfusion hm
      have h1 := backtrack_recursif_inv g s d c fuel _ s 0 0 INFINI ctx1 h0
        (by simp [ajouter_noeud_chemin, creer_chemin]) hbt
      exact h1.2 p hres

/-! ## Termination of the constrained search -/

theorem non_visites_marquer (g : Graphe) (visite : Nat → Bool) (v : Nat)
    (hv : v < g.capacite_max) (hf : visite v = false) :
    non_visites g (Function.update visite v true) + 1 = non_visites g visite := by
  unfold non_visites
  have h := somme_update_zero (List.range g.capacite_max)
    (fun x => if visite x then 0 else 1) v (List.nodup_range _) (List.mem_range.mpr hv)
  simp only [hf] at h
  rw [← h]
  congr 2
  apply List.map_congr_left
  intro x _
  by_cases hx : x = v
  · subst hx; simp
  · simp [Function.update_noteq hx]

theorem non_visites_le (g : Graphe) (visite : Nat → Bool) :
    non_visites g visite ≤ g.capacite_max := by
  unfold non_visites
  have h : ∀ (l : List Nat), (l.map (fun u => if visite u then 0 else 1)).sum ≤ l.length := by
    intro l
    induction l with
    | nil => simp
    | cons x r ih =>
      simp only [List.map_cons, List.sum_cons, List.length_cons]
      split <;> omega
  have := h (List.range g.capacite_max)
  simpa using this

theorem explorer_voisins_termine (g : Graphe) (c : Contraintes) (k : Nat)
    (appel : ContextBacktrack → Nat → Int → Int → Int → Option ContextBacktrack)
    (happel : ∀ ctx n lat cout bw, non_visites g ctx.visite < k →
      ∃ ctx2, appel ctx n lat cout bw = some ctx2 ∧ ctx2.visite = ctx.visite)
    (lat cout bw : Int) (l : List Arete) (hl : ∀ a ∈ l, a.destination < g.capacite_max)
    (ctx : ContextBacktrack) (hk : non_visites g ctx.visite ≤ k) :
    ∃ ctx2, explorer_voisins c appel lat cout bw l ctx = some ctx2 ∧
      ctx2.visite = ctx.visite := by
  induction l generalizing ctx with
  | nil => exact ⟨ctx, rfl, rfl⟩
  | cons a r ih =>
    have hr : ∀ b ∈ r, b.destination < g.capacite_max :=
      fun b hb => hl b (List.mem_cons_of_mem _ hb)
    unfold explorer_voisins
    simp only
    split
    · rename_i hcond
      split
      · exact ih hr ctx hk
      · simp only [Bool.and_eq_true, Bool.not_eq_true'] at hcond
        have hvf : ctx.visite a.destination = false := hcond.1.1
        have hnv := non_visites_marquer g ctx.visite a.destination
          (hl a (List.mem_cons_self _ _)) hvf
        obtain ⟨ctx3, h1, h2⟩ := happel
          { ctx with
              visite := Function.update ctx.visite a.destination true
              courant := ajouter_noeud_chemin ctx.courant a.destination }
          a.destination (fadd lat a.latence) (fadd cout a.cout)
          (if bw < a.bande_passante then bw else a.bande_passante)
          (by show non_visites g (Function.update ctx.visite a.destination true) < k; omega)
        rw [h1]
        simp only
        have h3 : Function.update ctx3.visite a.destination false = ctx.visite := by
          rw [h2]
          show Function.update (Function.update ctx.visite a.destination true)
            a.destination false = ctx.visite
          rw [Function.update_idem, ← hvf, Function.update_eq_self]
        obtain ⟨ctx4, h4, h5⟩ := ih hr
          { ctx3 with visite := Function.update ctx3.visite a.destination false }
          (by show non_visites g (Function.update ctx3.visite a.destination false) ≤ k
              rw [h3]; exact hk)
        exact ⟨ctx4, h4, by rw [h5]; exact h3⟩
    · exact ih hr ctx hk

/-- The recursion of `backtrack_recursif` ends when the fuel exceeds the number
of unvisited nodes, and leaves the `visite` marks as it found them. -/
theorem backtrack_recursif_termine (g : Graphe) (hb : bien_forme g) (c : Contraintes)
    (d : Nat) (fuel : Nat) (ctx : ContextBacktrack) (n : Nat) (lat cout bw : Int)
    (hfuel : non_visites g ctx.visite < fuel) :
    ∃ ctx2, backtrack_recursif g c d fuel ctx n lat cout bw = some ctx2 ∧
      ctx2.visite = ctx.visite := by
  induction fuel generalizing ctx n lat cout bw with
  | zero => omega
  | succ k ih =>
    unfold backtrack_recursif
    split
    · exact ⟨ctx, rfl, rfl⟩
    · split
      · split
        · exact ⟨ctx, rfl, rfl⟩
        · split
          · exact ⟨_, rfl, rfl⟩
          · exact ⟨ctx, rfl, rfl⟩
      · exact explorer_voisins_termine g c k (backtrack_recursif g c d k)
          (fun ctx3 n3 lat3 cout3 bw3 h3 => ih ctx3 n3 lat3 cout3 bw3 h3) lat cout bw _
          (fun a ha => (arete_origine g hb n a ha).2.2) ctx (by omega)

/-- With more fuel than node slots `chemin_contraint_backtracking` answers. -/
theorem chemin_contraint_termine (g : Graphe) (hb : bien_forme g) (s d : Nat)
    (c : Contraintes) (fuel : Nat) (hfuel : g.capacite_max < fuel) :
    ∃ r, chemin_contraint_backtracking fuel g s d c = some r := by
  unfold chemin_contraint_backtracking
  split
  · exact ⟨none, rfl⟩
  · simp only
    obtain ⟨ctx2, h1, _⟩ := backtrack_recursif_termine g hb c d fuel
      { visite := Function.update (fun _ => false) s true
        meilleur := none
        courant := ajouter_noeud_chemin creer_chemin s } s 0 0 INFINI
      (lt_of_le_of_lt (non_visites_le g _) hfuel)
    rw [h1]
    exact ⟨_, rfl⟩

/-! ## Constrained search: the claims -/

/-- C5 (as amended): `chemin_contraint_backtracking` answers, and a path it
returns starts at the source and holds no excluded node after its first
node. -/
theorem chemin_contraint_sans_exclus (g : Graphe) (source destination fuel : Nat)
    (c : Contraintes) (hb : bien_forme g) (hfuel : g.capacite_max < fuel) :
    ∃ r, chemin_contraint_backtracking fuel g source destination c = some r ∧
      ∀ p, r = some p →
        ∃ reste, p.noeuds = source :: reste ∧ ∀ x ∈ reste, x ∉ c.noeuds_exclus := by
  obtain ⟨r, hr⟩ := chemin_contraint_termine g hb source destination c fuel hfuel
  refine ⟨r, hr, ?_⟩
  intro p hp
  subst hp
  exact (chemin_contraint_inv g source destination c fuel p hr).1

/-- Instance of C5: node 1 excluded on `g_detour`, the direct path is
returned. -/
theorem chemin_contraint_sans_exclus_witness :
    (bien_forme g_detour ∧ g_detour.capacite_max < 10 ∧
      chemin_contraint_backtracking 10 g_detour 0 2 ⟨0, 100, 0, [], [1]⟩ =
        some (some ⟨[0, 2], 2, 10, 10, 1, 0⟩)) ∧
    ∃ r, chemin_contraint_backtracking 10 g_detour 0 2 ⟨0, 100, 0, [], [1]⟩ = some r ∧
      ∀ p, r = some p →
        ∃ reste, p.noeuds = 0 :: reste ∧
          ∀ x ∈ reste, x ∉ (⟨0, 100, 0, [], [1]⟩ : Contraintes).noeuds_exclus :=
  ⟨by decide,
   chemin_contraint_sans_exclus g_detour 0 2 10 ⟨0, 100, 0, [], [1]⟩ (by decide) (by decide)⟩

/-- C5 as stated fails: the source is never tested against the excluded set;
with node 0 excluded the search from 0 to 2 on the chain returns `[0, 1, 2]`. -/
theorem chemin_contraint_source_exclue :
    chemin_contraint_backtracking 10 g_chaine3 0 2 ⟨0, 100, 0, [], [0]⟩ =
      some (some ⟨[0, 1, 2], 3, 2, 10, 2, 0⟩) ∧
    (0 : Nat) ∈ [0, 1, 2] ∧ (0 : Nat) ∈ (⟨0, 100, 0, [], [0]⟩ : Contraintes).noeuds_exclus := by
  decide

/-- C6 (code at the failing input): on `g_impasse` the search from 0 to 2
returns `[0, 1, 2]`, in which node 1, left over from the abandoned branch
`0 -> 1`, is followed by node 2 although the graph has no edge `1 -> 2`. -/
theorem chemin_contraint_arete_absente :
    chemin_contraint_backtracking 10 g_impasse 0 2 c_libre =
      some (some ⟨[0, 1, 2], 3, 5, 10, 1, 0⟩) ∧
    ¬ relie g_impasse 1 2 ∧ ¬ List.Chain' (relie g_impasse) [0, 1, 2] := by
  have h12 : ¬ relie g_impasse 1 2 := by decide
  refine ⟨by decide, h12, ?_⟩
  intro h
  exact h12 (List.chain'_cons.mp (List.chain'_cons.mp h).2).1

/-- C8: `chemin_contraint_backtracking` answers, and the `cout_total` of a path
it returns does not exceed `cout_max_autorise`. -/
theorem chemin_contraint_budget (g : Graphe) (source destination fuel : Nat)
    (c : Contraintes) (hb : bien_forme g) (hfuel : g.capacite_max < fuel) :
    ∃ r, chemin_contraint_backtracking fuel g source destination c = some r ∧
      ∀ p, r = some p → p.cout_total ≤ c.cout_max_autorise := by
  obtain ⟨r, hr⟩ := chemin_contraint_termine g hb source destination c fuel hfuel
  refine ⟨r, hr, ?_⟩
  intro p hp
  subst hp
  exact (chemin_contraint_inv g source destination c fuel p hr).2.2.2

/-- Instance of C8: budget 1 on `g_detour`, the detour of cost 2 is pruned. -/
theorem chemin_contraint_budget_witness :
    (bien_forme g_detour ∧ g_detour.capacite_max < 10 ∧
      chemin_contraint_backtracking 10 g_detour 0 2 ⟨0, 1, 0, [], []⟩ =
        some (some ⟨[0, 2], 2, 10, 10, 1, 0⟩)) ∧
    ∃ r, chemin_contraint_backtracking 10 g_detour 0 2 ⟨0, 1, 0, [], []⟩ = some r ∧
      ∀ p, r = some p → p.cout_total ≤ (⟨0, 1, 0, [], []⟩ : Contraintes).cout_max_autorise :=
  ⟨by decide,
   chemin_contraint_budget g_detour 0 2 10 ⟨0, 1, 0, [], []⟩ (by decide) (by decide)⟩

/-- C9 (code at the failing input): on `g_detour` the search from 0 to 2
returns `[0, 2, 1, 2]`: the node 2 of the first accepted path stays in the
current path, so the destination occurs twice. -/
theorem chemin_contraint_noeud_repete :
    chemin_contraint_backtracking 10 g_detour 0 2 c_libre =
      some (some ⟨[0, 2, 1, 2], 4, 2, 10, 2, 0⟩) ∧
    ¬ List.Nodup [0, 2, 1, 2] := by
  decide

/-- C10 (code at the failing input): on `g_impasse` with node 1 required, no
walk from 0 to 2 passes through node 1, yet the search returns a path: the
required node is found among the nodes left over from the abandoned branch. -/
theorem chemin_contraint_obligatoire_fantome :
    chemin_contraint_backtracking 10 g_impasse 0 2 ⟨0, 100, 0, [1], []⟩ =
      some (some ⟨[0, 1, 2], 3, 5, 10, 1, 0⟩) ∧
    ∀ es, est_marche g_impasse 0 es → extremite 0 es = 2 → 1 ∉ sommets 0 es := by
  refine ⟨by decide, ?_⟩
  intro es hm he
  have h0 : aretes_de g_impasse 0 = [⟨1, 1, 10, 1, 5⟩, ⟨2, 5, 10, 1, 5⟩] := by decide
  have h1 : aretes_de g_impasse 1 = [] := by decide
  have h2 : aretes_de g_impasse 2 = [] := by decide
  cases es with
  | nil => simp [extremite] at he
  | cons a r =>
    obtain ⟨ha, hr⟩ := hm
    rw [h0] at ha
    simp only [List.mem_cons, List.mem_singleton, List.not_mem_nil, or_false] at ha
    rcases ha with ha | ha
    · subst ha
      cases r with
      | nil => simp [extremite] at he
      | cons b r2 =>
        obtain ⟨hb, _⟩ := hr
        rw [h1] at hb
        simp at hb
    · subst ha
      cases r with
      | nil => simp [sommets]
      | cons b r2 =>
        obtain ⟨hb, _⟩ := hr
        rw [h2] at hb
        simp at hb

/-! ## Graph store: the claims -/

/-- C12 (code at the failing input): after `ajouter_arete(0, 1)` followed by
`supprimer_arete(0, 1)` the adjacency list of node 0 is empty and the latency
matrix holds `INFINI`, but the bandwidth, cost and security matrices still hold
the attributes of the removed edge. -/
theorem matrices_apres_suppression :
    aretes_de g_ajout_retrait 0 = [] ∧
    lire_matrice g_ajout_retrait.matrice_latence 0 1 = INFINI ∧
    lire_matrice g_ajout_retrait.matrice_bw 0 1 = 10 ∧
    lire_matrice g_ajout_retrait.matrice_cout 0 1 = 1 ∧
    lire_matrice g_ajout_retrait.matrice_sec 0 1 = 5 := by
  decide

theorem noeud_set_aretes (g : Graphe) (src x : Nat) (l : List Arete) :
    ((g.noeuds.set src { noeud g src with aretes := l }).getD x noeud_vide).actif =
      (noeud g x).actif := by
  unfold noeud
  rw [List.getD_eq_getElem?_getD, List.getD_eq_getElem?_getD, List.getElem?_set]
  by_cases h : src = x
  · subst h
    by_cases h2 : src < g.noeuds.length
    · simp [h2, List.getD_eq_getElem?_getD]
    · simp [h2, List.getElem?_eq_none (Nat.le_of_not_lt h2)]
  · simp [h]

theorem noeud_existe_set_aretes (g g1 : Graphe) (src : Nat) (l : List Arete)
    (hc : g1.capacite_max = g.capacite_max)
    (hn : g1.noeuds = g.noeuds.set src { noeud g src with aretes := l }) (x : Nat) :
    noeud_existe g1 x = noeud_existe g x := by
  unfold noeud_existe
  rw [hc]
  split
  · rfl
  · show (g1.noeuds.getD x noeud_vide).actif = (noeud g x).actif
    rw [hn]
    exact noeud_set_aretes g src x l

/-- C13 (what the code does): in a graph that is not oriented, a call of
`ajouter_arete` on two active nodes never returns: every level of the
recursion inserts one more arc and calls the mirrored insertion again. -/
theorem ajouter_arete_non_oriente_diverge (fuel : Nat) (g : Graphe) (src dest : Nat)
    (latence bande_passante cout : Int) (securite : Int)
    (ho : g.est_oriente = false) (hs : noeud_existe g src = true)
    (hd : noeud_existe g dest = true) :
    ajouter_arete fuel g src dest latence bande_passante cout securite = none := by
  induction fuel generalizing g src dest with
  | zero => rfl
  | succ k ih =>
    have key : ∀ g1 : Graphe, g1.est_oriente = false →
        (∀ x, noeud_existe g1 x = noeud_existe g x) →
        ajouter_arete k g1 dest src latence bande_passante cout securite = none :=
      fun g1 h1 h2 => ih g1 dest src h1 (by rw [h2]; exact hd) (by rw [h2]; exact hs)
    unfold ajouter_arete
    simp only [hs, hd, Bool.not_true, Bool.or_self, Bool.false_eq_true, if_false, ho,
      Bool.not_false, if_true]
    rw [key]
    · rfl
    · intro x
      refine noeud_existe_set_aretes g _ src
        (⟨dest, latence, bande_passante, cout, securite⟩ :: (noeud g src).aretes) ?_ ?_ x
      · rfl
      · rfl

/-- Instance of C13 on two active nodes of a graph that is not oriented. -/
theorem ajouter_arete_non_oriente_diverge_witness :
    (g_non_oriente.est_oriente = false ∧ noeud_existe g_non_oriente 0 = true ∧
      noeud_existe g_non_oriente 1 = true) ∧
    ajouter_arete 1000 g_non_oriente 0 1 1 10 1 5 = none :=
  ⟨by decide,
   ajouter_arete_non_oriente_diverge 1000 g_non_oriente 0 1 1 10 1 5 (by decide) (by decide)
     (by decide)⟩

/-- C14 (code at the failing input): node 1 holds two edges to node 0; after
the successful `supprimer_noeud(0)` node 1 is still active and its adjacency
list still holds an edge whose destination is 0. -/
theorem supprimer_noeud_arete_restante :
    (supprimer_noeud g_double 0).2 = 0 ∧
    noeud_existe (supprimer_noeud g_double 0).1 0 = false ∧
    noeud_existe (supprimer_noeud g_double 0).1 1 = true ∧
    aretes_de (supprimer_noeud g_double 0).1 1 = [⟨0, 1, 10, 1, 5⟩] := by
  decide

/-- C15 (code at the failing input): slot 1 of `g_un_actif` is inactive, yet
`bellman_ford(1, 1)` returns the path `[1]`; `dijkstra`,
`chemin_contraint_backtracking` and `k_plus_courts_chemins` return no path. -/
theorem bellman_ford_source_inactive :
    noeud_existe g_un_actif 1 = false ∧
    bellman_ford 10 g_un_actif 1 1 = some (some ⟨[1], 1, 0, 0, 0, 0⟩, 0) ∧
    dijkstra 10 g_un_actif 1 1 = some none ∧
    chemin_contraint_backtracking 10 g_un_actif 1 1 c_libre = some none ∧
    k_plus_courts_chemins 10 g_un_actif 1 1 3 = some [] := by
  decide

/-- C16 (code at the failing input): `g_creux` has two slots and one active
node, of identifier 1. The saved file announces one node, so the reloaded graph
has one slot and `ajouter_noeud(1)` is refused: the node is lost. -/
theorem rechargement_perd_noeud :
    noeud_existe g_creux 1 = true ∧
    (sauvegarder_graphe g_creux).lignes_noeuds = [(1, "n")] ∧
    (charger_graphe (sauvegarder_graphe g_creux)).capacite_max = 1 ∧
    noeud_existe (charger_graphe (sauvegarder_graphe g_creux)) 1 = false ∧
    (sauvegarder_graphe (charger_graphe (sauvegarder_graphe g_creux))).lignes_noeuds = [] := by
  decide

/-! ## More fuel gives the same answer -/

theorem dijkstra_boucle_succ (g : Graphe) (k : Nat) (e r : EtatDijkstra)
    (h : dijkstra_boucle g k e = some r) : dijkstra_boucle g (k + 1) e = some r := by
  induction k generalizing e with
  | zero =>
    unfold dijkstra_boucle at h ⊢
    split at h
    · rename_i hv
      rw [if_pos hv]; exact h
    · exact Option.noConfusion h
  | succ n ih =>
    unfold dijkstra_boucle at h
    rw [dijkstra_boucle]
    split at h
    · rename_i hv
      rw [if_pos hv]; exact h
    · rename_i hv
      rw [if_neg hv]
      split at h
      · exact Option.noConfusion h
      · rename_i min reste heq
        simp only at h ⊢
        split at h
        · rename_i ht
          rw [if_pos ht]
          exact ih _ h
        · rename_i ht
          rw [if_neg ht]
          exact ih _ h

theorem remonter_succ (pred : Nat → Option Nat) (k : Nat) (x : Option Nat) (pile r : List Nat)
    (h : remonter pred k x pile = some r) : remonter pred (k + 1) x pile = some r := by
  induction k generalizing x pile with
  | zero =>
    cases x with
    | none => simpa [remonter] using h
    | some n => simp [remonter] at h
  | succ n ih =>
    cases x with
    | none => simpa [remonter] using h
    | some m =>
      simp only [remonter] at h ⊢
      exact ih _ _ h

theorem dijkstra_succ (k : Nat) (g : Graphe) (s d : Nat) (r : Option Chemin)
    (h : dijkstra k g s d = some r) : dijkstra (k + 1) g s d = some r := by
  unfold dijkstra at h ⊢
  split at h
  · rename_i hc
    rw [if_pos hc]; exact h
  · rename_i hc
    rw [if_neg hc]
    unfold dijkstra_tout at h ⊢
    simp only at h ⊢
    cases hb : dijkstra_boucle g k
        { dist := Function.update (fun _ => INFINI) s 0
          pred := fun _ => none
          traite := fun _ => false
          pq := pq_inserer [] s 0 } with
    | none => rw [hb] at h; exact Option.noConfusion h
    | some e =>
      rw [hb] at h
      rw [dijkstra_boucle_succ g k _ e hb]
      simp only at h ⊢
      unfold reconstruire_chemin at h ⊢
      split at h
      · rename_i hi
        rw [if_pos hi]; exact h
      · rename_i hi
        rw [if_neg hi]
        cases hr : remonter e.pred k (some d) [] with
        | none => rw [hr] at h; exact Option.noConfusion h
        | some pile =>
          rw [hr] at h
          rw [remonter_succ e.pred k _ _ pile hr]
          exact h

theorem dijkstra_plus (k n : Nat) (g : Graphe) (s d : Nat) (r : Option Chemin)
    (h : dijkstra k g s d = some r) : dijkstra (k + n) g s d = some r := by
  induction n with
  | zero => exact h
  | succ m ih => exact dijkstra_succ (k + m) g s d r ih

/-- C17: on the chain `0 -> 1 -> 2 -> 3 -> 4` with every latency equal to 1,
`dijkstra(0, 4)` returns the node sequence `[0, 1, 2, 3, 4]` with
`latence_totale` 4, for every fuel from 6 on. -/
theorem dijkstra_chaine5 (n : Nat) :
    dijkstra (6 + n) g_chaine5 0 4 = some (some ⟨[0, 1, 2, 3, 4], 5, 4, 0, 0, 0⟩) :=
  dijkstra_plus 6 n g_chaine5 0 4 _ (by decide)

theorem cycle_voisins_mono
    (appel appel2 : Nat → (Nat → Nat) → Option (Bool × (Nat → Nat)))
    (hap : ∀ v c r, appel v c = some r → appel2 v c = some r)
    (l : List Arete) (c : Nat → Nat) (r : Bool × (Nat → Nat))
    (h : cycle_voisins appel l c = some r) : cycle_voisins appel2 l c = some r := by
  induction l generalizing c with
  | nil => exact h
  | cons a reste ih =>
    unfold cycle_voisins at h ⊢
    simp only at h ⊢
    split at h
    · rename_i h1
      rw [if_pos h1]; exact h
    · rename_i h1
      rw [if_neg h1]
      split at h
      · rename_i h2
        rw [if_pos h2]
        split at h
        · exact Option.noConfusion h
        · rename_i c2 heq
          rw [hap _ _ _ heq]; exact h
        · rename_i c2 heq
          rw [hap _ _ _ heq]
          exact ih _ h
      · rename_i h2
        rw [if_neg h2]
        exact ih _ h

theorem cycle_dfs_succ (g : Graphe) (k u : Nat) (c : Nat → Nat) (r : Bool × (Nat → Nat))
    (h : cycle_dfs g k u c = some r) : cycle_dfs g (k + 1) u c = some r := by
  induction k generalizing u c r with
  | zero => exact Option.noConfusion h
  | succ n ih =>
    unfold cycle_dfs at h
    rw [cycle_dfs]
    cases hv : cycle_voisins (cycle_dfs g n) (aretes_de g u) (Function.update c u EN_COURS) with
    | none => rw [hv] at h; exact Option.noConfusion h
    | some r2 =>
      rw [hv] at h
      rw [cycle_voisins_mono _ _ (fun v c2 r3 h3 => ih v c2 r3 h3) _ _ _ hv]
      exact h

theorem detecter_boucle_succ (g : Graphe) (k : Nat) (l : List Nat) (c : Nat → Nat) (b : Bool)
    (h : detecter_boucle k g l c = some b) : detecter_boucle (k + 1) g l c = some b := by
  induction l generalizing c with
  | nil => exact h
  | cons i reste ih =>
    unfold detecter_boucle at h ⊢
    split at h
    · rename_i h1
      rw [if_pos h1]
      split at h
      · exact Option.noConfusion h
      · rename_i c2 heq
        rw [cycle_dfs_succ g k _ _ _ heq]; exact h
      · rename_i c2 heq
        rw [cycle_dfs_succ g k _ _ _ heq]
        exact ih _ h
    · rename_i h1
      rw [if_neg h1]
      exact ih _ h

theorem detecter_cycle_succ (g : Graphe) (k : Nat) (r : Int)
    (h : detecter_cycle k g = some r) : detecter_cycle (k + 1) g = some r := by
  unfold detecter_cycle at h ⊢
  cases hb : detecter_boucle k g (List.range g.capacite_max) (fun _ => NON_VISITE) with
  | none => rw [hb] at h; exact Option.noConfusion h
  | some b =>
    rw [hb] at h
    rw [detecter_boucle_succ g k _ _ b hb]
    exact h

theorem ap_voisins_mono (appel appel2 : ContextArticulation → Nat → Option ContextArticulation)
    (hap : ∀ c v r, appel c v = some r → appel2 c v = some r) (u : Nat)
    (l : List Arete) (nb : Int) (c r : ContextArticulation)
    (h : ap_voisins appel u l nb c = some r) : ap_voisins appel2 u l nb c = some r := by
  induction l generalizing c nb with
  | nil => exact h
  | cons a reste ih =>
    unfold ap_voisins at h ⊢
    simp only at h ⊢
    split at h
    · rename_i h1
      rw [if_pos h1]
      split at h
      · exact Option.noConfusion h
      · rename_i c1 heq
        rw [hap _ _ _ heq]
        exact ih _ _ h
    · rename_i h1
      rw [if_neg h1]
      split at h
      · rename_i h2
        rw [if_pos h2]
        exact ih _ _ h
      · rename_i h2
        rw [if_neg h2]
        exact ih _ _ h

theorem ap_dfs_succ (g : Graphe) (k : Nat) (c : ContextArticulation) (u : Nat)
    (r : ContextArticulation) (h : ap_dfs g k c u = some r) : ap_dfs g (k + 1) c u = some r := by
  induction k generalizing u c r with
  | zero => exact Option.noConfusion h
  | succ n ih =>
    unfold ap_dfs at h
    rw [ap_dfs]
    exact ap_voisins_mono _ _ (fun c2 v r2 h2 => ih c2 v r2 h2) _ _ _ _ _ h

theorem ap_racines_succ (g : Graphe) (k : Nat) (l : List Nat) (c r : ContextArticulation)
    (h : ap_racines k g l c = some r) : ap_racines (k + 1) g l c = some r := by
  induction l generalizing c with
  | nil => exact h
  | cons i reste ih =>
    unfold ap_racines at h ⊢
    split at h
    · rename_i h1
      rw [if_pos h1]
      split at h
      · exact Option.noConfusion h
      · rename_i c1 heq
        rw [ap_dfs_succ g k _ _ _ heq]
        exact ih _ h
    · rename_i h1
      rw [if_neg h1]
      exact ih _ h

theorem trouver_points_articulation_succ (g : Graphe) (k : Nat) (res r : ResultatSecurite)
    (h : trouver_points_articulation k g res = some r) :
    trouver_points_articulation (k + 1) g res = some r := by
  unfold trouver_points_articulation ap_parcours at h ⊢
  split at h
  · exact Option.noConfusion h
  · rename_i ctx heq
    rw [ap_racines_succ g k _ _ _ heq]
    exact h

theorem tarjan_voisins_mono (appel appel2 : ContextTarjan → Nat → Option ContextTarjan)
    (hap : ∀ c v r, appel c v = some r → appel2 c v = some r) (u : Nat)
    (l : List Arete) (c r : ContextTarjan)
    (h : tarjan_voisins appel u l c = some r) : tarjan_voisins appel2 u l c = some r := by
  induction l generalizing c with
  | nil => exact h
  | cons a reste ih =>
    unfold tarjan_voisins at h ⊢
    simp only at h ⊢
    split at h
    · rename_i h1
      rw [if_pos h1]
      split at h
      · exact Option.noConfusion h
      · rename_i c1 heq
        rw [hap _ _ _ heq]
        exact ih _ h
    · rename_i h1
      rw [if_neg h1]
      split at h
      · rename_i h2
        rw [if_pos h2]
        exact ih _ h
      · rename_i h2
        rw [if_neg h2]
        exact ih _ h

theorem tarjan_dfs_succ (g : Graphe) (k : Nat) (c : ContextTarjan) (u : Nat)
    (r : ContextTarjan) (h : tarjan_dfs g k c u = some r) :
    tarjan_dfs g (k + 1) c u = some r := by
  induction k generalizing u c r with
  | zero => exact Option.noConfusion h
  | succ n ih =>
    unfold tarjan_dfs at h
    rw [tarjan_dfs]
    split at h
    · exact Option.noConfusion h
    · rename_i c1 heq
      rw [tarjan_voisins_mono _ _ (fun c2 v r2 h2 => ih c2 v r2 h2) _ _ _ _ heq]
      exact h

theorem tarjan_racines_succ (g : Graphe) (k : Nat) (l : List Nat) (c r : ContextTarjan)
    (h : tarjan_racines k g l c = some r) : tarjan_racines (k + 1) g l c = some r := by
  induction l generalizing c with
  | nil => exact h
  | cons i reste ih =>
    unfold tarjan_racines at h ⊢
    split at h
    · rename_i h1
      rw [if_pos h1]
      split at h
      · exact Option.noConfusion h
      · rename_i c1 heq
        rw [tarjan_dfs_succ g k _ _ _ heq]
        exact ih _ h
    · rename_i h1
      rw [if_neg h1]
      exact ih _ h

theorem tarjan_scc_succ (g : Graphe) (k : Nat) (res r : ResultatSecurite)
    (h : tarjan_scc k g res = some r) : tarjan_scc (k + 1) g res = some r := by
  unfold tarjan_scc tarjan_parcours at h ⊢
  split at h
  · exact Option.noConfusion h
  · rename_i ctx heq
    rw [tarjan_racines_succ g k _ _ _ heq]
    exact h

theorem analyser_securite_succ (g : Graphe) (k : Nat) (r : ResultatSecurite)
    (h : analyser_securite k g = some r) : analyser_securite (k + 1) g = some r := by
  unfold analyser_securite at h ⊢
  split at h
  · exact Option.noConfusion h
  · rename_i c heq
    rw [detecter_cycle_succ g k c heq]
    simp only
    split at h
    · exact Option.noConfusion h
    · rename_i r1 heq1
      rw [trouver_points_articulation_succ g k _ r1 heq1]
      exact tarjan_scc_succ g k _ _ h

theorem analyser_securite_plus (g : Graphe) (k n : Nat) (r : ResultatSecurite)
    (h : analyser_securite k g = some r) : analyser_securite (k + n) g = some r := by
  induction n with
  | zero => exact h
  | succ m ih => exact analyser_securite_succ g (k + m) r ih

/-- C18: on the chain `0 -> 1 -> 2 -> 3 -> 4`, and for every fuel from 6 on, the
full analysis reports the articulation points 1, 2 and 3, the bridges (3,4),
(2,3), (1,2) and (0,1), five components with the five distinct labels 4, 3, 2,
1, 0 for the nodes 0 to 4, and no cycle. -/
theorem analyser_securite_chaine5 (n : Nat) :
    analyser_securite (6 + n) g_chaine5 =
      some ⟨[1, 2, 3], 3, [(3, 4), (2, 3), (1, 2), (0, 1)], 4, [4, 3, 2, 1, 0], 5, 0⟩ :=
  analyser_securite_plus g_chaine5 6 n _ (by decide)

/-! ## Cycle detection -/

theorem nb_blancs_colorer (g : Graphe) (c : Nat → Nat) (u k : Nat) (hu : u < g.capacite_max)
    (hc : c u = NON_VISITE) (hk : k ≠ NON_VISITE) :
    nb_blancs g (Function.update c u k) + 1 = nb_blancs g c := by
  unfold nb_blancs
  have h := somme_update_zero (List.range g.capacite_max)
    (fun x => if c x = NON_VISITE then 1 else 0) u (List.nodup_range _) (List.mem_range.mpr hu)
  simp only [hc, if_true] at h
  rw [← h]
  congr 2
  apply List.map_congr_left
  intro x _
  by_cases hx : x = u
  · subst hx; simp [hk]
  · simp [Function.update_noteq hx]

theorem nb_blancs_mono (g : Graphe) (c c2 : Nat → Nat)
    (h : ∀ x, c2 x = NON_VISITE → c x = NON_VISITE) : nb_blancs g c2 ≤ nb_blancs g c := by
  unfold nb_blancs
  apply List.sum_le_sum
  intro x _
  by_cases h2 : c2 x = NON_VISITE
  · simp [h2, h x h2]
  · simp only [h2, if_false]
    split <;> omega

theorem blanchis_noircis_blanc (c c2 : Nat → Nat) (h : blanchis_noircis c c2) (x : Nat)
    (hx : c2 x = NON_VISITE) : c x = NON_VISITE := by
  rcases h x with h1 | ⟨_, h2⟩
  · rw [← h1]; exact hx
  · rw [h2] at hx; exact absurd hx (by decide)

theorem blanchis_noircis_trans (c c2 c3 : Nat → Nat) (h1 : blanchis_noircis c c2)
    (h2 : blanchis_noircis c2 c3) : blanchis_noircis c c3 := by
  intro x
  rcases h2 x with h3 | ⟨h3, h4⟩
  · rcases h1 x with h5 | ⟨h5, h6⟩
    · left; rw [h3, h5]
    · right; exact ⟨h5, by rw [h3, h6]⟩
  · rcases h1 x with h5 | ⟨_, h6⟩
    · right; exact ⟨by rw [← h5]; exact h3, h4⟩
    · rw [h6] at h3; exact absurd h3 (by decide)

theorem blanchis_noircis_gris (c c2 : Nat → Nat) (h : blanchis_noircis c c2) (x : Nat) :
    c2 x = EN_COURS ↔ c x = EN_COURS := by
  rcases h x with h1 | ⟨h1, h2⟩
  · rw [h1]
  · rw [h1, h2]
    constructor <;> intro h3 <;> exact absurd h3 (by decide)

theorem blanchis_noircis_noir (c c2 : Nat → Nat) (h : blanchis_noircis c c2) (x : Nat)
    (hx : c x = VISITE) : c2 x = VISITE := by
  rcases h x with h1 | ⟨h1, _⟩
  · rw [h1]; exact hx
  · rw [h1] at hx; exact absurd hx (by decide)

/-- Post-condition of `cycle_dfs` and of its loop: a reported cycle exists; when
none is reported the colouring has only turned unvisited nodes into finished
ones and the finished nodes stay closed. -/
theorem cycle_voisins_ok (g : Graphe) (hb : bien_forme g) (k u : Nat)
    (appel : Nat → (Nat → Nat) → Option (Bool × (Nat → Nat)))
    (happel : ∀ v c, v < g.capacite_max → c v = NON_VISITE → couleurs_valides c →
      noirs_clos g c → gris_atteignent g c v → nb_blancs g c < k →
      ∃ b c2, appel v c = some (b, c2) ∧ (b = true → a_un_cycle g) ∧
        (b = false → couleurs_valides c2 ∧ noirs_clos g c2 ∧ c2 v = VISITE ∧
          blanchis_noircis c c2))
    (l : List Arete) (hl : ∀ a ∈ l, a ∈ aretes_de g u) (c : Nat → Nat)
    (hu : c u = EN_COURS) (hv : couleurs_valides c) (hn : noirs_clos g c)
    (hg : gris_atteignent g c u) (hk : nb_blancs g c < k) :
    ∃ b c2, cycle_voisins appel l c = some (b, c2) ∧ (b = true → a_un_cycle g) ∧
      (b = false → couleurs_valides c2 ∧ noirs_clos g c2 ∧ blanchis_noircis c c2 ∧
        ∀ a ∈ l, c2 a.destination = VISITE) := by
  induction l generalizing c with
  | nil =>
    exact ⟨false, c, rfl, fun h => Bool.noConfusion h,
      fun _ => ⟨hv, hn, fun x => Or.inl rfl, by simp⟩⟩
  | cons a reste ih =>
    have hr : ∀ b ∈ reste, b ∈ aretes_de g u := fun b hb2 => hl b (List.mem_cons_of_mem _ hb2)
    have ha : a ∈ aretes_de g u := hl a (List.mem_cons_self _ _)
    unfold cycle_voisins
    simp only
    split
    · rename_i h1
      refine ⟨true, c, rfl, fun _ => ?_, fun h => Bool.noConfusion h⟩
      obtain ⟨es, e1, e2⟩ := hg a.destination h1
      refine ⟨a.destination, es ++ [a], by simp, ?_, ?_⟩
      · rw [est_marche_append, e2]; exact ⟨e1, ha, trivial⟩
      · rw [extremite_append]; rfl
    · rename_i h1
      split
      · rename_i h2
        have hg2 : gris_atteignent g c a.destination := by
          intro x hx
          obtain ⟨es, e1, e2⟩ := hg x hx
          refine ⟨es ++ [a], ?_, ?_⟩
          · rw [est_marche_append, e2]; exact ⟨e1, ha, trivial⟩
          · rw [extremite_append]; rfl
        obtain ⟨b, c2, r1, r2, r3⟩ :=
          happel a.destination c (arete_origine g hb u a ha).2.2 h2 hv hn hg2 hk
        rw [r1]
        cases b with
        | true => exact ⟨true, c2, rfl, r2, fun h => Bool.noConfusion h⟩
        | false =>
          obtain ⟨s1, s2, s3, s4⟩ := r3 rfl
          simp only
          have hu2 : c2 u = EN_COURS := (blanchis_noircis_gris c c2 s4 u).mpr hu
          have hg3 : gris_atteignent g c2 u := fun x hx =>
            hg x ((blanchis_noircis_gris c c2 s4 x).mp hx)
          have hk2 : nb_blancs g c2 < k :=
            lt_of_le_of_lt (nb_blancs_mono g c c2 (blanchis_noircis_blanc c c2 s4)) hk
          obtain ⟨b3, c3, t1, t2, t3⟩ := ih hr c2 hu2 s1 s2 hg3 hk2
          refine ⟨b3, c3, t1, t2, fun hb3 => ?_⟩
          obtain ⟨w1, w2, w3, w4⟩ := t3 hb3
          refine ⟨w1, w2, blanchis_noircis_trans c c2 c3 s4 w3, ?_⟩
          intro e he
          rcases List.mem_cons.mp he with he | he
          · rw [he]; exact blanchis_noircis_noir c2 c3 w3 _ s3
          · exact w4 e he
      · rename_i h2
        have h3 : c a.destination = VISITE := by
          rcases hv a.destination with h | h | h
          · exact absurd h h2
          · exact absurd h h1
          · exact h
        obtain ⟨b3, c3, t1, t2, t3⟩ := ih hr c hu hv hn hg hk
        refine ⟨b3, c3, t1, t2, fun hb3 => ?_⟩
        obtain ⟨w1, w2, w3, w4⟩ := t3 hb3
        refine ⟨w1, w2, w3, ?_⟩
        intro e he
        rcases List.mem_cons.mp he with he | he
        · rw [he]; exact blanchis_noircis_noir c c3 w3 _ h3
        · exact w4 e he

theorem cycle_dfs_ok (g : Graphe) (hb : bien_forme g) (k : Nat) :
    ∀ v c, v < g.capacite_max → c v = NON_VISITE → couleurs_valides c →
      noirs_clos g c → gris_atteignent g c v → nb_blancs g c < k →
      ∃ b c2, cycle_dfs g k v c = some (b, c2) ∧ (b = true → a_un_cycle g) ∧
        (b = false → couleurs_valides c2 ∧ noirs_clos g c2 ∧ c2 v = VISITE ∧
          blanchis_noircis c c2) := by
  induction k with
  | zero => intro v c _ _ _ _ _ hk; omega
  | succ n ih =>
    intro v c hvV hw hv hn hg hk
    have hne : v ≠ v → False := fun h => h rfl
    have hv1 : couleurs_valides (Function.update c v EN_COURS) := by
      intro x
      by_cases hx : x = v
      · subst hx; right; left; simp
      · rw [Function.update_noteq hx]; exact hv x
    have hn1 : noirs_clos g (Function.update c v EN_COURS) := by
      obtain ⟨rank, N, n1, n2⟩ := hn
      refine ⟨rank, N, ?_, ?_⟩
      · intro x hx
        by_cases hxv : x = v
        · subst hxv; simp [EN_COURS, VISITE] at hx
        · rw [Function.update_noteq hxv] at hx; exact n1 x hx
      · intro x hx a ha
        by_cases hxv : x = v
        · subst hxv; simp [EN_COURS, VISITE] at hx
        · rw [Function.update_noteq hxv] at hx
          obtain ⟨m1, m2⟩ := n2 x hx a ha
          have : a.destination ≠ v := by
            intro h
            rw [h, hw] at m1
            exact absurd m1 (by decide)
          rw [Function.update_noteq this]
          exact ⟨m1, m2⟩
    have hg1 : gris_atteignent g (Function.update c v EN_COURS) v := by
      intro x hx
      by_cases hxv : x = v
      · subst hxv; exact ⟨[], trivial, rfl⟩
      · rw [Function.update_noteq hxv] at hx; exact hg x hx
    have hk1 : nb_blancs g (Function.update c v EN_COURS) < n := by
      have := nb_blancs_colorer g c v EN_COURS hvV hw (by decide)
      omega
    obtain ⟨b, c2, r1, r2, r3⟩ := cycle_voisins_ok g hb n v (cycle_dfs g n) ih
      (aretes_de g v) (fun a ha => ha) _ (by simp) hv1 hn1 hg1 hk1
    unfold cycle_dfs
    rw [r1]
    cases b with
    | true => exact ⟨true, c2, rfl, r2, fun h => Bool.noConfusion h⟩
    | false =>
      obtain ⟨s1, s2, s3, s4⟩ := r3 rfl
      refine ⟨false, Function.update c2 v VISITE, rfl, fun h => Bool.noConfusion h, fun _ => ?_⟩
      have hc2v : c2 v = EN_COURS :=
        (blanchis_noircis_gris _ c2 s3 v).mpr (by simp)
      refine ⟨?_, ?_, by simp, ?_⟩
      · intro x
        by_cases hx : x = v
        · subst hx; right; right; simp
        · rw [Function.update_noteq hx]; exact s1 x
      · obtain ⟨rank, N, n1, n2⟩ := s2
        refine ⟨Function.update rank v N, N + 1, ?_, ?_⟩
        · intro x _
          by_cases hxv : x = v
          · subst hxv; simp
          · rw [Function.update_noteq hxv]
            by_cases hx2 : c2 x = VISITE
            · have := n1 x hx2; omega
            · rename_i hx3
              rw [Function.update_noteq hxv] at hx3
              exact absurd hx3 hx2
        · intro x hx a ha
          have hdest : c2 a.destination = VISITE := by
            by_cases hxv : x = v
            · subst hxv; exact s4 a ha
            · rw [Function.update_noteq hxv] at hx
              exact (n2 x hx a ha).1
          have hdv : a.destination ≠ v := by
            intro h
            rw [h, hc2v] at hdest
            exact absurd hdest (by decide)
          rw [Function.update_noteq hdv, Function.update_noteq hdv]
          refine ⟨hdest, ?_⟩
          by_cases hxv : x = v
          · subst hxv
            rw [Function.update_same]
            exact n1 _ hdest
          · rw [Function.update_noteq hxv] at hx ⊢
            exact (n2 x hx a ha).2
      · intro x
        by_cases hx : x = v
        · subst hx; right; exact ⟨hw, by simp⟩
        · rw [Function.update_noteq hx]
          have := s3 x
          rw [Function.update_noteq hx] at this
          exact this

theorem nb_blancs_le (g : Graphe) (c : Nat → Nat) : nb_blancs g c ≤ g.capacite_max := by
  unfold nb_blancs
  have h : ∀ (l : List Nat),
      (l.map (fun x => if c x = NON_VISITE then 1 else 0)).sum ≤ l.length := by
    intro l
    induction l with
    | nil => simp
    | cons x r ih =>
      simp only [List.map_cons, List.sum_cons, List.length_cons]
      split <;> omega
  have := h (List.range g.capacite_max)
  simpa using this

theorem marche_sommets_aretes (g : Graphe) (es : List Arete) (u : Nat)
    (hm : est_marche g u es) (x : Nat) (hx : x ∈ sommets u es) :
    x = extremite u es ∨ ∃ a, a ∈ aretes_de g x := by
  induction es generalizing u with
  | nil =>
    simp only [sommets, List.map_nil, List.mem_singleton] at hx
    left; rw [hx]; rfl
  | cons a r ih =>
    obtain ⟨h1, h2⟩ := hm
    simp only [sommets, List.map_cons, List.mem_cons] at hx
    rcases hx with hx | hx
    · right; rw [hx]; exact ⟨a, h1⟩
    · have := ih a.destination h2 (by simpa [sommets] using hx)
      simpa [extremite] using this

theorem cycle_noeuds_actifs (g : Graphe) (hb : bien_forme g) (u : Nat) (es : List Arete)
    (hne : es ≠ []) (hm : est_marche g u es) (he : extremite u es = u) (x : Nat)
    (hx : x ∈ sommets u es) : noeud_existe g x = true := by
  have hout : ∃ a, a ∈ aretes_de g x := by
    rcases marche_sommets_aretes g es u hm x hx with h | h
    · rw [h, he]
      cases es with
      | nil => exact absurd rfl hne
      | cons a r => exact ⟨a, hm.1⟩
    · exact h
  obtain ⟨a, ha⟩ := hout
  obtain ⟨h1, h2, _⟩ := arete_origine g hb x a ha
  unfold noeud_existe
  rw [if_neg (by omega)]
  exact h2

theorem noirs_rang_decroit (g : Graphe) (c : Nat → Nat) (rank : Nat → Nat)
    (hr : ∀ x, c x = VISITE → ∀ a ∈ aretes_de g x,
      c a.destination = VISITE ∧ rank a.destination < rank x)
    (es : List Arete) (u : Nat) (hm : est_marche g u es) (hu : c u = VISITE) (hne : es ≠ []) :
    c (extremite u es) = VISITE ∧ rank (extremite u es) < rank u := by
  induction es generalizing u with
  | nil => exact absurd rfl hne
  | cons a r ih =>
    obtain ⟨h1, h2⟩ := hm
    obtain ⟨h3, h4⟩ := hr u hu a h1
    cases r with
    | nil => exact ⟨h3, h4⟩
    | cons b r2 =>
      obtain ⟨h5, h6⟩ := ih a.destination h2 h3 (by simp)
      exact ⟨h5, lt_trans h6 h4⟩

theorem detecter_boucle_ok (g : Graphe) (hb : bien_forme g) (fuel : Nat)
    (hfuel : g.capacite_max < fuel) (l : List Nat) (hl : ∀ i ∈ l, i < g.capacite_max)
    (c : Nat → Nat) (hv : couleurs_valides c) (hn : noirs_clos g c)
    (hg : ∀ x, c x ≠ EN_COURS) :
    ∃ b, detecter_boucle fuel g l c = some b ∧ (b = true → a_un_cycle g) ∧
      (b = false → ∃ c2, noirs_clos g c2 ∧ blanchis_noircis c c2 ∧
        ∀ i ∈ l, (noeud g i).actif = true → c2 i = VISITE) := by
  induction l generalizing c with
  | nil =>
    exact ⟨false, rfl, fun h => Bool.noConfusion h,
      fun _ => ⟨c, hn, fun x => Or.inl rfl, by simp⟩⟩
  | cons i reste ih =>
    have hr : ∀ j ∈ reste, j < g.capacite_max := fun j hj => hl j (List.mem_cons_of_mem _ hj)
    unfold detecter_boucle
    split
    · rename_i hcond
      simp only [Bool.and_eq_true, decide_eq_true_eq] at hcond
      obtain ⟨b, c2, r1, r2, r3⟩ := cycle_dfs_ok g hb fuel i c (hl i (List.mem_cons_self _ _))
        hcond.2 hv hn (fun x hx => absurd hx (hg x))
        (lt_of_le_of_lt (nb_blancs_le g c) hfuel)
      rw [r1]
      cases b with
      | true => exact ⟨true, rfl, r2, fun h => Bool.noConfusion h⟩
      | false =>
        obtain ⟨s1, s2, s3, s4⟩ := r3 rfl
        simp only
        obtain ⟨b3, t1, t2, t3⟩ := ih hr c2 s1 s2
          (fun x hx => hg x ((blanchis_noircis_gris c c2 s4 x).mp hx))
        refine ⟨b3, t1, t2, fun hb3 => ?_⟩
        obtain ⟨c3, w1, w2, w3⟩ := t3 hb3
        refine ⟨c3, w1, blanchis_noircis_trans c c2 c3 s4 w2, ?_⟩
        intro j hj hact
        rcases List.mem_cons.mp hj with hj | hj
        · rw [hj]; exact blanchis_noircis_noir c2 c3 w2 _ s3
        · exact w3 j hj hact
    · rename_i hcond
      simp only [Bool.and_eq_true, decide_eq_true_eq, not_and] at hcond
      obtain ⟨b3, t1, t2, t3⟩ := ih hr c hv hn hg
      refine ⟨b3, t1, t2, fun hb3 => ?_⟩
      obtain ⟨c3, w1, w2, w3⟩ := t3 hb3
      refine ⟨c3, w1, w2, ?_⟩
      intro j hj hact
      rcases List.mem_cons.mp hj with hj | hj
      · subst hj
        have h1 := hcond hact
        have h2 : c j = VISITE := by
          rcases hv j with h | h | h
          · exact absurd h h1
          · exact absurd h (hg j)
          · exact h
        exact blanchis_noircis_noir c c3 w2 _ h2
      · exact w3 j hj hact

/-- C20: with more fuel than node slots `detecter_cycle` answers 1 or 0, and it
answers 1 exactly when the graph holds a cycle among its active nodes: a walk
of at least one edge from a node back to itself (a loop on one node counts),
all of whose nodes are active. -/
theorem detecter_cycle_correct (g : Graphe) (fuel : Nat) (hb : bien_forme g)
    (hfuel : g.capacite_max < fuel) :
    ∃ r, detecter_cycle fuel g = some r ∧ (r = 1 ∨ r = 0) ∧
      (r = 1 ↔ ∃ u es, es ≠ [] ∧ est_marche g u es ∧ extremite u es = u ∧
        ∀ x ∈ sommets u es, noeud_existe g x = true) := by
  obtain ⟨b, h1, h2, h3⟩ := detecter_boucle_ok g hb fuel hfuel (List.range g.capacite_max)
    (fun i hi => List.mem_range.mp hi) (fun _ => NON_VISITE) (fun _ => Or.inl rfl)
    ⟨fun _ => 0, 0, fun x hx => absurd hx (show NON_VISITE ≠ VISITE by decide),
      fun x hx => absurd hx (show NON_VISITE ≠ VISITE by decide)⟩
    (fun _ => show NON_VISITE ≠ EN_COURS by decide)
  unfold detecter_cycle
  rw [h1]
  cases b with
  | true =>
    refine ⟨1, rfl, Or.inl rfl, fun _ => ?_, fun _ => rfl⟩
    obtain ⟨u, es, e1, e2, e3⟩ := h2 rfl
    exact ⟨u, es, e1, e2, e3, fun x hx => cycle_noeuds_actifs g hb u es e1 e2 e3 x hx⟩
  | false =>
    refine ⟨0, rfl, Or.inr rfl, fun h => absurd h (by decide), fun hcyc => ?_⟩
    exfalso
    obtain ⟨c2, ⟨rank, N, _, n2⟩, _, w3⟩ := h3 rfl
    obtain ⟨u, es, e1, e2, e3, _⟩ := hcyc
    have hu : c2 u = VISITE := by
      cases es with
      | nil => exact absurd rfl e1
      | cons a r =>
        obtain ⟨o1, o2, _⟩ := arete_origine g hb u a e2.1
        exact w3 u (List.mem_range.mpr o1) o2
    have := (noirs_rang_decroit g c2 rank n2 es u e2 hu e1).2
    rw [e3] at this
    omega

/-- Instance of C20 on `g_cycle_proche`, whose node 1 carries a loop. -/
theorem detecter_cycle_correct_witness :
    (bien_forme g_cycle_proche ∧ g_cycle_proche.capacite_max < 5 ∧
      detecter_cycle 5 g_cycle_proche = some 1) ∧
    ∃ r, detecter_cycle 5 g_cycle_proche = some r ∧ (r = 1 ∨ r = 0) ∧
      (r = 1 ↔ ∃ u es, es ≠ [] ∧ est_marche g_cycle_proche u es ∧ extremite u es = u ∧
        ∀ x ∈ sommets u es, noeud_existe g_cycle_proche x = true) :=
  ⟨by decide, detecter_cycle_correct g_cycle_proche 5 (by decide) (by decide)⟩

/-! ## Reachability -/

theorem atteint_refl (g : Graphe) (x : Nat) : atteint g x x := ⟨[], trivial, rfl⟩

theorem atteint_trans (g : Graphe) (x y z : Nat) (h1 : atteint g x y) (h2 : atteint g y z) :
    atteint g x z := by
  obtain ⟨e1, a1, a2⟩ := h1
  obtain ⟨e2, b1, b2⟩ := h2
  refine ⟨e1 ++ e2, ?_, ?_⟩
  · rw [est_marche_append, a2]; exact ⟨a1, b1⟩
  · rw [extremite_append, a2, b2]

theorem atteint_arete (g : Graphe) (x : Nat) (a : Arete) (h : a ∈ aretes_de g x) :
    atteint g x a.destination := ⟨[a], ⟨h, trivial⟩, rfl⟩

theorem aretes_vers_actifs_dest (g : Graphe) (h : aretes_vers_actifs g) (u : Nat) (a : Arete)
    (ha : a ∈ aretes_de g u) : noeud_existe g a.destination = true :=
  h _ (arete_noeud_mem g u a ha).1 a ha

/-! ## Tarjan: frame lemmas -/

theorem tarjan_blancs_visiter (g : Graphe) (c c1 : ContextTarjan) (u : Nat)
    (hu : u < g.capacite_max) (hw : c.disc u = -1) (hn : c1.disc u ≠ -1)
    (hs : ∀ x, x ≠ u → c1.disc x = c.disc x) :
    tarjan_blancs g c1 + 1 = tarjan_blancs g c := by
  unfold tarjan_blancs
  have h := somme_update_zero (List.range g.capacite_max)
    (fun x => if c.disc x = -1 then 1 else 0) u (List.nodup_range _) (List.mem_range.mpr hu)
  simp only [hw, if_true] at h
  rw [← h]
  congr 2
  apply List.map_congr_left
  intro x _
  by_cases hx : x = u
  · subst hx; simp [hn]
  · simp [Function.update_noteq hx, hs x hx]

theorem tarjan_blancs_mono (g : Graphe) (c c1 : ContextTarjan)
    (h : ∀ x, c.disc x ≠ -1 → c1.disc x = c.disc x) : tarjan_blancs g c1 ≤ tarjan_blancs g c := by
  unfold tarjan_blancs
  apply List.sum_le_sum
  intro x _
  by_cases h2 : c.disc x = -1
  · simp only [h2, if_true]
    split <;> omega
  · simp [h x h2, h2]

theorem tarjan_blancs_le (g : Graphe) (c : ContextTarjan) :
    tarjan_blancs g c ≤ g.capacite_max := by
  unfold tarjan_blancs
  have h : ∀ (l : List Nat),
      (l.map (fun x => if c.disc x = -1 then 1 else 0)).sum ≤ l.length := by
    intro l
    induction l with
    | nil => simp
    | cons x r ih =>
      simp only [List.map_cons, List.sum_cons, List.length_cons]
      split <;> omega
  have := h (List.range g.capacite_max)
  simpa using this

theorem etend_tarjan_refl (c : ContextTarjan) (h : 0 ≤ c.timer) : EtendTarjan c c :=
  ⟨⟨h, le_refl _⟩, fun _ _ => rfl, fun _ hx => Or.inl hx, ⟨[], rfl⟩, fun _ _ => rfl⟩

theorem etend_tarjan_trans (c0 c1 c2 : ContextTarjan) (h1 : EtendTarjan c0 c1)
    (h2 : EtendTarjan c1 c2) : EtendTarjan c0 c2 := by
  obtain ⟨⟨a0, a1⟩, a2, a3, ⟨s1, a4⟩, a5⟩ := h1
  obtain ⟨⟨b0, b1⟩, b2, b3, ⟨s2, b4⟩, b5⟩ := h2
  refine ⟨⟨a0, le_trans a1 b1⟩, ?_, ?_, ⟨s2 ++ s1, by rw [b4, a4, List.append_assoc]⟩, ?_⟩
  · intro x hx
    rw [b2 x (by rw [a2 x hx]; exact hx), a2 x hx]
  · intro x hx
    rcases a3 x hx with h | h
    · rcases b3 x h with h3 | h3
      · exact Or.inl h3
      · exact Or.inr (le_trans a1 h3)
    · right
      rw [b2 x (by omega)]
      exact h
  · intro x hx
    rw [b5 x (by rw [a4]; exact List.mem_append_right _ hx), a5 x hx]

/-- Result of the loop `do ... while (v != u)` on a stack `seg ++ u :: reste`. -/
theorem depiler_composante_ok (u : Nat) (seg reste : List Nat) (c : ContextTarjan)
    (hu : u ∉ seg) :
    ∃ c2, depiler_composante u (seg ++ u :: reste) c = some c2 ∧ c2.pile = reste ∧
      c2.disc = c.disc ∧ c2.low = c.low ∧ c2.timer = c.timer ∧ c2.nb_scc = c.nb_scc ∧
      (∀ x, c2.sur_pile x = if x ∈ seg ∨ x = u then false else c.sur_pile x) ∧
      (∀ x, c2.composante x = if x ∈ seg ∨ x = u then c.nb_scc else c.composante x) := by
  induction seg generalizing c with
  | nil =>
    refine ⟨{ c with
                pile := reste
                sur_pile := Function.update c.sur_pile u false
                composante := Function.update c.composante u c.nb_scc },
      by simp [depiler_composante], rfl, rfl, rfl, rfl, rfl, ?_, ?_⟩
    · intro x
      by_cases hx : x = u
      · subst hx; simp
      · simp [hx, Function.update_noteq hx]
    · intro x
      by_cases hx : x = u
      · subst hx; simp
      · simp [hx, Function.update_noteq hx]
  | cons v r ih =>
    have hvu : v ≠ u := fun h => hu (h ▸ List.mem_cons_self _ _)
    have hur : u ∉ r := fun h => hu (List.mem_cons_of_mem _ h)
    obtain ⟨c2, h1, h2, h3, h4, h5, h6, h7, h8⟩ := ih
      { c with
          pile := r ++ u :: reste
          sur_pile := Function.update c.sur_pile v false
          composante := Function.update c.composante v c.nb_scc } hur
    refine ⟨c2, ?_, h2, h3, h4, h5, h6, ?_, ?_⟩
    · simp only [List.cons_append, depiler_composante, hvu, if_false]
      exact h1
    · intro x
      rw [h7 x]
      by_cases hxv : x = v
      · subst hxv
        simp
      · simp only [List.mem_cons, hxv, false_or, Function.update_noteq hxv]
    · intro x
      rw [h8 x]
      by_cases hxv : x = v
      · subst hxv
        simp
      · simp only [List.mem_cons, hxv, false_or, Function.update_noteq hxv]

/-! ## Tarjan: the loop over the neighbours -/

theorem inv_tarjan_low (g : Graphe) (c : ContextTarjan) (f : Nat → Int) (h : InvTarjan g c) :
    InvTarjan g { c with low := f } :=
  ⟨h.temps, h.pile_ok, h.pile_visite, h.comp_ok, h.visite_ok, h.borne, h.actifs, h.mono,
    h.scc, h.surj⟩

theorem boucle_tarjan_hors_base (g : Graphe) (c0 c : ContextTarjan) (u : Nat)
    (h : BoucleTarjan g c0 u c) : u ∉ c0.pile ∧ u ∈ c.pile ∧ ∀ x ∈ c0.pile, x ∈ c.pile := by
  obtain ⟨seg, hp, _⟩ := h.pile
  have hn := h.inv.pile_ok.1
  rw [hp] at hn
  have h2 := (List.nodup_append.mp hn).2.1
  refine ⟨(List.nodup_cons.mp h2).1, by rw [hp]; simp, ?_⟩
  intro x hx
  rw [hp]
  exact List.mem_append_right _ (List.mem_cons_of_mem _ hx)

/-- A node of the current stack whose discovery time is below the one of `u`
belongs to the stack of `c0`. -/
theorem boucle_tarjan_sous_racine (g : Graphe) (c0 c : ContextTarjan) (u w : Nat)
    (h : BoucleTarjan g c0 u c) (hw : w ∈ c.pile) (hd : c.disc w < c.disc u) :
    w ∈ c0.pile := by
  obtain ⟨seg, hp, hseg⟩ := h.pile
  rw [hp] at hw
  rcases List.mem_append.mp hw with h1 | h1
  · have := (hseg w h1).1
    have := h.racine.1
    omega
  · rcases List.mem_cons.mp h1 with h2 | h2
    · rw [h2] at hd; omega
    · exact h2

theorem boucle_tarjan_atteint (g : Graphe) (c0 c : ContextTarjan) (u x : Nat)
    (h : BoucleTarjan g c0 u c) (hx : x ∈ c.pile) : atteint g x u := by
  obtain ⟨seg, hp, hseg⟩ := h.pile
  rw [hp] at hx
  rcases List.mem_append.mp hx with h1 | h1
  · exact (hseg x h1).2.2.1
  · rcases List.mem_cons.mp h1 with h2 | h2
    · rw [h2]; exact atteint_refl g u
    · exact h.base x h2

/-- Lowering `low[u]` to the discovery time of a node of the base stack reached
from `u` keeps the loop invariant. -/
theorem boucle_tarjan_low (g : Graphe) (c0 c : ContextTarjan) (u : Nat) (m : Int)
    (h : BoucleTarjan g c0 u c) (hm : m ≤ c.low u)
    (hw : ∃ w ∈ u :: c0.pile, c.disc w = m ∧ atteint g u w) :
    BoucleTarjan g c0 u { c with low := Function.update c.low u m } := by
  obtain ⟨hu0, _, _⟩ := boucle_tarjan_hors_base g c0 c u h
  obtain ⟨seg, hp, hseg⟩ := h.pile
  refine ⟨inv_tarjan_low g c _ h.inv, ?_, h.racine, ⟨seg, hp, ?_⟩, ?_, h.base⟩
  · obtain ⟨e1, e2, e3, e4, e5⟩ := h.etend
    refine ⟨e1, e2, e3, e4, ?_⟩
    intro x hx
    have hxu : x ≠ u := fun hxu => hu0 (hxu ▸ hx)
    show Function.update c.low u m x = c0.low x
    rw [Function.update_noteq hxu]
    exact e5 x hx
  · intro x hx
    obtain ⟨s1, s2, s3, s4⟩ := hseg x hx
    refine ⟨s1, s2, s3, ?_⟩
    intro a ha
    obtain ⟨t1, t2⟩ := s4 a ha
    refine ⟨t1, fun hd => ?_⟩
    show Function.update c.low u m u ≤ c.disc a.destination
    rw [Function.update_same]
    exact le_trans hm (t2 hd)
  · show Function.update c.low u m u ≤ c.disc u ∧
      ∃ w ∈ u :: c0.pile, c.disc w = Function.update c.low u m u ∧ atteint g u w
    rw [Function.update_same]
    exact ⟨le_trans hm h.low_ok.1, hw⟩

/-- The loop invariant after the recursive call on a white neighbour `v` and
the update of `low[u]` that follows it. -/
theorem boucle_tarjan_appel (g : Graphe) (c0 c c1 : ContextTarjan) (u : Nat) (a : Arete)
    (h : BoucleTarjan g c0 u c) (ha : a ∈ aretes_de g u)
    (hpost : PostTarjan g c a.destination c1) :
    BoucleTarjan g c0 u
      (if c1.low a.destination < c1.low u then
        { c1 with low := Function.update c1.low u (c1.low a.destination) }
       else c1) ∧ c1.low u = c.low u := by
  obtain ⟨hu0, huc, hbase⟩ := boucle_tarjan_hors_base g c0 c u h
  obtain ⟨seg, hp, hseg⟩ := h.pile
  obtain ⟨I1, E1, d1, segv, p1, halt⟩ := hpost
  have hlowu : c1.low u = c.low u := E1.low u huc
  have hdu : c.disc u = c0.timer := h.racine.1
  have ht0 : 0 ≤ c0.timer := h.etend.temps.1
  have hdisc : ∀ x, c.disc x ≠ -1 → c1.disc x = c.disc x := E1.anciens
  have hdu1 : c1.disc u = c0.timer := by rw [hdisc u (by omega), hdu]
  have hut : c.disc u < c.timer := by
    rcases h.inv.temps.2 u with h1 | h1
    · omega
    · exact h1.2
  have hpilev : ∀ x ∈ c.pile, c.disc x ≠ -1 := fun x hx => (h.inv.pile_visite x hx).1
  -- the invariant before the update of low[u], for the old segment only
  have hseg1 : ∀ x ∈ seg, segment_ok g c0 c1 (c0.timer + 1) u x := by
    intro x hx
    obtain ⟨s1, s2, s3, s4⟩ := hseg x hx
    have hxp : x ∈ c.pile := by rw [hp]; exact List.mem_append_left _ hx
    refine ⟨by rw [hdisc x (hpilev x hxp)]; exact s1, s2, s3, ?_⟩
    intro e he
    obtain ⟨t1, t2⟩ := s4 e he
    refine ⟨by rw [hdisc _ t1]; exact t1, fun hd => ?_⟩
    rw [hdisc _ t1, hlowu]
    exact t2 hd
  have hlow1 : c1.low u ≤ c1.disc u ∧ ∃ w ∈ u :: c0.pile, c1.disc w = c1.low u ∧
      atteint g u w := by
    obtain ⟨l1, w, w1, w2, w3⟩ := h.low_ok
    refine ⟨by rw [hlowu, hdu1, ← hdu]; exact l1, w, w1, ?_, w3⟩
    have hwp : w ∈ c.pile := by
      rcases List.mem_cons.mp w1 with h2 | h2
      · rw [h2]; exact huc
      · exact hbase w h2
    rw [hdisc w (hpilev w hwp), hlowu]
    exact w2
  have hE01 : EtendTarjan c0 c1 := etend_tarjan_trans c0 c c1 h.etend E1
  rcases halt with ⟨hs, hl⟩ | ⟨hl, ⟨w, w1, w2, w3⟩, hsv⟩
  · -- the component of v was popped
    have hno : ¬ c1.low a.destination < c1.low u := by
      rw [hl, d1, hlowu]
      have := h.low_ok.1
      omega
    rw [if_neg hno]
    refine ⟨⟨I1, hE01, ⟨hdu1, h.racine.2⟩, ⟨seg, by rw [p1, hs, hp]; rfl, hseg1⟩, hlow1,
      h.base⟩, hlowu⟩
  · -- v stays on the stack
    have hreach_u : ∀ x ∈ c.pile, atteint g x u := fun x hx =>
      boucle_tarjan_atteint g c0 c u x h hx
    have huv : atteint g u a.destination := atteint_arete g u a ha
    -- the new segment, with low[u] possibly lowered
    have key : ∀ m : Int, m ≤ c1.low u → m ≤ c1.low a.destination →
        (∃ w ∈ u :: c0.pile, c1.disc w = m ∧ atteint g u w) →
        BoucleTarjan g c0 u { c1 with low := Function.update c1.low u m } := by
      intro m hm1 hm2 hwm
      refine ⟨inv_tarjan_low g c1 _ I1, ?_, ⟨hdu1, h.racine.2⟩,
        ⟨segv ++ seg, by rw [p1, hp, List.append_assoc], ?_⟩, ?_, h.base⟩
      · obtain ⟨e1, e2, e3, e4, e5⟩ := hE01
        refine ⟨e1, e2, e3, e4, ?_⟩
        intro x hx
        have hxu : x ≠ u := fun hxu => hu0 (hxu ▸ hx)
        show Function.update c1.low u m x = c0.low x
        rw [Function.update_noteq hxu]
        exact e5 x hx
      · intro x hx
        rcases List.mem_append.mp hx with hx | hx
        · obtain ⟨s1, s2, s3, s4⟩ := hsv x hx
          refine ⟨by show c0.timer + 1 ≤ c1.disc x; omega, atteint_trans g _ _ _ huv s2,
            atteint_trans g _ _ _ s3 (atteint_trans g _ _ _ w3 (hreach_u w w1)), ?_⟩
          intro e he
          obtain ⟨t1, t2⟩ := s4 e he
          refine ⟨t1, fun hd => ?_⟩
          show Function.update c1.low u m u ≤ c1.disc e.destination
          rw [Function.update_same]
          exact le_trans hm2 (t2 (hbase _ hd))
        · obtain ⟨s1, s2, s3, s4⟩ := hseg1 x hx
          refine ⟨s1, s2, s3, ?_⟩
          intro e he
          obtain ⟨t1, t2⟩ := s4 e he
          refine ⟨t1, fun hd => ?_⟩
          show Function.update c1.low u m u ≤ c1.disc e.destination
          rw [Function.update_same]
          exact le_trans hm1 (t2 hd)
      · show Function.update c1.low u m u ≤ c1.disc u ∧
          ∃ w ∈ u :: c0.pile, c1.disc w = Function.update c1.low u m u ∧ atteint g u w
        rw [Function.update_same]
        exact ⟨le_trans hm1 hlow1.1, hwm⟩
    split
    · rename_i hlt
      refine ⟨key (c1.low a.destination) (le_of_lt hlt) (le_refl _) ⟨w, ?_, w2,
        atteint_trans g _ _ _ huv w3⟩, hlowu⟩
      have hwd : c.disc w < c.disc u := by
        rw [← hdisc w (hpilev w w1), w2, hdu, ← hdu1]
        exact lt_of_lt_of_le hlt hlow1.1
      exact List.mem_cons_of_mem _ (boucle_tarjan_sous_racine g c0 c u w h w1 hwd)
    · rename_i hlt
      have := key (c1.low u) (le_refl _) (by omega) hlow1.2
      have heq : ({ c1 with low := Function.update c1.low u (c1.low u) } : ContextTarjan) = c1 := by
        rw [Function.update_eq_self]
      rw [heq] at this
      exact ⟨this, hlowu⟩

theorem tarjan_maj_low_disc (c1 : ContextTarjan) (P : Prop) [Decidable P] (f : Nat → Int) :
    (if P then { c1 with low := f } else c1).disc = c1.disc := by
  split <;> rfl

theorem tarjan_voisins_ok (g : Graphe) (hb : bien_forme g) (k u : Nat) (c0 : ContextTarjan)
    (appel : ContextTarjan → Nat → Option ContextTarjan)
    (happel : ∀ c v, PreTarjan g c v → tarjan_blancs g c < k →
      ∃ c1, appel c v = some c1 ∧ PostTarjan g c v c1)
    (l : List Arete) (hl : ∀ a ∈ l, a ∈ aretes_de g u) (c : ContextTarjan)
    (hinv : BoucleTarjan g c0 u c) (hk : tarjan_blancs g c < k) :
    ∃ c1, tarjan_voisins appel u l c = some c1 ∧ BoucleTarjan g c0 u c1 ∧
      (∀ x, c.disc x ≠ -1 → c1.disc x = c.disc x) ∧ c1.low u ≤ c.low u ∧
      ∀ a ∈ l, c1.disc a.destination ≠ -1 ∧
        (a.destination ∈ c0.pile → c1.low u ≤ c1.disc a.destination) := by
  induction l generalizing c with
  | nil => exact ⟨c, rfl, hinv, fun _ _ => rfl, le_refl _, by simp⟩
  | cons a reste ih =>
    have hr : ∀ b ∈ reste, b ∈ aretes_de g u := fun b hb2 => hl b (List.mem_cons_of_mem _ hb2)
    have ha : a ∈ aretes_de g u := hl a (List.mem_cons_self _ _)
    obtain ⟨hu0, huc, hbase⟩ := boucle_tarjan_hors_base g c0 c u hinv
    unfold tarjan_voisins
    simp only
    split
    · rename_i hv
      -- recursive call on a white neighbour
      have hpre : PreTarjan g c a.destination := by
        refine ⟨hinv.inv, hv, (arete_origine g hb u a ha).2.2,
          fun hact => aretes_vers_actifs_dest g hact u a ha, ?_⟩
        intro x hx
        exact atteint_trans g _ _ _ (boucle_tarjan_atteint g c0 c u x hinv hx)
          (atteint_arete g u a ha)
      obtain ⟨c1, r1, r2⟩ := happel c a.destination hpre hk
      rw [r1]
      simp only
      obtain ⟨b1, b2⟩ := boucle_tarjan_appel g c0 c c1 u a hinv ha r2
      have hd12 := tarjan_maj_low_disc c1 (c1.low a.destination < c1.low u)
        (Function.update c1.low u (c1.low a.destination))
      have hE1 := r2.2.1
      have hk2 : tarjan_blancs g (if c1.low a.destination < c1.low u then
          { c1 with low := Function.update c1.low u (c1.low a.destination) } else c1) < k := by
        refine lt_of_le_of_lt (tarjan_blancs_mono g c _ ?_) hk
        intro x hx
        rw [hd12]
        exact hE1.anciens x hx
      obtain ⟨c3, t1, t2, t3, t4, t5⟩ := ih hr _ b1 hk2
      refine ⟨c3, t1, t2, ?_, ?_, ?_⟩
      · intro x hx
        have h1 := hE1.anciens x hx
        rw [t3 x (by rw [hd12, h1]; exact hx), hd12, h1]
      · refine le_trans t4 ?_
        rw [← b2]
        split
        · rename_i hlt
          show Function.update c1.low u (c1.low a.destination) u ≤ c1.low u
          rw [Function.update_same]
          exact le_of_lt hlt
        · exact le_refl _
      · intro e he
        rcases List.mem_cons.mp he with he | he
        · subst he
          have hd1 : c1.disc e.destination ≠ -1 := by
            rw [r2.2.2.1]
            have := hinv.inv.temps.1
            omega
          refine ⟨by rw [t3 _ (by rw [hd12]; exact hd1), hd12]; exact hd1, fun hd => ?_⟩
          exact absurd hv (hinv.inv.pile_visite _ (hbase _ hd)).1
        · exact t5 e he
    · rename_i hv
      split
      · rename_i hsp
        -- the neighbour is on the stack
        have hvp : a.destination ∈ c.pile := (hinv.inv.pile_ok.2 _).mp hsp
        have hb2 : BoucleTarjan g c0 u
            (if c.disc a.destination < c.low u then
              { c with low := Function.update c.low u (c.disc a.destination) } else c) := by
          split
          · rename_i hlt
            refine boucle_tarjan_low g c0 c u _ hinv (le_of_lt hlt)
              ⟨a.destination, ?_, rfl, atteint_arete g u a ha⟩
            exact List.mem_cons_of_mem _ (boucle_tarjan_sous_racine g c0 c u _ hinv hvp
              (lt_of_lt_of_le hlt hinv.low_ok.1))
          · exact hinv
        have hd12 := tarjan_maj_low_disc c (c.disc a.destination < c.low u)
          (Function.update c.low u (c.disc a.destination))
        have hk2 : tarjan_blancs g (if c.disc a.destination < c.low u then
            { c with low := Function.update c.low u (c.disc a.destination) } else c) < k := by
          refine lt_of_le_of_lt (tarjan_blancs_mono g c _ ?_) hk
          intro x _
          rw [hd12]
        have hlow2 : (if c.disc a.destination < c.low u then
            ({ c with low := Function.update c.low u (c.disc a.destination) } : ContextTarjan)
            else c).low u ≤ c.low u ∧
            (if c.disc a.destination < c.low u then
            ({ c with low := Function.update c.low u (c.disc a.destination) } : ContextTarjan)
            else c).low u ≤ c.disc a.destination := by
          split
          · rename_i hlt
            show Function.update c.low u (c.disc a.destination) u ≤ c.low u ∧
              Function.update c.low u (c.disc a.destination) u ≤ c.disc a.destination
            rw [Function.update_same]
            exact ⟨le_of_lt hlt, le_refl _⟩
          · rename_i hlt
            exact ⟨le_refl _, by omega⟩
        obtain ⟨c3, t1, t2, t3, t4, t5⟩ := ih hr _ hb2 hk2
        refine ⟨c3, t1, t2, ?_, le_trans t4 hlow2.1, ?_⟩
        · intro x hx
          rw [t3 x (by rw [hd12]; exact hx), hd12]
        · intro e he
          rcases List.mem_cons.mp he with he | he
          · subst he
            have h3 := t3 e.destination (by rw [hd12]; exact hv)
            rw [hd12] at h3
            refine ⟨by rw [h3]; exact hv, fun _ => ?_⟩
            rw [h3]
            exact le_trans t4 hlow2.2
          · exact t5 e he
      · rename_i hsp
        obtain ⟨c3, t1, t2, t3, t4, t5⟩ := ih hr c hinv hk
        refine ⟨c3, t1, t2, t3, t4, ?_⟩
        intro e he
        rcases List.mem_cons.mp he with he | he
        · subst he
          refine ⟨by rw [t3 _ hv]; exact hv, fun hd => ?_⟩
          exact absurd ((hinv.inv.pile_ok.2 _).mpr (hbase _ hd)) hsp
        · exact t5 e he

theorem boucle_tarjan_init (g : Graphe) (c : ContextTarjan) (u : Nat) (h : PreTarjan g c u) :
    BoucleTarjan g c u
      { c with
          disc := Function.update c.disc u c.timer
          low := Function.update c.low u c.timer
          timer := c.timer + 1
          pile := u :: c.pile
          sur_pile := Function.update c.sur_pile u true } := by
  obtain ⟨hinv, hw, hu, hact, hbase⟩ := h
  have ht := hinv.temps
  have hup : u ∉ c.pile := fun hm => (hinv.pile_visite u hm).1 hw
  have hcu : c.composante u = -1 := by
    by_contra hc
    exact (hinv.comp_ok u hc).1 hw
  refine ⟨⟨?_, ?_, ?_, ?_, ?_, ?_, ?_, ?_, ?_, ?_⟩, ⟨?_, ?_, ?_, ?_, ?_⟩, ?_, ?_, ?_, ?_⟩
  · refine ⟨by show 0 ≤ c.timer + 1; omega, fun x => ?_⟩
    show Function.update c.disc u c.timer x = -1 ∨
      (0 ≤ Function.update c.disc u c.timer x ∧ Function.update c.disc u c.timer x < c.timer + 1)
    by_cases hx : x = u
    · subst hx
      rw [Function.update_same]
      right; omega
    · rw [Function.update_noteq hx]
      rcases ht.2 x with h1 | h1
      · left; exact h1
      · right; omega
  · refine ⟨List.nodup_cons.mpr ⟨hup, hinv.pile_ok.1⟩, fun x => ?_⟩
    show Function.update c.sur_pile u true x = true ↔ x ∈ u :: c.pile
    by_cases hx : x = u
    · subst hx
      simp
    · rw [Function.update_noteq hx, hinv.pile_ok.2 x]
      simp [hx]
  · intro x hx
    show Function.update c.disc u c.timer x ≠ -1 ∧ c.composante x = -1
    rcases List.mem_cons.mp hx with hx | hx
    · subst hx
      rw [Function.update_same]
      exact ⟨by omega, hcu⟩
    · have hxu : x ≠ u := fun e => hup (e ▸ hx)
      rw [Function.update_noteq hxu]
      exact hinv.pile_visite x hx
  · intro x hx
    show Function.update c.disc u c.timer x ≠ -1 ∧ 0 ≤ c.composante x ∧ c.composante x < c.nb_scc
    have hxu : x ≠ u := fun e => hx (e ▸ hcu)
    rw [Function.update_noteq hxu]
    exact hinv.comp_ok x hx
  · intro x hx
    show x ∈ u :: c.pile ∨ c.composante x ≠ -1
    by_cases hxu : x = u
    · left; rw [hxu]; exact List.mem_cons_self _ _
    · have hx2 : Function.update c.disc u c.timer x ≠ -1 := hx
      rw [Function.update_noteq hxu] at hx2
      rcases hinv.visite_ok x hx2 with h1 | h1
      · left; exact List.mem_cons_of_mem _ h1
      · right; exact h1
  · intro x hx
    by_cases hxu : x = u
    · rw [hxu]; exact hu
    · have hx2 : Function.update c.disc u c.timer x ≠ -1 := hx
      rw [Function.update_noteq hxu] at hx2
      exact hinv.borne x hx2
  · intro ha x hx
    by_cases hxu : x = u
    · rw [hxu]; exact hact ha
    · have hx2 : Function.update c.disc u c.timer x ≠ -1 := hx
      rw [Function.update_noteq hxu] at hx2
      exact hinv.actifs ha x hx2
  · exact hinv.mono
  · exact hinv.scc
  · exact hinv.surj
  · exact ⟨ht.1, by show c.timer ≤ c.timer + 1; omega⟩
  · intro x hx
    have hxu : x ≠ u := fun e => hx (e ▸ hw)
    show Function.update c.disc u c.timer x = c.disc x
    rw [Function.update_noteq hxu]
  · intro x hx
    show Function.update c.disc u c.timer x = -1 ∨ c.timer ≤ Function.update c.disc u c.timer x
    by_cases hxu : x = u
    · subst hxu
      rw [Function.update_same]
      right; exact le_refl _
    · rw [Function.update_noteq hxu]
      left; exact hx
  · exact ⟨[u], rfl⟩
  · intro x hx
    have hxu : x ≠ u := fun e => hup (e ▸ hx)
    show Function.update c.low u c.timer x = c.low x
    rw [Function.update_noteq hxu]
  · refine ⟨?_, hw⟩
    show Function.update c.disc u c.timer u = c.timer
    rw [Function.update_same]
  · exact ⟨[], rfl, by simp⟩
  · show Function.update c.low u c.timer u ≤ Function.update c.disc u c.timer u ∧
      ∃ w ∈ u :: c.pile, Function.update c.disc u c.timer w = Function.update c.low u c.timer u ∧
        atteint g u w
    rw [Function.update_same, Function.update_same]
    exact ⟨le_refl _, u, List.mem_cons_self _ _, by rw [Function.update_same], atteint_refl g u⟩
  · exact hbase

/-- When `low[u]` stays below `disc[u]` the call returns with `u` and its
segment left on the stack. -/
theorem post_tarjan_reste (g : Graphe) (c0 c : ContextTarjan) (u : Nat)
    (h : BoucleTarjan g c0 u c)
    (hed : ∀ a ∈ aretes_de g u, c.disc a.destination ≠ -1 ∧
      (a.destination ∈ c0.pile → c.low u ≤ c.disc a.destination))
    (hne : c.low u ≠ c.disc u) : PostTarjan g c0 u c := by
  obtain ⟨seg, hp, hseg⟩ := h.pile
  refine ⟨h.inv, h.etend, h.racine.1, seg ++ [u], by rw [hp]; simp,
    Or.inr ⟨lt_of_le_of_ne h.low_ok.1 hne, ?_, ?_⟩⟩
  · obtain ⟨w, hw, hd, ha⟩ := h.low_ok.2
    rcases List.mem_cons.mp hw with e | e
    · subst e; exact absurd hd.symm hne
    · exact ⟨w, e, hd, ha⟩
  · intro x hx
    rcases List.mem_append.mp hx with e | e
    · obtain ⟨s1, s2, s3, s4⟩ := hseg x e
      exact ⟨by omega, s2, s3, s4⟩
    · have hxu : x = u := by simpa using e
      subst hxu
      exact ⟨le_of_eq h.racine.1.symm, atteint_refl g x, atteint_refl g x, hed⟩

/-- When `low[u] = disc[u]` the segment above `u` and `u` itself are popped
and form a new component. -/
theorem post_tarjan_depile (g : Graphe) (c0 c c2 : ContextTarjan) (u : Nat) (seg : List Nat)
    (h0 : InvTarjan g c0) (h : BoucleTarjan g c0 u c)
    (hp : c.pile = seg ++ u :: c0.pile)
    (hseg : ∀ x ∈ seg, segment_ok g c0 c (c0.timer + 1) u x)
    (hed : ∀ a ∈ aretes_de g u, c.disc a.destination ≠ -1 ∧
      (a.destination ∈ c0.pile → c.low u ≤ c.disc a.destination))
    (heq : c.low u = c.disc u)
    (p1 : c2.pile = c0.pile) (p2 : c2.disc = c.disc) (p3 : c2.low = c.low)
    (p4 : c2.timer = c.timer) (p5 : c2.nb_scc = c.nb_scc)
    (p6 : ∀ x, c2.sur_pile x = if x ∈ seg ∨ x = u then false else c.sur_pile x)
    (p7 : ∀ x, c2.composante x = if x ∈ seg ∨ x = u then c.nb_scc else c.composante x) :
    PostTarjan g c0 u { c2 with nb_scc := c2.nb_scc + 1 } := by
  have hinv := h.inv
  have hnd := hinv.pile_ok.1
  rw [hp] at hnd
  have hn0 := hinv.surj.1
  have hCp : ∀ x, (x ∈ seg ∨ x = u) → x ∈ c.pile ∧ x ∉ c0.pile := by
    intro x hx
    rw [hp]
    have h2 := List.nodup_append.mp hnd
    rcases hx with hx | hx
    · refine ⟨List.mem_append_left _ hx, fun hx0 => ?_⟩
      exact h2.2.2 hx (List.mem_cons_of_mem _ hx0)
    · subst hx
      exact ⟨by simp, (List.nodup_cons.mp h2.2.1).1⟩
  have hnC : ∀ x, ¬(x ∈ seg ∨ x = u) → (x ∈ c.pile ↔ x ∈ c0.pile) := by
    intro x hx
    rw [hp]
    simp only [List.mem_append, List.mem_cons]
    tauto
  have hCcomp : ∀ x, (x ∈ seg ∨ x = u) → c.composante x = -1 := fun x hx =>
    (hinv.pile_visite x (hCp x hx).1).2
  have hlab : ∀ x, c.composante x ≠ -1 → ¬(x ∈ seg ∨ x = u) := fun x hx hC => hx (hCcomp x hC)
  have hCedge : ∀ x, (x ∈ seg ∨ x = u) → ∀ a ∈ aretes_de g x,
      c.disc a.destination ≠ -1 ∧ a.destination ∉ c0.pile := by
    intro x hx a ha
    have key : c.disc a.destination ≠ -1 ∧
        (a.destination ∈ c0.pile → c.low u ≤ c.disc a.destination) := by
      rcases hx with hx | hx
      · exact (hseg x hx).2.2.2 a ha
      · subst hx; exact hed a ha
    refine ⟨key.1, fun hd => ?_⟩
    have k1 := key.2 hd
    have k2 := (h0.pile_visite _ hd).1
    have k3 := h.etend.anciens _ k2
    have k4 := h0.temps.2 a.destination
    have k5 := h.racine.1
    omega
  have hCat : ∀ x, (x ∈ seg ∨ x = u) → atteint g x u ∧ atteint g u x := by
    intro x hx
    rcases hx with hx | hx
    · exact ⟨(hseg x hx).2.2.1, (hseg x hx).2.1⟩
    · subst hx; exact ⟨atteint_refl g x, atteint_refl g x⟩
  refine ⟨⟨?_, ?_, ?_, ?_, ?_, ?_, ?_, ?_, ?_, ?_⟩, ⟨?_, ?_, ?_, ?_, ?_⟩, ?_, [], ?_, ?_⟩
  · show 0 ≤ c2.timer ∧ ∀ x, c2.disc x = -1 ∨ (0 ≤ c2.disc x ∧ c2.disc x < c2.timer)
    rw [p2, p4]
    exact hinv.temps
  · show c2.pile.Nodup ∧ ∀ x, c2.sur_pile x = true ↔ x ∈ c2.pile
    rw [p1]
    refine ⟨h0.pile_ok.1, fun x => ?_⟩
    rw [p6]
    by_cases hC : x ∈ seg ∨ x = u
    · simp only [hC, if_true]
      constructor
      · intro hf; cases hf
      · intro hx; exact absurd hx (hCp x hC).2
    · simp only [hC, if_false]
      rw [hinv.pile_ok.2 x]
      exact hnC x hC
  · intro x hx
    show c2.disc x ≠ -1 ∧ c2.composante x = -1
    have hx0 : x ∈ c0.pile := p1 ▸ hx
    have hC : ¬(x ∈ seg ∨ x = u) := fun hC => (hCp x hC).2 hx0
    have hxc : x ∈ c.pile := (hnC x hC).mpr hx0
    rw [p2, p7]
    simp only [hC, if_false]
    exact hinv.pile_visite x hxc
  · intro x hx
    show c2.disc x ≠ -1 ∧ 0 ≤ c2.composante x ∧ c2.composante x < c2.nb_scc + 1
    have hx2 : c2.composante x ≠ -1 := hx
    rw [p7] at hx2 ⊢
    rw [p2, p5]
    by_cases hC : x ∈ seg ∨ x = u
    · simp only [hC, if_true]
      exact ⟨(hinv.pile_visite x (hCp x hC).1).1, hn0, by omega⟩
    · simp only [hC, if_false] at hx2 ⊢
      have := hinv.comp_ok x hx2
      exact ⟨this.1, this.2.1, by omega⟩
  · intro x hx
    show x ∈ c2.pile ∨ c2.composante x ≠ -1
    have hx2 : c2.disc x ≠ -1 := hx
    rw [p2] at hx2
    rw [p1, p7]
    by_cases hC : x ∈ seg ∨ x = u
    · right
      simp only [hC, if_true]
      omega
    · simp only [hC, if_false]
      rcases hinv.visite_ok x hx2 with h1 | h1
      · left; exact (hnC x hC).mp h1
      · right; exact h1
  · intro x hx
    have hx2 : c2.disc x ≠ -1 := hx
    rw [p2] at hx2
    exact hinv.borne x hx2
  · intro ha x hx
    have hx2 : c2.disc x ≠ -1 := hx
    rw [p2] at hx2
    exact hinv.actifs ha x hx2
  · intro x hx a ha
    show c2.composante a.destination ≠ -1 ∧ c2.composante a.destination ≤ c2.composante x
    have hx2 : c2.composante x ≠ -1 := hx
    rw [p7] at hx2
    rw [p7, p7]
    by_cases hC : x ∈ seg ∨ x = u
    · simp only [hC, if_true]
      obtain ⟨e1, e2⟩ := hCedge x hC a ha
      by_cases hD : a.destination ∈ seg ∨ a.destination = u
      · simp only [hD, if_true]
        exact ⟨by omega, le_refl _⟩
      · simp only [hD, if_false]
        rcases hinv.visite_ok _ e1 with h1 | h1
        · exact absurd ((hnC _ hD).mp h1) e2
        · have := hinv.comp_ok _ h1
          exact ⟨h1, by omega⟩
    · simp only [hC, if_false] at hx2 ⊢
      obtain ⟨m1, m2⟩ := hinv.mono x hx2 a ha
      have hD := hlab _ m1
      simp only [hD, if_false]
      exact ⟨m1, m2⟩
  · intro x y hx hxy
    have hx2 : c2.composante x ≠ -1 := hx
    have hxy2 : c2.composante x = c2.composante y := hxy
    rw [p7] at hx2
    rw [p7, p7] at hxy2
    by_cases hC : x ∈ seg ∨ x = u
    · simp only [hC, if_true] at hxy2
      by_cases hD : y ∈ seg ∨ y = u
      · exact atteint_trans g _ _ _ (hCat x hC).1 (hCat y hD).2
      · simp only [hD, if_false] at hxy2
        have := hinv.comp_ok y (by omega)
        omega
    · simp only [hC, if_false] at hx2 hxy2
      by_cases hD : y ∈ seg ∨ y = u
      · simp only [hD, if_true] at hxy2
        have := hinv.comp_ok x hx2
        omega
      · simp only [hD, if_false] at hxy2
        exact hinv.scc x y hx2 hxy2
  · show 0 ≤ c2.nb_scc + 1 ∧ ∀ k, 0 ≤ k → k < c2.nb_scc + 1 → ∃ x, c2.composante x = k
    rw [p5]
    refine ⟨by omega, fun k hk1 hk2 => ?_⟩
    by_cases hk : k = c.nb_scc
    · refine ⟨u, ?_⟩
      rw [p7]
      simp [hk]
    · obtain ⟨x, hx⟩ := hinv.surj.2 k hk1 (by omega)
      refine ⟨x, ?_⟩
      rw [p7]
      have hC := hlab x (by omega)
      simp only [hC, if_false]
      exact hx
  · show 0 ≤ c0.timer ∧ c0.timer ≤ c2.timer
    rw [p4]
    exact h.etend.temps
  · intro x hx
    show c2.disc x = c0.disc x
    rw [p2]
    exact h.etend.anciens x hx
  · intro x hx
    show c2.disc x = -1 ∨ c0.timer ≤ c2.disc x
    rw [p2]
    exact h.etend.nouveaux x hx
  · exact ⟨[], by show c2.pile = [] ++ c0.pile; rw [p1]; rfl⟩
  · intro x hx
    show c2.low x = c0.low x
    rw [p3]
    exact h.etend.low x hx
  · show c2.disc u = c0.timer
    rw [p2]
    exact h.racine.1
  · show c2.pile = [] ++ c0.pile
    rw [p1]; rfl
  · left
    refine ⟨rfl, ?_⟩
    show c2.low u = c2.disc u
    rw [p2, p3]
    exact heq

/-- Total correctness of `tarjan_dfs`: with more fuel than undiscovered slots
the call returns, and its post-condition holds. -/
theorem tarjan_dfs_ok (g : Graphe) (hb : bien_forme g) (k : Nat) :
    ∀ (c : ContextTarjan) (u : Nat), PreTarjan g c u → tarjan_blancs g c < k →
      ∃ c1, tarjan_dfs g k c u = some c1 ∧ PostTarjan g c u c1 := by
  induction k with
  | zero => intro c u _ hk; omega
  | succ n ih =>
    intro c u hpre hk
    have hinit := boucle_tarjan_init g c u hpre
    have hbl := tarjan_blancs_visiter g c
      { c with
          disc := Function.update c.disc u c.timer
          low := Function.update c.low u c.timer
          timer := c.timer + 1
          pile := u :: c.pile
          sur_pile := Function.update c.sur_pile u true } u hpre.2.2.1 hpre.2.1
      (by
        show Function.update c.disc u c.timer u ≠ -1
        rw [Function.update_same]
        have := hpre.1.temps.1
        omega)
      (fun x hx => by
        show Function.update c.disc u c.timer x = c.disc x
        rw [Function.update_noteq hx])
    obtain ⟨c1, r1, r2, _, _, r5⟩ := tarjan_voisins_ok g hb n u c (tarjan_dfs g n) ih
      (aretes_de g u) (fun a ha => ha) _ hinit (by omega)
    unfold tarjan_dfs
    rw [r1]
    simp only
    split
    · rename_i heq
      obtain ⟨seg, hp, hseg⟩ := r2.pile
      have hnd := r2.inv.pile_ok.1
      rw [hp] at hnd
      have hus : u ∉ seg := fun hm =>
        (List.nodup_append.mp hnd).2.2 hm (List.mem_cons_self _ _)
      obtain ⟨c2, d1, d2, d3, d4, d5, d6, d7, d8⟩ := depiler_composante_ok u seg c.pile c1 hus
      rw [hp, d1]
      exact ⟨_, rfl, post_tarjan_depile g c c1 c2 u seg hpre.1 r2 hp hseg r5 heq
        d2 d3 d4 d5 d6 d7 d8⟩
    · rename_i hne
      exact ⟨c1, rfl, post_tarjan_reste g c c1 u r2 r5 hne⟩

/-! ## Tarjan: the loop over the roots -/

/-- Labels do not increase along a walk that starts at a labelled node. -/
theorem inv_tarjan_marche (g : Graphe) (c : ContextTarjan) (h : InvTarjan g c)
    (es : List Arete) : ∀ x, c.composante x ≠ -1 → est_marche g x es →
      c.composante (extremite x es) ≠ -1 ∧ c.composante (extremite x es) ≤ c.composante x := by
  induction es with
  | nil => intro x hx _; exact ⟨hx, le_refl _⟩
  | cons a r ih =>
    intro x hx hm
    obtain ⟨m1, m2⟩ := h.mono x hx a hm.1
    obtain ⟨i1, i2⟩ := ih a.destination m1 hm.2
    exact ⟨i1, le_trans i2 m2⟩

theorem tarjan_racines_ok (g : Graphe) (hb : bien_forme g) (fuel : Nat)
    (hf : g.capacite_max < fuel) (l : List Nat) (hl : ∀ i ∈ l, i < g.capacite_max)
    (c : ContextTarjan) (hinv : InvTarjan g c) (hp : c.pile = []) :
    ∃ c1, tarjan_racines fuel g l c = some c1 ∧ InvTarjan g c1 ∧ c1.pile = [] ∧
      (∀ x, c.disc x ≠ -1 → c1.disc x ≠ -1) ∧
      ∀ i ∈ l, (noeud g i).actif = true → c1.disc i ≠ -1 := by
  induction l generalizing c with
  | nil => exact ⟨c, rfl, hinv, hp, fun _ hx => hx, by simp⟩
  | cons i r ih =>
    have hr : ∀ j ∈ r, j < g.capacite_max := fun j hj => hl j (List.mem_cons_of_mem _ hj)
    have hi : i < g.capacite_max := hl i (List.mem_cons_self _ _)
    unfold tarjan_racines
    split
    · rename_i hc
      simp only [Bool.and_eq_true, decide_eq_true_eq] at hc
      have hpre : PreTarjan g c i := by
        refine ⟨hinv, hc.2, hi, fun _ => ?_, ?_⟩
        · unfold noeud_existe
          rw [if_neg (by omega)]
          exact hc.1
        · intro x hx
          rw [hp] at hx
          cases hx
      obtain ⟨c1, r1, q1, q2, q3, seg, q4, q5⟩ := tarjan_dfs_ok g hb fuel c i hpre
        (lt_of_le_of_lt (tarjan_blancs_le g c) hf)
      rw [r1]
      simp only
      have hp1 : c1.pile = [] := by
        rcases q5 with ⟨e, _⟩ | ⟨_, ⟨w, hw, _⟩, _⟩
        · rw [q4, e, hp]; rfl
        · rw [hp] at hw
          cases hw
      obtain ⟨c2, s1, s2, s3, s4, s5⟩ := ih hr c1 q1 hp1
      have hdi : c1.disc i ≠ -1 := by
        rw [q3]
        have := hinv.temps.1
        omega
      refine ⟨c2, s1, s2, s3, ?_, ?_⟩
      · intro x hx
        apply s4
        rw [q2.anciens x hx]
        exact hx
      · intro j hj hact
        rcases List.mem_cons.mp hj with e | e
        · rw [e]; exact s4 i hdi
        · exact s5 j e hact
    · rename_i hc
      simp only [Bool.and_eq_true, decide_eq_true_eq, not_and] at hc
      obtain ⟨c2, s1, s2, s3, s4, s5⟩ := ih hr c hinv hp
      refine ⟨c2, s1, s2, s3, s4, ?_⟩
      intro j hj hact
      rcases List.mem_cons.mp hj with e | e
      · subst e
        exact s4 j (hc hact)
      · exact s5 j e hact

/-- Total correctness of the traversal of `tarjan_scc`: it ends with an empty
stack and every active node labelled. -/
theorem tarjan_parcours_ok (g : Graphe) (hb : bien_forme g) (fuel : Nat)
    (hf : g.capacite_max < fuel) :
    ∃ c, tarjan_parcours fuel g = some c ∧ InvTarjan g c ∧
      ∀ u, noeud_existe g u = true → c.composante u ≠ -1 := by
  have h0 : InvTarjan g
      { disc := fun _ => -1
        low := fun _ => -1
        sur_pile := fun _ => false
        composante := fun _ => -1
        pile := []
        timer := 0
        nb_scc := 0 } := by
    refine ⟨?_, ?_, ?_, ?_, ?_, ?_, ?_, ?_, ?_, ?_⟩
    · exact ⟨le_refl _, fun _ => Or.inl rfl⟩
    · exact ⟨List.nodup_nil, fun x => by simp⟩
    · intro x hx; cases hx
    · intro x hx; exact absurd rfl hx
    · intro x hx; exact absurd rfl hx
    · intro x hx; exact absurd rfl hx
    · intro _ x hx; exact absurd rfl hx
    · intro x hx; exact absurd rfl hx
    · intro x y hx; exact absurd rfl hx
    · refine ⟨le_refl _, fun k h1 h2 => ?_⟩
      have h3 : k < 0 := h2
      omega
  obtain ⟨c, r1, r2, r3, _, r5⟩ := tarjan_racines_ok g hb fuel hf (List.range g.capacite_max)
    (fun i hi => List.mem_range.mp hi) _ h0 rfl
  refine ⟨c, r1, r2, fun u hu => ?_⟩
  have hlt := noeud_existe_lt g u hu
  have hact : (noeud g u).actif = true := by
    unfold noeud_existe at hu
    rw [if_neg (by omega)] at hu
    exact hu
  have hd := r5 u (List.mem_range.mpr hlt) hact
  rcases r2.visite_ok u hd with h1 | h1
  · rw [r3] at h1
    cases h1
  · exact h1

/-- A list of one node per label below `n`. -/
theorem tarjan_representants (g : Graphe) (c : ContextTarjan) (h : InvTarjan g c) (n : Nat)
    (hn : (n : Int) ≤ c.nb_scc) :
    ∃ reps : List Nat, reps.length = n ∧
      (∀ x ∈ reps, 0 ≤ c.composante x ∧ c.composante x < n) ∧
      reps.Pairwise (fun x y => c.composante x ≠ c.composante y) ∧
      ∀ k : Int, 0 ≤ k → k < n → ∃ x ∈ reps, c.composante x = k := by
  induction n with
  | zero => exact ⟨[], rfl, by simp, List.Pairwise.nil, fun k h1 h2 => by simp at h2; omega⟩
  | succ m ih =>
    have hm : ((m : Nat) : Int) ≤ c.nb_scc := by push_cast at hn; omega
    obtain ⟨reps, l1, l2, l3, l4⟩ := ih hm
    obtain ⟨x, hx⟩ := h.surj.2 (m : Int) (by omega) (by push_cast at hn; omega)
    refine ⟨x :: reps, by simp [l1], ?_, ?_, ?_⟩
    · intro y hy
      rcases List.mem_cons.mp hy with e | e
      · subst e
        rw [hx]; push_cast; omega
      · have := l2 y e
        push_cast; omega
    · refine List.Pairwise.cons ?_ l3
      intro y hy
      have := l2 y hy
      omega
    · intro k h1 h2
      by_cases hk : k = m
      · exact ⟨x, List.mem_cons_self _ _, by rw [hx, hk]⟩
      · obtain ⟨y, hy, hy2⟩ := l4 k h1 (by push_cast at h2; omega)
        exact ⟨y, List.mem_cons_of_mem _ hy, hy2⟩

theorem composantes_getD (f : Nat → Int) (n u : Nat) (hu : u < n) :
    ((List.range n).map f).getD u (-1) = f u := by
  simp [List.getD, hu]

/-! ## Tarjan: strongly connected components -/

/-- C19 (amended): on a well-formed graph and with more fuel than node slots,
`tarjan_scc` returns; every active node gets a label in `[0, nb_composantes)`;
two active nodes get the same label exactly when each reaches the other; and,
when every edge leads to an active node, `nb_composantes` is the number of
strongly connected components: there is a list of that many active nodes, no
two of which reach each other both ways, such that every active node is
mutually reachable with one of them. -/
theorem tarjan_scc_correct (g : Graphe) (fuel : Nat) (res : ResultatSecurite)
    (hb : bien_forme g) (hfuel : g.capacite_max < fuel) :
    ∃ r, tarjan_scc fuel g res = some r ∧
      (∀ u, noeud_existe g u = true →
        0 ≤ r.composantes.getD u (-1) ∧ r.composantes.getD u (-1) < r.nb_composantes) ∧
      (∀ u v, noeud_existe g u = true → noeud_existe g v = true →
        (r.composantes.getD u (-1) = r.composantes.getD v (-1) ↔
          atteint g u v ∧ atteint g v u)) ∧
      (aretes_vers_actifs g → ∃ reps : List Nat,
        (reps.length : Int) = r.nb_composantes ∧
        (∀ x ∈ reps, noeud_existe g x = true) ∧
        reps.Pairwise (fun x y => ¬(atteint g x y ∧ atteint g y x)) ∧
        ∀ u, noeud_existe g u = true → ∃ x ∈ reps, atteint g u x ∧ atteint g x u) := by
  obtain ⟨c, r1, hinv, hlab⟩ := tarjan_parcours_ok g hb fuel hfuel
  have hget : ∀ u, u < g.capacite_max →
      ((List.range g.capacite_max).map c.composante).getD u (-1) = c.composante u :=
    fun u hu => composantes_getD c.composante g.capacite_max u hu
  have hmutuel : ∀ x y, c.composante x ≠ -1 → atteint g x y → atteint g y x →
      c.composante x = c.composante y := by
    intro x y hx hxy hyx
    obtain ⟨es, e1, e2⟩ := hxy
    obtain ⟨fs, f1, f2⟩ := hyx
    have m1 := inv_tarjan_marche g c hinv es x hx e1
    rw [e2] at m1
    have m2 := inv_tarjan_marche g c hinv fs y m1.1 f1
    rw [f2] at m2
    exact le_antisymm m2.2 m1.2
  unfold tarjan_scc
  rw [r1]
  refine ⟨_, rfl, ?_, ?_, ?_⟩
  · intro u hu
    show 0 ≤ ((List.range g.capacite_max).map c.composante).getD u (-1) ∧
      ((List.range g.capacite_max).map c.composante).getD u (-1) < c.nb_scc
    rw [hget u (noeud_existe_lt g u hu)]
    exact (hinv.comp_ok u (hlab u hu)).2
  · intro u v hu hv
    show ((List.range g.capacite_max).map c.composante).getD u (-1) =
      ((List.range g.capacite_max).map c.composante).getD v (-1) ↔ _
    rw [hget u (noeud_existe_lt g u hu), hget v (noeud_existe_lt g v hv)]
    constructor
    · intro he
      exact ⟨hinv.scc u v (hlab u hu) he, hinv.scc v u (hlab v hv) he.symm⟩
    · intro hr
      exact hmutuel u v (hlab u hu) hr.1 hr.2
  · intro hact
    have hn0 := hinv.surj.1
    obtain ⟨reps, l1, l2, l3, l4⟩ := tarjan_representants g c hinv c.nb_scc.toNat
      (by rw [Int.toNat_of_nonneg hn0])
    rw [Int.toNat_of_nonneg hn0] at l2 l4
    refine ⟨reps, ?_, ?_, ?_, ?_⟩
    · show (reps.length : Int) = c.nb_scc
      rw [l1, Int.toNat_of_nonneg hn0]
    · intro x hx
      have h1 := l2 x hx
      exact hinv.actifs hact x (hinv.comp_ok x (by omega)).1
    · refine l3.imp_of_mem ?_
      intro x y hx _ hne hr
      have h1 := l2 x hx
      exact hne (hmutuel x y (by omega) hr.1 hr.2)
    · intro u hu
      have h1 := hinv.comp_ok u (hlab u hu)
      obtain ⟨x, hx, hxu⟩ := l4 (c.composante u) h1.2.1 h1.2.2
      exact ⟨x, hx, hinv.scc u x (hlab u hu) hxu.symm,
        hinv.scc x u (by omega) hxu⟩

/-- Instance of C19 on the chain `0 -> 1 -> 2 -> 3 -> 4`, whose five nodes
are five components. -/
theorem tarjan_scc_correct_witness :
    (bien_forme g_chaine5 ∧ g_chaine5.capacite_max < 6 ∧ aretes_vers_actifs g_chaine5 ∧
      (tarjan_scc 6 g_chaine5 ⟨[], 0, [], 0, [], 0, 0⟩).map
        (fun r => (r.composantes, r.nb_composantes)) = some ([4, 3, 2, 1, 0], 5)) ∧
    ∃ r, tarjan_scc 6 g_chaine5 ⟨[], 0, [], 0, [], 0, 0⟩ = some r ∧
      (∀ u, noeud_existe g_chaine5 u = true →
        0 ≤ r.composantes.getD u (-1) ∧ r.composantes.getD u (-1) < r.nb_composantes) ∧
      (∀ u v, noeud_existe g_chaine5 u = true → noeud_existe g_chaine5 v = true →
        (r.composantes.getD u (-1) = r.composantes.getD v (-1) ↔
          atteint g_chaine5 u v ∧ atteint g_chaine5 v u)) ∧
      (aretes_vers_actifs g_chaine5 → ∃ reps : List Nat,
        (reps.length : Int) = r.nb_composantes ∧
        (∀ x ∈ reps, noeud_existe g_chaine5 x = true) ∧
        reps.Pairwise (fun x y => ¬(atteint g_chaine5 x y ∧ atteint g_chaine5 y x)) ∧
        ∀ u, noeud_existe g_chaine5 u = true →
          ∃ x ∈ reps, atteint g_chaine5 u x ∧ atteint g_chaine5 x u) :=
  ⟨by decide, tarjan_scc_correct g_chaine5 6 ⟨[], 0, [], 0, [], 0, 0⟩ (by decide) (by decide)⟩

/-- C19 as stated fails on `g_perime`, a well-formed graph with one active
node: `tarjan_scc` follows the edge of node 1 to the inactive node 0, labels
both and reports two components. -/
theorem tarjan_scc_compte_contre_exemple :
    bien_forme g_perime ∧
    (∀ u, noeud_existe g_perime u = true → u = 1) ∧
    (tarjan_scc 3 g_perime ⟨[], 0, [], 0, [], 0, 0⟩).map
      (fun r => (r.composantes, r.nb_composantes)) = some ([0, 1], 2) := by
  refine ⟨by decide, ?_, by decide⟩
  intro u hu
  have h2 : u < 2 := noeud_existe_lt g_perime u hu
  have h3 : u = 0 ∨ u = 1 := by omega
  rcases h3 with h3 | h3
  · subst h3
    exact absurd hu (by decide)
  · exact h3

/-! ## Chains of the underlying undirected graph -/

theorem lies_symm (g : Graphe) (x y : Nat) (h : lies g x y) : lies g y x := Or.symm h

theorem lies_arete (g : Graphe) (x : Nat) (a : Arete) (h : a ∈ aretes_de g x) :
    lies g x a.destination := Or.inl ⟨a, h, rfl⟩

theorem symetrique_arete (g : Graphe) (hb : bien_forme g) (hs : symetrique g) (x y : Nat)
    (h : lies g x y) : ∃ a ∈ aretes_de g x, a.destination = y := by
  rcases h with h | ⟨a, ha, hd⟩
  · exact h
  · have hy := (arete_origine g hb y a ha).1
    obtain ⟨b, hb1, hb2⟩ := hs y (List.mem_range.mpr hy) a ha
    rw [hd] at hb1
    exact ⟨b, hb1, hb2⟩

theorem symetrique_actifs (g : Graphe) (hb : bien_forme g) (hs : symetrique g) (x y : Nat)
    (h : lies g x y) : noeud_existe g x = true ∧ noeud_existe g y = true := by
  have key : ∀ x y, lies g x y → noeud_existe g x = true := by
    intro x y h
    obtain ⟨a, ha, _⟩ := symetrique_arete g hb hs x y h
    obtain ⟨h1, h2, _⟩ := arete_origine g hb x a ha
    unfold noeud_existe
    rw [if_neg (by omega)]
    exact h2
  exact ⟨key x y h, key y x (lies_symm g x y h)⟩

theorem chaine_append (g : Graphe) (l m : List Nat) : ∀ x, chaine g x l →
    chaine g (bout x l) m → chaine g x (l ++ m) := by
  induction l with
  | nil => intro x _ h; exact h
  | cons y r ih => intro x h1 h2; exact ⟨h1.1, ih y h1.2 h2⟩

theorem bout_append (l m : List Nat) : ∀ x, bout x (l ++ m) = bout (bout x l) m := by
  induction l with
  | nil => intro x; rfl
  | cons y r ih => intro x; exact ih y

theorem connectes_dans_refl (g : Graphe) (S : Nat → Prop) (x : Nat) (h : S x) :
    connectes_dans g S x x :=
  ⟨[], trivial, rfl, fun v hv => by
    rcases List.mem_singleton.mp hv with e
    rw [e]; exact h⟩

theorem connectes_dans_trans (g : Graphe) (S : Nat → Prop) (x y z : Nat)
    (h1 : connectes_dans g S x y) (h2 : connectes_dans g S y z) : connectes_dans g S x z := by
  obtain ⟨l, a1, a2, a3⟩ := h1
  obtain ⟨m, b1, b2, b3⟩ := h2
  refine ⟨l ++ m, chaine_append g l m x a1 (by rw [a2]; exact b1), ?_, ?_⟩
  · rw [bout_append, a2, b2]
  · intro v hv
    rcases List.mem_cons.mp hv with e | e
    · exact a3 v (e ▸ List.mem_cons_self _ _)
    · rcases List.mem_append.mp e with e | e
      · exact a3 v (List.mem_cons_of_mem _ e)
      · exact b3 v (List.mem_cons_of_mem _ e)

theorem connectes_dans_pas (g : Graphe) (S : Nat → Prop) (x y : Nat) (h : lies g x y)
    (hx : S x) (hy : S y) : connectes_dans g S x y :=
  ⟨[y], ⟨h, trivial⟩, rfl, fun v hv => by
    rcases List.mem_cons.mp hv with e | e
    · rw [e]; exact hx
    · rw [List.mem_singleton.mp e]; exact hy⟩

theorem connectes_dans_mono (g : Graphe) (S T : Nat → Prop) (x y : Nat)
    (hST : ∀ v, S v → T v) (h : connectes_dans g S x y) : connectes_dans g T x y := by
  obtain ⟨l, a1, a2, a3⟩ := h
  exact ⟨l, a1, a2, fun v hv => hST v (a3 v hv)⟩

theorem connectes_dans_symm (g : Graphe) (S : Nat → Prop) (x y : Nat)
    (h : connectes_dans g S x y) : connectes_dans g S y x := by
  obtain ⟨l, a1, a2, a3⟩ := h
  induction l generalizing x with
  | nil =>
    have e : x = y := a2
    rw [← e]
    exact connectes_dans_refl g S x (a3 x (List.mem_cons_self _ _))
  | cons w r ih =>
    have h1 := ih w a1.2 a2 (fun v hv => a3 v (List.mem_cons_of_mem _ hv))
    exact connectes_dans_trans g S y w x h1
      (connectes_dans_pas g S w x (lies_symm g x w a1.1)
        (a3 w (List.mem_cons_of_mem _ (List.mem_cons_self _ _))) (a3 x (List.mem_cons_self _ _)))

theorem connectes_dans_gauche (g : Graphe) (S : Nat → Prop) (x y : Nat)
    (h : connectes_dans g S x y) : S x ∧ S y := by
  obtain ⟨l, _, _, a3⟩ := h
  refine ⟨a3 x (List.mem_cons_self _ _), ?_⟩
  obtain ⟨m, _, _, b3⟩ := connectes_dans_symm g S x y ⟨l, ‹_›, ‹_›, a3⟩
  exact b3 y (List.mem_cons_self _ _)

/-- A chain that starts inside `A` and ends outside crosses its border. -/
theorem chaine_sortie (g : Graphe) (S A : Nat → Prop) (x y : Nat)
    (h : connectes_dans g S x y) (hx : A x) (hy : ¬ A y) :
    ∃ a b, A a ∧ ¬ A b ∧ lies g a b ∧ S a ∧ S b := by
  obtain ⟨l, a1, a2, a3⟩ := h
  induction l generalizing x with
  | nil =>
    have e : x = y := a2
    rw [e] at hx
    exact absurd hx hy
  | cons w r ih =>
    by_cases hw : A w
    · exact ih w hw a1.2 a2 (fun v hv => a3 v (List.mem_cons_of_mem _ hv))
    · exact ⟨x, w, hx, hw, a1.1, a3 x (List.mem_cons_self _ _),
        a3 w (List.mem_cons_of_mem _ (List.mem_cons_self _ _))⟩

/-- A node whose neighbours stay connected to one another without it is not a
cut vertex. -/
theorem non_separe (g : Graphe) (u : Nat)
    (h : ∀ y z, lies g u y → lies g u z → y ≠ u → z ≠ u → noeud_existe g y = true →
      noeud_existe g z = true → connectes_sans g u y z) : ¬ separe g u := by
  have key : ∀ (l : List Nat) (x : Nat), chaine g x l →
      (∀ v ∈ x :: l, noeud_existe g v = true) → bout x l ≠ u →
      (x ≠ u → connectes_sans g u x (bout x l)) ∧
      (x = u → ∀ w, lies g u w → w ≠ u → noeud_existe g w = true →
        connectes_sans g u w (bout x l)) := by
    intro l
    induction l with
    | nil =>
      intro x _ hact hb
      refine ⟨fun hx => connectes_dans_refl g _ x ⟨hact x (List.mem_cons_self _ _), hx⟩, ?_⟩
      intro hx
      exact absurd hx hb
    | cons y r ih =>
      intro x hc hact hb
      have hacty : ∀ v ∈ y :: r, noeud_existe g v = true :=
        fun v hv => hact v (List.mem_cons_of_mem _ hv)
      have hx1 := hact x (List.mem_cons_self _ _)
      have hy1 := hacty y (List.mem_cons_self _ _)
      obtain ⟨i1, i2⟩ := ih y hc.2 hacty hb
      constructor
      · intro hx
        by_cases hy : y = u
        · have hl : lies g u x := by rw [← hy]; exact lies_symm g x y hc.1
          exact i2 hy x hl hx hx1
        · exact connectes_dans_trans g _ x y _
            (connectes_dans_pas g _ x y hc.1 ⟨hx1, hx⟩ ⟨hy1, hy⟩) (i1 hy)
      · intro hx w hw hwu hwa
        by_cases hy : y = u
        · exact i2 hy w hw hwu hwa
        · have hl : lies g u y := by rw [← hx]; exact hc.1
          exact connectes_dans_trans g _ w y _ (h w y hw hl hwu hy hwa hy1) (i1 hy)
  rintro ⟨x, y, hx, hy, ⟨l, a1, a2, a3⟩, hn⟩
  apply hn
  have := (key l x a1 a3 (by rw [a2]; exact hy)).1 hx
  rw [a2] at this
  exact this

/-! ## Articulation points: frame lemmas -/

theorem ap_blancs_visiter (g : Graphe) (c c1 : ContextArticulation) (u : Nat)
    (hu : u < g.capacite_max) (hw : c.disc u = -1) (hn : c1.disc u ≠ -1)
    (hs : ∀ x, x ≠ u → c1.disc x = c.disc x) :
    ap_blancs g c1 + 1 = ap_blancs g c := by
  unfold ap_blancs
  have h := somme_update_zero (List.range g.capacite_max)
    (fun x => if c.disc x = -1 then 1 else 0) u (List.nodup_range _) (List.mem_range.mpr hu)
  simp only [hw, if_true] at h
  rw [← h]
  congr 2
  apply List.map_congr_left
  intro x _
  by_cases hx : x = u
  · subst hx; simp [hn]
  · simp [Function.update_noteq hx, hs x hx]

theorem ap_blancs_mono (g : Graphe) (c c1 : ContextArticulation)
    (h : ∀ x, c.disc x ≠ -1 → c1.disc x = c.disc x) : ap_blancs g c1 ≤ ap_blancs g c := by
  unfold ap_blancs
  apply List.sum_le_sum
  intro x _
  by_cases h2 : c.disc x = -1
  · simp only [h2, if_true]
    split <;> omega
  · simp [h x h2, h2]

theorem ap_blancs_le (g : Graphe) (c : ContextArticulation) :
    ap_blancs g c ≤ g.capacite_max := by
  unfold ap_blancs
  have h : ∀ (l : List Nat),
      (l.map (fun x => if c.disc x = -1 then 1 else 0)).sum ≤ l.length := by
    intro l
    induction l with
    | nil => simp
    | cons x r ih =>
      simp only [List.map_cons, List.sum_cons, List.length_cons]
      split <;> omega
  have := h (List.range g.capacite_max)
  simpa using this

/-- The invariant reads only `disc`, `timer` and `est_ap`. -/
theorem inv_ap_cadre (g : Graphe) (P : List Nat) (c c1 : ContextArticulation)
    (hd : c1.disc = c.disc) (ht : c1.timer = c.timer) (he : c1.est_ap = c.est_ap)
    (h : InvAP g P c) : InvAP g P c1 := by
  obtain ⟨h1, h2, h3, h4, h5, h6⟩ := h
  refine ⟨?_, ?_, ?_, ?_, ?_, ?_⟩
  · rw [hd, ht]; exact h1
  · rw [hd]; exact h2
  · rw [hd]; exact h3
  · rw [hd]; exact h4
  · rw [hd, he]; exact h5
  · rw [hd, he]; exact h6

theorem etend_ap_refl (c : ContextArticulation) : EtendAP c c :=
  ⟨le_refl _, fun _ _ => ⟨rfl, rfl, rfl⟩, fun _ h => Or.inl h, fun _ _ => rfl⟩

theorem chemin_gris_cons (g : Graphe) (P : List Nat) (u : Nat) (h : chemin_gris g P)
    (hp : P = [] ∨ ∃ p Q, P = p :: Q ∧ lies g p u) : chemin_gris g (u :: P) := by
  have hu : (fun v => v ∈ u :: P) u := List.mem_cons_self _ _
  have key : ∀ z ∈ u :: P, connectes_dans g (fun v => v ∈ u :: P) u z := by
    intro z hz
    rcases List.mem_cons.mp hz with e | e
    · rw [e]; exact connectes_dans_refl g _ u hu
    · rcases hp with hp | ⟨p, Q, hp, hl⟩
      · rw [hp] at e; cases e
      · have hpP : p ∈ P := by rw [hp]; exact List.mem_cons_self _ _
        have h1 := connectes_dans_mono g (fun v => v ∈ P) (fun v => v ∈ u :: P) p z
          (fun v hv => List.mem_cons_of_mem _ hv) (h p hpP z e)
        exact connectes_dans_trans g _ u p z
          (connectes_dans_pas g _ u p (lies_symm g p u hl) hu (List.mem_cons_of_mem _ hpP)) h1
  intro x hx y hy
  exact connectes_dans_trans g _ x u y (connectes_dans_symm g _ u x (key x hx)) (key y hy)

/-- An edge out of a node discovered since `c0` and closed in `c1` leads to
another such node or to a call that was open in `c0`. -/
theorem nouveau_aretes (g : Graphe) (hb : bien_forme g) (hs : symetrique g) (P0 P1 : List Nat)
    (c0 c1 : ContextArticulation) (h0 : InvAP g P0 c0) (h1 : InvAP g P1 c1) (x : Nat)
    (hx : nouveau c0 c1 x) (hx1 : x ∉ P1) (a : Arete) (ha : a ∈ aretes_de g x) :
    nouveau c0 c1 a.destination ∨ a.destination ∈ P0 := by
  have hd : c1.disc a.destination ≠ -1 := by
    rcases h1.clos x hx.2 with e | e
    · exact absurd e hx1
    · exact e a ha
  by_cases hw : c0.disc a.destination = -1
  · exact Or.inl ⟨hw, hd⟩
  · rcases h0.clos a.destination hw with e | e
    · exact Or.inr e
    · obtain ⟨b, hb1, hb2⟩ := symetrique_arete g hb hs a.destination x
        (lies_symm g x a.destination (lies_arete g x a ha))
      have := e b hb1
      rw [hb2] at this
      exact absurd hx.1 this

/-! ## Articulation points: the two rules flag cut vertices only -/

/-- The root rule: when a neighbour of the root `u` is still undiscovered after
an earlier child returned, removing `u` separates it from that child. -/
theorem separe_racine (g : Graphe) (hb : bien_forme g) (hs : symetrique g) (u : Nat)
    (c0 c : ContextArticulation) (h0 : InvAP g [] c0) (hinv : InvAP g [u] c)
    (hdans : ∀ x, nouveau c0 c x → connectes_dans g (nouveau c0 c) u x)
    (henf : ∃ x, nouveau c0 c x ∧ x ≠ u) (a : Arete) (ha : a ∈ aretes_de g u)
    (hv : c.disc a.destination = -1) : separe g u := by
  obtain ⟨w, hw, hwu⟩ := henf
  have hud : c.disc u ≠ -1 := hinv.gris u (List.mem_cons_self _ _)
  have hvu : a.destination ≠ u := fun e => hud (e ▸ hv)
  have hact := symetrique_actifs g hb hs u a.destination (lies_arete g u a ha)
  refine ⟨w, a.destination, hwu, hvu, ?_, ?_⟩
  · have h1 := connectes_dans_mono g (nouveau c0 c) (fun v => noeud_existe g v = true) u w
      (fun v hv2 => hinv.actifs v hv2.2) (hdans w hw)
    exact connectes_dans_trans g _ w u _ (connectes_dans_symm g _ u w h1)
      (connectes_dans_pas g _ u a.destination (lies_arete g u a ha) hact.1 hact.2)
  · intro hc
    obtain ⟨x, y, hx, hy, hl, _, hy2⟩ := chaine_sortie g _ (fun z => nouveau c0 c z ∧ z ≠ u)
      w a.destination hc ⟨hw, hwu⟩ (fun h => h.1.2 hv)
    obtain ⟨e, he1, he2⟩ := symetrique_arete g hb hs x y hl
    have hxP : x ∉ [u] := by
      intro hm
      exact hx.2 (List.mem_singleton.mp hm)
    rcases nouveau_aretes g hb hs [] [u] c0 c h0 hinv x hx.1 hxP e he1 with h | h
    · rw [he2] at h
      exact hy ⟨h, hy2.2⟩
    · cases h

/-- The rule for a node `u` that has a parent `p`: when the child `v` returns
with `low[v] >= disc[u]`, removing `u` separates `v` from `p`. -/
theorem separe_interne (g : Graphe) (hb : bien_forme g) (hs : symetrique g) (P : List Nat)
    (u : Nat) (n : Int) (c0 c cp c1 : ContextArticulation) (hbo : BoucleAP g P c0 u n c)
    (hP : P ≠ []) (a : Arete) (ha : a ∈ aretes_de g u) (hv : c.disc a.destination = -1)
    (hcd : cp.disc = c.disc) (hcp : cp.parent a.destination = (u : Int))
    (hcinv : InvAP g (u :: P) cp) (hpost : PostAP g (u :: P) cp a.destination c1)
    (hlow : c1.low a.destination ≥ c1.disc u) : separe g u := by
  obtain ⟨hinv0, _, hu0, _, hpere⟩ := hbo.base
  rcases hpere with ⟨e, _⟩ | ⟨p, Q, hPe, _, hpu⟩
  · exact absurd e hP
  have hpP : p ∈ P := by rw [hPe]; exact List.mem_cons_self _ _
  have huP : u ∉ P := fun hm => hinv0.gris u hm hu0
  have hpu2 : p ≠ u := fun e => huP (e ▸ hpP)
  have hud : c.disc u ≠ -1 := hbo.inv.gris u (List.mem_cons_self _ _)
  have hvu : a.destination ≠ u := fun e => hud (e ▸ hv)
  have hact := symetrique_actifs g hb hs u a.destination (lies_arete g u a ha)
  have hactp := (symetrique_actifs g hb hs p u hpu).1
  have hvn : nouveau cp c1 a.destination := by
    refine ⟨by rw [hcd]; exact hv, ?_⟩
    rw [hpost.racine.1]
    have := hcinv.temps.1
    omega
  refine ⟨a.destination, p, hvu, hpu2, ?_, ?_⟩
  · exact connectes_dans_trans g _ _ u p
      (connectes_dans_pas g _ _ u (lies_symm g u _ (lies_arete g u a ha)) hact.2 hact.1)
      (connectes_dans_pas g _ u p (lies_symm g p u hpu) hact.1 hactp)
  · intro hc
    have hpn : ¬ nouveau cp c1 p := fun h =>
      hcinv.gris p (List.mem_cons_of_mem _ hpP) h.1
    obtain ⟨x, y, hx, hy, hl, _, hy2⟩ := chaine_sortie g _ (nouveau cp c1)
      a.destination p hc hvn hpn
    obtain ⟨e, he1, he2⟩ := symetrique_arete g hb hs x y hl
    have hxP : x ∉ u :: P := fun hm => hcinv.gris x hm hx.1
    have hyP : e.destination ∈ u :: P := by
      rcases nouveau_aretes g hb hs (u :: P) (u :: P) cp c1 hcinv hpost.inv x hx hxP e he1
        with h | h
      · rw [he2] at h
        exact absurd h hy
      · exact h
    have hyP2 : y ∈ P := by
      rw [he2] at hyP
      rcases List.mem_cons.mp hyP with h | h
      · exact absurd h hy2.2
      · exact h
    rcases hpost.low_min x hx e he1 hyP with ⟨_, h⟩ | h
    · rw [hcp, he2] at h
      exact hy2.2 (by exact_mod_cast h)
    · rw [he2] at h
      have k1 := hinv0.gris y hyP2
      have k2 := (hbo.etend.anciens y k1).1
      have k3 := (hpost.etend.anciens y (by rw [hcd, k2]; exact k1)).1
      rw [hcd] at k3
      have k4 := hinv0.temps.2 y
      have k5 := hbo.racine.1
      have k6 := (hpost.etend.anciens u (by rw [hcd]; exact hud)).1
      rw [hcd] at k6
      omega

/-! ## Articulation points: the loop over the neighbours -/

theorem ap_voisins_appel (appel : ContextArticulation → Nat → Option ContextArticulation)
    (u : Nat) (a : Arete) (reste : List Arete) (n : Int) (c : ContextArticulation)
    (h : c.disc a.destination = -1) :
    ap_voisins appel u (a :: reste) n c =
      match appel { c with parent := Function.update c.parent a.destination (u : Int) }
          a.destination with
      | none => none
      | some c1 => ap_voisins appel u reste (n + 1) (ap_retour u a.destination n c1) := by
  show (if c.disc a.destination = -1 then _ else _) = _
  rw [if_pos h]
  rfl

theorem ap_retour_champs (u v : Nat) (n : Int) (c1 : ContextArticulation) (hvu : v ≠ u) :
    (ap_retour u v n c1).disc = c1.disc ∧ (ap_retour u v n c1).timer = c1.timer ∧
    (ap_retour u v n c1).parent = c1.parent ∧
    (∀ x, x ≠ u → (ap_retour u v n c1).low x = c1.low x) ∧
    (ap_retour u v n c1).low u = min (c1.low u) (c1.low v) ∧
    (∀ x, x ≠ u → (ap_retour u v n c1).est_ap x = c1.est_ap x) ∧
    ((ap_retour u v n c1).est_ap u = true ↔
      c1.est_ap u = true ∨ (c1.parent u = -1 ∧ n + 1 > 1) ∨
        (c1.parent u ≠ -1 ∧ c1.low v ≥ c1.disc u)) := by
  unfold ap_retour
  simp only
  split_ifs <;> simp_all [Function.update_noteq hvu, Function.update_same] <;> omega

/-- Flagging a node of the open calls that is a cut vertex keeps the
invariant. -/
theorem inv_ap_marque (g : Graphe) (P : List Nat) (u : Nat) (c c1 : ContextArticulation)
    (hd : c1.disc = c.disc) (ht : c1.timer = c.timer) (hu : u ∈ P)
    (he : ∀ x, x ≠ u → c1.est_ap x = c.est_ap x) (hsep : c1.est_ap u = true → separe g u)
    (h : InvAP g P c) : InvAP g P c1 := by
  obtain ⟨h1, h2, h3, h4, h5, h6⟩ := h
  refine ⟨?_, ?_, ?_, ?_, ?_, ?_⟩
  · rw [hd, ht]; exact h1
  · rw [hd]; exact h2
  · rw [hd]; exact h3
  · rw [hd]; exact h4
  · intro x hx
    rw [hd]
    by_cases hxu : x = u
    · rw [hxu] at hx ⊢
      exact ⟨h3 u hu, hsep hx⟩
    · rw [he x hxu] at hx
      exact h5 x hx
  · intro x hx hxP hf
    rw [hd] at hx
    have hxu : x ≠ u := fun e => hxP (e ▸ hu)
    rw [he x hxu] at hf
    exact h6 x hx hxP hf

theorem boucle_ap_init (g : Graphe) (P : List Nat) (c : ContextArticulation) (u : Nat)
    (h : PreAP g P c u) :
    BoucleAP g P c u 0
      { c with
          disc := Function.update c.disc u c.timer
          low := Function.update c.low u c.timer
          timer := c.timer + 1 } := by
  obtain ⟨hinv, hgris, hw, hact, hpere⟩ := h
  have ht := hinv.temps
  have huP : u ∉ P := fun hm => hinv.gris u hm hw
  have hseul : ∀ x, nouveau c { c with
      disc := Function.update c.disc u c.timer
      low := Function.update c.low u c.timer
      timer := c.timer + 1 } x → x = u := by
    intro x hx
    by_contra hxu
    have h2 : Function.update c.disc u c.timer x ≠ -1 := hx.2
    rw [Function.update_noteq hxu] at h2
    exact h2 hx.1
  have hun : nouveau c { c with
      disc := Function.update c.disc u c.timer
      low := Function.update c.low u c.timer
      timer := c.timer + 1 } u := by
    refine ⟨hw, ?_⟩
    show Function.update c.disc u c.timer u ≠ -1
    rw [Function.update_same]
    omega
  refine ⟨⟨hinv, hgris, hw, hact, hpere⟩, ⟨?_, ?_, ?_, ?_, ?_, ?_⟩, ⟨?_, ?_, ?_, ?_⟩,
    ?_, ?_, ?_, ?_, ?_, ?_, ?_⟩
  · refine ⟨by show 0 ≤ c.timer + 1; omega, fun x => ?_⟩
    show Function.update c.disc u c.timer x = -1 ∨
      (0 ≤ Function.update c.disc u c.timer x ∧ Function.update c.disc u c.timer x < c.timer + 1)
    by_cases hx : x = u
    · subst hx
      rw [Function.update_same]
      right; omega
    · rw [Function.update_noteq hx]
      rcases ht.2 x with h1 | h1
      · left; exact h1
      · right; omega
  · intro x hx
    by_cases hxu : x = u
    · rw [hxu]; exact hact
    · have hx2 : Function.update c.disc u c.timer x ≠ -1 := hx
      rw [Function.update_noteq hxu] at hx2
      exact hinv.actifs x hx2
  · intro x hx
    show Function.update c.disc u c.timer x ≠ -1
    rcases List.mem_cons.mp hx with e | e
    · rw [e, Function.update_same]; omega
    · have hxu : x ≠ u := fun e2 => huP (e2 ▸ e)
      rw [Function.update_noteq hxu]
      exact hinv.gris x e
  · intro x hx
    by_cases hxu : x = u
    · left; rw [hxu]; exact List.mem_cons_self _ _
    · have hx2 : Function.update c.disc u c.timer x ≠ -1 := hx
      rw [Function.update_noteq hxu] at hx2
      rcases hinv.clos x hx2 with e | e
      · left; exact List.mem_cons_of_mem _ e
      · right
        intro a ha
        show Function.update c.disc u c.timer a.destination ≠ -1
        by_cases hau : a.destination = u
        · rw [hau, Function.update_same]; omega
        · rw [Function.update_noteq hau]
          exact e a ha
  · intro x hx
    have h1 := hinv.ap_sur x hx
    refine ⟨?_, h1.2⟩
    show Function.update c.disc u c.timer x ≠ -1
    have hxu : x ≠ u := fun e => h1.1 (e ▸ hw)
    rw [Function.update_noteq hxu]
    exact h1.1
  · intro x hx hxP hf
    have hxu : x ≠ u := fun e => hxP (e ▸ List.mem_cons_self _ _)
    have hx2 : Function.update c.disc u c.timer x ≠ -1 := hx
    rw [Function.update_noteq hxu] at hx2
    exact hinv.ap_complet x hx2 (fun hm => hxP (List.mem_cons_of_mem _ hm)) hf
  · show c.timer ≤ c.timer + 1
    omega
  · intro x hx
    have hxu : x ≠ u := fun e => hx (e ▸ hw)
    refine ⟨?_, ?_, rfl⟩
    · show Function.update c.disc u c.timer x = c.disc x
      rw [Function.update_noteq hxu]
    · show Function.update c.low u c.timer x = c.low x
      rw [Function.update_noteq hxu]
  · intro x hx
    show Function.update c.disc u c.timer x = -1 ∨ c.timer ≤ Function.update c.disc u c.timer x
    by_cases hxu : x = u
    · rw [hxu, Function.update_same]
      right; exact le_refl _
    · rw [Function.update_noteq hxu]
      left; exact hx
  · intro x _
    rfl
  · refine ⟨?_, rfl⟩
    show Function.update c.disc u c.timer u = c.timer
    rw [Function.update_same]
  · show 0 ≤ Function.update c.low u c.timer u ∧
      Function.update c.low u c.timer u ≤ Function.update c.disc u c.timer u
    rw [Function.update_same, Function.update_same]
    exact ⟨ht.1, le_refl _⟩
  · intro hlt
    have hlt2 : Function.update c.low u c.timer u < Function.update c.disc u c.timer u := hlt
    rw [Function.update_same, Function.update_same] at hlt2
    omega
  · intro x hx hxu
    exact absurd (hseul x hx) hxu
  · intro x hx
    rw [hseul x hx]
    exact connectes_dans_refl g _ u hun
  · refine ⟨le_refl _, fun _ => hseul, fun h0 => ?_⟩
    omega
  · intro _ y z hy hz
    have hyP : y ∈ P := by
      rcases hy.2 with e | e
      · exact e
      · exact absurd (hseul y e) hy.1
    have hzP : z ∈ P := by
      rcases hz.2 with e | e
      · exact e
      · exact absurd (hseul z e) hz.1
    refine connectes_dans_mono g (fun v => v ∈ P) _ y z ?_ (hgris y hyP z hzP)
    intro v hv
    exact ⟨hinv.actifs v (hinv.gris v hv), fun e => huP (e ▸ hv)⟩

/-- Lowering `low[u]` to the discovery time of a neighbour of a node
discovered by the call keeps the loop invariant. -/
theorem boucle_ap_low (g : Graphe) (P : List Nat) (c0 c : ContextArticulation) (u : Nat)
    (n m : Int) (h : BoucleAP g P c0 u n c) (hm0 : 0 ≤ m) (hm : m ≤ c.low u)
    (hw : m < c.disc u → ∃ x, nouveau c0 c x ∧ ∃ a ∈ aretes_de g x, c.disc a.destination = m) :
    BoucleAP g P c0 u n { c with low := Function.update c.low u m } := by
  have hu0 : c0.disc u = -1 := h.base.2.2.1
  refine ⟨h.base, inv_ap_cadre g _ c _ rfl rfl rfl h.inv, ⟨h.etend.temps, ?_, h.etend.nouveaux,
    h.etend.parents⟩, h.racine, ?_, ?_, ?_, h.dans, h.enfants, h.complet⟩
  · intro x hx
    have hxu : x ≠ u := fun e => hx (e ▸ hu0)
    obtain ⟨e1, e2, e3⟩ := h.etend.anciens x hx
    refine ⟨e1, ?_, e3⟩
    show Function.update c.low u m x = c0.low x
    rw [Function.update_noteq hxu]
    exact e2
  · show 0 ≤ Function.update c.low u m u ∧ Function.update c.low u m u ≤ c.disc u
    rw [Function.update_same]
    exact ⟨hm0, le_trans hm h.low_borne.2⟩
  · intro hlt
    have hlt2 : Function.update c.low u m u < c.disc u := hlt
    rw [Function.update_same] at hlt2
    obtain ⟨x, hx, a, ha, hd⟩ := hw hlt2
    refine ⟨x, hx, a, ha, ?_⟩
    show c.disc a.destination = Function.update c.low u m u
    rw [Function.update_same]
    exact hd
  · intro x hx hxu a ha hP
    show Function.update c.low u m u ≤ c.disc a.destination
    rw [Function.update_same]
    exact le_trans hm (h.low_min x hx hxu a ha hP)

/-- The loop invariant after the recursive call on a white neighbour and the
updates that follow it. -/
theorem boucle_ap_appel (g : Graphe) (hb : bien_forme g) (hs : symetrique g) (P : List Nat)
    (c0 c c1 : ContextArticulation) (u : Nat) (n : Int) (a : Arete)
    (hbo : BoucleAP g P c0 u n c) (ha : a ∈ aretes_de g u) (hv : c.disc a.destination = -1)
    (hpost : PostAP g (u :: P)
      { c with parent := Function.update c.parent a.destination (u : Int) } a.destination c1) :
    BoucleAP g P c0 u (n + 1) (ap_retour u a.destination n c1) := by
  obtain ⟨hinv0, hgris0, hu0, hactu, hpere⟩ := hbo.base
  have huP : u ∉ P := fun hm => hinv0.gris u hm hu0
  have huc : c.disc u ≠ -1 := hbo.inv.gris u (List.mem_cons_self _ _)
  have hvu : a.destination ≠ u := fun e => huc (e ▸ hv)
  have hcinv : InvAP g (u :: P)
      { c with parent := Function.update c.parent a.destination (u : Int) } :=
    inv_ap_cadre g _ c _ rfl rfl rfl hbo.inv
  obtain ⟨r1, r2, r3, r4, r5, r6, r7⟩ := ap_retour_champs u a.destination n c1 hvu
  have E0 := hbo.etend
  have E1 := hpost.etend
  have hanc : ∀ x, c.disc x ≠ -1 →
      c1.disc x = c.disc x ∧ c1.low x = c.low x ∧ c1.est_ap x = c.est_ap x :=
    fun x hx => E1.anciens x hx
  obtain ⟨hu1, hu2, hu3⟩ := hanc u huc
  have hpar : c1.parent u = c.parent u := by
    have := E1.parents u (Or.inl huc)
    rw [this]
    show Function.update c.parent a.destination (u : Int) u = c.parent u
    rw [Function.update_noteq (Ne.symm hvu)]
  have hdv : c1.disc a.destination = c.timer := hpost.racine.1
  have htu : c.disc u < c.timer := by
    rcases hbo.inv.temps.2 u with e | e
    · exact absurd e huc
    · exact e.2
  have htc := hbo.inv.temps.1
  have hlies : lies g u a.destination := lies_arete g u a ha
  have hactv := (symetrique_actifs g hb hs u a.destination hlies).2
  -- the nodes discovered by the call on the child
  have hNv : ∀ x, nouveau { c with parent := Function.update c.parent a.destination (u : Int) }
      c1 x → nouveau c0 (ap_retour u a.destination n c1) x ∧ x ≠ u ∧
        noeud_existe g x = true := by
    intro x hx
    have hxc : c.disc x = -1 := hx.1
    refine ⟨⟨?_, by rw [r1]; exact hx.2⟩, fun e => huc (e ▸ hxc), hpost.inv.actifs x hx.2⟩
    by_contra h0
    exact h0 (by rw [← (E0.anciens x h0).1]; exact hxc)
  have hNc : ∀ x, nouveau c0 c x → nouveau c0 (ap_retour u a.destination n c1) x := by
    intro x hx
    refine ⟨hx.1, ?_⟩
    rw [r1, (hanc x hx.2).1]
    exact hx.2
  have hcas : ∀ x, nouveau c0 (ap_retour u a.destination n c1) x → nouveau c0 c x ∨
      nouveau { c with parent := Function.update c.parent a.destination (u : Int) } c1 x := by
    intro x hx
    by_cases hxc : c.disc x = -1
    · right
      exact ⟨hxc, by rw [← r1]; exact hx.2⟩
    · left
      exact ⟨hx.1, hxc⟩
  have hvn : nouveau { c with parent := Function.update c.parent a.destination (u : Int) }
      c1 a.destination := ⟨hv, by rw [hdv]; omega⟩
  have hun : nouveau c0 c u := ⟨hu0, huc⟩
  have hmin1 : (ap_retour u a.destination n c1).low u ≤ c.low u := by
    rw [r5, hu2]; exact min_le_left _ _
  have hmin2 : (ap_retour u a.destination n c1).low u ≤ c1.low a.destination := by
    rw [r5]; exact min_le_right _ _
  refine ⟨hbo.base, ?_, ⟨?_, ?_, ?_, ?_⟩, ⟨?_, ?_⟩, ⟨?_, ?_⟩, ?_, ?_, ?_, ⟨?_, ?_, ?_⟩, ?_⟩
  · -- the invariant, with `u` possibly flagged
    refine inv_ap_marque g (u :: P) u c1 _ r1 r2 (List.mem_cons_self _ _) r6 ?_ hpost.inv
    intro hap
    rcases r7.mp hap with h | h | h
    · exact (hpost.inv.ap_sur u h).2
    · rw [hpar, hbo.racine.2] at h
      rcases hpere with ⟨hP, _⟩ | ⟨p, Q, _, hp, _⟩
      · subst hP
        exact separe_racine g hb hs u c0 c hinv0 hbo.inv hbo.dans
          (hbo.enfants.2.2 (by omega)) a ha hv
      · rw [hp] at h
        omega
    · rw [hpar, hbo.racine.2] at h
      have hP : P ≠ [] := by
        intro hP
        rcases hpere with ⟨_, hp⟩ | ⟨p, Q, hp, _, _⟩
        · exact h.1 hp
        · rw [hP] at hp; cases hp
      exact separe_interne g hb hs P u n c0 c
        { c with parent := Function.update c.parent a.destination (u : Int) } c1 hbo hP a ha hv rfl
        (by show Function.update c.parent a.destination (u : Int) a.destination = (u : Int)
            rw [Function.update_same]) hcinv hpost h.2
  · rw [r2]
    exact le_trans E0.temps E1.temps
  · intro x hx
    obtain ⟨e1, e2, e3⟩ := E0.anciens x hx
    have hxc : c.disc x ≠ -1 := by rw [e1]; exact hx
    obtain ⟨f1, f2, f3⟩ := hanc x hxc
    have hxu : x ≠ u := fun e => hx (e ▸ hu0)
    rw [r1, r4 x hxu, r6 x hxu]
    exact ⟨f1.trans e1, f2.trans e2, f3.trans e3⟩
  · intro x hx
    rw [r1]
    by_cases hxc : c.disc x = -1
    · rcases E1.nouveaux x hxc with e | e
      · left; exact e
      · right
        have h1 : c.timer ≤ c1.disc x := e
        have := E0.temps
        omega
    · rcases E0.nouveaux x hx with e | e
      · exact absurd e hxc
      · right
        rw [(hanc x hxc).1]
        exact e
  · intro x hx
    rw [r3]
    have hxv : x ≠ a.destination := by
      intro e
      rcases hx with h | h
      · rw [e] at h
        apply h
        by_contra h0
        exact h0 (by rw [← (E0.anciens _ h0).1]; exact hv)
      · rw [r1, e, hdv] at h
        omega
    have hxc : c.disc x ≠ -1 ∨ c1.disc x = -1 := by
      rcases hx with h | h
      · left; rw [(E0.anciens x h).1]; exact h
      · right; rw [← r1]; exact h
    have h1 := E1.parents x hxc
    rw [h1]
    show Function.update c.parent a.destination (u : Int) x = c0.parent x
    rw [Function.update_noteq hxv]
    apply E0.parents
    rcases hx with h | h
    · left; exact h
    · right
      rw [r1] at h
      by_contra hc
      rw [(hanc x hc).1] at h
      exact hc h
  · rw [r1, hu1]
    exact hbo.racine.1
  · rw [r3, hpar]
    exact hbo.racine.2
  · rw [r5, hu2]
    exact le_min hbo.low_borne.1 hpost.low_borne.1
  · rw [r1, hu1]
    exact le_trans hmin1 hbo.low_borne.2
  · -- low[u] is attained
    intro hlt
    rw [r1, hu1] at hlt
    by_cases hc : c1.low a.destination < c.low u
    · have hr : (ap_retour u a.destination n c1).low u = c1.low a.destination := by
        rw [r5, hu2]; exact min_eq_right (le_of_lt hc)
      rw [hr] at hlt ⊢
      obtain ⟨x, hx, e, he, hd⟩ := hpost.low_atteint (by rw [hdv]; omega)
      exact ⟨x, (hNv x hx).1, e, he, by rw [r1]; exact hd⟩
    · have hr : (ap_retour u a.destination n c1).low u = c.low u := by
        rw [r5, hu2]; exact min_eq_left (by omega)
      rw [hr] at hlt ⊢
      obtain ⟨x, hx, e, he, hd⟩ := hbo.low_atteint hlt
      refine ⟨x, hNc x hx, e, he, ?_⟩
      have h0 := hbo.low_borne.1
      rw [r1, (hanc e.destination (by rw [hd]; omega)).1]
      exact hd
  · -- low[u] is below the discovery times of the open calls reached
    intro x hx hxu e he heP
    have hed : c.disc e.destination ≠ -1 := hbo.inv.gris _ (List.mem_cons_of_mem _ heP)
    rw [r1, (hanc _ hed).1]
    rcases hcas x hx with h | h
    · exact le_trans hmin1 (hbo.low_min x h hxu e he heP)
    · rcases hpost.low_min x h e he (List.mem_cons_of_mem _ heP) with ⟨_, k⟩ | k
      · have k2 : (e.destination : Int) = (u : Int) := by
          rw [k]
          show Function.update c.parent a.destination (u : Int) a.destination = (u : Int)
          rw [Function.update_same]
        have k3 : e.destination = u := by exact_mod_cast k2
        exact absurd (k3 ▸ heP) huP
      · rw [(hanc _ hed).1] at k
        exact le_trans hmin2 k
  · -- the discovered nodes are joined to `u` among themselves
    intro x hx
    rcases hcas x hx with h | h
    · exact connectes_dans_mono g _ _ u x hNc (hbo.dans x h)
    · have h1 := connectes_dans_mono g _ (nouveau c0 (ap_retour u a.destination n c1))
        a.destination x (fun v hv2 => (hNv v hv2).1) (hpost.dans x h)
      exact connectes_dans_trans g _ u a.destination x
        (connectes_dans_pas g _ u a.destination hlies (hNc u hun) (hNv _ hvn).1) h1
  · have := hbo.enfants.1
    omega
  · intro h0
    have := hbo.enfants.1
    omega
  · intro _
    exact ⟨a.destination, (hNv _ hvn).1, hvu⟩
  · -- an unflagged `u` leaves its discovered neighbourhood connected
    intro hap
    have hnap : ¬ (c1.est_ap u = true ∨ (c1.parent u = -1 ∧ n + 1 > 1) ∨
        (c1.parent u ≠ -1 ∧ c1.low a.destination ≥ c1.disc u)) := by
      intro h
      rw [r7.mpr h] at hap
      cases hap
    have hapc : c.est_ap u = false := by
      rw [← hu3]
      by_contra h
      exact hnap (Or.inl (by simpa using h))
    have hKc := hbo.complet hapc
    have hsansv : ∀ x,
        nouveau { c with parent := Function.update c.parent a.destination (u : Int) } c1 x →
        connectes_sans g u x a.destination := by
      intro x hx
      exact connectes_dans_symm g _ _ _ (connectes_dans_mono g _ _ a.destination x
        (fun v hv2 => ⟨(hNv v hv2).2.2, (hNv v hv2).2.1⟩) (hpost.dans x hx))
    have hub : ∃ h, ∀ y, (y ≠ u ∧ (y ∈ P ∨ nouveau c0 (ap_retour u a.destination n c1) y)) →
        connectes_sans g u y h := by
      by_cases hroot : c1.parent u = -1
      · -- the root has this child only
        have hn1 : ¬ (n + 1 > 1) := fun h => hnap (Or.inr (Or.inl ⟨hroot, h⟩))
        have hn0 : n = 0 := by
          have := hbo.enfants.1
          omega
        have hP : P = [] := by
          rw [hpar, hbo.racine.2] at hroot
          rcases hpere with ⟨hP, _⟩ | ⟨p, Q, _, hp, _⟩
          · exact hP
          · rw [hp] at hroot; omega
        refine ⟨a.destination, fun y hy => ?_⟩
        rcases hy.2 with e | e
        · rw [hP] at e; cases e
        · rcases hcas y e with k | k
          · exact absurd (hbo.enfants.2.1 hn0 y k) hy.1
          · exact hsansv y k
      · -- the child reaches an open call above `u`
        have hlow : c1.low a.destination < c1.disc u := by
          by_contra h
          exact hnap (Or.inr (Or.inr ⟨hroot, by omega⟩))
        obtain ⟨x, hx, e, he, hd⟩ := hpost.low_atteint (by rw [hdv]; omega)
        have hxP : x ∉ u :: P := fun hm => hcinv.gris x hm hx.1
        have h0v := hpost.low_borne.1
        have heP : e.destination ∈ P := by
          rcases nouveau_aretes g hb hs (u :: P) (u :: P) _ c1 hcinv hpost.inv x hx hxP e he
            with k | k
          · rcases E1.nouveaux _ k.1 with k2 | k2
            · rw [hd] at k2; omega
            · have k3 : c.timer ≤ c1.disc e.destination := k2
              omega
          · rcases List.mem_cons.mp k with k2 | k2
            · rw [k2] at hd; omega
            · exact k2
        have heu : e.destination ≠ u := fun k => huP (k ▸ heP)
        have hev : connectes_sans g u a.destination e.destination := by
          refine connectes_dans_trans g _ _ x _ (connectes_dans_symm g _ _ _ (hsansv x hx))
            (connectes_dans_pas g _ x e.destination (lies_arete g x e he)
              ⟨(hNv x hx).2.2, (hNv x hx).2.1⟩ ⟨hinv0.actifs _ (hinv0.gris _ heP), heu⟩)
        refine ⟨e.destination, fun y hy => ?_⟩
        have hKe : e.destination ≠ u ∧ (e.destination ∈ P ∨ nouveau c0 c e.destination) :=
          ⟨heu, Or.inl heP⟩
        rcases hy.2 with k | k
        · exact hKc y e.destination ⟨hy.1, Or.inl k⟩ hKe
        · rcases hcas y k with k2 | k2
          · exact hKc y e.destination ⟨hy.1, Or.inr k2⟩ hKe
          · exact connectes_dans_trans g _ y a.destination _ (hsansv y k2) hev
    obtain ⟨h, hh⟩ := hub
    intro y z hy hz
    exact connectes_dans_trans g _ y h z (hh y hy) (connectes_dans_symm g _ z h (hh z hz))

theorem ap_voisins_ok (g : Graphe) (hb : bien_forme g) (hs : symetrique g) (k u : Nat)
    (P : List Nat) (c0 : ContextArticulation)
    (appel : ContextArticulation → Nat → Option ContextArticulation)
    (happel : ∀ Q c v, PreAP g Q c v → ap_blancs g c < k →
      ∃ c1, appel c v = some c1 ∧ PostAP g Q c v c1)
    (l : List Arete) (hl : ∀ a ∈ l, a ∈ aretes_de g u) (n : Int) (c : ContextArticulation)
    (hinv : BoucleAP g P c0 u n c) (hk : ap_blancs g c < k) :
    ∃ c1 n1, ap_voisins appel u l n c = some c1 ∧ BoucleAP g P c0 u n1 c1 ∧
      (∀ x, c.disc x ≠ -1 → c1.disc x = c.disc x) ∧ c1.low u ≤ c.low u ∧
      ∀ a ∈ l, c1.disc a.destination ≠ -1 ∧
        (a.destination ∈ P →
          (a.destination : Int) = c0.parent u ∨ c1.low u ≤ c1.disc a.destination) := by
  induction l generalizing c n with
  | nil => exact ⟨c, n, rfl, hinv, fun _ _ => rfl, le_refl _, by simp⟩
  | cons a reste ih =>
    have hr : ∀ b ∈ reste, b ∈ aretes_de g u := fun b hb2 => hl b (List.mem_cons_of_mem _ hb2)
    have ha : a ∈ aretes_de g u := hl a (List.mem_cons_self _ _)
    obtain ⟨hinv0, hgris0, hu0, hactu, hpere⟩ := hinv.base
    have huP : u ∉ P := fun hm => hinv0.gris u hm hu0
    have huc : c.disc u ≠ -1 := hinv.inv.gris u (List.mem_cons_self _ _)
    by_cases hv : c.disc a.destination = -1
    · -- recursive call on a white neighbour
      have hvu : a.destination ≠ u := fun e => huc (e ▸ hv)
      have hlies : lies g u a.destination := lies_arete g u a ha
      have hpre : PreAP g (u :: P)
          { c with parent := Function.update c.parent a.destination (u : Int) }
          a.destination := by
        refine ⟨inv_ap_cadre g _ c _ rfl rfl rfl hinv.inv, ?_, hv,
          (symetrique_actifs g hb hs u a.destination hlies).2, Or.inr ⟨u, P, rfl, ?_, hlies⟩⟩
        · apply chemin_gris_cons g P u hgris0
          rcases hpere with ⟨e, _⟩ | ⟨p, Q, e, _, hp⟩
          · exact Or.inl e
          · exact Or.inr ⟨p, Q, e, hp⟩
        · show Function.update c.parent a.destination (u : Int) a.destination = (u : Int)
          rw [Function.update_same]
      obtain ⟨c1, q1, q2⟩ := happel (u :: P) _ a.destination hpre hk
      rw [ap_voisins_appel appel u a reste n c hv, q1]
      simp only
      have hb2 := boucle_ap_appel g hb hs P c0 c c1 u n a hinv ha hv q2
      obtain ⟨r1, _, _, _, _, _, _⟩ := ap_retour_champs u a.destination n c1 hvu
      have hanc : ∀ x, c.disc x ≠ -1 → (ap_retour u a.destination n c1).disc x = c.disc x := by
        intro x hx
        rw [r1]
        exact (q2.etend.anciens x hx).1
      have hk2 : ap_blancs g (ap_retour u a.destination n c1) < k :=
        lt_of_le_of_lt (ap_blancs_mono g c _ hanc) hk
      obtain ⟨c3, n3, t1, t2, t3, t4, t5⟩ := ih hr (n + 1) _ hb2 hk2
      refine ⟨c3, n3, t1, t2, ?_, ?_, ?_⟩
      · intro x hx
        rw [t3 x (by rw [hanc x hx]; exact hx), hanc x hx]
      · refine le_trans t4 ?_
        have h5 := (ap_retour_champs u a.destination n c1 hvu).2.2.2.2.1
        rw [h5, (q2.etend.anciens u huc).2.1]
        exact min_le_left _ _
      · intro e he
        rcases List.mem_cons.mp he with he | he
        · subst he
          have hd1 : (ap_retour u e.destination n c1).disc e.destination ≠ -1 := by
            rw [r1, q2.racine.1]
            have h0 : 0 ≤ c.timer := hinv.inv.temps.1
            show c.timer ≠ -1
            omega
          refine ⟨by rw [t3 _ hd1]; exact hd1, fun hd => ?_⟩
          exact absurd hv (hinv.inv.gris _ (List.mem_cons_of_mem _ hd))
        · exact t5 e he
    · have hstep : ap_voisins appel u (a :: reste) n c =
          if (a.destination : Int) ≠ c.parent u then
            ap_voisins appel u reste n
              (if c.disc a.destination < c.low u then
                { c with low := Function.update c.low u (c.disc a.destination) }
               else c)
          else ap_voisins appel u reste n c := by
        show (if c.disc a.destination = -1 then _ else _) = _
        rw [if_neg hv]
      rw [hstep]
      have hv0 : 0 ≤ c.disc a.destination := by
        rcases hinv.inv.temps.2 a.destination with e | e
        · exact absurd e hv
        · exact e.1
      split
      · rename_i hnp
        -- an edge to a discovered node other than the parent
        have hb2 : BoucleAP g P c0 u n
            (if c.disc a.destination < c.low u then
              { c with low := Function.update c.low u (c.disc a.destination) } else c) := by
          split
          · rename_i hlt
            exact boucle_ap_low g P c0 c u n _ hinv hv0 (le_of_lt hlt)
              (fun _ => ⟨u, ⟨hu0, huc⟩, a, ha, rfl⟩)
          · exact hinv
        have hd12 : (if c.disc a.destination < c.low u then
            ({ c with low := Function.update c.low u (c.disc a.destination) } :
              ContextArticulation) else c).disc = c.disc := by
          split <;> rfl
        have hk2 : ap_blancs g (if c.disc a.destination < c.low u then
            { c with low := Function.update c.low u (c.disc a.destination) } else c) < k := by
          refine lt_of_le_of_lt (ap_blancs_mono g c _ ?_) hk
          intro x _
          rw [hd12]
        have hlow2 : (if c.disc a.destination < c.low u then
            ({ c with low := Function.update c.low u (c.disc a.destination) } :
              ContextArticulation) else c).low u ≤ c.low u ∧
            (if c.disc a.destination < c.low u then
            ({ c with low := Function.update c.low u (c.disc a.destination) } :
              ContextArticulation) else c).low u ≤ c.disc a.destination := by
          split
          · rename_i hlt
            show Function.update c.low u (c.disc a.destination) u ≤ c.low u ∧
              Function.update c.low u (c.disc a.destination) u ≤ c.disc a.destination
            rw [Function.update_same]
            exact ⟨le_of_lt hlt, le_refl _⟩
          · rename_i hlt
            exact ⟨le_refl _, by omega⟩
        obtain ⟨c3, n3, t1, t2, t3, t4, t5⟩ := ih hr n _ hb2 hk2
        refine ⟨c3, n3, t1, t2, ?_, le_trans t4 hlow2.1, ?_⟩
        · intro x hx
          rw [t3 x (by rw [hd12]; exact hx), hd12]
        · intro e he
          rcases List.mem_cons.mp he with he | he
          · subst he
            have h3 := t3 e.destination (by rw [hd12]; exact hv)
            rw [hd12] at h3
            refine ⟨by rw [h3]; exact hv, fun _ => Or.inr ?_⟩
            rw [h3]
            exact le_trans t4 hlow2.2
          · exact t5 e he
      · rename_i hnp
        -- the edge back to the parent is skipped
        obtain ⟨c3, n3, t1, t2, t3, t4, t5⟩ := ih hr n c hinv hk
        refine ⟨c3, n3, t1, t2, t3, t4, ?_⟩
        intro e he
        rcases List.mem_cons.mp he with he | he
        · subst he
          refine ⟨by rw [t3 _ hv]; exact hv, fun _ => Or.inl ?_⟩
          rw [← hinv.racine.2]
          by_contra hc
          exact hnp hc
        · exact t5 e he

/-- Total correctness of `ap_dfs` on a symmetric graph: with more fuel than
undiscovered slots the call returns, and its post-condition holds. -/
theorem ap_dfs_ok (g : Graphe) (hb : bien_forme g) (hs : symetrique g) (k : Nat) :
    ∀ (P : List Nat) (c : ContextArticulation) (u : Nat), PreAP g P c u →
      ap_blancs g c < k → ∃ c1, ap_dfs g k c u = some c1 ∧ PostAP g P c u c1 := by
  induction k with
  | zero => intro P c u _ hk; omega
  | succ m ih =>
    intro P c u hpre hk
    obtain ⟨hinv0, hgris0, hu0, hactu, hpere⟩ := hpre
    have hinit := boucle_ap_init g P c u ⟨hinv0, hgris0, hu0, hactu, hpere⟩
    have hbl := ap_blancs_visiter g c
      { c with
          disc := Function.update c.disc u c.timer
          low := Function.update c.low u c.timer
          timer := c.timer + 1 } u (noeud_existe_lt g u hactu) hu0
      (by
        show Function.update c.disc u c.timer u ≠ -1
        rw [Function.update_same]
        have := hinv0.temps.1
        omega)
      (fun x hx => by
        show Function.update c.disc u c.timer x = c.disc x
        rw [Function.update_noteq hx])
    obtain ⟨c1, n1, r1, r2, _, _, r5⟩ := ap_voisins_ok g hb hs m u P c (ap_dfs g m) ih
      (aretes_de g u) (fun a ha => ha) 0 _ hinit (by omega)
    have huP : u ∉ P := fun hm => hinv0.gris u hm hu0
    have hu1 : c1.disc u ≠ -1 := r2.inv.gris u (List.mem_cons_self _ _)
    refine ⟨c1, r1, ⟨?_, ?_, ?_, ?_, ?_, ?_⟩, r2.etend, r2.racine, r2.low_borne, r2.low_atteint,
      ?_, r2.dans⟩
    · exact r2.inv.temps
    · exact r2.inv.actifs
    · exact fun x hx => r2.inv.gris x (List.mem_cons_of_mem _ hx)
    · intro x hx
      rcases r2.inv.clos x hx with e | e
      · rcases List.mem_cons.mp e with e2 | e2
        · right
          intro a ha
          rw [e2] at ha
          exact (r5 a ha).1
        · left; exact e2
      · right; exact e
    · exact r2.inv.ap_sur
    · intro x hx hxP hf
      by_cases hxu : x = u
      · rw [hxu] at hf ⊢
        apply non_separe
        intro y z hy hz hyu hzu _ _
        have hK : ∀ w, lies g u w → w ≠ u → (w ≠ u ∧ (w ∈ P ∨ nouveau c c1 w)) := by
          intro w hw hwu
          refine ⟨hwu, ?_⟩
          obtain ⟨a, ha1, ha2⟩ := symetrique_arete g hb hs u w hw
          have hd := (r5 a ha1).1
          rw [ha2] at hd
          by_cases hw0 : c.disc w = -1
          · exact Or.inr ⟨hw0, hd⟩
          · rcases hinv0.clos w hw0 with e | e
            · exact Or.inl e
            · obtain ⟨b, hb1, hb2⟩ := symetrique_arete g hb hs w u (lies_symm g u w hw)
              have := e b hb1
              rw [hb2] at this
              exact absurd hu0 this
        exact r2.complet hf y z (hK y hy hyu) (hK z hz hzu)
      · exact r2.inv.ap_complet x hx
          (fun hm => by
            rcases List.mem_cons.mp hm with e | e
            · exact hxu e
            · exact hxP e) hf
    · intro x hx a ha haP
      by_cases hxu : x = u
      · rw [hxu] at ha
        rcases (r5 a ha).2 haP with e | e
        · exact Or.inl ⟨hxu, e⟩
        · exact Or.inr e
      · exact Or.inr (r2.low_min x hx hxu a ha haP)

/-! ## Articulation points: the loop over the roots -/

theorem ap_racines_ok (g : Graphe) (hb : bien_forme g) (hs : symetrique g) (fuel : Nat)
    (hf : g.capacite_max < fuel) (l : List Nat) (hl : ∀ i ∈ l, i < g.capacite_max)
    (c : ContextArticulation) (hinv : InvAP g [] c)
    (hpar : ∀ x, c.disc x = -1 → c.parent x = -1) :
    ∃ c1, ap_racines fuel g l c = some c1 ∧ InvAP g [] c1 ∧
      (∀ x, c1.disc x = -1 → c1.parent x = -1) ∧
      (∀ x, c.disc x ≠ -1 → c1.disc x ≠ -1) ∧
      ∀ i ∈ l, (noeud g i).actif = true → c1.disc i ≠ -1 := by
  induction l generalizing c with
  | nil => exact ⟨c, rfl, hinv, hpar, fun _ hx => hx, by simp⟩
  | cons i r ih =>
    have hr : ∀ j ∈ r, j < g.capacite_max := fun j hj => hl j (List.mem_cons_of_mem _ hj)
    have hi : i < g.capacite_max := hl i (List.mem_cons_self _ _)
    unfold ap_racines
    split
    · rename_i hc
      simp only [Bool.and_eq_true, decide_eq_true_eq] at hc
      have hpre : PreAP g [] c i := by
        have hg : chemin_gris g [] := by
          intro x hx
          cases hx
        refine ⟨hinv, hg, hc.2, ?_, Or.inl ⟨rfl, hpar i hc.2⟩⟩
        unfold noeud_existe
        rw [if_neg (by omega)]
        exact hc.1
      obtain ⟨c1, r1, q⟩ := ap_dfs_ok g hb hs fuel [] c i hpre
        (lt_of_le_of_lt (ap_blancs_le g c) hf)
      rw [r1]
      simp only
      have hpar1 : ∀ x, c1.disc x = -1 → c1.parent x = -1 := by
        intro x hx
        rw [q.etend.parents x (Or.inr hx)]
        apply hpar
        by_contra h0
        rw [(q.etend.anciens x h0).1] at hx
        exact h0 hx
      obtain ⟨c2, s1, s2, s3, s4, s5⟩ := ih hr c1 q.inv hpar1
      have hdi : c1.disc i ≠ -1 := by
        rw [q.racine.1]
        have := hinv.temps.1
        omega
      refine ⟨c2, s1, s2, s3, ?_, ?_⟩
      · intro x hx
        apply s4
        rw [(q.etend.anciens x hx).1]
        exact hx
      · intro j hj hact
        rcases List.mem_cons.mp hj with e | e
        · rw [e]; exact s4 i hdi
        · exact s5 j e hact
    · rename_i hc
      simp only [Bool.and_eq_true, decide_eq_true_eq, not_and] at hc
      obtain ⟨c2, s1, s2, s3, s4, s5⟩ := ih hr c hinv hpar
      refine ⟨c2, s1, s2, s3, s4, ?_⟩
      intro j hj hact
      rcases List.mem_cons.mp hj with e | e
      · subst e
        exact s4 j (hc hact)
      · exact s5 j e hact

/-- Total correctness of the traversal of `trouver_points_articulation` on a
symmetric graph: the flagged nodes are the cut vertices. -/
theorem ap_parcours_ok (g : Graphe) (hb : bien_forme g) (hs : symetrique g) (fuel : Nat)
    (hf : g.capacite_max < fuel) :
    ∃ c, ap_parcours fuel g = some c ∧ InvAP g [] c ∧
      ∀ u, noeud_existe g u = true → c.disc u ≠ -1 := by
  have h0 : InvAP g []
      { disc := fun _ => -1
        low := fun _ => -1
        parent := fun _ => -1
        est_ap := fun _ => false
        timer := 0
        ponts := [] } := by
    refine ⟨?_, ?_, ?_, ?_, ?_, ?_⟩
    · exact ⟨le_refl _, fun _ => Or.inl rfl⟩
    · intro x hx; exact absurd rfl hx
    · intro x hx; cases hx
    · intro x hx; exact absurd rfl hx
    · intro x hx; cases hx
    · intro x hx; exact absurd rfl hx
  obtain ⟨c, r1, r2, _, _, r5⟩ := ap_racines_ok g hb hs fuel hf (List.range g.capacite_max)
    (fun i hi => List.mem_range.mp hi) _ h0 (fun _ _ => rfl)
  refine ⟨c, r1, r2, fun u hu => ?_⟩
  have hlt := noeud_existe_lt g u hu
  have hact : (noeud g u).actif = true := by
    unfold noeud_existe at hu
    rw [if_neg (by omega)] at hu
    exact hu
  exact r5 u (List.mem_range.mpr hlt) hact

/-- Only an active node can be a cut vertex. -/
theorem separe_actif (g : Graphe) (u : Nat) (h : separe g u) : noeud_existe g u = true := by
  obtain ⟨x, y, _, _, hc, hn⟩ := h
  by_contra hu
  apply hn
  refine connectes_dans_mono g _ _ x y ?_ hc
  intro v hv
  exact ⟨hv, fun e => hu (e ▸ hv)⟩

/-- C11 (amended): on a well-formed symmetric graph (every arc has its reverse
arc) and with more fuel than node slots, `trouver_points_articulation`
returns, and it reports `u` exactly when removing `u` disconnects two of the
remaining active nodes that were connected, which is when the removal
increases the number of connected components. -/
theorem points_articulation_corrects (g : Graphe) (fuel : Nat) (res : ResultatSecurite)
    (hb : bien_forme g) (hs : symetrique g) (hfuel : g.capacite_max < fuel) :
    ∃ r, trouver_points_articulation fuel g res = some r ∧
      ∀ u, u ∈ r.points_articulation ↔ separe g u := by
  obtain ⟨c, r1, hinv, hvis⟩ := ap_parcours_ok g hb hs fuel hfuel
  unfold trouver_points_articulation
  rw [r1]
  refine ⟨_, rfl, fun u => ?_⟩
  show u ∈ (List.range g.capacite_max).filter (fun i => c.est_ap i) ↔ separe g u
  rw [List.mem_filter]
  constructor
  · intro h
    exact (hinv.ap_sur u h.2).2
  · intro h
    have hact := separe_actif g u h
    refine ⟨List.mem_range.mpr (noeud_existe_lt g u hact), ?_⟩
    by_contra hf
    exact hinv.ap_complet u (hvis u hact) (fun hm => by cases hm) (by simpa using hf) h

/-- Instance of C11 on the path `0 - 1 - 2` stored as four arcs, whose middle
node is the one reported. -/
theorem points_articulation_corrects_witness :
    (bien_forme g_chemin_sym ∧ symetrique g_chemin_sym ∧ g_chemin_sym.capacite_max < 4 ∧
      (trouver_points_articulation 4 g_chemin_sym ⟨[], 0, [], 0, [], 0, 0⟩).map
        (fun r => r.points_articulation) = some [1]) ∧
    ∃ r, trouver_points_articulation 4 g_chemin_sym ⟨[], 0, [], 0, [], 0, 0⟩ = some r ∧
      ∀ u, u ∈ r.points_articulation ↔ separe g_chemin_sym u :=
  ⟨by decide, points_articulation_corrects g_chemin_sym 4 ⟨[], 0, [], 0, [], 0, 0⟩
    (by decide) (by decide) (by decide)⟩

/-- C11 as stated fails on `g_convergent`, whose arcs are `0 -> 1` and
`2 -> 1`: removing node 1 disconnects nodes 0 and 2, and
`trouver_points_articulation` reports no node. -/
theorem points_articulation_oriente_contre_exemple :
    bien_forme g_convergent ∧ separe g_convergent 1 ∧
    (trouver_points_articulation 4 g_convergent ⟨[], 0, [], 0, [], 0, 0⟩).map
      (fun r => r.points_articulation) = some [] := by
  refine ⟨by decide, ⟨0, 2, by decide, by decide, ?_, ?_⟩, by decide⟩
  · refine ⟨[1, 2], ⟨by decide, by decide, trivial⟩, rfl, ?_⟩
    intro v hv
    simp only [List.mem_cons, List.mem_singleton, List.not_mem_nil, or_false] at hv
    rcases hv with e | e | e <;> subst e <;> decide
  · rintro ⟨l, h1, h2, h3⟩
    cases l with
    | nil => exact absurd h2 (by decide)
    | cons y r =>
      have hy := h3 y (List.mem_cons_of_mem _ (List.mem_cons_self _ _))
      have hy3 : y < 3 := noeud_existe_lt g_convergent y hy.1
      have hl : lies g_convergent 0 y := h1.1
      have hcas : y = 0 ∨ y = 1 ∨ y = 2 := by omega
      rcases hcas with e | e | e
      · subst e; exact absurd hl (by decide)
      · exact hy.2 e
      · subst e; exact absurd hl (by decide)

/-! ## Dijkstra: absent paths and metrics -/

/-- With enough fuel `dijkstra` answers, whatever the two nodes. -/
theorem dijkstra_total (g : Graphe) (hb : bien_forme g) (hp : latences_positives g)
    (s d fuel : Nat) (hfuel : carburant g ≤ fuel) : ∃ r, dijkstra fuel g s d = some r := by
  by_cases hs : noeud_existe g s = true
  · by_cases hd : noeud_existe g d = true
    · obtain ⟨_, _, _, _, h⟩ := dijkstra_resultat g hb hp s d hs hd fuel hfuel
      rcases h with ⟨_, h⟩ | ⟨_, p, _, h, _⟩
      · exact ⟨none, h⟩
      · exact ⟨some p, h⟩
    · refine ⟨none, ?_⟩
      unfold dijkstra
      simp [hd]
  · refine ⟨none, ?_⟩
    unfold dijkstra
    simp [hs]

/-- C22 (amended): on a graph with non-negative latencies `dijkstra` answers,
and it returns no path exactly when the source is not an active node, or the
destination is not an active node, or no walk from the source to the
destination has a latency, accumulated edge by edge from the source in
binary32, below `INFINI`. -/
theorem dijkstra_aucun_chemin (g : Graphe) (source destination fuel : Nat)
    (hb : bien_forme g) (hp : latences_positives g) (hfuel : carburant g ≤ fuel) :
    ∃ r, dijkstra fuel g source destination = some r ∧
      (r = none ↔ noeud_existe g source = false ∨ noeud_existe g destination = false ∨
        ¬ ∃ es, est_marche g source es ∧ extremite source es = destination ∧
          cumul 0 es < INFINI) := by
  by_cases hs : noeud_existe g source = true
  · by_cases hd : noeud_existe g destination = true
    · obtain ⟨dist, pred, h2, h3, h4⟩ :=
        dijkstra_resultat g hb hp source destination hs hd fuel hfuel
      rcases h4 with ⟨hinf, hr⟩ | ⟨hfin, p, es, hr, e2, e3, _, e5, e6, _⟩
      · refine ⟨none, hr, ?_⟩
        refine ⟨fun _ => Or.inr (Or.inr ?_), fun _ => rfl⟩
        rintro ⟨es, m1, m2, m3⟩
        have := sature_minimal g hp source dist pred h2 h3 es m1
        rw [m2, hinf] at this
        omega
      · refine ⟨some p, hr, ?_⟩
        constructor
        · intro h; cases h
        · intro h
          rcases h with h | h | h
          · rw [hs] at h; cases h
          · rw [hd] at h; cases h
          · exfalso
            apply h
            refine ⟨es, e2, e3, ?_⟩
            have := (h2.bornes destination).2
            rw [← e5, e6]
            omega
    · refine ⟨none, ?_, ?_⟩
      · unfold dijkstra
        simp [hd]
      · exact ⟨fun _ => Or.inr (Or.inl (by simpa using hd)), fun _ => rfl⟩
  · refine ⟨none, ?_, ?_⟩
    · unfold dijkstra
      simp [hs]
    · exact ⟨fun _ => Or.inl (by simpa using hs), fun _ => rfl⟩

/-- Instance of C22 on the chain `0 -> 1 -> 2`, from node 2 back to node 0:
both nodes are active and no path is returned. -/
theorem dijkstra_aucun_chemin_witness :
    (bien_forme g_chaine3 ∧ latences_positives g_chaine3 ∧ carburant g_chaine3 ≤ 10 ∧
      dijkstra 10 g_chaine3 2 0 = some none) ∧
    ∃ r, dijkstra 10 g_chaine3 2 0 = some r ∧
      (r = none ↔ noeud_existe g_chaine3 2 = false ∨ noeud_existe g_chaine3 0 = false ∨
        ¬ ∃ es, est_marche g_chaine3 2 es ∧ extremite 2 es = 0 ∧ cumul 0 es < INFINI) :=
  ⟨by decide, dijkstra_aucun_chemin g_chaine3 2 0 10 (by decide) (by decide) (by decide)⟩

/-- C22 as stated fails, in two ways. In `g_infini` the latency of the edge
`0 -> 1` is non-negative, nodes 0 and 1 are active and joined by that edge, and
`dijkstra` returns no path: that latency is the sentinel `INFINI`. In
`g_plafond` the active node 2 is reached from the active node 0 by a walk of
two edges whose total latency is below `INFINI`, and `dijkstra` returns no
path: added in binary32, the two latencies give `INFINI`. -/
theorem dijkstra_aucun_chemin_contre_exemple :
    (latences_positives g_infini ∧
      ¬ (noeud_existe g_infini 0 = false ∨ noeud_existe g_infini 1 = false ∨
          ¬ relie g_infini 0 1) ∧
      dijkstra 10 g_infini 0 1 = some none) ∧
    (latences_positives g_plafond ∧ noeud_existe g_plafond 0 = true ∧
      noeud_existe g_plafond 2 = true ∧
      est_marche g_plafond 0 [⟨1, 340282326356119256160033759537265639424, 10, 1, 5⟩,
        ⟨2, 15211807202738752817960438464512, 10, 1, 5⟩] ∧
      extremite 0 [⟨1, 340282326356119256160033759537265639424, 10, 1, 5⟩,
        ⟨2, 15211807202738752817960438464512, 10, 1, 5⟩] = 2 ∧
      poids [⟨1, 340282326356119256160033759537265639424, 10, 1, 5⟩,
        ⟨2, 15211807202738752817960438464512, 10, 1, 5⟩] < INFINI ∧
      cumul 0 [⟨1, 340282326356119256160033759537265639424, 10, 1, 5⟩,
        ⟨2, 15211807202738752817960438464512, 10, 1, 5⟩] = INFINI ∧
      dijkstra 10 g_plafond 0 2 = some none) := by
  decide

/-- C23 (code at the failing input): on the chain `0 -> 1 -> 2`, whose two
edges have bandwidth 10, cost 1 and security 5, the path returned by `dijkstra`
from 0 to 2 carries the latency 2 and the values 0 for `bw_minimale`,
`cout_total` and `securite_min`. -/
theorem dijkstra_metriques_nulles :
    aretes_de g_chaine3 0 = [⟨1, 1, 10, 1, 5⟩] ∧ aretes_de g_chaine3 1 = [⟨2, 1, 10, 1, 5⟩] ∧
    dijkstra 10 g_chaine3 0 2 = some (some ⟨[0, 1, 2], 3, 2, 0, 0, 0⟩) := by
  decide

/-- C24 (code at the failing input): for the active node 0 of the chain,
`dijkstra(0, 0)` returns the path `[0]` with a bottleneck bandwidth of 0, and
`chemin_contraint_backtracking(0, 0)` returns the path `[0]` with the
bandwidth `INFINI` and a minimum security of 0. -/
theorem chemin_source_egale_destination :
    noeud_existe g_chaine3 0 = true ∧
    dijkstra 10 g_chaine3 0 0 = some (some ⟨[0], 1, 0, 0, 0, 0⟩) ∧
    chemin_contraint_backtracking 10 g_chaine3 0 0 c_libre =
      some (some ⟨[0], 1, 0, INFINI, 0, 0⟩) := by
  decide

/-! ## K shortest paths: size and head of the result -/

theorem generer_candidats_total (g : Graphe) (hb : bien_forme g) (hp : latences_positives g)
    (fuel d : Nat) (hfuel : carburant g ≤ fuel) (l : List Nat) :
    ∀ (racine : List Nat) (candidats : List Chemin),
      ∃ r, generer_candidats fuel g d racine l candidats = some r := by
  induction l with
  | nil => intro racine candidats; exact ⟨candidats, rfl⟩
  | cons x reste ih =>
    intro racine candidats
    cases reste with
    | nil => exact ⟨candidats, rfl⟩
    | cons y r2 =>
      obtain ⟨r, hr⟩ := dijkstra_total g hb hp x d fuel hfuel
      unfold generer_candidats
      rw [hr]
      cases r with
      | none => exact ih _ _
      | some p => exact ih _ _

/-- The loop of `k_plus_courts_chemins` returns, keeps the paths already found
at the head of the list and adds at most one path per iteration. -/
theorem kpc_boucle_ok (g : Graphe) (hb : bien_forme g) (hp : latences_positives g)
    (fuel d : Nat) (hfuel : carburant g ≤ fuel) (n : Nat) :
    ∀ (liste : List Chemin) (queue_liste : Chemin) (candidats : List Chemin),
      ∃ suite, kpc_boucle fuel g d n liste queue_liste candidats = some (liste ++ suite) ∧
        suite.length ≤ n := by
  induction n with
  | zero => intro liste q c; exact ⟨[], by simp [kpc_boucle], le_refl _⟩
  | succ m ih =>
    intro liste q c
    obtain ⟨r, hr⟩ := generer_candidats_total g hb hp fuel d hfuel q.noeuds [] c
    unfold kpc_boucle
    rw [hr]
    cases r with
    | nil => exact ⟨[], by simp, Nat.zero_le _⟩
    | cons c0 cs =>
      obtain ⟨suite, h1, h2⟩ := ih
        (liste ++ [(c0 :: cs).getD (position_meilleur c0 0 1 cs) c0])
        ((c0 :: cs).getD (position_meilleur c0 0 1 cs) c0)
        ((c0 :: cs).eraseIdx (position_meilleur c0 0 1 cs))
      refine ⟨(c0 :: cs).getD (position_meilleur c0 0 1 cs) c0 :: suite, ?_, ?_⟩
      · simp only
        rw [h1]
        simp
      · simp only [List.length_cons]
        omega

/-- C25: on a graph with non-negative latencies `k_plus_courts_chemins`
answers with at most `k` paths; the list is empty when `k <= 0` and when
`dijkstra` finds no path from the source to the destination; otherwise its
first path is the one `dijkstra` returns, with the same node sequence and the
same `latence_totale`. -/
theorem k_plus_courts_chemins_premier (g : Graphe) (source destination fuel : Nat) (k : Int)
    (hb : bien_forme g) (hp : latences_positives g) (hfuel : carburant g ≤ fuel) :
    ∃ l r, k_plus_courts_chemins fuel g source destination k = some l ∧
      dijkstra fuel g source destination = some r ∧
      (l.length : Int) ≤ max k 0 ∧
      (k ≤ 0 → l = []) ∧ (r = none → l = []) ∧
      (0 < k → ∀ p, r = some p → ∃ q reste, l = q :: reste ∧ q.noeuds = p.noeuds ∧
        q.latence_totale = p.latence_totale) := by
  obtain ⟨r, hr⟩ := dijkstra_total g hb hp source destination fuel hfuel
  by_cases hk : k ≤ 0
  · refine ⟨[], r, ?_, hr, ?_, fun _ => rfl, fun _ => rfl, fun h => ?_⟩
    · unfold k_plus_courts_chemins
      rw [if_pos hk]
    · simp
    · omega
  · cases r with
    | none =>
      refine ⟨[], none, ?_, hr, ?_, fun _ => rfl, fun _ => rfl, fun _ p h => ?_⟩
      · unfold k_plus_courts_chemins
        rw [if_neg hk, hr]
      · simp
      · cases h
    | some p =>
      obtain ⟨suite, h1, h2⟩ := kpc_boucle_ok g hb hp fuel destination hfuel (k - 1).toNat
        [p] p []
      refine ⟨[p] ++ suite, some p, ?_, hr, ?_, fun h => absurd h hk,
        fun h => Option.noConfusion h, fun _ q h => ?_⟩
      · unfold k_plus_courts_chemins
        rw [if_neg hk, hr]
        exact h1
      · simp only [List.length_append, List.length_singleton]
        have : ((k - 1).toNat : Int) = k - 1 := Int.toNat_of_nonneg (by omega)
        have h3 : (suite.length : Int) ≤ k - 1 := by
          rw [← this]
          exact_mod_cast h2
        rw [max_eq_left (by omega)]
        push_cast
        omega
      · cases h
        exact ⟨p, suite, rfl, rfl, rfl⟩

/-- Instance of C25 on the chain `0 -> 1 -> 2` with `k = 2`. -/
theorem k_plus_courts_chemins_premier_witness :
    (bien_forme g_chaine3 ∧ latences_positives g_chaine3 ∧ carburant g_chaine3 ≤ 10) ∧
    ∃ l r, k_plus_courts_chemins 10 g_chaine3 0 2 2 = some l ∧
      dijkstra 10 g_chaine3 0 2 = some r ∧
      (l.length : Int) ≤ max 2 0 ∧
      ((2 : Int) ≤ 0 → l = []) ∧ (r = none → l = []) ∧
      ((0 : Int) < 2 → ∀ p, r = some p → ∃ q reste, l = q :: reste ∧ q.noeuds = p.noeuds ∧
        q.latence_totale = p.latence_totale) :=
  ⟨by decide, k_plus_courts_chemins_premier g_chaine3 0 2 10 2 (by decide) (by decide)
    (by decide)⟩

/-- C26 (code at the failing input): on the chain `0 -> 1 -> 2` with `k = 2`
the second path of the list has the nodes `[0, 1, 2]`, joined by the edges
`0 -> 1` and `1 -> 2` of latency 1 each, and a `latence_totale` of 1. -/
theorem k_plus_courts_chemins_latence_tronquee :
    (k_plus_courts_chemins 10 g_chaine3 0 2 2).map (fun l => l.drop 1) =
      some [⟨[0, 1, 2], 3, 1, 0, 0, 0⟩] ∧
    est_marche g_chaine3 0 [⟨1, 1, 10, 1, 5⟩, ⟨2, 1, 10, 1, 5⟩] ∧
    sommets 0 [⟨1, 1, 10, 1, 5⟩, ⟨2, 1, 10, 1, 5⟩] = [0, 1, 2] ∧
    poids [⟨1, 1, 10, 1, 5⟩, ⟨2, 1, 10, 1, 5⟩] = 2 := by
  decide

/-! ## Graph store: contracts of the node and edge operations -/

theorem noeud_set_meme (g : Graphe) (id : Nat) (n : Noeud) (h : id < g.noeuds.length) :
    (g.noeuds.set id n).getD id noeud_vide = n := by
  rw [List.getD_eq_getElem?_getD, List.getElem?_set]
  simp [h]

theorem noeud_set_autre (g : Graphe) (id x : Nat) (n : Noeud) (h : x ≠ id) :
    (g.noeuds.set id n).getD x noeud_vide = g.noeuds.getD x noeud_vide := by
  rw [List.getD_eq_getElem?_getD, List.getD_eq_getElem?_getD, List.getElem?_set]
  simp [Ne.symm h]

theorem octets_take (s : String) (n : Nat) : octets (s.take n) = (octets s).take n := by
  unfold octets
  rw [String.data_take, List.map_take]

/-- C27 (amended): `ajouter_noeud` fails exactly when `id` is not below the
capacity or the slot `id` is already active; on failure the graph is
unchanged; on success the slot `id` holds an active node with an empty
adjacency list whose name is made of the first `TAILLE_MAX_NOM - 1` bytes of
the given name, `nb_noeuds` grows by one, and every other slot, the edge
count, the capacity, the orientation and the matrices are unchanged. -/
theorem ajouter_noeud_contrat (g : Graphe) (id : Nat) (nom : String) (hb : bien_forme g) :
    ((ajouter_noeud g id nom).2 = -1 ↔ id ≥ g.capacite_max ∨ noeud_existe g id = true) ∧
    ((ajouter_noeud g id nom).2 = -1 → (ajouter_noeud g id nom).1 = g) ∧
    ((ajouter_noeud g id nom).2 ≠ -1 →
      (ajouter_noeud g id nom).2 = 0 ∧
      noeud (ajouter_noeud g id nom).1 id = ⟨id, nom.take (TAILLE_MAX_NOM - 1), true, []⟩ ∧
      octets (noeud (ajouter_noeud g id nom).1 id).nom =
        (octets nom).take (TAILLE_MAX_NOM - 1) ∧
      (ajouter_noeud g id nom).1.nb_noeuds = g.nb_noeuds + 1 ∧
      (∀ x, x ≠ id → noeud (ajouter_noeud g id nom).1 x = noeud g x) ∧
      (ajouter_noeud g id nom).1.nb_aretes = g.nb_aretes ∧
      (ajouter_noeud g id nom).1.capacite_max = g.capacite_max ∧
      (ajouter_noeud g id nom).1.est_oriente = g.est_oriente ∧
      (ajouter_noeud g id nom).1.matrice_latence = g.matrice_latence ∧
      (ajouter_noeud g id nom).1.matrice_bw = g.matrice_bw ∧
      (ajouter_noeud g id nom).1.matrice_cout = g.matrice_cout ∧
      (ajouter_noeud g id nom).1.matrice_sec = g.matrice_sec) := by
  unfold ajouter_noeud
  by_cases h1 : id ≥ g.capacite_max
  · rw [if_pos h1]
    exact ⟨⟨fun _ => Or.inl h1, fun _ => rfl⟩, fun _ => rfl, fun h => absurd rfl h⟩
  · rw [if_neg h1]
    by_cases h2 : noeud_existe g id = true
    · rw [if_pos h2]
      exact ⟨⟨fun _ => Or.inr h2, fun _ => rfl⟩, fun _ => rfl, fun h => absurd rfl h⟩
    · rw [if_neg h2]
      refine ⟨⟨fun h => ?_, fun h => ?_⟩, fun h => ?_, fun _ => ?_⟩
      · exact absurd h (show (0 : Int) ≠ -1 by decide)
      · rcases h with h | h
        · exact absurd h h1
        · exact absurd h h2
      · exact absurd h (show (0 : Int) ≠ -1 by decide)
      · refine ⟨rfl, ?_, ?_, rfl, ?_, rfl, rfl, rfl, rfl, rfl, rfl, rfl⟩
        · exact noeud_set_meme g id _ (by rw [hb.1]; omega)
        · have hn := noeud_set_meme g id ⟨id, nom.take (TAILLE_MAX_NOM - 1), true, []⟩
            (by rw [hb.1]; omega)
          unfold noeud
          dsimp only
          rw [hn]
          dsimp only
          exact octets_take nom (TAILLE_MAX_NOM - 1)
        · intro x hx
          exact noeud_set_autre g id x _ hx

/-- Instance of C27: adding node 0 to an empty table of one slot. -/
theorem ajouter_noeud_contrat_witness :
    (bien_forme (creer_graphe 1 true) ∧ (ajouter_noeud (creer_graphe 1 true) 0 "a").2 = 0) ∧
    ((ajouter_noeud (creer_graphe 1 true) 0 "a").2 = -1 ↔
      0 ≥ (creer_graphe 1 true).capacite_max ∨ noeud_existe (creer_graphe 1 true) 0 = true) ∧
    ((ajouter_noeud (creer_graphe 1 true) 0 "a").2 = -1 →
      (ajouter_noeud (creer_graphe 1 true) 0 "a").1 = creer_graphe 1 true) ∧
    ((ajouter_noeud (creer_graphe 1 true) 0 "a").2 ≠ -1 →
      (ajouter_noeud (creer_graphe 1 true) 0 "a").2 = 0 ∧
      noeud (ajouter_noeud (creer_graphe 1 true) 0 "a").1 0 =
        ⟨0, "a".take (TAILLE_MAX_NOM - 1), true, []⟩ ∧
      octets (noeud (ajouter_noeud (creer_graphe 1 true) 0 "a").1 0).nom =
        (octets "a").take (TAILLE_MAX_NOM - 1) ∧
      (ajouter_noeud (creer_graphe 1 true) 0 "a").1.nb_noeuds =
        (creer_graphe 1 true).nb_noeuds + 1 ∧
      (∀ x, x ≠ 0 → noeud (ajouter_noeud (creer_graphe 1 true) 0 "a").1 x =
        noeud (creer_graphe 1 true) x) ∧
      (ajouter_noeud (creer_graphe 1 true) 0 "a").1.nb_aretes =
        (creer_graphe 1 true).nb_aretes ∧
      (ajouter_noeud (creer_graphe 1 true) 0 "a").1.capacite_max =
        (creer_graphe 1 true).capacite_max ∧
      (ajouter_noeud (creer_graphe 1 true) 0 "a").1.est_oriente =
        (creer_graphe 1 true).est_oriente ∧
      (ajouter_noeud (creer_graphe 1 true) 0 "a").1.matrice_latence =
        (creer_graphe 1 true).matrice_latence ∧
      (ajouter_noeud (creer_graphe 1 true) 0 "a").1.matrice_bw =
        (creer_graphe 1 true).matrice_bw ∧
      (ajouter_noeud (creer_graphe 1 true) 0 "a").1.matrice_cout =
        (creer_graphe 1 true).matrice_cout ∧
      (ajouter_noeud (creer_graphe 1 true) 0 "a").1.matrice_sec =
        (creer_graphe 1 true).matrice_sec) :=
  ⟨by decide, ajouter_noeud_contrat (creer_graphe 1 true) 0 "a" (by decide)⟩

/-- C27 as stated fails: a name of sixty bytes is cut to the 49 bytes that fit
the `nom` buffer before its closing zero. -/
theorem ajouter_noeud_nom_tronque :
    (ajouter_noeud (creer_graphe 1 true) 0 nom_long).2 = 0 ∧
    (octets nom_long).length = 60 ∧
    (noeud (ajouter_noeud (creer_graphe 1 true) 0 nom_long).1 0).nom ≠ nom_long ∧
    (octets (noeud (ajouter_noeud (creer_graphe 1 true) 0 nom_long).1 0).nom).length = 49 := by
  decide

/-- C28: `ajouter_arete` fails and returns the graph as it received it (the
adjacency lists, the matrices and `nb_aretes` included) whenever the source or
the destination is out of range or inactive. -/
theorem ajouter_arete_extremite_invalide (fuel : Nat) (g : Graphe) (src dest : Nat)
    (latence bande_passante cout securite : Int)
    (h : noeud_existe g src = false ∨ noeud_existe g dest = false) :
    ajouter_arete (fuel + 1) g src dest latence bande_passante cout securite = some (g, -1) := by
  unfold ajouter_arete
  rcases h with h | h <;> simp [h]

/-- Instance of C28: slot 1 of `g_un_actif` is inactive. -/
theorem ajouter_arete_extremite_invalide_witness :
    noeud_existe g_un_actif 1 = false ∧
    ajouter_arete (0 + 1) g_un_actif 0 1 1 10 1 5 = some (g_un_actif, -1) :=
  ⟨by decide, ajouter_arete_extremite_invalide 0 g_un_actif 0 1 1 10 1 5 (Or.inr (by decide))⟩

theorem retirer_premiere_none (dest : Nat) (l : List Arete) :
    retirer_premiere dest l = none ↔ ∀ a ∈ l, a.destination ≠ dest := by
  induction l with
  | nil => simp [retirer_premiere]
  | cons a r ih =>
    unfold retirer_premiere
    by_cases h : a.destination = dest
    · simp [h]
    · rw [if_neg h]
      cases hr : retirer_premiere dest r with
      | none =>
        simp only [true_iff]
        intro b hb
        rcases List.mem_cons.mp hb with e | e
        · rw [e]; exact h
        · exact (ih.mp hr) b e
      | some l2 =>
        constructor
        · intro hc; cases hc
        · intro hall
          have := ih.mpr (fun b hb => hall b (List.mem_cons_of_mem _ hb))
          rw [hr] at this
          cases this

theorem retirer_premiere_some (dest : Nat) (l l2 : List Arete)
    (h : retirer_premiere dest l = some l2) :
    ∃ avant a apres, l = avant ++ a :: apres ∧ a.destination = dest ∧
      (∀ b ∈ avant, b.destination ≠ dest) ∧ l2 = avant ++ apres := by
  induction l generalizing l2 with
  | nil => simp [retirer_premiere] at h
  | cons a r ih =>
    unfold retirer_premiere at h
    by_cases hd : a.destination = dest
    · rw [if_pos hd] at h
      exact ⟨[], a, r, rfl, hd, by simp, (Option.some.inj h).symm⟩
    · rw [if_neg hd] at h
      cases hr : retirer_premiere dest r with
      | none => rw [hr] at h; cases h
      | some l3 =>
        rw [hr] at h
        obtain ⟨avant, b, apres, e1, e2, e3, e4⟩ := ih l3 hr
        refine ⟨a :: avant, b, apres, by rw [e1]; rfl, e2, ?_, ?_⟩
        · intro c hc
          rcases List.mem_cons.mp hc with e | e
          · rw [e]; exact hd
          · exact e3 c e
        · rw [← Option.some.inj h, e4]; rfl

/-- C29: `supprimer_arete` fails exactly when the source is not an active node
or its adjacency list holds no edge to the destination; on failure the graph is
unchanged; on success the first edge to the destination is unlinked from the
adjacency list of the source and the entries before and after it are kept in
place, `nb_aretes` drops by one, and the adjacency list, the name and the
activity of every other slot are unchanged. -/
theorem supprimer_arete_contrat (g : Graphe) (src dest : Nat) :
    ((supprimer_arete g src dest).2 = -1 ↔
      noeud_existe g src = false ∨ ∀ a ∈ aretes_de g src, a.destination ≠ dest) ∧
    ((supprimer_arete g src dest).2 = -1 → (supprimer_arete g src dest).1 = g) ∧
    ((supprimer_arete g src dest).2 ≠ -1 →
      (supprimer_arete g src dest).2 = 0 ∧
      (∃ avant a apres, aretes_de g src = avant ++ a :: apres ∧ a.destination = dest ∧
        (∀ b ∈ avant, b.destination ≠ dest) ∧
        aretes_de (supprimer_arete g src dest).1 src = avant ++ apres) ∧
      (supprimer_arete g src dest).1.nb_aretes = g.nb_aretes - 1 ∧
      (∀ x, x ≠ src → noeud (supprimer_arete g src dest).1 x = noeud g x) ∧
      (noeud (supprimer_arete g src dest).1 src).actif = true ∧
      (noeud (supprimer_arete g src dest).1 src).nom = (noeud g src).nom ∧
      (supprimer_arete g src dest).1.nb_noeuds = g.nb_noeuds) := by
  by_cases h1 : noeud_existe g src = true
  · have hlen : src < g.noeuds.length := by
      by_contra hc
      unfold noeud_existe noeud at h1
      rw [List.getD_eq_default _ _ (by omega)] at h1
      split at h1 <;> cases h1
    have hact : (noeud g src).actif = true := by
      unfold noeud_existe at h1
      split at h1
      · cases h1
      · exact h1
    cases hr : retirer_premiere dest (aretes_de g src) with
    | none =>
      have e : supprimer_arete g src dest = (g, -1) := by
        unfold supprimer_arete
        simp [h1, hr]
      rw [e]
      exact ⟨⟨fun _ => Or.inr ((retirer_premiere_none dest _).mp hr), fun _ => rfl⟩,
        fun _ => rfl, fun h => absurd rfl h⟩
    | some l =>
      have e : supprimer_arete g src dest =
          ({ g with
              noeuds := g.noeuds.set src { noeud g src with aretes := l }
              matrice_latence := ecrire_matrice g.matrice_latence src dest INFINI
              nb_aretes := g.nb_aretes - 1 }, 0) := by
        unfold supprimer_arete
        simp [h1, hr]
      rw [e]
      obtain ⟨avant, a, apres, e1, e2, e3, e4⟩ := retirer_premiere_some dest _ l hr
      refine ⟨⟨fun h => absurd h (show (0 : Int) ≠ -1 by decide), fun h => ?_⟩,
        fun h => absurd h (show (0 : Int) ≠ -1 by decide),
        fun _ => ⟨rfl, ⟨avant, a, apres, e1, e2, e3, ?_⟩, rfl, ?_, ?_, ?_, rfl⟩⟩
      · rcases h with h | h
        · rw [h1] at h; cases h
        · have := (retirer_premiere_none dest _).mpr h
          rw [hr] at this
          cases this
      · show ((g.noeuds.set src { noeud g src with aretes := l }).getD src noeud_vide).aretes = _
        rw [noeud_set_meme g src _ hlen, e4]
      · intro x hx
        exact noeud_set_autre g src x _ hx
      · show ((g.noeuds.set src { noeud g src with aretes := l }).getD src noeud_vide).actif = _
        rw [noeud_set_meme g src _ hlen]
        exact hact
      · show ((g.noeuds.set src { noeud g src with aretes := l }).getD src noeud_vide).nom = _
        rw [noeud_set_meme g src _ hlen]
  · have h1f : noeud_existe g src = false := by simpa using h1
    have e : supprimer_arete g src dest = (g, -1) := by
      unfold supprimer_arete
      simp [h1f]
    rw [e]
    exact ⟨⟨fun _ => Or.inl h1f, fun _ => rfl⟩, fun _ => rfl, fun h => absurd rfl h⟩

/-! ## Priority queue of packets -/

/-- The new packet goes after the packets of priority at least its own and
before the packets of lower priority. -/
theorem inserer_paquet_decoupe (p : Paquet) (l : List Paquet)
    (h : l.Pairwise (fun x y => x.priorite ≥ y.priorite)) :
    ∃ avant apres, l = avant ++ apres ∧ inserer_paquet p l = avant ++ p :: apres ∧
      (∀ x ∈ avant, x.priorite ≥ p.priorite) ∧ (∀ x ∈ apres, x.priorite < p.priorite) := by
  induction l with
  | nil => exact ⟨[], [], rfl, rfl, by simp, by simp⟩
  | cons c r ih =>
    have hr := (List.pairwise_cons.mp h).2
    have hc := (List.pairwise_cons.mp h).1
    unfold inserer_paquet
    by_cases hp : c.priorite ≥ p.priorite
    · rw [if_pos hp]
      obtain ⟨avant, apres, e1, e2, e3, e4⟩ := ih hr
      refine ⟨c :: avant, apres, by rw [e1]; rfl, by rw [e2]; rfl, ?_, e4⟩
      intro x hx
      rcases List.mem_cons.mp hx with e | e
      · rw [e]; exact hp
      · exact e3 x e
    · rw [if_neg hp]
      refine ⟨[], c :: r, rfl, rfl, by simp, ?_⟩
      intro x hx
      rcases List.mem_cons.mp hx with e | e
      · rw [e]; omega
      · have := hc x e
        omega

theorem plus_prioritaire_premier (avant apres : List Paquet) (p : Paquet)
    (h1 : ∀ x ∈ avant, x.priorite < p.priorite) (h2 : ∀ x ∈ apres, x.priorite ≤ p.priorite) :
    plus_prioritaire (avant ++ p :: apres) = some p := by
  have hapres : ∀ (l : List Paquet), (∀ x ∈ l, x.priorite ≤ p.priorite) →
      plus_prioritaire l = none ∨ ∃ q, plus_prioritaire l = some q ∧ q.priorite ≤ p.priorite := by
    intro l
    induction l with
    | nil => intro _; left; rfl
    | cons c r ih =>
      intro hl
      right
      have hc := hl c (List.mem_cons_self _ _)
      unfold plus_prioritaire
      rcases ih (fun x hx => hl x (List.mem_cons_of_mem _ hx)) with e | ⟨q, e, hq⟩
      · rw [e]; exact ⟨c, rfl, hc⟩
      · rw [e]
        simp only
        split
        · exact ⟨q, rfl, hq⟩
        · exact ⟨c, rfl, hc⟩
  induction avant with
  | nil =>
    show plus_prioritaire (p :: apres) = some p
    unfold plus_prioritaire
    rcases hapres apres h2 with e | ⟨q, e, hq⟩
    · rw [e]
    · rw [e]
      simp only
      rw [if_neg (by omega)]
  | cons c r ih =>
    show plus_prioritaire (c :: (r ++ p :: apres)) = some p
    unfold plus_prioritaire
    rw [ih (fun x hx => h1 x (List.mem_cons_of_mem _ hx))]
    simp only
    rw [if_pos (h1 c (List.mem_cons_self _ _))]

theorem filtre_tete (l : List Paquet) (p : Paquet) (reste : List Paquet) (q : Int)
    (h : l.filter (fun x => decide (x.priorite = q)) = p :: reste) :
    ∃ avant apres, l = avant ++ p :: apres ∧ (∀ x ∈ avant, x.priorite ≠ q) ∧
      apres.filter (fun x => decide (x.priorite = q)) = reste := by
  induction l with
  | nil => simp at h
  | cons c r ih =>
    by_cases hc : c.priorite = q
    · rw [List.filter_cons_of_pos (by simpa using hc)] at h
      have e1 : c = p := (List.cons.inj h).1
      have e2 := (List.cons.inj h).2
      exact ⟨[], r, by rw [e1]; rfl, by simp, e2⟩
    · rw [List.filter_cons_of_neg (by simpa using hc)] at h
      obtain ⟨avant, apres, e1, e2, e3⟩ := ih h
      refine ⟨c :: avant, apres, by rw [e1]; rfl, ?_, e3⟩
      intro x hx
      rcases List.mem_cons.mp hx with e | e
      · rw [e]; exact hc
      · exact e2 x e

theorem appartient_par_filtre (l m : List Paquet)
    (h : ∀ q : Int, l.filter (fun x => decide (x.priorite = q)) =
      m.filter (fun x => decide (x.priorite = q))) (x : Paquet) (hx : x ∈ m) : x ∈ l := by
  have h1 : x ∈ m.filter (fun y => decide (y.priorite = x.priorite)) :=
    List.mem_filter.mpr ⟨hx, by simp⟩
  rw [← h x.priorite] at h1
  exact (List.mem_filter.mp h1).1

/-- An accepted `enqueue` keeps the queue in step with the arrival order. -/
theorem inv_file_enfiler (cap : Int) (f : FileAttente) (j : List Paquet)
    (id priorite taille source destination timestamp : Int) (h : InvFile cap f j) :
    InvFile cap (appliquer f (Operation.enfiler id priorite taille source destination timestamp))
      (journal_appliquer cap j
        (Operation.enfiler id priorite taille source destination timestamp)) := by
  obtain ⟨h1, h2, h3, h4, h5⟩ := h
  have hlen : (j.length : Int) = f.taille_actuelle := by rw [h4, h3]
  by_cases hp : f.taille_actuelle ≥ f.capacite_max
  · have e1 : appliquer f (Operation.enfiler id priorite taille source destination timestamp) =
        { f with total_insere := f.total_insere + 1, total_perdu := f.total_perdu + 1 } := by
      simp [appliquer, enqueue, file_pleine, hp]
    have e2 : journal_appliquer cap j
        (Operation.enfiler id priorite taille source destination timestamp) = j := by
      simp only [journal_appliquer]
      rw [if_pos (by rw [hlen, ← h5]; exact hp)]
    rw [e1, e2]
    exact ⟨h1, h2, h3, h4, h5⟩
  · have e1 : appliquer f (Operation.enfiler id priorite taille source destination timestamp) =
        { f with
            total_insere := f.total_insere + 1
            paquets := inserer_paquet ⟨id, priorite, taille, source, destination, timestamp⟩
              f.paquets
            taille_actuelle := f.taille_actuelle + 1 } := by
      simp only [appliquer, enqueue, file_pleine]
      rw [if_neg (by simpa using hp)]
      cases hf : f.paquets <;> rfl
    have e2 : journal_appliquer cap j
        (Operation.enfiler id priorite taille source destination timestamp) =
        j ++ [⟨id, priorite, taille, source, destination, timestamp⟩] := by
      simp only [journal_appliquer]
      rw [if_neg (by rw [hlen, ← h5]; exact hp)]
    rw [e1, e2]
    obtain ⟨avant, apres, d1, d2, d3, d4⟩ := inserer_paquet_decoupe
      ⟨id, priorite, taille, source, destination, timestamp⟩ f.paquets h1
    refine ⟨?_, ?_, ?_, ?_, h5⟩
    · show (inserer_paquet _ f.paquets).Pairwise _
      rw [d2]
      rw [d1] at h1
      obtain ⟨p1, p2, p3⟩ := List.pairwise_append.mp h1
      refine List.pairwise_append.mpr ⟨p1, List.pairwise_cons.mpr ⟨?_, p2⟩, ?_⟩
      · intro x hx
        have := d4 x hx
        omega
      · intro x hx y hy
        rcases List.mem_cons.mp hy with e | e
        · rw [e]; exact d3 x hx
        · exact p3 x hx y e
    · intro q
      show (inserer_paquet _ f.paquets).filter _ = _
      rw [d2, List.filter_append, List.filter_append, ← h2 q, d1, List.filter_append,
        List.append_assoc]
      congr 1
      by_cases hq : priorite = q
      · have hvide : apres.filter (fun x => decide (x.priorite = q)) = [] := by
          rw [List.filter_eq_nil_iff]
          intro x hx
          have := d4 x hx
          simp only [decide_eq_true_eq]
          have h6 : x.priorite < priorite := this
          omega
        rw [List.filter_cons_of_pos (by simpa using hq), hvide]
        simp [hq]
      · rw [List.filter_cons_of_neg (by simpa using hq)]
        simp [hq]
    · show (inserer_paquet _ f.paquets).length = _
      rw [d2, List.length_append, List.length_append, ← h3, d1]
      simp only [List.length_cons, List.length_append, List.length_nil]
      omega
    · show f.taille_actuelle + 1 = ((inserer_paquet _ f.paquets).length : Int)
      rw [d2, h4, d1]
      simp only [List.length_cons, List.length_append]
      push_cast
      omega

/-- A `dequeue` returns the earliest packet of maximal priority and keeps the
queue in step with the arrival order. -/
theorem inv_file_defiler (cap : Int) (f : FileAttente) (j : List Paquet)
    (h : InvFile cap f j) :
    InvFile cap (appliquer f Operation.defiler) (journal_appliquer cap j Operation.defiler) ∧
    (dequeue f).2 = plus_prioritaire j ∧
    ∀ p, (dequeue f).2 = some p → ∃ avant apres, j = avant ++ p :: apres ∧
      (∀ x ∈ avant, x.priorite < p.priorite) ∧ (∀ x ∈ apres, x.priorite ≤ p.priorite) := by
  obtain ⟨h1, h2, h3, h4, h5⟩ := h
  cases hf : f.paquets with
  | nil =>
    have hj : j = [] := by
      rw [hf] at h3
      exact List.length_eq_zero.mp h3.symm
    have e1 : dequeue f = (f, none) := by simp [dequeue, hf]
    subst hj
    refine ⟨?_, by rw [e1]; rfl, fun p hp => by rw [e1] at hp; cases hp⟩
    show InvFile cap (dequeue f).1 []
    rw [e1]
    exact ⟨h1, h2, h3, h4, h5⟩
  | cons t reste =>
    have e1 : dequeue f =
        ({ f with paquets := reste, taille_actuelle := f.taille_actuelle - 1 }, some t) := by
      simp [dequeue, hf]
    rw [hf] at h1 h2 h3 h4
    have hmax : ∀ x ∈ j, x.priorite ≤ t.priorite := by
      intro x hx
      have hx2 := appartient_par_filtre (t :: reste) j h2 x hx
      rcases List.mem_cons.mp hx2 with e | e
      · rw [e]
      · exact (List.pairwise_cons.mp h1).1 x e
    have hq := h2 t.priorite
    rw [List.filter_cons_of_pos (by simp)] at hq
    obtain ⟨avant, apres, d1, d2, d3⟩ := filtre_tete j t _ t.priorite hq.symm
    have havant : ∀ x ∈ avant, x.priorite < t.priorite := by
      intro x hx
      have := hmax x (by rw [d1]; exact List.mem_append_left _ hx)
      have := d2 x hx
      omega
    have hapres : ∀ x ∈ apres, x.priorite ≤ t.priorite := by
      intro x hx
      exact hmax x (by rw [d1]; exact List.mem_append_right _ (List.mem_cons_of_mem _ hx))
    have hpp : plus_prioritaire j = some t := by
      rw [d1]
      exact plus_prioritaire_premier avant apres t havant hapres
    have hta : t ∉ avant := fun hm => by
      have := havant t hm
      omega
    have e2 : journal_appliquer cap j Operation.defiler = avant ++ apres := by
      simp only [journal_appliquer, hpp]
      rw [d1, List.erase_append_right _ hta, List.erase_cons_head]
    refine ⟨?_, by rw [e1, hpp], ?_⟩
    · show InvFile cap (dequeue f).1 _
      rw [e1, e2]
      refine ⟨(List.pairwise_cons.mp h1).2, ?_, ?_, ?_, h5⟩
      · intro q
        show reste.filter _ = _
        have hq2 := h2 q
        rw [d1, List.filter_append] at hq2
        rw [List.filter_append]
        by_cases hqt : t.priorite = q
        · have hvide : avant.filter (fun x => decide (x.priorite = q)) = [] := by
            rw [List.filter_eq_nil_iff]
            intro x hx
            have := d2 x hx
            simp only [decide_eq_true_eq]
            omega
          rw [List.filter_cons_of_pos (by simpa using hqt),
            List.filter_cons_of_pos (by simpa using hqt), hvide] at hq2
          rw [hvide]
          exact (List.cons.inj hq2).2
        · rw [List.filter_cons_of_neg (by simpa using hqt),
            List.filter_cons_of_neg (by simpa using hqt)] at hq2
          exact hq2
      · show reste.length = _
        rw [d1] at h3
        simp only [List.length_cons, List.length_append] at h3 ⊢
        omega
      · show f.taille_actuelle - 1 = (reste.length : Int)
        rw [h4]
        simp only [List.length_cons]
        push_cast
        omega
    · intro p hp
      rw [e1] at hp
      have : t = p := Option.some.inj hp
      rw [← this]
      exact ⟨avant, apres, d1, havant, hapres⟩

theorem inv_file_suite (cap : Int) (ops : List Operation) :
    ∀ (f : FileAttente) (j : List Paquet), InvFile cap f j →
      InvFile cap (ops.foldl appliquer f) (ops.foldl (journal_appliquer cap) j) := by
  induction ops with
  | nil => intro f j h; exact h
  | cons op r ih =>
    intro f j h
    simp only [List.foldl_cons]
    apply ih
    cases op with
    | enfiler a b c d e t => exact inv_file_enfiler cap f j a b c d e t h
    | defiler => exact (inv_file_defiler cap f j h).1

/-- C30: in every queue built from `creer_file_attente` by calls of `enqueue`
and `dequeue`, the packets are held by non-increasing priority and the packets
of each priority are those that wait, in their arrival order; `peek` and
`dequeue` yield the same packet, which has the maximal priority among the
packets that wait and arrived before every other packet of that priority; and
`dequeue` on an empty queue yields nothing. -/
theorem file_attente_ordre (capacite_max : Int) (ops : List Operation) :
    (executer capacite_max ops).paquets.Pairwise (fun x y => x.priorite ≥ y.priorite) ∧
    (∀ q : Int, (executer capacite_max ops).paquets.filter (fun x => decide (x.priorite = q)) =
      (journal_arrivees capacite_max ops).filter (fun x => decide (x.priorite = q))) ∧
    peek (executer capacite_max ops) = (dequeue (executer capacite_max ops)).2 ∧
    (∀ p, (dequeue (executer capacite_max ops)).2 = some p →
      ∃ avant apres, journal_arrivees capacite_max ops = avant ++ p :: apres ∧
        (∀ x ∈ avant, x.priorite < p.priorite) ∧ (∀ x ∈ apres, x.priorite ≤ p.priorite)) ∧
    ((executer capacite_max ops).paquets = [] →
      (dequeue (executer capacite_max ops)).2 = none) := by
  have h0 : InvFile capacite_max (creer_file_attente capacite_max) [] :=
    ⟨List.Pairwise.nil, fun _ => rfl, rfl, rfl, rfl⟩
  have h := inv_file_suite capacite_max ops _ _ h0
  have hd := inv_file_defiler capacite_max _ _ h
  refine ⟨h.triee, h.memes, ?_, hd.2.2, ?_⟩
  · unfold peek dequeue
    cases (executer capacite_max ops).paquets <;> rfl
  · intro he
    unfold dequeue
    rw [he]

/-! ## Bellman-Ford with signed latencies: walks below the sentinel -/

theorem sous_plafond_nil : sous_plafond [] := by
  intro k
  simp [poids, INFINI]

theorem sous_plafond_prefixe (es0 es1 : List Arete) (h : sous_plafond (es0 ++ es1)) :
    sous_plafond es0 := by
  intro k
  by_cases hk : k ≤ es0.length
  · have := h k
    rw [List.take_append_of_le_length hk] at this
    exact this
  · have := h es0.length
    rw [List.take_append_of_le_length (le_refl _), List.take_length] at this
    rw [List.take_of_length_le (by omega)]
    exact this

theorem sous_plafond_total (es : List Arete) (h : sous_plafond es) : poids es < INFINI := by
  have := h es.length
  rw [List.take_length] at this
  exact this

theorem sous_plafond_ajout (es : List Arete) (a : Arete) (h : sous_plafond es)
    (ha : poids es + a.latence < INFINI) : sous_plafond (es ++ [a]) := by
  intro k
  by_cases hk : k ≤ es.length
  · rw [List.take_append_of_le_length hk]
    exact h k
  · rw [List.take_of_length_le (by simp; omega), poids_append]
    simp only [poids, List.map_cons, List.map_nil, List.sum_cons, List.sum_nil, add_zero] at ha ⊢
    exact ha

/-- Cutting a cycle of non-negative latency out of a walk that stays below
`INFINI` leaves a walk that stays below `INFINI`. -/
theorem sous_plafond_coupe (e1 cyc e3 : List Arete) (h : sous_plafond (e1 ++ cyc ++ e3))
    (hc : 0 ≤ poids cyc) : sous_plafond (e1 ++ e3) := by
  intro k
  by_cases hk : k ≤ e1.length
  · rw [List.take_append_of_le_length hk]
    have := h k
    rw [List.append_assoc, List.take_append_of_le_length hk] at this
    exact this
  · obtain ⟨j, hj⟩ : ∃ j, k = e1.length + j := ⟨k - e1.length, by omega⟩
    rw [hj, List.take_append, poids_append]
    have := h ((e1 ++ cyc).length + j)
    rw [List.take_append, poids_append, poids_append] at this
    omega

theorem est_marche_take (g : Graphe) (es : List Arete) (u k : Nat) (h : est_marche g u es) :
    est_marche g u (es.take k) := by
  have := h
  rw [← List.take_append_drop k es, est_marche_append] at this
  exact this.1

/-- A walk of at least `V` edges passes twice through a node. -/
theorem marche_cycle (g : Graphe) (hb : bien_forme g) (s : Nat) (hs : s < g.capacite_max)
    (es : List Arete) (hm : est_marche g s es) (hlen : g.capacite_max ≤ es.length) :
    ∃ e1 cyc e3, es = e1 ++ cyc ++ e3 ∧ cyc ≠ [] ∧
      extremite (extremite s e1) cyc = extremite s e1 := by
  have hlt : ∀ i, extremite s (es.take i) < g.capacite_max :=
    fun i => extremite_lt g hb _ s hs (est_marche_take g es s i hm)
  have hcard : Fintype.card (Fin g.capacite_max) < Fintype.card (Fin (es.length + 1)) := by
    simp only [Fintype.card_fin]
    omega
  obtain ⟨i, j, hij, hf⟩ := Fintype.exists_ne_map_eq_of_card_lt
    (fun i : Fin (es.length + 1) => (⟨extremite s (es.take i.val), hlt i.val⟩ :
      Fin g.capacite_max)) hcard
  have hval : extremite s (es.take i.val) = extremite s (es.take j.val) := by
    have := congrArg Fin.val hf
    exact this
  have key : ∀ a b : Nat, a < b → b ≤ es.length →
      extremite s (es.take a) = extremite s (es.take b) →
      ∃ e1 cyc e3, es = e1 ++ cyc ++ e3 ∧ cyc ≠ [] ∧
        extremite (extremite s e1) cyc = extremite s e1 := by
    intro a b hab hbl he
    have h1 : es.take b = es.take a ++ (es.take b).drop a := by
      have := (List.take_append_drop a (es.take b)).symm
      rw [List.take_take, min_eq_left (le_of_lt hab)] at this
      exact this
    refine ⟨es.take a, (es.take b).drop a, es.drop b, ?_, ?_, ?_⟩
    · rw [← h1, List.take_append_drop]
    · intro hnil
      have h2 := congrArg List.length hnil
      simp only [List.length_drop, List.length_take, List.length_nil] at h2
      omega
    · rw [← extremite_append, ← h1, he]
  have hne : i.val ≠ j.val := fun h => hij (Fin.ext h)
  rcases Nat.lt_or_gt_of_ne hne with h | h
  · exact key i.val j.val h (by omega) hval
  · exact key j.val i.val h (by omega) hval.symm

/-- When no negative cycle is reached, a walk that stays below `INFINI` is
matched by one of fewer than `V` edges with the same ends, a latency at most
its own, and that stays below `INFINI`. -/
theorem raccourcir (g : Graphe) (hb : bien_forme g) (s : Nat) (hs : s < g.capacite_max)
    (hneg : sans_cycle_negatif g s) :
    ∀ (n : Nat) (es : List Arete), es.length ≤ n → est_marche g s es → sous_plafond es →
      ∃ es2, est_marche g s es2 ∧ extremite s es2 = extremite s es ∧ poids es2 ≤ poids es ∧
        sous_plafond es2 ∧ es2.length < g.capacite_max := by
  intro n
  induction n with
  | zero =>
    intro es hl hm hp
    have : es = [] := List.length_eq_zero.mp (by omega)
    subst this
    exact ⟨[], hm, rfl, le_refl _, hp, by simp only [List.length_nil]; omega⟩
  | succ m ih =>
    intro es hl hm hp
    by_cases hc : es.length < g.capacite_max
    · exact ⟨es, hm, rfl, le_refl _, hp, hc⟩
    · obtain ⟨e1, cyc, e3, h1, h2, h3⟩ := marche_cycle g hb s hs es hm (by omega)
      have hm2 := hm
      rw [h1, est_marche_append, est_marche_append] at hm2
      rw [extremite_append, h3] at hm2
      have hcyc : 0 ≤ poids cyc := by
        apply hneg e1 cyc _ h3
        rw [est_marche_append]
        exact hm2.1
      have hlen : (e1 ++ e3).length ≤ m := by
        have h4 := congrArg List.length h1
        have h5 : 0 < cyc.length := List.length_pos.mpr h2
        simp only [List.length_append] at h4 ⊢
        omega
      have hmar : est_marche g s (e1 ++ e3) := by
        rw [est_marche_append]
        exact ⟨hm2.1.1, hm2.2⟩
      obtain ⟨es2, r1, r2, r3, r4, r5⟩ := ih (e1 ++ e3) hlen hmar
        (sous_plafond_coupe e1 cyc e3 (h1 ▸ hp) hcyc)
      refine ⟨es2, r1, ?_, ?_, r4, r5⟩
      · rw [r2, h1, extremite_append, extremite_append, extremite_append, h3]
      · rw [h1, poids_append, poids_append]
        rw [poids_append] at r3
        omega

/-! ## Bellman-Ford with signed latencies: one relaxation -/

/-- Following `k` predecessor links from `x` up to `y` goes back along a walk
from `y` to `x` whose latency is at most the difference of the distances. -/
theorem iter_pred_poids (g : Graphe) (s : Nat) (dist : Nat → Int) (pred : Nat → Option Nat)
    (hinv : InvBF g s dist pred) :
    ∀ (k x y : Nat), iter_pred pred k x = some y →
      ∃ es, est_marche g y es ∧ extremite y es = x ∧ dist y + poids es ≤ dist x ∧
        (0 < k → dist y < INFINI) := by
  intro k
  induction k with
  | zero =>
    intro x y h
    have e : x = y := Option.some.inj h
    subst e
    exact ⟨[], trivial, rfl, by simp [poids], fun h0 => absurd h0 (lt_irrefl 0)⟩
  | succ m ih =>
    intro x y h
    unfold iter_pred at h
    cases hp : pred x with
    | none => rw [hp] at h; cases h
    | some u =>
      rw [hp] at h
      simp only at h
      obtain ⟨es, e1, e2, e3, e4⟩ := ih u y h
      obtain ⟨_, l2, _, a, ha1, ha2, ha3⟩ := hinv.lien x u hp
      refine ⟨es ++ [a], ?_, ?_, ?_, fun _ => ?_⟩
      · rw [est_marche_append, e2]
        exact ⟨e1, ha1, trivial⟩
      · rw [extremite_append]
        exact ha2
      · rw [poids_append]
        simp only [poids, List.map_cons, List.map_nil, List.sum_cons, List.sum_nil, add_zero]
          at e3 ⊢
        omega
      · by_cases hm : 0 < m
        · exact e4 hm
        · have hm0 : m = 0 := by omega
          subst hm0
          have e : u = y := Option.some.inj h
          rw [← e]
          exact l2

/-- A relaxation keeps the invariant when no negative cycle is reached. -/
theorem inv_bf_relaxer (g : Graphe) (s : Nat) (dist : Nat → Int) (pred : Nat → Option Nat)
    (hinv : InvBF g s dist pred) (hneg : sans_cycle_negatif g s) (u : Nat) (a : Arete)
    (ha : a ∈ aretes_de g u) (hu : u < g.capacite_max) (hdu : dist u < INFINI)
    (hlt : dist u + a.latence < dist a.destination) :
    InvBF g s (Function.update dist a.destination (dist u + a.latence))
      (Function.update pred a.destination (some u)) := by
  obtain ⟨es_u, w1, w2, w3, w4⟩ := hinv.atteint u hdu
  have hpa : poids [a] = a.latence := by simp [poids]
  have hcyc : ∀ c, est_marche g a.destination c → extremite a.destination c = u →
      dist a.destination + poids c ≤ dist u → dist a.destination < INFINI → False := by
    intro c c1 c2 c3 c4
    obtain ⟨es_d, d1, d2, _, _⟩ := hinv.atteint a.destination c4
    have h1 : est_marche g s (es_d ++ (c ++ [a])) := by
      rw [est_marche_append, d2, est_marche_append, c2]
      exact ⟨d1, c1, ha, trivial⟩
    have h2 : extremite (extremite s es_d) (c ++ [a]) = extremite s es_d := by
      rw [d2, extremite_append]
      rfl
    have := hneg es_d (c ++ [a]) h1 h2
    rw [poids_append, hpa] at this
    omega
  have hds : a.destination ≠ s := by
    intro e
    have h1 : est_marche g s ([] ++ (es_u ++ [a])) := by
      rw [List.nil_append, est_marche_append, w2]
      exact ⟨w1, ha, trivial⟩
    have h2 : extremite (extremite s []) (es_u ++ [a]) = extremite s [] := by
      rw [extremite_append]
      exact e
    have := hneg [] (es_u ++ [a]) h1 h2
    rw [poids_append, hpa] at this
    rw [e, hinv.source.1] at hlt
    omega
  have hud : u ≠ a.destination := by
    intro e
    refine hcyc [] trivial e.symm ?_ (by rw [← e]; exact hdu)
    rw [← e]
    simp [poids]
  have hanc : ∀ k, iter_pred pred k u ≠ some a.destination := by
    intro k hk
    obtain ⟨c, c1, c2, c3, c4⟩ := iter_pred_poids g s dist pred hinv k u a.destination hk
    by_cases hk0 : 0 < k
    · exact hcyc c c1 c2 c3 (c4 hk0)
    · have : k = 0 := by omega
      subst this
      exact hud (Option.some.inj hk)
  have hmono : ∀ x, Function.update dist a.destination (dist u + a.latence) x ≤ dist x := by
    intro x
    by_cases hx : x = a.destination
    · rw [hx, Function.update_same]; omega
    · rw [Function.update_noteq hx]
  have hb := hinv.bornes a.destination
  refine ⟨⟨?_, ?_⟩, ?_, ?_, ?_, ?_, ?_⟩
  · rw [Function.update_noteq (Ne.symm hds)]
    exact hinv.source.1
  · rw [Function.update_noteq (Ne.symm hds)]
    exact hinv.source.2
  · intro v
    exact le_trans (hmono v) (hinv.bornes v)
  · intro v hv
    by_cases hx : v = a.destination
    · rw [hx, Function.update_same]
      refine ⟨es_u ++ [a], ?_, ?_, ?_, ?_⟩
      · rw [est_marche_append, w2]
        exact ⟨w1, ha, trivial⟩
      · rw [extremite_append]; rfl
      · rw [poids_append, hpa, w3]
      · exact sous_plafond_ajout es_u a w4 (by rw [w3]; omega)
    · rw [Function.update_noteq hx] at hv ⊢
      exact hinv.atteint v hv
  · intro v hv hvs
    by_cases hx : v = a.destination
    · rw [hx, Function.update_same]
      exact ⟨u, rfl⟩
    · rw [Function.update_noteq hx] at hv ⊢
      exact hinv.pred_defini v hv hvs
  · intro v x hvx
    by_cases hx : v = a.destination
    · rw [hx, Function.update_same] at hvx
      have e : u = x := Option.some.inj hvx
      rw [← e, hx, Function.update_same, Function.update_noteq hud]
      exact ⟨hu, hdu, by omega, a, ha, rfl, le_refl _⟩
    · rw [Function.update_noteq hx] at hvx
      obtain ⟨l1, l2, l3, b, hb1, hb2, hb3⟩ := hinv.lien v x hvx
      rw [Function.update_noteq hx]
      have := hmono x
      exact ⟨l1, by omega, l3, b, hb1, hb2, by omega⟩
  · obtain ⟨r, hr⟩ := hinv.rang
    classical
    refine ⟨fun x => if ∃ k, iter_pred pred k x = some a.destination then r x + (r u + 1)
      else r x, ?_⟩
    intro v x hvx
    by_cases hx : v = a.destination
    · rw [hx, Function.update_same] at hvx
      have e : u = x := Option.some.inj hvx
      rw [← e, hx]
      have h1 : ¬ ∃ k, iter_pred pred k u = some a.destination := fun ⟨k, hk⟩ => hanc k hk
      have h2 : ∃ k, iter_pred pred k a.destination = some a.destination := ⟨0, rfl⟩
      simp only [h1, h2, if_true, if_false]
      omega
    · rw [Function.update_noteq hx] at hvx
      have hlt2 := hr v x hvx
      by_cases hax : ∃ k, iter_pred pred k x = some a.destination
      · have hav : ∃ k, iter_pred pred k v = some a.destination := by
          obtain ⟨k, hk⟩ := hax
          refine ⟨k + 1, ?_⟩
          show (match pred v with
            | none => none
            | some w => iter_pred pred k w) = some a.destination
          rw [hvx]
          exact hk
        simp only [hax, hav, if_true]
        omega
      · simp only [hax, if_false]
        split <;> omega

/-! ## Bellman-Ford with signed latencies: the relaxation passes -/

theorem bf_relaxer_exact_signe (g : Graphe) (s u : Nat) (hneg : sans_cycle_negatif g s)
    (hu : u < g.capacite_max) (l : List Arete) (hl : ∀ a ∈ l, a ∈ aretes_de g u) (e : EtatBF)
    (hinv : InvBF g s e.dist e.pred) (hdu : e.dist u < INFINI) :
    InvBF g s (bf_relaxer_exact u l e).dist (bf_relaxer_exact u l e).pred ∧
      (∀ a ∈ l, (bf_relaxer_exact u l e).dist a.destination ≤ e.dist u + a.latence) ∧
      ((bf_relaxer_exact u l e).modification = false →
        e.modification = false ∧ (bf_relaxer_exact u l e).dist = e.dist ∧
          (bf_relaxer_exact u l e).pred = e.pred) := by
  induction l generalizing e with
  | nil => simp [bf_relaxer_exact, hinv]
  | cons a r ih =>
    have har : ∀ b ∈ r, b ∈ aretes_de g u := fun b hb2 => hl b (List.mem_cons_of_mem _ hb2)
    have ha : a ∈ aretes_de g u := hl a (List.mem_cons_self _ _)
    unfold bf_relaxer_exact
    simp only
    split
    · rename_i hlt
      have hmono : ∀ x, Function.update e.dist a.destination (e.dist u + a.latence) x ≤
          e.dist x := by
        intro x
        by_cases hx : x = a.destination
        · subst hx; rw [Function.update_same]; omega
        · rw [Function.update_noteq hx]
      have h1 := inv_bf_relaxer g s e.dist e.pred hinv hneg u a ha hu hdu hlt
      obtain ⟨i1, i3, i4⟩ := ih har
        { dist := Function.update e.dist a.destination (e.dist u + a.latence)
          pred := Function.update e.pred a.destination (some u)
          modification := true } h1 (lt_of_le_of_lt (hmono u) hdu)
      refine ⟨i1, ?_, ?_⟩
      · intro b hb2
        rcases List.mem_cons.mp hb2 with hb2 | hb2
        · subst hb2
          refine le_trans (bf_relaxer_exact_mono u r _ _) ?_
          show Function.update e.dist b.destination (e.dist u + b.latence) b.destination ≤ _
          rw [Function.update_same]
        · have := i3 b hb2
          have := hmono u
          simp only at *
          omega
      · intro hm
        have := (i4 hm).1
        simp at this
    · rename_i hlt
      obtain ⟨i1, i3, i4⟩ := ih har e hinv hdu
      refine ⟨i1, ?_, i4⟩
      intro b hb2
      rcases List.mem_cons.mp hb2 with hb2 | hb2
      · subst hb2
        have := bf_relaxer_exact_mono u r e b.destination
        omega
      · exact i3 b hb2

theorem bf_passe_exact_signe (g : Graphe) (s : Nat) (hneg : sans_cycle_negatif g s) (us : List Nat)
    (hus : ∀ u ∈ us, u < g.capacite_max) (e : EtatBF) (hinv : InvBF g s e.dist e.pred) :
    InvBF g s (bf_passe_exact g us e).dist (bf_passe_exact g us e).pred ∧
      (∀ u ∈ us, (noeud g u).actif = true → e.dist u < INFINI → ∀ a ∈ aretes_de g u,
        (bf_passe_exact g us e).dist a.destination ≤ e.dist u + a.latence) ∧
      ((bf_passe_exact g us e).modification = false →
        e.modification = false ∧ (bf_passe_exact g us e).dist = e.dist ∧
          (bf_passe_exact g us e).pred = e.pred) := by
  induction us generalizing e with
  | nil => simp [bf_passe_exact, hinv]
  | cons u r ih =>
    have hr : ∀ x ∈ r, x < g.capacite_max := fun x hx => hus x (List.mem_cons_of_mem _ hx)
    have huV : u < g.capacite_max := hus u (List.mem_cons_self _ _)
    unfold bf_passe_exact
    split
    · rename_i hskip
      obtain ⟨i1, i3, i4⟩ := ih hr e hinv
      refine ⟨i1, ?_, i4⟩
      intro x hx hact hdx a ha
      rcases List.mem_cons.mp hx with hx | hx
      · exfalso
        subst hx
        simp only [Bool.or_eq_true, Bool.not_eq_true', decide_eq_true_eq] at hskip
        rcases hskip with h | h
        · rw [h] at hact; exact Bool.noConfusion hact
        · omega
      · exact i3 x hx hact hdx a ha
    · rename_i hskip
      simp only [Bool.or_eq_true, Bool.not_eq_true', decide_eq_true_eq, not_or] at hskip
      have hdu : e.dist u < INFINI := by
        have := hinv.bornes u
        have := hskip.2
        omega
      obtain ⟨j1, j3, j4⟩ :=
        bf_relaxer_exact_signe g s u hneg huV (aretes_de g u) (fun a ha => ha) e hinv hdu
      have j2 := bf_relaxer_exact_mono u (aretes_de g u) e
      obtain ⟨i1, i3, i4⟩ := ih hr _ j1
      refine ⟨i1, ?_, ?_⟩
      · intro x hx hact hdx a ha
        rcases List.mem_cons.mp hx with hx | hx
        · subst hx
          exact le_trans (bf_passe_exact_mono g r _ _) (j3 a ha)
        · have := i3 x hx hact (lt_of_le_of_lt (j2 x) hdx) a ha
          have := j2 x
          omega
      · intro hm
        obtain ⟨k1, k2, k3⟩ := i4 hm
        obtain ⟨l1, l2, l3⟩ := j4 k1
        exact ⟨l1, by rw [k2, l2], by rw [k3, l3]⟩

theorem borne_plafond_passe (g : Graphe) (hb : bien_forme g) (s k : Nat)
    (hneg : sans_cycle_negatif g s) (e : EtatBF) (hinv : InvBF g s e.dist e.pred)
    (hk : borne_plafond g s k e.dist) :
    borne_plafond g s (k + 1) (bf_passe_exact g (List.range g.capacite_max) e).dist := by
  obtain ⟨_, i3, _⟩ :=
    bf_passe_exact_signe g s hneg (List.range g.capacite_max) (fun u hu => List.mem_range.mp hu) e hinv
  intro es hm hlen hw
  rcases marche_decompose es with h | ⟨es0, a, h⟩
  · subst h
    have h0 := hk [] trivial (Nat.zero_le _) sous_plafond_nil
    exact le_trans (bf_passe_exact_mono g _ e _) h0
  · subst h
    have hw0 := sous_plafond_prefixe es0 [a] hw
    have hwt := sous_plafond_total _ hw
    rw [est_marche_append] at hm
    obtain ⟨hm0, ha, _⟩ := hm
    have hpa : poids [a] = a.latence := by simp [poids]
    rw [poids_append, hpa] at hwt ⊢
    rw [extremite_append]
    simp only [extremite]
    have h0 := hk es0 hm0 (by simp at hlen; omega) hw0
    have h1 := sous_plafond_total _ hw0
    obtain ⟨o1, o2, _⟩ := arete_origine g hb _ a ha
    have := i3 _ (List.mem_range.mpr o1) o2 (by omega) a ha
    omega

theorem bf_iterations_exact_signe (g : Graphe) (hb : bien_forme g) (s : Nat)
    (hneg : sans_cycle_negatif g s) (n k : Nat) (dist : Nat → Int) (pred : Nat → Option Nat)
    (hinv : InvBF g s dist pred) (hk : borne_plafond g s k dist) :
    InvBF g s (bf_iterations_exact g n dist pred).1 (bf_iterations_exact g n dist pred).2 ∧
      borne_plafond g s (k + n) (bf_iterations_exact g n dist pred).1 := by
  induction n generalizing k dist pred with
  | zero => exact ⟨hinv, hk⟩
  | succ m ih =>
    obtain ⟨i1, _, i4⟩ := bf_passe_exact_signe g s hneg (List.range g.capacite_max)
      (fun u hu => List.mem_range.mp hu) ⟨dist, pred, false⟩ hinv
    have hpas : ∀ j, borne_plafond g s j dist →
        borne_plafond g s (j + 1)
          (bf_passe_exact g (List.range g.capacite_max) ⟨dist, pred, false⟩).dist :=
      fun j hj => borne_plafond_passe g hb s j hneg ⟨dist, pred, false⟩ hinv hj
    unfold bf_iterations_exact
    simp only
    split
    · rename_i hmod
      simp only [Bool.not_eq_true'] at hmod
      obtain ⟨_, k2, k3⟩ := i4 hmod
      simp only at k2 k3
      refine ⟨i1, ?_⟩
      rw [k2] at hpas ⊢
      have hall : ∀ j, borne_plafond g s (k + j) dist := by
        intro j
        induction j with
        | zero => exact hk
        | succ j ihj => exact hpas _ ihj
      exact hall (m + 1)
    · have := ih (k + 1) _ _ i1 (hpas k hk)
      rw [show k + (m + 1) = k + 1 + m by omega]
      exact this

theorem inv_bf_initial (g : Graphe) (s : Nat) :
    InvBF g s (Function.update (fun _ => INFINI) s 0) (fun _ => none) := by
  have hI := INFINI_pos
  refine ⟨⟨by rw [Function.update_same], rfl⟩, ?_, ?_, ?_, ?_, ⟨fun _ => 0, ?_⟩⟩
  · intro v
    by_cases hv : v = s
    · rw [hv, Function.update_same]; omega
    · rw [Function.update_noteq hv]
  · intro v hv
    by_cases hvs : v = s
    · rw [hvs, Function.update_same]
      exact ⟨[], trivial, rfl, by simp [poids], sous_plafond_nil⟩
    · rw [Function.update_noteq hvs] at hv
      omega
  · intro v hv hvs
    rw [Function.update_noteq hvs] at hv
    omega
  · intro v u h
    cases h
  · intro v u h
    cases h

/-- When no negative cycle is reached from the source, the relaxation passes of
`bellman_ford` end in a state where no edge out of a reached node can be
relaxed, and whose distances are at most the latency of every walk from the
source that stays below `INFINI`. -/
theorem bf_iterations_exact_sature_signe (g : Graphe) (hb : bien_forme g) (s : Nat)
    (hs : s < g.capacite_max) (hneg : sans_cycle_negatif g s) :
    InvBF g s
      (bf_iterations_exact g (g.capacite_max - 1) (Function.update (fun _ => INFINI) s 0)
        (fun _ => none)).1
      (bf_iterations_exact g (g.capacite_max - 1) (Function.update (fun _ => INFINI) s 0)
        (fun _ => none)).2 ∧
    sature_exact g (bf_iterations_exact g (g.capacite_max - 1) (Function.update (fun _ => INFINI) s 0)
        (fun _ => none)).1 ∧
    ∀ es, est_marche g s es → sous_plafond es →
      (bf_iterations_exact g (g.capacite_max - 1) (Function.update (fun _ => INFINI) s 0)
        (fun _ => none)).1 (extremite s es) ≤ poids es := by
  have h0 : borne_plafond g s 0 (Function.update (fun _ => INFINI) s 0) := by
    intro es _ hlen _
    have : es = [] := List.length_eq_zero.mp (by omega)
    subst this
    simp [extremite, poids]
  obtain ⟨i1, i2⟩ := bf_iterations_exact_signe g hb s hneg (g.capacite_max - 1) 0 _ _
    (inv_bf_initial g s) h0
  generalize (bf_iterations_exact g (g.capacite_max - 1) (Function.update (fun _ => INFINI) s 0)
        (fun _ => none)).1 = db at i1 i2 ⊢
  generalize (bf_iterations_exact g (g.capacite_max - 1) (Function.update (fun _ => INFINI) s 0)
        (fun _ => none)).2 = pb at i1 ⊢
  have hmin : ∀ es, est_marche g s es → sous_plafond es → db (extremite s es) ≤ poids es := by
    intro es hm hp
    obtain ⟨es2, r1, r2, r3, r4, r5⟩ := raccourcir g hb s hs hneg es.length es (le_refl _) hm hp
    have := i2 es2 r1 (by omega) r4
    rw [r2] at this
    omega
  refine ⟨i1, ?_, hmin⟩
  intro u hu a ha
  obtain ⟨es, m1, m2, m3, m4⟩ := i1.atteint u hu
  by_cases hc : db u + a.latence < INFINI
  · have h1 : est_marche g s (es ++ [a]) := by
      rw [est_marche_append, m2]
      exact ⟨m1, ha, trivial⟩
    have h2 := hmin (es ++ [a]) h1 (sous_plafond_ajout es a m4 (by rw [m3]; exact hc))
    rw [extremite_append, poids_append] at h2
    simp only [extremite, poids, List.map_cons, List.map_nil, List.sum_cons, List.sum_nil,
      add_zero] at h2 m3
    omega
  · have := i1.bornes a.destination
    omega

theorem bf_detecter_exact_sature_signe (g : Graphe) (dist : Nat → Int)
    (hbn : ∀ v, dist v ≤ INFINI) (hs : sature_exact g dist) (us : List Nat) :
    bf_detecter_exact g dist us = false := by
  have hrel : ∀ (u : Nat) (l : List Arete), dist u < INFINI → (∀ a ∈ l, a ∈ aretes_de g u) →
      bf_arete_relaxable_exact dist u l = false := by
    intro u l hu
    induction l with
    | nil => intro _; rfl
    | cons a r ih =>
      intro hl
      unfold bf_arete_relaxable_exact
      have := hs u hu a (hl a (List.mem_cons_self _ _))
      rw [if_neg (by omega)]
      exact ih (fun b hb2 => hl b (List.mem_cons_of_mem _ hb2))
  induction us with
  | nil => rfl
  | cons u r ih =>
    unfold bf_detecter_exact
    split
    · exact ih
    · rename_i hskip
      simp only [Bool.or_eq_true, Bool.not_eq_true', decide_eq_true_eq, not_or] at hskip
      have hdu : dist u < INFINI := by
        have := hbn u
        have := hskip.2
        omega
      rw [hrel u _ hdu (fun a ha => ha)]
      simpa using ih

/-! ## Bellman-Ford with signed latencies: the returned path -/

/-- Following predecessor links that strictly lower a rank ends, within `V`
steps, at a node without predecessor, and goes back along a walk whose running
latency is the difference of the distances. -/
theorem remonter_rang (g : Graphe) (dist : Nat → Int) (pred : Nat → Option Nat) (r : Nat → Nat)
    (hl : ∀ v u, pred v = some u → u < g.capacite_max ∧ dist u < INFINI ∧
      (∃ a ∈ aretes_de g u, a.destination = v ∧ dist v = dist u + a.latence) ∧ r u < r v) :
    ∀ (fuel v : Nat) (vis pile : List Nat), v < g.capacite_max → dist v < INFINI → vis.Nodup →
      (∀ x ∈ vis, x < g.capacite_max ∧ r v < r x) →
      g.capacite_max ≤ fuel + vis.length →
      ∃ root es, pred root = none ∧ est_marche g root es ∧ extremite root es = v ∧
        dist v = dist root + poids es ∧ (∀ k, dist root + poids (es.take k) < INFINI) ∧
        remonter pred fuel (some v) pile = some (sommets root es ++ pile) := by
  intro fuel
  induction fuel with
  | zero =>
    intro v vis pile hv _ hn hvis hlen
    exfalso
    have hnot : v ∉ vis := by
      intro hmem
      have := (hvis v hmem).2
      omega
    have h1 : (v :: vis).Nodup := List.nodup_cons.mpr ⟨hnot, hn⟩
    have h2 : ∀ x ∈ v :: vis, x < g.capacite_max := by
      intro x hx
      rcases List.mem_cons.mp hx with h | h
      · rw [h]; exact hv
      · exact (hvis x h).1
    have := longueur_sans_doublon _ _ h1 h2
    simp at this
    omega
  | succ k ih =>
    intro v vis pile hv hfin hn hvis hlen
    have hnot : v ∉ vis := by
      intro hmem
      have := (hvis v hmem).2
      omega
    have h1 : (v :: vis).Nodup := List.nodup_cons.mpr ⟨hnot, hn⟩
    cases hp : pred v with
    | none =>
      refine ⟨v, [], hp, trivial, rfl, by simp [poids], ?_, ?_⟩
      · intro j
        simp only [List.take_nil, poids, List.map_nil, List.sum_nil, add_zero]
        exact hfin
      · simp [remonter, hp, sommets]
    | some u =>
      obtain ⟨hu, hdu, ⟨a, ha1, ha2, ha3⟩, hprec⟩ := hl v u hp
      have h2 : ∀ x ∈ v :: vis, x < g.capacite_max ∧ r u < r x := by
        intro x hx
        rcases List.mem_cons.mp hx with h | h
        · rw [h]; exact ⟨hv, hprec⟩
        · have := hvis x h
          refine ⟨this.1, ?_⟩
          omega
      obtain ⟨root, es, e1, e2, e3, e4, eplaf, e5⟩ :=
        ih u (v :: vis) (v :: pile) hu hdu h1 h2 (by simp; omega)
      have hpa : poids [a] = a.latence := by simp [poids]
      refine ⟨root, es ++ [a], e1, ?_, ?_, ?_, ?_, ?_⟩
      · rw [est_marche_append, e3]
        exact ⟨e2, ha1, trivial⟩
      · rw [extremite_append]; simpa [extremite] using ha2
      · rw [poids_append, hpa]; omega
      · intro j
        by_cases hj : j ≤ es.length
        · rw [List.take_append_of_le_length hj]
          exact eplaf j
        · rw [List.take_of_length_le (by simp; omega), poids_append, hpa]
          omega
      · simp only [remonter, hp]
        rw [e5, sommets_append_un, ha2]
        simp

/-- C21 (amended): on a graph whose latencies are whole numbers of any sign and
of magnitude at most `M`, with `(V * E + 1) * M` at most `2 ^ 24` for `V` node
slots and `E` edges, for every active source from which no cycle of negative
total latency is reached and every destination below `capacite_max`,
`bellman_ford` answers with the negative-cycle flag at 0; it returns a path
exactly when the destination is reached from the source by a walk; the
returned path is such a walk and its `latence_totale` is the least total
latency of the walks from the source to the destination. -/
theorem bellman_ford_poids_signes (g : Graphe) (source destination fuel : Nat) (M : Int)
    (hb : bien_forme g) (hs : noeud_existe g source = true)
    (hd : destination < g.capacite_max) (hM0 : 0 ≤ M) (hM : latences_bornees g M)
    (hlim : ((g.capacite_max : Int) * (nombre_aretes g : Int) + 1) * M ≤ 2 ^ 24)
    (hneg : sans_cycle_negatif g source) (hfuel : g.capacite_max ≤ fuel) :
    ∃ r, bellman_ford fuel g source destination = some (r, 0) ∧
      (r = none ↔ ¬ ∃ es, est_marche g source es ∧ extremite source es = destination) ∧
      ∀ p, r = some p →
        (∃ es, est_marche g source es ∧ extremite source es = destination ∧
          p.noeuds = sommets source es ∧ poids es = p.latence_totale) ∧
        ∀ es, est_marche g source es → extremite source es = destination →
          p.latence_totale ≤ poids es := by
  have hsV := noeud_existe_lt g source hs
  obtain ⟨t1, t2, t3⟩ := bellman_ford_sans_arrondi g hb M hM0 hM hlim source
  have hexp : ((g.capacite_max : Int) * (nombre_aretes g : Int) + 1) * M =
      (g.capacite_max : Int) * (nombre_aretes g : Int) * M + M := by ring
  rw [hexp] at hlim
  obtain ⟨i1, i2, _⟩ := bf_iterations_exact_sature_signe g hb source hsV hneg
  have hdet := bf_detecter_exact_sature_signe g _ i1.bornes i2 (List.range g.capacite_max)
  have hbf : bellman_ford fuel g source destination =
      (reconstruire_chemin fuel
        (bf_iterations_exact g (g.capacite_max - 1) (Function.update (fun _ => INFINI) source 0)
          (fun _ => none)).2
        (bf_iterations_exact g (g.capacite_max - 1) (Function.update (fun _ => INFINI) source 0)
          (fun _ => none)).1 destination).map (fun c => (c, 0)) := by
    unfold bellman_ford
    simp only [t1, t3, hdet, Bool.false_eq_true, if_false, if_neg (not_le.mpr hsV),
      if_neg (not_le.mpr hd)]
    cases reconstruire_chemin fuel
        (bf_iterations_exact g (g.capacite_max - 1) (Function.update (fun _ => INFINI) source 0)
          (fun _ => none)).2
        (bf_iterations_exact g (g.capacite_max - 1) (Function.update (fun _ => INFINI) source 0)
          (fun _ => none)).1 destination <;> rfl
  generalize (bf_iterations_exact g (g.capacite_max - 1)
    (Function.update (fun _ => INFINI) source 0) (fun _ => none)).1 = db at i1 i2 hbf t2
  generalize (bf_iterations_exact g (g.capacite_max - 1)
    (Function.update (fun _ => INFINI) source 0) (fun _ => none)).2 = pb at i1 hbf
  have hsat : ∀ u, db u ≠ INFINI → ∀ a ∈ aretes_de g u,
      db a.destination ≤ db u + a.latence := by
    intro u hu a ha
    have := i1.bornes u
    exact i2 u (by omega) a ha
  have hall : ∀ es, est_marche g source es →
      db (extremite source es) ≠ INFINI ∧ db (extremite source es) ≤ poids es := by
    intro es hm
    have hI := INFINI_pos
    have h := marche_bornee g M _ hM db t2 hlim hsat es source hm
      (by rw [i1.source.1]; omega)
    rw [i1.source.1] at h
    exact ⟨h.1, by omega⟩
  by_cases hfin : db destination = INFINI
  · refine ⟨none, ?_, ⟨fun _ => ?_, fun _ => rfl⟩, fun p h => Option.noConfusion h⟩
    · rw [hbf]
      unfold reconstruire_chemin
      rw [if_pos hfin]
      rfl
    · rintro ⟨es, m1, m2⟩
      have h1 := (hall es m1).1
      rw [m2] at h1
      exact h1 hfin
  · have hdlt : db destination < INFINI := by
      have := i1.bornes destination
      omega
    obtain ⟨rk, hrk⟩ := i1.rang
    have hl : ∀ v u, pb v = some u → u < g.capacite_max ∧ db u < INFINI ∧
        (∃ a ∈ aretes_de g u, a.destination = v ∧ db v = db u + a.latence) ∧ rk u < rk v := by
      intro v u hvu
      obtain ⟨l1, l2, _, a, ha1, ha2, ha3⟩ := i1.lien v u hvu
      have h5 := i2 u l2 a ha1
      rw [ha2] at h5
      exact ⟨l1, l2, ⟨a, ha1, ha2, by omega⟩, hrk v u hvu⟩
    obtain ⟨root, es, e1, e2, e3, e4, e5, e6⟩ := remonter_rang g db pb rk hl fuel destination
      [] [] hd hdlt List.nodup_nil (by simp) (by simpa using hfuel)
    have hroot : root = source := by
      by_contra hne
      have h0 := e5 0
      simp only [List.take_zero, poids, List.map_nil, List.sum_nil, add_zero] at h0
      obtain ⟨u, hu⟩ := i1.pred_defini root h0 hne
      rw [e1] at hu
      exact Option.noConfusion hu
    subst hroot
    have hpd : poids es = db destination := by
      rw [e4, i1.source.1]; omega
    refine ⟨some { List.foldl ajouter_noeud_chemin creer_chemin (sommets root es) with
                     latence_totale := db destination }, ?_, ?_, ?_⟩
    · rw [hbf]
      unfold reconstruire_chemin
      rw [if_neg hfin, e6]
      simp
    · constructor
      · intro h; cases h
      · intro h
        exact absurd ⟨es, e2, e3⟩ h
    · intro p hp
      have hpe := Option.some.inj hp
      rw [← hpe]
      refine ⟨⟨es, e2, e3, ?_, hpd⟩, ?_⟩
      · simp [foldl_ajouter_noeuds, creer_chemin]
      · intro es2 m1 m2
        have := (hall es2 m1).2
        rw [m2] at this
        exact this

theorem marche_croissante (g : Graphe) (h : ∀ u a, a ∈ aretes_de g u → u < a.destination)
    (es : List Arete) : ∀ u, est_marche g u es → es ≠ [] → u < extremite u es := by
  induction es with
  | nil => intro u _ hne; exact absurd rfl hne
  | cons a r ih =>
    intro u hm _
    have h1 := h u a hm.1
    by_cases hr : r = []
    · subst hr
      exact h1
    · exact lt_trans h1 (ih a.destination hm.2 hr)

theorem g_negatif_croissant (u : Nat) (a : Arete) (ha : a ∈ aretes_de g_negatif u) :
    u < a.destination := by
  have hu : u < 3 := (arete_noeud_mem g_negatif u a ha).2
  have hcas : u = 0 ∨ u = 1 ∨ u = 2 := by omega
  rcases hcas with e | e | e
  · subst e
    have h1 : aretes_de g_negatif 0 = [⟨1, 5, 10, 1, 5⟩] := by decide
    rw [h1] at ha
    rw [List.mem_singleton.mp ha]
    decide
  · subst e
    have h1 : aretes_de g_negatif 1 = [⟨2, -2, 10, 1, 5⟩] := by decide
    rw [h1] at ha
    rw [List.mem_singleton.mp ha]
    decide
  · subst e
    have h1 : aretes_de g_negatif 2 = [] := by decide
    rw [h1] at ha
    cases ha

theorem g_negatif_sans_cycle : sans_cycle_negatif g_negatif 0 := by
  intro es cyc hm hc
  rw [est_marche_append] at hm
  by_cases hnil : cyc = []
  · subst hnil
    simp [poids]
  · have := marche_croissante g_negatif g_negatif_croissant cyc _ hm.2 hnil
    omega

/-- Instance of C21 on the chain `0 -> 1 -> 2` with latencies 5 and -2: the
path returned from 0 to 2 has the latency 3. -/
theorem bellman_ford_poids_signes_witness :
    (bien_forme g_negatif ∧ noeud_existe g_negatif 0 = true ∧ 2 < g_negatif.capacite_max ∧
      (0 : Int) ≤ 5 ∧ latences_bornees g_negatif 5 ∧
      ((g_negatif.capacite_max : Int) * (nombre_aretes g_negatif : Int) + 1) * 5 ≤ 2 ^ 24 ∧
      g_negatif.capacite_max ≤ 10 ∧
      bellman_ford 10 g_negatif 0 2 = some (some ⟨[0, 1, 2], 3, 3, 0, 0, 0⟩, 0)) ∧
    sans_cycle_negatif g_negatif 0 ∧
    ∃ r, bellman_ford 10 g_negatif 0 2 = some (r, 0) ∧
      (r = none ↔ ¬ ∃ es, est_marche g_negatif 0 es ∧ extremite 0 es = 2) ∧
      ∀ p, r = some p →
        (∃ es, est_marche g_negatif 0 es ∧ extremite 0 es = 2 ∧
          p.noeuds = sommets 0 es ∧ poids es = p.latence_totale) ∧
        ∀ es, est_marche g_negatif 0 es → extremite 0 es = 2 →
          p.latence_totale ≤ poids es :=
  ⟨by decide, g_negatif_sans_cycle,
    bellman_ford_poids_signes g_negatif 0 2 10 5 (by decide) (by decide) (by decide) (by decide)
      (by decide) (by decide) g_negatif_sans_cycle (by decide)⟩

/-- C21 as stated fails, in three ways. In `g_infini` no latency is negative,
so no negative cycle exists, the source 0 is active and node 1 is reached from
it by the edge `0 -> 1`, yet `bellman_ford` returns no path, the latency of
that edge being the sentinel `INFINI`. In `g_arrondi`, where no latency is
negative either, every walk from node 0 to node 2 has the total latency
`2 ^ 24 + 1`, and the path returned has the `latence_totale` `2 ^ 24`: the sum
is made in binary32, which rounds it. On the chain `g_chaine3` of three slots
the destination 7 indexes no cell of `dist`: the call has no defined result,
whatever the fuel. -/
theorem bellman_ford_sentinelle_contre_exemple :
    (sans_cycle_negatif g_infini 0 ∧ noeud_existe g_infini 0 = true ∧
      (est_marche g_infini 0 [⟨1, INFINI, 10, 1, 5⟩] ∧
        extremite 0 [⟨1, INFINI, 10, 1, 5⟩] = 1) ∧
      bellman_ford 10 g_infini 0 1 = some (none, 0)) ∧
    (sans_cycle_negatif g_arrondi 0 ∧ noeud_existe g_arrondi 0 = true ∧
      (∀ es, est_marche g_arrondi 0 es → extremite 0 es = 2 → poids es = 16777217) ∧
      bellman_ford 10 g_arrondi 0 2 = some (some ⟨[0, 1, 2], 3, 16777216, 0, 0, 0⟩, 0)) ∧
    (sans_cycle_negatif g_chaine3 0 ∧ noeud_existe g_chaine3 0 = true ∧
      g_chaine3.capacite_max = 3 ∧ ∀ fuel, bellman_ford fuel g_chaine3 0 7 = none) := by
  have hpos : ∀ g : Graphe, latences_positives g → sans_cycle_negatif g 0 := by
    intro g hp es cyc hm _
    rw [est_marche_append] at hm
    exact poids_positif g hp cyc _ hm.2
  have hdet : bf_detecter g_chaine3
      (bf_iterations g_chaine3 (g_chaine3.capacite_max - 1)
        (Function.update (fun _ => INFINI) 0 0) (fun _ => none)).1
      (List.range g_chaine3.capacite_max) = false := by decide
  have hhors : ∀ fuel, bellman_ford fuel g_chaine3 0 7 = none := by
    intro fuel
    unfold bellman_ford
    simp only [hdet, Bool.false_eq_true, if_false]
    rw [if_neg (by decide), if_pos (by decide)]
  exact ⟨⟨hpos _ (by decide), by decide, by decide, by decide⟩,
    ⟨hpos _ (by decide), by decide, g_arrondi_marches, by decide⟩,
    ⟨hpos _ (by decide), by decide, by decide, hhors⟩⟩

/-! ## Tarjan: the numbering of the components -/

/-- C40: on a well-formed graph and with more fuel than node slots,
`tarjan_scc` returns and numbers the components in reverse topological order:
for every edge `u -> v` between active nodes that are not in the same strongly
connected component, `composantes[v] < composantes[u]`. -/
theorem tarjan_scc_ordre_topologique (g : Graphe) (fuel : Nat) (res : ResultatSecurite)
    (hb : bien_forme g) (hfuel : g.capacite_max < fuel) :
    ∃ r, tarjan_scc fuel g res = some r ∧
      ∀ u, noeud_existe g u = true → ∀ a ∈ aretes_de g u,
        noeud_existe g a.destination = true →
        ¬(atteint g u a.destination ∧ atteint g a.destination u) →
        r.composantes.getD a.destination (-1) < r.composantes.getD u (-1) := by
  obtain ⟨c, r1, hinv, hlab⟩ := tarjan_parcours_ok g hb fuel hfuel
  unfold tarjan_scc
  rw [r1]
  refine ⟨_, rfl, ?_⟩
  intro u hu a ha hv hdiff
  show ((List.range g.capacite_max).map c.composante).getD a.destination (-1) <
    ((List.range g.capacite_max).map c.composante).getD u (-1)
  rw [composantes_getD c.composante g.capacite_max u (noeud_existe_lt g u hu),
    composantes_getD c.composante g.capacite_max a.destination
      (noeud_existe_lt g a.destination hv)]
  have hm := hinv.mono u (hlab u hu) a ha
  rcases lt_or_eq_of_le hm.2 with h | h
  · exact h
  · exfalso
    exact hdiff ⟨hinv.scc u a.destination (hlab u hu) h.symm,
      hinv.scc a.destination u hm.1 h⟩

/-- Instance of C40 on the chain `0 -> 1 -> 2 -> 3 -> 4`, numbered
`[4, 3, 2, 1, 0]`. -/
theorem tarjan_scc_ordre_topologique_witness :
    (bien_forme g_chaine5 ∧ g_chaine5.capacite_max < 6 ∧
      (tarjan_scc 6 g_chaine5 ⟨[], 0, [], 0, [], 0, 0⟩).map
        (fun r => r.composantes) = some [4, 3, 2, 1, 0]) ∧
    ∃ r, tarjan_scc 6 g_chaine5 ⟨[], 0, [], 0, [], 0, 0⟩ = some r ∧
      ∀ u, noeud_existe g_chaine5 u = true → ∀ a ∈ aretes_de g_chaine5 u,
        noeud_existe g_chaine5 a.destination = true →
        ¬(atteint g_chaine5 u a.destination ∧ atteint g_chaine5 a.destination u) →
        r.composantes.getD a.destination (-1) < r.composantes.getD u (-1) :=
  ⟨by decide,
    tarjan_scc_ordre_topologique g_chaine5 6 ⟨[], 0, [], 0, [], 0, 0⟩ (by decide) (by decide)⟩

/-! ## Termination of the constrained search -/

/-- C38: on a well-formed graph, whatever the source, the destination, the
constraints and the signs of the latencies and costs, the search
`chemin_contraint_backtracking` returns as soon as the fuel, which bounds the
depth of the recursion, exceeds the number of node slots. -/
theorem chemin_contraint_backtracking_termine (g : Graphe) (source destination : Nat)
    (c : Contraintes) (fuel : Nat) (hb : bien_forme g) (hfuel : g.capacite_max < fuel) :
    ∃ r, chemin_contraint_backtracking fuel g source destination c = some r :=
  chemin_contraint_termine g hb source destination c fuel hfuel

/-- Instance of C38 on `g_cycle_proche`, whose node 1 carries a loop of
latency -1. -/
theorem chemin_contraint_backtracking_termine_witness :
    (bien_forme g_cycle_proche ∧ g_cycle_proche.capacite_max < 3) ∧
    ∃ r, chemin_contraint_backtracking 3 g_cycle_proche 0 1 c_libre = some r :=
  ⟨by decide,
    chemin_contraint_backtracking_termine g_cycle_proche 0 1 c_libre 3 (by decide) (by decide)⟩

/-! ## Termination of `dijkstra` -/

/-- Shape of the stack built by `remonter` when every predecessor link goes
down in the order `(dist, r)`: above the initial stack it holds distinct nodes,
each the predecessor of the next, from a node without predecessor to the start
node. -/
theorem remonter_forme (dist : Nat → Int) (pred : Nat → Option Nat) (r : Nat → Nat)
    (hl : ∀ v u, pred v = some u → dist u < dist v ∨ (dist u = dist v ∧ r u < r v)) :
    ∀ (fuel v : Nat) (pile res : List Nat), remonter pred fuel (some v) pile = some res →
      ∃ pre, res = pre ++ pile ∧ pre.getLast? = some v ∧
        (∃ root, pre.head? = some root ∧ pred root = none) ∧
        List.Chain' (fun x y => pred y = some x) pre ∧ pre.Nodup ∧
        ∀ x ∈ pre, x = v ∨ dist x < dist v ∨ (dist x = dist v ∧ r x < r v) := by
  intro fuel
  induction fuel with
  | zero =>
    intro v pile res h
    simp [remonter] at h
  | succ k ih =>
    intro v pile res h
    rw [remonter] at h
    cases hp : pred v with
    | none =>
      rw [hp, remonter] at h
      refine ⟨[v], ?_, rfl, ⟨v, rfl, hp⟩, List.chain'_singleton v, List.nodup_singleton v, ?_⟩
      · simpa using (Option.some.inj h).symm
      · intro x hx
        left
        simpa using hx
    | some u =>
      rw [hp] at h
      obtain ⟨pre, e1, e2, ⟨root, e3, e4⟩, e5, e6, e7⟩ := ih u (v :: pile) res h
      have hm := hl v u hp
      have hbas : ∀ x ∈ pre, dist x < dist v ∨ (dist x = dist v ∧ r x < r v) := by
        intro x hx
        rcases e7 x hx with h1 | h1 | h1
        · subst h1; exact hm
        · rcases hm with h2 | h2
          · left; omega
          · left; omega
        · rcases hm with h2 | h2
          · left; omega
          · right; omega
      have hne : pre ≠ [] := by
        intro h0
        rw [h0] at e2
        exact Option.noConfusion e2
      refine ⟨pre ++ [v], ?_, ?_, ⟨root, ?_, e4⟩, ?_, ?_, ?_⟩
      · rw [e1]; simp
      · simp
      · cases pre with
        | nil => exact absurd rfl hne
        | cons a l => simpa using e3
      · refine List.Chain'.append e5 (List.chain'_singleton v) ?_
        intro x hx y hy
        rw [e2] at hx
        have hx1 : u = x := by simpa using hx
        have hy1 : v = y := by simpa using hy
        subst hx1; subst hy1
        exact hp
      · rw [List.nodup_append]
        refine ⟨e6, List.nodup_singleton v, ?_⟩
        intro x hx hxv
        have hxv1 : x = v := by simpa using hxv
        subst hxv1
        have := hbas x hx
        omega
      · intro x hx
        rcases List.mem_append.mp hx with h1 | h1
        · right; exact hbas x h1
        · left; simpa using h1

/-- C37: on a well-formed graph with non-negative latencies, from an active
source and to any destination, `dijkstra` returns when the fuel covers the
queue operations (one per node slot and per edge); its main loop `dijkstra_tout` ends, and from every
reached node the predecessor links are followed to the end: the chain holds
no node twice, each of its nodes is the predecessor of the next, it starts at
the source and ends at the reached node. -/
theorem dijkstra_termine (g : Graphe) (source destination fuel : Nat)
    (hb : bien_forme g) (hp : latences_positives g)
    (hs : noeud_existe g source = true) (hfuel : carburant g ≤ fuel) :
    (∃ r, dijkstra fuel g source destination = some r) ∧
    ∃ dist pred, dijkstra_tout fuel g source = some (dist, pred) ∧
      ∀ v, dist v < INFINI →
        ∃ chaine, remonter pred fuel (some v) [] = some chaine ∧ chaine.Nodup ∧
          chaine.head? = some source ∧ chaine.getLast? = some v ∧
          List.Chain' (fun x y => pred y = some x) chaine := by
  refine ⟨dijkstra_total g hb hp source destination fuel hfuel, ?_⟩
  have hsl := noeud_existe_lt g source hs
  obtain ⟨dist, pred, h1, hinv, hsat⟩ := dijkstra_tout_ok g hb hp source hsl fuel hfuel
  refine ⟨dist, pred, h1, ?_⟩
  intro v hv
  obtain ⟨r, hl⟩ := hinv.lien
  have hl2 : ∀ v u, pred v = some u → u < g.capacite_max ∧
      (∃ a ∈ aretes_de g u, a.destination = v ∧ dist v = fadd (dist u) a.latence) ∧
      (dist u < dist v ∨ (dist u = dist v ∧ r u < r v)) := by
    intro v u hvu
    obtain ⟨h1, h2, ⟨a, ha1, ha2, ha3⟩, h4⟩ := hl v u hvu
    have h5 := hsat u h2 a ha1
    rw [ha2] at h5
    have h6 := fadd_croit (dist u) a.latence (hinv.flottants u) (latence_positive g hp u a ha1)
    refine ⟨h1, ⟨a, ha1, ha2, by omega⟩, ?_⟩
    omega
  have hvl : v < g.capacite_max := by
    obtain ⟨es, e1, e2, _⟩ := hinv.atteint v hv
    rw [← e2]
    exact extremite_lt g hb es source hsl e1
  have hcf : g.capacite_max ≤ fuel := by
    unfold carburant at hfuel
    omega
  obtain ⟨root, es, _, _, _, _, _, e5⟩ :=
    remonter_ok g dist pred r hl2 fuel v [] [] hvl List.nodup_nil (by simp) (by simpa using hcf)
  obtain ⟨pre, f1, f2, ⟨rt, f3, f4⟩, f5, f6, f7⟩ :=
    remonter_forme dist pred r (fun v u h => (hl2 v u h).2.2) fuel v [] _ e5
  simp only [List.append_nil] at f1 e5
  refine ⟨_, e5, ?_, ?_, ?_, ?_⟩
  · rw [f1]; exact f6
  · rw [f1, f3]
    have hrt : rt ∈ pre := by
      cases pre with
      | nil => exact Option.noConfusion f3
      | cons a l =>
        have : a = rt := by simpa using f3
        subst this
        exact List.mem_cons_self _ _
    have hrd : dist rt < INFINI := by
      rcases f7 rt hrt with h | h | h
      · subst h; exact hv
      · omega
      · omega
    by_contra hne
    have hne2 : rt ≠ source := fun h => hne (by rw [h])
    obtain ⟨u, hu⟩ := hinv.pred_defini rt hrd hne2
    rw [f4] at hu
    exact Option.noConfusion hu
  · rw [f1]; exact f2
  · rw [f1]; exact f5

/-- Instance of C37 on the chain `0 -> 1 -> 2`. -/
theorem dijkstra_termine_witness :
    (bien_forme g_chaine3 ∧ latences_positives g_chaine3 ∧ noeud_existe g_chaine3 0 = true ∧
      carburant g_chaine3 ≤ 6) ∧
    (∃ r, dijkstra 6 g_chaine3 0 2 = some r) ∧
    ∃ dist pred, dijkstra_tout 6 g_chaine3 0 = some (dist, pred) ∧
      ∀ v, dist v < INFINI →
        ∃ chaine, remonter pred 6 (some v) [] = some chaine ∧ chaine.Nodup ∧
          chaine.head? = some 0 ∧ chaine.getLast? = some v ∧
          List.Chain' (fun x y => pred y = some x) chaine :=
  ⟨by decide,
    dijkstra_termine g_chaine3 0 2 6 (by decide) (by decide) (by decide) (by decide)⟩

/-! ## The priority queue: a full queue rejects the packet -/

/-- A call of `enqueue` or `dequeue` keeps the capacity and keeps the size
within it. -/
theorem appliquer_borne (f : FileAttente) (op : Operation)
    (h : f.taille_actuelle ≤ f.capacite_max) :
    (appliquer f op).capacite_max = f.capacite_max ∧
      (appliquer f op).taille_actuelle ≤ f.capacite_max := by
  cases op with
  | enfiler id priorite taille source destination timestamp =>
    unfold appliquer enqueue file_pleine
    simp only
    by_cases hp : f.taille_actuelle ≥ f.capacite_max
    · rw [if_pos (by simpa using hp)]
      exact ⟨rfl, h⟩
    · rw [if_neg (by simpa using hp)]
      cases hq : f.paquets with
      | nil => exact ⟨rfl, by show f.taille_actuelle + 1 ≤ f.capacite_max; omega⟩
      | cons tete reste => exact ⟨rfl, by show f.taille_actuelle + 1 ≤ f.capacite_max; omega⟩
  | defiler =>
    unfold appliquer dequeue
    cases hq : f.paquets with
    | nil => exact ⟨rfl, h⟩
    | cons tete reste => exact ⟨rfl, by show f.taille_actuelle - 1 ≤ f.capacite_max; omega⟩

/-- A sequence of calls keeps the capacity and keeps the size within it. -/
theorem appliquer_suite_borne (ops : List Operation) : ∀ f : FileAttente,
    f.taille_actuelle ≤ f.capacite_max →
    (ops.foldl appliquer f).capacite_max = f.capacite_max ∧
      (ops.foldl appliquer f).taille_actuelle ≤ f.capacite_max := by
  induction ops with
  | nil => intro f h; exact ⟨rfl, h⟩
  | cons op reste ih =>
    intro f h
    obtain ⟨h1, h2⟩ := appliquer_borne f op h
    obtain ⟨h3, h4⟩ := ih (appliquer f op) (by rw [h1]; exact h2)
    rw [List.foldl_cons]
    exact ⟨by rw [h3, h1], by rw [← h1]; exact h4⟩

/-- C31: `enqueue` on a queue whose size has reached `capacite_max` returns
-1, leaves the queued packets and the size unchanged and adds one to both
`total_insere` and `total_perdu`; and, for a non-negative capacity, in every
queue built from `creer_file_attente` by calls of `enqueue` and `dequeue`,
`taille_actuelle` does not exceed `capacite_max`. -/
theorem enqueue_file_pleine (f : FileAttente)
    (id priorite taille source destination timestamp : Int) (capacite_max : Int)
    (ops : List Operation) :
    (f.taille_actuelle ≥ f.capacite_max →
      (enqueue f id priorite taille source destination timestamp).2 = -1 ∧
      (enqueue f id priorite taille source destination timestamp).1.paquets = f.paquets ∧
      (enqueue f id priorite taille source destination timestamp).1.taille_actuelle =
        f.taille_actuelle ∧
      (enqueue f id priorite taille source destination timestamp).1.total_insere =
        f.total_insere + 1 ∧
      (enqueue f id priorite taille source destination timestamp).1.total_perdu =
        f.total_perdu + 1) ∧
    (0 ≤ capacite_max →
      (executer capacite_max ops).capacite_max = capacite_max ∧
      (executer capacite_max ops).taille_actuelle ≤ (executer capacite_max ops).capacite_max) := by
  constructor
  · intro hp
    have e : enqueue f id priorite taille source destination timestamp =
        ({ f with total_insere := f.total_insere + 1, total_perdu := f.total_perdu + 1 }, -1) := by
      unfold enqueue file_pleine
      simp only
      rw [if_pos (by simpa using hp)]
    rw [e]
    exact ⟨rfl, rfl, rfl, rfl, rfl⟩
  · intro h0
    obtain ⟨h1, h2⟩ := appliquer_suite_borne ops (creer_file_attente capacite_max) h0
    unfold executer
    rw [h1]
    exact ⟨rfl, h2⟩

/-! ## The counters of the graph: reachable states -/

/-- Effect of one write in the node table on the number of adjacency entries. -/
theorem somme_aretes_set (l : List Noeud) (i : Nat) (x : Noeud) (h : i < l.length) :
    ((l.set i x).map (fun n => n.aretes.length)).sum + (l.getD i noeud_vide).aretes.length =
      (l.map (fun n => n.aretes.length)).sum + x.aretes.length := by
  induction l generalizing i with
  | nil => simp at h
  | cons a r ih =>
    cases i with
    | zero => simp; omega
    | succ j =>
      have hj : j < r.length := by simpa using h
      have := ih j hj
      simp only [List.set_cons_succ, List.map_cons, List.sum_cons, List.getD_cons_succ]
      omega

/-- Effect of one write in the node table on the number of active slots. -/
theorem compte_actifs_set (l : List Noeud) (i : Nat) (x : Noeud) (h : i < l.length) :
    (l.set i x).countP (fun n => n.actif) + (if (l.getD i noeud_vide).actif then 1 else 0) =
      l.countP (fun n => n.actif) + (if x.actif then 1 else 0) := by
  induction l generalizing i with
  | nil => simp at h
  | cons a r ih =>
    cases i with
    | zero =>
      simp only [List.set_cons_zero, List.countP_cons, List.getD_cons_zero]
      omega
    | succ j =>
      have hj : j < r.length := by simpa using h
      have := ih j hj
      simp only [List.set_cons_succ, List.countP_cons, List.getD_cons_succ]
      omega

/-- One write in slot `i` of the node table keeps the counters right when the
counters move with the slot. -/
theorem inv_compteurs_ecrire (g g1 : Graphe) (h : InvCompteurs g) (i : Nat) (x : Noeud)
    (hi : i < g.capacite_max) (hnoeuds : g1.noeuds = g.noeuds.set i x)
    (hcap : g1.capacite_max = g.capacite_max) (hor : g1.est_oriente = g.est_oriente)
    (hn : g1.nb_noeuds + (if (noeud g i).actif then 1 else 0) =
      g.nb_noeuds + (if x.actif then 1 else 0))
    (ha : g1.nb_aretes + ((noeud g i).aretes.length : Int) =
      g.nb_aretes + (x.aretes.length : Int))
    (hx : x.actif = false → x.aretes = []) : InvCompteurs g1 := by
  have hil : i < g.noeuds.length := by rw [h.longueur]; exact hi
  refine ⟨?_, ?_, ?_, ?_, ?_⟩
  · rw [hor]; exact h.oriente
  · rw [hnoeuds, List.length_set, hcap]; exact h.longueur
  · have e := compte_actifs_set g.noeuds i x hil
    have e1 := h.noeuds
    unfold nombre_actifs at e1 ⊢
    unfold noeud at hn
    rw [hnoeuds]
    split_ifs at hn e <;> omega
  · have e := somme_aretes_set g.noeuds i x hil
    have e1 := h.aretes
    unfold nombre_aretes at e1 ⊢
    unfold noeud at ha
    rw [hnoeuds]
    omega
  · intro n hn2 hact
    rw [hnoeuds] at hn2
    rcases List.mem_or_eq_of_mem_set hn2 with h1 | h1
    · exact h.inactifs n h1 hact
    · subst h1; exact hx hact

/-- The counters of `creer_graphe` are right. -/
theorem inv_compteurs_creer (capacite_max : Nat) :
    InvCompteurs (creer_graphe capacite_max true) := by
  refine ⟨rfl, by simp [creer_graphe], ?_, ?_, ?_⟩
  · simp [creer_graphe, nombre_actifs, noeud_vide, List.countP_replicate]
  · simp [creer_graphe, nombre_aretes, noeud_vide]
  · intro n hn _
    simp only [creer_graphe] at hn
    rw [List.eq_of_mem_replicate hn]
    rfl

/-- An inactive slot of a graph with right counters has no edge. -/
theorem inv_compteurs_inactif (g : Graphe) (h : InvCompteurs g) (i : Nat)
    (hact : (noeud g i).actif = false) : (noeud g i).aretes = [] := by
  by_cases hi : i < g.noeuds.length
  · refine h.inactifs _ ?_ hact
    unfold noeud
    rw [List.getD_eq_getElem _ _ hi]
    exact List.getElem_mem _
  · unfold noeud
    rw [List.getD_eq_default _ _ (Nat.le_of_not_lt hi)]
    rfl

/-- The call `ajouter_noeud` keeps the counters right. -/
theorem inv_compteurs_ajouter_noeud (g : Graphe) (h : InvCompteurs g) (id : Nat) (nom : String) :
    InvCompteurs (ajouter_noeud g id nom).1 := by
  unfold ajouter_noeud
  by_cases h1 : id ≥ g.capacite_max
  · rw [if_pos h1]; exact h
  · rw [if_neg h1]
    by_cases h2 : noeud_existe g id = true
    · rw [if_pos h2]; exact h
    · rw [if_neg h2]
      have hact : (noeud g id).actif = false := by
        unfold noeud_existe at h2
        rw [if_neg h1] at h2
        simpa using h2
      have hvide := inv_compteurs_inactif g h id hact
      refine inv_compteurs_ecrire g _ h id ⟨id, nom.take (TAILLE_MAX_NOM - 1), true, []⟩
        (by omega) rfl rfl rfl ?_ ?_ (fun hc => rfl)
      · rw [hact]; simp
      · rw [hvide]

/-- The call `supprimer_arete` keeps the counters right. -/
theorem inv_compteurs_supprimer_arete (g : Graphe) (h : InvCompteurs g) (src dest : Nat) :
    InvCompteurs (supprimer_arete g src dest).1 := by
  unfold supprimer_arete
  by_cases h1 : noeud_existe g src = true
  · have h1b : (!noeud_existe g src) = false := by simp [h1]
    rw [h1b]
    simp only [Bool.false_eq_true, if_false]
    cases hr : retirer_premiere dest (aretes_de g src) with
    | none => exact h
    | some l =>
      obtain ⟨avant, a, apres, e1, _, _, e4⟩ := retirer_premiere_some dest _ l hr
      have hlen : ((noeud g src).aretes.length : Int) = (l.length : Int) + 1 := by
        unfold aretes_de at e1
        rw [e1, e4]
        simp; omega
      refine inv_compteurs_ecrire g _ h src { noeud g src with aretes := l }
        (noeud_existe_lt g src h1) rfl rfl rfl ?_ ?_ ?_
      · simp
      · show g.nb_aretes - 1 + ((noeud g src).aretes.length : Int) = g.nb_aretes + (l.length : Int)
        omega
      · intro hc
        exfalso
        have h3 : (noeud g src).actif = false := hc
        unfold noeud_existe at h1
        have := noeud_existe_lt g src (by unfold noeud_existe; exact h1)
        rw [if_neg (by omega)] at h1
        rw [h3] at h1
        exact Bool.noConfusion h1
  · have h1b : (!noeud_existe g src) = true := by simpa using h1
    rw [h1b]
    exact h

/-- The call `ajouter_arete` keeps the counters of a directed graph right. -/
theorem inv_compteurs_ajouter_arete (g : Graphe) (h : InvCompteurs g) (src dest : Nat)
    (latence bande_passante cout securite : Int) :
    ∃ g1 code, ajouter_arete 1 g src dest latence bande_passante cout securite =
      some (g1, code) ∧ InvCompteurs g1 := by
  unfold ajouter_arete
  by_cases h1 : (!noeud_existe g src || !noeud_existe g dest) = true
  · rw [if_pos h1]
    exact ⟨g, -1, rfl, h⟩
  · rw [if_neg h1]
    simp only [h.oriente, Bool.not_true, Bool.false_eq_true, if_false]
    refine ⟨_, 0, rfl, ?_⟩
    have hs : noeud_existe g src = true := by
      cases hq : noeud_existe g src with
      | true => rfl
      | false => rw [hq] at h1; simp at h1
    refine inv_compteurs_ecrire g _ h src
      { noeud g src with aretes := ⟨dest, latence, bande_passante, cout, securite⟩ ::
          (noeud g src).aretes }
      (noeud_existe_lt g src hs) rfl rfl h.oriente.symm ?_ ?_ ?_
    · simp
    · show g.nb_aretes + 1 + ((noeud g src).aretes.length : Int) =
        g.nb_aretes + (((⟨dest, latence, bande_passante, cout, securite⟩ : Arete) ::
          (noeud g src).aretes).length : Int)
      simp; omega
    · intro hc
      exfalso
      have h3 : (noeud g src).actif = false := hc
      unfold noeud_existe at hs
      have := noeud_existe_lt g src (by unfold noeud_existe; exact hs)
      rw [if_neg (by omega)] at hs
      rw [h3] at hs
      exact Bool.noConfusion hs

/-- The first loop of `supprimer_noeud` touches the edge counter and the
latency matrix only. -/
theorem vider_aretes_champs (id : Nat) (l : List Arete) : ∀ g : Graphe,
    (vider_aretes id l g).noeuds = g.noeuds ∧
    (vider_aretes id l g).capacite_max = g.capacite_max ∧
    (vider_aretes id l g).est_oriente = g.est_oriente ∧
    (vider_aretes id l g).nb_noeuds = g.nb_noeuds ∧
    (vider_aretes id l g).nb_aretes = g.nb_aretes - (l.length : Int) := by
  induction l with
  | nil => intro g; simp [vider_aretes]
  | cons a r ih =>
    intro g
    obtain ⟨h1, h2, h3, h4, h5⟩ := ih
      { g with
          matrice_latence := ecrire_matrice g.matrice_latence id a.destination INFINI
          nb_aretes := g.nb_aretes - 1 }
    unfold vider_aretes
    refine ⟨h1, h2, h3, h4, ?_⟩
    rw [h5]
    simp only [List.length_cons]
    push_cast
    omega

/-- The call `supprimer_arete` on the source `i` leaves the other slots, the
capacity and the node counter as they are. -/
theorem supprimer_arete_autre (g : Graphe) (i dest x : Nat) (hx : x ≠ i) :
    noeud (supprimer_arete g i dest).1 x = noeud g x ∧
    (supprimer_arete g i dest).1.capacite_max = g.capacite_max ∧
    (supprimer_arete g i dest).1.nb_noeuds = g.nb_noeuds := by
  unfold supprimer_arete
  split
  · exact ⟨rfl, rfl, rfl⟩
  · split
    · exact ⟨rfl, rfl, rfl⟩
    · exact ⟨noeud_set_autre g i x _ hx, rfl, rfl⟩

/-- The second loop of `supprimer_noeud` keeps the counters right and leaves
the slot `id`, the capacity and the node counter as they are. -/
theorem supprimer_entrantes_compteurs (id : Nat) (l : List Nat) : ∀ g : Graphe,
    InvCompteurs g →
    InvCompteurs (supprimer_entrantes id l g) ∧
    noeud (supprimer_entrantes id l g) id = noeud g id ∧
    (supprimer_entrantes id l g).capacite_max = g.capacite_max ∧
    (supprimer_entrantes id l g).nb_noeuds = g.nb_noeuds := by
  induction l with
  | nil => intro g h; exact ⟨h, rfl, rfl, rfl⟩
  | cons i r ih =>
    intro g h
    unfold supprimer_entrantes
    by_cases hc : ((noeud g i).actif && i != id) = true
    · rw [if_pos hc]
      have hne : id ≠ i := by
        intro he
        subst he
        simp at hc
      obtain ⟨a1, a2, a3⟩ := supprimer_arete_autre g i id id hne
      obtain ⟨b1, b2, b3, b4⟩ := ih _ (inv_compteurs_supprimer_arete g h i id)
      exact ⟨b1, by rw [b2, a1], by rw [b3, a2], by rw [b4, a3]⟩
    · rw [if_neg hc]
      exact ih g h

/-- The call `supprimer_noeud` keeps the counters right. -/
theorem inv_compteurs_supprimer_noeud (g : Graphe) (h : InvCompteurs g) (id : Nat) :
    InvCompteurs (supprimer_noeud g id).1 := by
  unfold supprimer_noeud
  by_cases h1 : noeud_existe g id = true
  · have h1b : (!noeud_existe g id) = false := by simp [h1]
    rw [h1b]
    simp only [Bool.false_eq_true, if_false]
    have hid := noeud_existe_lt g id h1
    have hact : (noeud g id).actif = true := by
      unfold noeud_existe at h1
      rw [if_neg (by omega)] at h1
      exact h1
    obtain ⟨v1, v2, v3, v4, v5⟩ := vider_aretes_champs id (aretes_de g id) g
    have hn1 : noeud (vider_aretes id (aretes_de g id) g) id = noeud g id := by
      unfold noeud
      rw [v1]
    have hinv2 : InvCompteurs
        { vider_aretes id (aretes_de g id) g with
          noeuds := (vider_aretes id (aretes_de g id) g).noeuds.set id
            { noeud (vider_aretes id (aretes_de g id) g) id with aretes := [] } } := by
      refine inv_compteurs_ecrire g _ h id { noeud g id with aretes := [] } hid ?_ v2 v3 ?_ ?_ ?_
      · show (vider_aretes id (aretes_de g id) g).noeuds.set id _ = _
        rw [v1, hn1]
      · show (vider_aretes id (aretes_de g id) g).nb_noeuds + _ = _
        rw [v4]
      · show (vider_aretes id (aretes_de g id) g).nb_aretes + _ = _
        rw [v5]
        unfold aretes_de
        simp
      · intro _
        rfl
    obtain ⟨s1, s2, s3, s4⟩ := supprimer_entrantes_compteurs id
      (List.range (vider_aretes id (aretes_de g id) g).capacite_max) _ hinv2
    have hn2 : noeud
        { vider_aretes id (aretes_de g id) g with
          noeuds := (vider_aretes id (aretes_de g id) g).noeuds.set id
            { noeud (vider_aretes id (aretes_de g id) g) id with aretes := [] } } id =
        { noeud g id with aretes := [] } := by
      show ((vider_aretes id (aretes_de g id) g).noeuds.set id _).getD id noeud_vide = _
      rw [v1, hn1]
      exact noeud_set_meme g id _ (by rw [h.longueur]; exact hid)
    rw [hn2] at s2
    refine inv_compteurs_ecrire _ _ s1 id _ (by rw [s3]; exact lt_of_lt_of_eq hid v2.symm)
      rfl rfl rfl ?_ ?_ ?_
    · rw [s2]
      show _ - 1 + (if (noeud g id).actif = true then (1 : Int) else 0) = _ + _
      rw [hact]
      simp
    · rw [s2]
    · intro _
      show (noeud _ id).aretes = []
      rw [s2]
  · have h1b : (!noeud_existe g id) = true := by simpa using h1
    rw [h1b]
    exact h

/-- Every call keeps the counters right. -/
theorem inv_compteurs_modifier (g : Graphe) (h : InvCompteurs g) (m : Modification) :
    InvCompteurs (modifier g m) := by
  cases m with
  | ajout_noeud id nom => exact inv_compteurs_ajouter_noeud g h id nom
  | retrait_noeud id => exact inv_compteurs_supprimer_noeud g h id
  | ajout_arete src dest latence bande_passante cout securite =>
    obtain ⟨g1, code, e, h1⟩ :=
      inv_compteurs_ajouter_arete g h src dest latence bande_passante cout securite
    show InvCompteurs (match ajouter_arete 1 g src dest latence bande_passante cout securite with
      | some (g1, _) => g1
      | none => g)
    rw [e]
    exact h1
  | retrait_arete src dest => exact inv_compteurs_supprimer_arete g h src dest

/-- Every sequence of calls keeps the counters right. -/
theorem inv_compteurs_suite (ms : List Modification) : ∀ g : Graphe, InvCompteurs g →
    InvCompteurs (ms.foldl modifier g) := by
  induction ms with
  | nil => intro g h; exact h
  | cons m r ih =>
    intro g h
    rw [List.foldl_cons]
    exact ih _ (inv_compteurs_modifier g h m)

/-- C39: in every state of a directed graph built from `creer_graphe` by calls
of `ajouter_noeud`, `supprimer_noeud`, `ajouter_arete` and `supprimer_arete`,
`nb_noeuds` is the number of active slots, `nb_aretes` is the total number of
adjacency entries, and every inactive slot has an empty adjacency list. -/
theorem compteurs_etats_atteints (capacite_max : Nat) (ms : List Modification) :
    (construire capacite_max ms).nb_noeuds = (nombre_actifs (construire capacite_max ms) : Int) ∧
    (construire capacite_max ms).nb_aretes = (nombre_aretes (construire capacite_max ms) : Int) ∧
    ∀ n ∈ (construire capacite_max ms).noeuds, n.actif = false → n.aretes = [] := by
  have h := inv_compteurs_suite ms _ (inv_compteurs_creer capacite_max)
  exact ⟨h.noeuds, h.aretes, h.inactifs⟩

/-! ## K shortest paths: what every candidate keeps -/

/-- The splice loop of a candidate only appends nodes, and appends every node
of the spur path that the candidate lacks. -/
theorem epissure_forme (l : List Nat) : ∀ base : Chemin,
    ∃ ext, (List.foldl
        (fun cand s => if !chemin_contient cand s then ajouter_noeud_chemin cand s else cand)
        base l).noeuds = base.noeuds ++ ext ∧
      (∀ x ∈ ext, x ∈ l) ∧ ∀ x ∈ l, x ∈ base.noeuds ++ ext := by
  induction l with
  | nil => intro base; exact ⟨[], by simp, by simp, by simp⟩
  | cons x r ih =>
    intro base
    rw [List.foldl_cons]
    by_cases hc : chemin_contient base x = true
    · have e : (if (!chemin_contient base x) = true then ajouter_noeud_chemin base x else base) =
          base := by simp [hc]
      rw [e]
      obtain ⟨ext, h1, h2, h3⟩ := ih base
      refine ⟨ext, h1, fun y hy => List.mem_cons_of_mem _ (h2 y hy), ?_⟩
      intro y hy
      rcases List.mem_cons.mp hy with h | h
      · subst h
        have : y ∈ base.noeuds := by
          unfold chemin_contient at hc
          rw [List.any_eq_true] at hc
          obtain ⟨z, hz, hzy⟩ := hc
          have : z = y := by simpa using hzy
          subst this
          exact hz
        exact List.mem_append_left _ this
      · exact h3 y h
    · have e : (if (!chemin_contient base x) = true then ajouter_noeud_chemin base x else base) =
          ajouter_noeud_chemin base x := by simp [hc]
      rw [e]
      obtain ⟨ext, h1, h2, h3⟩ := ih (ajouter_noeud_chemin base x)
      have e2 : (ajouter_noeud_chemin base x).noeuds = base.noeuds ++ [x] := rfl
      rw [e2] at h1 h3
      refine ⟨x :: ext, by rw [h1]; simp, ?_, ?_⟩
      · intro y hy
        rcases List.mem_cons.mp hy with h | h
        · subst h; exact List.mem_cons_self _ _
        · exact List.mem_cons_of_mem _ (h2 y h)
      · intro y hy
        rcases List.mem_cons.mp hy with h | h
        · subst h; simp
        · have := h3 y h
          simpa using this

/-- The splice loop appends the whole spur path when the result holds no node
twice. -/
theorem epissure_sans_doublon (l : List Nat) : ∀ base : Chemin, (base.noeuds ++ l).Nodup →
    (List.foldl
      (fun cand s => if !chemin_contient cand s then ajouter_noeud_chemin cand s else cand)
      base l).noeuds = base.noeuds ++ l := by
  induction l with
  | nil => intro base _; simp
  | cons x r ih =>
    intro base hn
    rw [List.foldl_cons]
    have hx : x ∉ base.noeuds := by
      intro hm
      rw [List.nodup_append] at hn
      exact hn.2.2 hm (List.mem_cons_self _ _)
    have hc : chemin_contient base x = false := by
      unfold chemin_contient
      rw [Bool.eq_false_iff]
      intro h
      rw [List.any_eq_true] at h
      obtain ⟨z, hz, hzy⟩ := h
      have : z = x := by simpa using hzy
      subst this
      exact hx hz
    have e : (if (!chemin_contient base x) = true then ajouter_noeud_chemin base x else base) =
        ajouter_noeud_chemin base x := by simp [hc]
    rw [e]
    have e2 : (ajouter_noeud_chemin base x).noeuds = base.noeuds ++ [x] := rfl
    rw [ih (ajouter_noeud_chemin base x) (by rw [e2]; simpa using hn), e2]
    simp

/-- Nodes of a candidate. -/
theorem construire_candidat_noeuds (racine : List Nat) (p : Chemin) :
    (construire_candidat racine p).noeuds =
      (List.foldl
        (fun cand s => if !chemin_contient cand s then ajouter_noeud_chemin cand s else cand)
        (List.foldl ajouter_noeud_chemin creer_chemin racine) p.noeuds).noeuds := rfl

/-- A property of the candidates built from a reference path holds of every
candidate left by `generer_candidats`. -/
theorem generer_candidats_inv (fuel : Nat) (g : Graphe) (d : Nat) (Q : Chemin → Prop)
    (ref : List Nat)
    (hstep : ∀ racine spur reste p, ref = racine ++ spur :: reste → reste ≠ [] →
      dijkstra fuel g spur d = some (some p) → Q (construire_candidat racine p))
    (l : List Nat) :
    ∀ (racine : List Nat) (candidats r : List Chemin), ref = racine ++ l →
      (∀ c ∈ candidats, Q c) → generer_candidats fuel g d racine l candidats = some r →
      ∀ c ∈ r, Q c := by
  induction l with
  | nil =>
    intro racine candidats r _ hc hr
    simp only [generer_candidats] at hr
    cases hr
    exact hc
  | cons x reste ih =>
    intro racine candidats r href hc hr
    cases reste with
    | nil =>
      simp only [generer_candidats] at hr
      cases hr
      exact hc
    | cons y r2 =>
      have href2 : ref = (racine ++ [x]) ++ (y :: r2) := by rw [href]; simp
      unfold generer_candidats at hr
      cases hd : dijkstra fuel g x d with
      | none => rw [hd] at hr; cases hr
      | some o =>
        rw [hd] at hr
        cases o with
        | none => exact ih _ _ _ href2 hc hr
        | some p =>
          refine ih _ _ _ href2 ?_ hr
          intro c hcm
          rcases List.mem_cons.mp hcm with h | h
          · rw [h]
            exact hstep racine x (y :: r2) p href (by simp) hd
          · exact hc c h

/-- The candidates given to `generer_candidats` stay in its result. -/
theorem generer_candidats_garde (fuel : Nat) (g : Graphe) (d : Nat) (l : List Nat) :
    ∀ (racine : List Nat) (candidats r : List Chemin),
      generer_candidats fuel g d racine l candidats = some r → ∃ ext, r = ext ++ candidats := by
  induction l with
  | nil =>
    intro racine candidats r hr
    simp only [generer_candidats] at hr
    cases hr
    exact ⟨[], rfl⟩
  | cons x reste ih =>
    intro racine candidats r hr
    cases reste with
    | nil =>
      simp only [generer_candidats] at hr
      cases hr
      exact ⟨[], rfl⟩
    | cons y r2 =>
      unfold generer_candidats at hr
      cases hd : dijkstra fuel g x d with
      | none => rw [hd] at hr; cases hr
      | some o =>
        rw [hd] at hr
        cases o with
        | none => exact ih _ _ _ hr
        | some p =>
          obtain ⟨ext, he⟩ := ih _ _ _ hr
          exact ⟨ext ++ [construire_candidat racine p], by rw [he]; simp⟩

/-- The element read at a position of a list is the default or a member. -/
theorem getD_dans (l : List Chemin) (i : Nat) (c : Chemin) : l.getD i c = c ∨ l.getD i c ∈ l := by
  by_cases h : i < l.length
  · right
    rw [List.getD_eq_getElem _ _ h]
    exact List.getElem_mem _
  · left
    exact List.getD_eq_default _ _ (Nat.le_of_not_lt h)

/-- A property kept by the construction of candidates holds of every path
returned by the loop of `k_plus_courts_chemins`. -/
theorem kpc_boucle_inv (fuel : Nat) (g : Graphe) (d : Nat) (Q : Chemin → Prop)
    (hQ : ∀ ref, Q ref → ∀ racine spur reste p, ref.noeuds = racine ++ spur :: reste →
      reste ≠ [] → dijkstra fuel g spur d = some (some p) → Q (construire_candidat racine p))
    (n : Nat) :
    ∀ (liste : List Chemin) (q : Chemin) (cands r : List Chemin), (∀ c ∈ liste, Q c) → Q q →
      (∀ c ∈ cands, Q c) → kpc_boucle fuel g d n liste q cands = some r → ∀ c ∈ r, Q c := by
  induction n with
  | zero =>
    intro liste q cands r hl _ _ hr
    simp only [kpc_boucle] at hr
    cases hr
    exact hl
  | succ m ih =>
    intro liste q cands r hl hq hc hr
    unfold kpc_boucle at hr
    cases hg : generer_candidats fuel g d [] q.noeuds cands with
    | none => rw [hg] at hr; cases hr
    | some cs0 =>
      rw [hg] at hr
      have hall := generer_candidats_inv fuel g d Q q.noeuds (hQ q hq) q.noeuds [] cands cs0
        (by simp) hc hg
      cases cs0 with
      | nil =>
        simp only at hr
        cases hr
        exact hl
      | cons c0 cs =>
        simp only at hr
        have hm : Q ((c0 :: cs).getD (position_meilleur c0 0 1 cs) c0) := by
          rcases getD_dans (c0 :: cs) (position_meilleur c0 0 1 cs) c0 with h | h
          · rw [h]; exact hall c0 (List.mem_cons_self _ _)
          · exact hall _ h
        refine ih _ _ _ r ?_ hm ?_ hr
        · intro c hcm
          rcases List.mem_append.mp hcm with h | h
          · exact hl c h
          · have : c = (c0 :: cs).getD (position_meilleur c0 0 1 cs) c0 := by simpa using h
            rw [this]; exact hm
        · intro c hcm
          exact hall c ((List.eraseIdx_subset _ _) hcm)

/-! ## K shortest paths: the number of paths -/

/-- A path is returned by `dijkstra` between active nodes only. -/
theorem dijkstra_some_actifs (fuel : Nat) (g : Graphe) (s d : Nat) (p : Chemin)
    (h : dijkstra fuel g s d = some (some p)) :
    noeud_existe g s = true ∧ noeud_existe g d = true := by
  unfold dijkstra at h
  cases hs : noeud_existe g s with
  | false => rw [hs] at h; simp at h
  | true =>
    cases hd : noeud_existe g d with
    | false => rw [hs, hd] at h; simp at h
    | true => exact ⟨rfl, rfl⟩

/-- The path returned by `dijkstra` is the node sequence of a walk whose
accumulated latency is minimal. -/
theorem dijkstra_chemin_forme (g : Graphe) (hb : bien_forme g) (hp : latences_positives g)
    (fuel s d : Nat) (hfuel : carburant g ≤ fuel) (p : Chemin)
    (h : dijkstra fuel g s d = some (some p)) :
    ∃ es, (est_marche g s es ∧ extremite s es = d ∧
        ∀ es2, est_marche g s es2 → extremite s es2 = d → cumul 0 es ≤ cumul 0 es2) ∧
      p.noeuds = sommets s es ∧ p.latence_totale = cumul 0 es := by
  obtain ⟨hs, hd⟩ := dijkstra_some_actifs fuel g s d p h
  obtain ⟨dist, pred, hinv, hsat, hr⟩ := dijkstra_resultat g hb hp s d hs hd fuel hfuel
  rcases hr with ⟨_, h2⟩ | ⟨_, q, es, h2, e1, e2, e3, e4, e5, _⟩
  · rw [h] at h2; cases h2
  · rw [h] at h2
    have hpq : p = q := by
      have := Option.some.inj h2
      exact Option.some.inj this
    subst hpq
    refine ⟨es, ⟨e1, e2, ?_⟩, e3, e4⟩
    intro es2 m1 m2
    have := sature_minimal g hp s dist pred hinv hsat es2 m1
    rw [m2] at this
    omega

/-- When some walk from `s` to `d` has a total latency below `2 ^ 24`, the path
returned by `dijkstra` is the node sequence of a walk of minimal total
latency, and its `latence_totale` is that total. -/
theorem dijkstra_chemin_exact (g : Graphe) (hb : bien_forme g) (hp : latences_positives g)
    (fuel s d : Nat) (hfuel : carburant g ≤ fuel) (p : Chemin)
    (h : dijkstra fuel g s d = some (some p)) (es0 : List Arete) (h0 : est_marche g s es0)
    (h1 : extremite s es0 = d) (h2 : poids es0 < 2 ^ 24) :
    ∃ es, marche_minimale g s d es ∧ p.noeuds = sommets s es ∧ p.latence_totale = poids es := by
  obtain ⟨es, ⟨e1, e2, e3⟩, e4, e5⟩ := dijkstra_chemin_forme g hb hp fuel s d hfuel p h
  have c0 := (cumul_poids g hp es0 s h0).1 h2
  have c1 := e3 es0 h0 h1
  have hlt : poids es < 2 ^ 24 := by
    by_contra hc
    have := (cumul_poids g hp es s e1).2 (by omega)
    omega
  have c2 := (cumul_poids g hp es s e1).1 hlt
  refine ⟨es, ⟨e1, e2, ?_⟩, e4, by rw [e5, c2]⟩
  intro es2 m1 m2
  have c3 := e3 es2 m1 m2
  by_cases hs2 : poids es2 < 2 ^ 24
  · have := (cumul_poids g hp es2 s m1).1 hs2
    omega
  · omega

/-- The end of a walk is one of its nodes. -/
theorem extremite_dans_sommets (es : List Arete) : ∀ u, extremite u es ∈ sommets u es := by
  induction es with
  | nil => intro u; simp [extremite, sommets]
  | cons a r ih =>
    intro u
    have := ih a.destination
    simp only [extremite, sommets, List.map_cons] at this ⊢
    exact List.mem_cons_of_mem _ this

/-- A candidate built from a reference path that starts at `s` starts at `s`
and holds `d`. -/
theorem relie_extremites_candidat (g : Graphe) (hb : bien_forme g) (hp : latences_positives g)
    (fuel s d : Nat) (hfuel : carburant g ≤ fuel) (ref : Chemin)
    (href : relie_extremites s d ref) (racine : List Nat) (spur : Nat) (reste : List Nat)
    (p : Chemin) (hn : ref.noeuds = racine ++ spur :: reste)
    (hd : dijkstra fuel g spur d = some (some p)) :
    relie_extremites s d (construire_candidat racine p) := by
  obtain ⟨es, ⟨_, e2, _⟩, e3, _⟩ := dijkstra_chemin_forme g hb hp fuel spur d hfuel p hd
  obtain ⟨ext, f1, f2, f3⟩ := epissure_forme p.noeuds
    (List.foldl ajouter_noeud_chemin creer_chemin racine)
  have hbase : (List.foldl ajouter_noeud_chemin creer_chemin racine).noeuds = racine := by
    rw [foldl_ajouter_noeuds]; rfl
  rw [hbase] at f1 f3
  have hdm : d ∈ p.noeuds := by
    have := extremite_dans_sommets es spur
    rw [e2, ← e3] at this
    exact this
  constructor
  · rw [construire_candidat_noeuds, f1]
    cases racine with
    | nil =>
      have h1 : ref.noeuds.head? = some spur := by rw [hn]; rfl
      have h2 : spur = s := by
        rw [href.1] at h1
        exact (Option.some.inj h1).symm
      have h3 : spur ∈ ([] : List Nat) ++ ext := f3 spur (by rw [e3]; exact List.mem_cons_self _ _)
      rw [List.nil_append] at h3 ⊢
      cases ext with
      | nil => cases h3
      | cons y ext2 =>
        have h4 : y ∈ p.noeuds := f2 y (List.mem_cons_self _ _)
        -- the first node appended is the head of the spur path
        have h5 : (List.foldl
            (fun cand s => if !chemin_contient cand s then ajouter_noeud_chemin cand s else cand)
            (List.foldl ajouter_noeud_chemin creer_chemin []) p.noeuds).noeuds.head? =
            some spur := by
          rw [e3]
          unfold sommets
          rw [List.foldl_cons]
          obtain ⟨ext3, g1, _, _⟩ := epissure_forme (es.map Arete.destination)
            (if (!chemin_contient (List.foldl ajouter_noeud_chemin creer_chemin []) spur) = true
              then ajouter_noeud_chemin (List.foldl ajouter_noeud_chemin creer_chemin []) spur
              else List.foldl ajouter_noeud_chemin creer_chemin [])
          rw [g1]
          rfl
        rw [f1] at h5
        rw [← h2]
        exact h5
    | cons a r =>
      have h1 : ref.noeuds.head? = some a := by rw [hn]; rfl
      rw [href.1] at h1
      rw [← Option.some.inj h1]
      rfl
  · rw [construire_candidat_noeuds, f1]
    exact f3 d hdm

/-- With a path found from `s` to `d` and `s ≠ d`, every turn of the loop of
`k_plus_courts_chemins` finds a candidate: the loop adds exactly one path per
turn. -/
theorem kpc_boucle_exact (g : Graphe) (hb : bien_forme g) (hp : latences_positives g)
    (fuel s d : Nat) (hfuel : carburant g ≤ fuel) (hsd : s ≠ d) (p1 : Chemin)
    (h1 : dijkstra fuel g s d = some (some p1)) (n : Nat) :
    ∀ (liste : List Chemin) (q : Chemin) (cands : List Chemin), relie_extremites s d q →
      (∀ c ∈ cands, relie_extremites s d c) →
      ∃ suite, kpc_boucle fuel g d n liste q cands = some (liste ++ suite) ∧
        suite.length = n := by
  induction n with
  | zero => intro liste q c _ _; exact ⟨[], by simp [kpc_boucle], rfl⟩
  | succ m ih =>
    intro liste q cands hq hc
    obtain ⟨r, hr⟩ := generer_candidats_total g hb hp fuel d hfuel q.noeuds [] cands
    have hall := generer_candidats_inv fuel g d (relie_extremites s d) q.noeuds
      (fun racine spur reste p e _ hd =>
        relie_extremites_candidat g hb hp fuel s d hfuel q hq racine spur reste p e hd)
      q.noeuds [] cands r (by simp) hc hr
    have hne : r ≠ [] := by
      obtain ⟨hq1, hq2⟩ := hq
      cases hqn : q.noeuds with
      | nil => rw [hqn] at hq2; cases hq2
      | cons x l1 =>
        rw [hqn] at hq1 hq2
        have hx : x = s := by simpa using hq1
        subst hx
        cases l1 with
        | nil =>
          exfalso
          have : d = x := by simpa using hq2
          exact hsd this.symm
        | cons y l2 =>
          rw [hqn] at hr
          unfold generer_candidats at hr
          rw [h1] at hr
          obtain ⟨ext, he⟩ := generer_candidats_garde fuel g d _ _ _ _ hr
          rw [he]
          simp
    unfold kpc_boucle
    rw [hr]
    cases r with
    | nil => exact absurd rfl hne
    | cons c0 cs =>
      have hm : relie_extremites s d ((c0 :: cs).getD (position_meilleur c0 0 1 cs) c0) := by
        rcases getD_dans (c0 :: cs) (position_meilleur c0 0 1 cs) c0 with h | h
        · rw [h]; exact hall c0 (List.mem_cons_self _ _)
        · exact hall _ h
      obtain ⟨suite, e1, e2⟩ := ih
        (liste ++ [(c0 :: cs).getD (position_meilleur c0 0 1 cs) c0])
        ((c0 :: cs).getD (position_meilleur c0 0 1 cs) c0)
        ((c0 :: cs).eraseIdx (position_meilleur c0 0 1 cs)) hm
        (fun c hcm => hall c ((List.eraseIdx_subset _ _) hcm))
      refine ⟨(c0 :: cs).getD (position_meilleur c0 0 1 cs) c0 :: suite, ?_, ?_⟩
      · simp only
        rw [e1]
        simp
      · simp only [List.length_cons]
        omega

/-- C36 (amended): on a graph with non-negative latencies, between an active
source and an active destination that differ, when some walk from the source
to the destination has a latency, accumulated edge by edge from the source in
binary32, below `INFINI`, and for `k >= 1`, `k_plus_courts_chemins` returns
exactly `k` paths. -/
theorem k_plus_courts_chemins_nombre (g : Graphe) (source destination fuel : Nat) (k : Int)
    (hb : bien_forme g) (hp : latences_positives g) (hfuel : carburant g ≤ fuel)
    (hs : noeud_existe g source = true) (hd : noeud_existe g destination = true)
    (hsd : source ≠ destination) (hk : 1 ≤ k)
    (hacc : ∃ es, est_marche g source es ∧ extremite source es = destination ∧
      cumul 0 es < INFINI) :
    ∃ l, k_plus_courts_chemins fuel g source destination k = some l ∧ (l.length : Int) = k := by
  obtain ⟨es, m1, m2, m3⟩ := hacc
  obtain ⟨dist, pred, hinv, hsat, hr⟩ :=
    dijkstra_resultat g hb hp source destination hs hd fuel hfuel
  have hmin := sature_minimal g hp source dist pred hinv hsat es m1
  rw [m2] at hmin
  rcases hr with ⟨h1, _⟩ | ⟨_, p, es1, h2, e1, e2, e3, _, _, _⟩
  · omega
  · have hq : relie_extremites source destination p := by
      constructor
      · rw [e3]; rfl
      · have := extremite_dans_sommets es1 source
        rw [e2, ← e3] at this
        exact this
    obtain ⟨suite, f1, f2⟩ := kpc_boucle_exact g hb hp fuel source destination hfuel hsd p h2
      (k - 1).toNat [p] p [] hq (fun c hc => by cases hc)
    refine ⟨[p] ++ suite, ?_, ?_⟩
    · unfold k_plus_courts_chemins
      rw [if_neg (by omega), h2]
      exact f1
    · simp only [List.length_append, List.length_singleton]
      have : ((k - 1).toNat : Int) = k - 1 := Int.toNat_of_nonneg (by omega)
      push_cast
      rw [f2, this]
      omega

/-- Instance of C36 on the chain `0 -> 1 -> 2` with `k = 3`. -/
theorem k_plus_courts_chemins_nombre_witness :
    (bien_forme g_chaine3 ∧ latences_positives g_chaine3 ∧ carburant g_chaine3 ≤ 10 ∧
      noeud_existe g_chaine3 0 = true ∧ noeud_existe g_chaine3 2 = true ∧ (0 : Nat) ≠ 2 ∧
      (1 : Int) ≤ 3 ∧
      est_marche g_chaine3 0 [⟨1, 1, 10, 1, 5⟩, ⟨2, 1, 10, 1, 5⟩] ∧
      extremite 0 [⟨1, 1, 10, 1, 5⟩, ⟨2, 1, 10, 1, 5⟩] = 2 ∧
      cumul 0 [⟨1, 1, 10, 1, 5⟩, ⟨2, 1, 10, 1, 5⟩] < INFINI) ∧
    ∃ l, k_plus_courts_chemins 10 g_chaine3 0 2 3 = some l ∧ (l.length : Int) = 3 :=
  ⟨by decide,
    k_plus_courts_chemins_nombre g_chaine3 0 2 10 3 (by decide) (by decide) (by decide)
      (by decide) (by decide) (by decide) (by decide)
      ⟨[⟨1, 1, 10, 1, 5⟩, ⟨2, 1, 10, 1, 5⟩], by decide, by decide, by decide⟩⟩

/-- C36 as stated fails, in two ways. On `g_infini` the latencies are
non-negative, nodes 0 and 1 are active and differ, node 1 is reached from node
0 by the edge `0 -> 1`, and for `k = 1` the list returned is empty: the
latency of that edge is the sentinel `INFINI`. On `g_plafond` the active node
2 is reached from the active node 0 by a walk of total latency below `INFINI`,
and for `k = 1` the list returned is empty: added in binary32, the two
latencies of that walk give `INFINI`. -/
theorem k_plus_courts_chemins_nombre_contre_exemple :
    (bien_forme g_infini ∧ latences_positives g_infini ∧
      noeud_existe g_infini 0 = true ∧ noeud_existe g_infini 1 = true ∧
      est_marche g_infini 0 [⟨1, INFINI, 10, 1, 5⟩] ∧ extremite 0 [⟨1, INFINI, 10, 1, 5⟩] = 1 ∧
      k_plus_courts_chemins 4 g_infini 0 1 1 = some []) ∧
    (bien_forme g_plafond ∧ latences_positives g_plafond ∧
      noeud_existe g_plafond 0 = true ∧ noeud_existe g_plafond 2 = true ∧
      est_marche g_plafond 0 [⟨1, 340282326356119256160033759537265639424, 10, 1, 5⟩,
        ⟨2, 15211807202738752817960438464512, 10, 1, 5⟩] ∧
      extremite 0 [⟨1, 340282326356119256160033759537265639424, 10, 1, 5⟩,
        ⟨2, 15211807202738752817960438464512, 10, 1, 5⟩] = 2 ∧
      poids [⟨1, 340282326356119256160033759537265639424, 10, 1, 5⟩,
        ⟨2, 15211807202738752817960438464512, 10, 1, 5⟩] < INFINI ∧
      carburant g_plafond ≤ 10 ∧
      k_plus_courts_chemins 10 g_plafond 0 2 1 = some []) := by
  decide

/-! ## K shortest paths: every path is a shortest path -/

/-- Strictly positive latencies are non-negative. -/
theorem latences_strictes_positives (g : Graphe) (h : latences_strictes g) :
    latences_positives g :=
  fun n hn a ha => le_of_lt (h n hn a ha)

/-- A node of a walk ends a prefix of the walk. -/
theorem sommets_decoupe (es : List Arete) : ∀ u x, x ∈ sommets u es →
    ∃ e1 e2, es = e1 ++ e2 ∧ extremite u e1 = x := by
  induction es with
  | nil =>
    intro u x hx
    have : x = u := by simpa [sommets] using hx
    exact ⟨[], [], rfl, this.symm⟩
  | cons a r ih =>
    intro u x hx
    simp only [sommets, List.map_cons, List.mem_cons] at hx
    rcases hx with h | h
    · exact ⟨[], a :: r, rfl, h.symm⟩
    · obtain ⟨e1, e2, h1, h2⟩ := ih a.destination x (by
        simp only [sommets, List.mem_cons]
        exact h)
      exact ⟨a :: e1, e2, by rw [h1]; rfl, h2⟩

/-- The rest of a walk of minimal latency, after its first edge, is a walk of
minimal latency. -/
theorem marche_minimale_suite (g : Graphe) (s d : Nat) (a : Arete) (r : List Arete)
    (h : marche_minimale g s d (a :: r)) : marche_minimale g a.destination d r := by
  obtain ⟨h1, h2, h3⟩ := h
  refine ⟨h1.2, h2, ?_⟩
  intro es2 m1 m2
  have := h3 (a :: es2) ⟨h1.1, m1⟩ m2
  rw [poids_cons, poids_cons] at this
  omega

/-- With strictly positive latencies, a walk of minimal latency passes through
no node twice. -/
theorem marche_minimale_sans_doublon (g : Graphe) (hs : latences_strictes g)
    (es : List Arete) : ∀ s d, marche_minimale g s d es → (sommets s es).Nodup := by
  induction es with
  | nil => intro s d _; simp [sommets]
  | cons a r ih =>
    intro s d h
    have hr := ih a.destination d (marche_minimale_suite g s d a r h)
    obtain ⟨h1, h2, h3⟩ := h
    show (s :: sommets a.destination r).Nodup
    refine List.nodup_cons.mpr ⟨?_, hr⟩
    intro hmem
    obtain ⟨e1, e2, f1, f2⟩ := sommets_decoupe r a.destination s hmem
    have hm2 := h1.2
    rw [f1, est_marche_append, f2] at hm2
    have hext : extremite s e2 = d := by
      have := h2
      simp only [extremite] at this
      rw [f1, extremite_append, f2] at this
      exact this
    have := h3 e2 hm2.2 hext
    rw [poids_cons, f1, poids_append] at this
    have hpos := hs _ (arete_noeud_mem g s a h1.1).1 a h1.1
    have hp1 := poids_positif g (latences_strictes_positives g hs) e1 a.destination hm2.1
    omega

/-- Split of a walk at a node of its node sequence. -/
theorem sommets_scinde (racine : List Nat) : ∀ (es : List Arete) (s spur : Nat)
    (reste : List Nat), sommets s es = racine ++ spur :: reste →
    ∃ e1 e2, es = e1 ++ e2 ∧ sommets s e1 = racine ++ [spur] := by
  induction racine with
  | nil =>
    intro es s spur reste h
    have : s = spur := by
      simp only [sommets, List.nil_append] at h
      exact (List.cons.inj h).1
    exact ⟨[], es, rfl, by rw [this]; rfl⟩
  | cons x r ih =>
    intro es s spur reste h
    cases es with
    | nil =>
      exfalso
      simp only [sommets, List.map_nil, List.cons_append] at h
      have := (List.cons.inj h).2
      cases r <;> cases this
    | cons a es1 =>
      simp only [sommets, List.map_cons, List.cons_append] at h
      obtain ⟨h1, h2⟩ := List.cons.inj h
      obtain ⟨e1, e2, f1, f2⟩ := ih es1 a.destination spur reste h2
      refine ⟨a :: e1, e2, by rw [f1]; rfl, ?_⟩
      show s :: sommets a.destination e1 = x :: r ++ [spur]
      rw [f2, h1]
      rfl

/-- A candidate built from a shortest path is a shortest path, when the
shortest total latency is below `2 ^ 24`. -/
theorem chemin_minimal_candidat (g : Graphe) (hb : bien_forme g) (hs : latences_strictes g)
    (fuel s d : Nat) (hfuel : carburant g ≤ fuel) (es0 : List Arete)
    (h0 : est_marche g s es0) (h1 : extremite s es0 = d) (h2 : poids es0 < 2 ^ 24)
    (ref : Chemin)
    (href : chemin_minimal g s d ref) (racine : List Nat) (spur : Nat) (reste : List Nat)
    (p : Chemin) (hn : ref.noeuds = racine ++ spur :: reste)
    (hd : dijkstra fuel g spur d = some (some p)) :
    chemin_minimal g s d (construire_candidat racine p) := by
  have hp := latences_strictes_positives g hs
  obtain ⟨es, ⟨m1, m2, m3⟩, hes, _⟩ := href
  have hes0 := m3 es0 h0 h1
  rw [hes] at hn
  obtain ⟨e1, e2, f1, f2⟩ := sommets_scinde racine es s spur reste hn
  have hspur : extremite s e1 = spur := by
    have := sommets_dernier s e1
    rw [f2] at this
    simpa using this.symm
  rw [f1, est_marche_append, hspur] at m1
  rw [f1, extremite_append, hspur] at m2
  have hpe1 := poids_positif g hp e1 s m1.1
  rw [f1, poids_append] at hes0
  obtain ⟨ep, ⟨p1, p2, p3⟩, hep, _⟩ :=
    dijkstra_chemin_exact g hb hp fuel spur d hfuel p hd e2 m1.2 m2 (by omega)
  have hle := p3 e2 m1.2 m2
  have hmin : marche_minimale g s d (e1 ++ ep) := by
    refine ⟨?_, ?_, ?_⟩
    · rw [est_marche_append, hspur]
      exact ⟨m1.1, p1⟩
    · rw [extremite_append, hspur]
      exact p2
    · intro es2 n1 n2
      have := m3 es2 n1 n2
      rw [f1, poids_append] at this
      rw [poids_append]
      omega
  have hsom : sommets s (e1 ++ ep) = racine ++ sommets spur ep := by
    have : sommets s (e1 ++ ep) = sommets s e1 ++ ep.map Arete.destination := by
      simp [sommets]
    rw [this, f2]
    simp [sommets]
  have hnd := marche_minimale_sans_doublon g hs (e1 ++ ep) s d hmin
  have hbase : (List.foldl ajouter_noeud_chemin creer_chemin racine).noeuds = racine := by
    rw [foldl_ajouter_noeuds]; rfl
  have hcand : (construire_candidat racine p).noeuds = sommets s (e1 ++ ep) := by
    rw [construire_candidat_noeuds, epissure_sans_doublon p.noeuds _
      (by rw [hbase, hep, ← hsom]; exact hnd), hbase, hep, hsom]
  exact ⟨e1 ++ ep, hmin, hcand, by rw [hcand]; exact hnd⟩

/-- C35 (as amended): on a graph with strictly positive whole-number latencies
on which the destination, when it is reached from the source, is reached by a
walk of total latency below `2 ^ 24`, `k_plus_courts_chemins` returns, and
every path of its list is the node sequence of a walk of the graph from the
source to the destination that holds no node twice and whose total latency is
minimal among the walks from the source to the destination. -/
theorem k_plus_courts_chemins_minimaux (g : Graphe) (source destination fuel : Nat) (k : Int)
    (hb : bien_forme g) (hs : latences_strictes g) (hfuel : carburant g ≤ fuel)
    (hpetit : ∀ es, est_marche g source es → extremite source es = destination →
      ∃ es0, est_marche g source es0 ∧ extremite source es0 = destination ∧
        poids es0 < 2 ^ 24) :
    ∃ l, k_plus_courts_chemins fuel g source destination k = some l ∧
      ∀ p ∈ l, ∃ es, est_marche g source es ∧ extremite source es = destination ∧
        p.noeuds = sommets source es ∧ p.noeuds.Nodup ∧
        ∀ es2, est_marche g source es2 → extremite source es2 = destination →
          poids es ≤ poids es2 := by
  have hp := latences_strictes_positives g hs
  have hall : ∃ l, k_plus_courts_chemins fuel g source destination k = some l ∧
      ∀ p ∈ l, chemin_minimal g source destination p := by
    unfold k_plus_courts_chemins
    by_cases hk : k ≤ 0
    · rw [if_pos hk]
      exact ⟨[], rfl, fun p hp2 => by cases hp2⟩
    · rw [if_neg hk]
      obtain ⟨r, h2⟩ := dijkstra_total g hb hp source destination fuel hfuel
      rw [h2]
      cases r with
      | none => exact ⟨[], rfl, fun p hp2 => by cases hp2⟩
      | some p1 =>
        simp only
        obtain ⟨esc, ⟨c1, c2, _⟩, _, _⟩ :=
          dijkstra_chemin_forme g hb hp fuel source destination hfuel p1 h2
        obtain ⟨es0, z0, z1, z2⟩ := hpetit esc c1 c2
        obtain ⟨es, hm, hes, _⟩ :=
          dijkstra_chemin_exact g hb hp fuel source destination hfuel p1 h2 es0 z0 z1 z2
        have hq : chemin_minimal g source destination p1 :=
          ⟨es, hm, hes, by
            rw [hes]
            exact marche_minimale_sans_doublon g hs es source destination hm⟩
        obtain ⟨suite, h1, _⟩ := kpc_boucle_ok g hb hp fuel destination hfuel (k - 1).toNat
          [p1] p1 []
        refine ⟨_, h1, ?_⟩
        exact kpc_boucle_inv fuel g destination (chemin_minimal g source destination)
          (fun ref hr racine spur reste p e _ hd =>
            chemin_minimal_candidat g hb hs fuel source destination hfuel es0 z0 z1 z2 ref hr
              racine spur reste p e hd)
          (k - 1).toNat [p1] p1 [] _
          (fun c hc => by
            have : c = p1 := by simpa using hc
            rw [this]; exact hq)
          hq (fun c hc => by cases hc) h1
  obtain ⟨l, h1, h2⟩ := hall
  refine ⟨l, h1, ?_⟩
  intro p hpl
  obtain ⟨es, ⟨m1, m2, m3⟩, e1, e2⟩ := h2 p hpl
  exact ⟨es, m1, m2, e1, e2, m3⟩

/-- Two shortest paths on a diamond: `0 -> 1 -> 3` and `0 -> 2 -> 3` of
latency 2 each, and the edge `0 -> 3` of latency 5. -/
theorem g_losange_strict : bien_forme g_losange ∧ latences_strictes g_losange ∧
    carburant g_losange ≤ 12 := by
  refine ⟨by decide, ?_, by decide⟩
  intro n hn a ha
  have h : ∀ n ∈ g_losange.noeuds, ∀ a ∈ n.aretes, decide (0 < a.latence) = true := by decide
  exact of_decide_eq_true (h n hn a ha)

/-- Instance of C35 on the diamond `g_losange` with `k = 3`. -/
theorem k_plus_courts_chemins_minimaux_witness :
    (bien_forme g_losange ∧ latences_strictes g_losange ∧ carburant g_losange ≤ 12) ∧
    (est_marche g_losange 0 [⟨3, 5, 10, 1, 5⟩] ∧ extremite 0 [⟨3, 5, 10, 1, 5⟩] = 3 ∧
      poids [⟨3, 5, 10, 1, 5⟩] < 2 ^ 24) ∧
    ∃ l, k_plus_courts_chemins 12 g_losange 0 3 3 = some l ∧
      ∀ p ∈ l, ∃ es, est_marche g_losange 0 es ∧ extremite 0 es = 3 ∧
        p.noeuds = sommets 0 es ∧ p.noeuds.Nodup ∧
        ∀ es2, est_marche g_losange 0 es2 → extremite 0 es2 = 3 → poids es ≤ poids es2 :=
  ⟨g_losange_strict, by decide,
    k_plus_courts_chemins_minimaux g_losange 0 3 12 3 g_losange_strict.1 g_losange_strict.2.1
      g_losange_strict.2.2 (fun _ _ _ => ⟨[⟨3, 5, 10, 1, 5⟩], by decide⟩)⟩

/-- The walks of `g_choix` that visit the nodes 0, 1, 2, 3, 4 in that order are
the chain of four edges, of total latency `2 ^ 24 + 3`. -/
theorem g_choix_chaine (es : List Arete) (hm : est_marche g_choix 0 es)
    (he : sommets 0 es = [0, 1, 2, 3, 4]) : poids es = 16777219 := by
  have h0 : aretes_de g_choix 0 = [⟨4, 16777218, 10, 1, 5⟩, ⟨1, 16777216, 10, 1, 5⟩] := by decide
  have h1 : aretes_de g_choix 1 = [⟨2, 1, 10, 1, 5⟩] := by decide
  have h2 : aretes_de g_choix 2 = [⟨3, 1, 10, 1, 5⟩] := by decide
  have h3 : aretes_de g_choix 3 = [⟨4, 1, 10, 1, 5⟩] := by decide
  match es, hm, he with
  | [a, b, c, d], hm, he =>
    obtain ⟨ha, hb, hc, hd, _⟩ := hm
    simp only [sommets, List.map_cons, List.map_nil, List.cons.injEq, and_true, true_and] at he
    obtain ⟨e1, e2, e3, e4⟩ := he
    rw [e1] at hb
    rw [e2] at hc
    rw [e3] at hd
    rw [h0] at ha
    rw [h1] at hb
    rw [h2] at hc
    rw [h3] at hd
    simp only [List.mem_cons, List.mem_singleton, List.not_mem_nil, or_false] at ha hb hc hd
    subst hb hc hd
    rcases ha with ha | ha
    · subst ha
      simp at e1
    · subst ha
      simp [poids]
  | [], _, he => simp [sommets] at he
  | [_], _, he => simp [sommets] at he
  | [_, _], _, he => simp [sommets] at he
  | [_, _, _], _, he => simp [sommets] at he
  | _ :: _ :: _ :: _ :: _ :: _, _, he => simp [sommets] at he

/-- C35 as stated fails on `g_choix`, whose latencies are strictly positive:
for `k = 1` the list returned holds the path `[0, 1, 2, 3, 4]`, the chain of
total latency `2 ^ 24 + 3`, although the edge `0 -> 4` is a walk of total
latency `2 ^ 24 + 2`: added in binary32 from the source, the latencies of the
chain give `2 ^ 24`. -/
theorem k_plus_courts_chemins_minimaux_contre_exemple :
    bien_forme g_choix ∧ latences_strictes g_choix ∧ carburant g_choix ≤ 12 ∧
    k_plus_courts_chemins 12 g_choix 0 4 1 =
      some [⟨[0, 1, 2, 3, 4], 5, 16777216, 0, 0, 0⟩] ∧
    (∀ es, est_marche g_choix 0 es → sommets 0 es = [0, 1, 2, 3, 4] → poids es = 16777219) ∧
    est_marche g_choix 0 [⟨4, 16777218, 10, 1, 5⟩] ∧
    extremite 0 [⟨4, 16777218, 10, 1, 5⟩] = 4 ∧
    poids [⟨4, 16777218, 10, 1, 5⟩] = 16777218 := by
  refine ⟨by decide, ?_, by decide, by decide, g_choix_chaine, by decide, by decide, by decide⟩
  intro n hn a ha
  have h : ∀ n ∈ g_choix.noeuds, ∀ a ∈ n.aretes, decide (0 < a.latence) = true := by decide
  exact of_decide_eq_true (h n hn a ha)

/-! ## The constrained search finds the minimal latency -/

/-- Costs add up to a non-negative sum along a walk. -/
theorem cout_marche_positif (g : Graphe) (hc : couts_positifs g) (es : List Arete) (u : Nat)
    (h : est_marche g u es) : 0 ≤ cout_marche es := by
  induction es generalizing u with
  | nil => simp [cout_marche]
  | cons a r ih =>
    obtain ⟨h1, h2⟩ := h
    have h3 := hc _ (arete_noeud_mem g u a h1).1 a h1
    have h4 := ih a.destination h2
    simp only [cout_marche, List.map_cons, List.sum_cons] at h4 ⊢
    omega

theorem cout_marche_cons (a : Arete) (es : List Arete) :
    cout_marche (a :: es) = a.cout + cout_marche es := by
  simp [cout_marche]

theorem cumul_cout_cons (d : Int) (a : Arete) (es : List Arete) :
    cumul_cout d (a :: es) = cumul_cout (fadd d a.cout) es := rfl

/-- Along a walk of non-negative costs the accumulated cost does not
decrease. -/
theorem cumul_cout_croit (g : Graphe) (hc : couts_positifs g) (es : List Arete) (u : Nat)
    (d : Int) (hm : est_marche g u es) (hd : flottant d) : d ≤ cumul_cout d es := by
  induction es generalizing u d with
  | nil => exact le_refl _
  | cons a r ih =>
    obtain ⟨h1, h2⟩ := hm
    rw [cumul_cout_cons]
    have := fadd_croit d a.cout hd (hc _ (arete_noeud_mem g u a h1).1 a h1)
    have := ih _ _ h2 (fadd_flottant d a.cout)
    omega

/-- The end of a walk that is not empty is the destination of one of its
edges. -/
theorem extremite_destination (es : List Arete) : ∀ u, es ≠ [] →
    extremite u es ∈ es.map Arete.destination := by
  induction es with
  | nil => intro u h; exact absurd rfl h
  | cons a r ih =>
    intro u _
    by_cases hr : r = []
    · subst hr; simp [extremite]
    · have := ih a.destination hr
      simp only [extremite, List.map_cons]
      exact List.mem_cons_of_mem _ this

/-- From a marked node, the only way to go on to that very node is to stay. -/
theorem prolongement_sur_place (g : Graphe) (c : Contraintes) (d : Nat) (visite : Nat → Bool)
    (es : List Arete) (hv : visite d = true) (h : prolongement g c d visite d es) : es = [] := by
  by_contra hne
  obtain ⟨_, h2, _, h4⟩ := h
  have hm := extremite_destination es d hne
  rw [h2] at hm
  obtain ⟨a, ha, had⟩ := List.mem_map.mp hm
  have := (h4 a ha).1
  rw [had, hv] at this
  exact Bool.noConfusion this

/-- A way to go on from `x` through the edge `a` goes on from the destination
of `a` once it is marked. -/
theorem prolongement_descend (g : Graphe) (c : Contraintes) (d : Nat) (visite : Nat → Bool)
    (x : Nat) (a : Arete) (r : List Arete) (h : prolongement g c d visite x (a :: r)) :
    prolongement g c d (Function.update visite a.destination true) a.destination r := by
  obtain ⟨h1, h2, h3, h4⟩ := h
  simp only [List.map_cons, List.nodup_cons] at h3
  refine ⟨h1.2, h2, h3.2, ?_⟩
  intro b hb
  have hb2 := h4 b (List.mem_cons_of_mem _ hb)
  refine ⟨?_, hb2.2⟩
  have hne : b.destination ≠ a.destination := by
    intro he
    exact h3.1 (by rw [← he]; exact List.mem_map_of_mem _ hb)
  rw [Function.update_noteq hne]
  exact hb2.1

/-- A way to go on from the marked destination of an admitted edge `a` of `x`
gives a way to go on from `x`. -/
theorem prolongement_monte (g : Graphe) (c : Contraintes) (d : Nat) (visite : Nat → Bool)
    (x : Nat) (a : Arete) (r : List Arete) (ha : a ∈ aretes_de g x)
    (hv : visite a.destination = false) (he : noeud_exclu a.destination c = false)
    (hc : contrainte_respectee a c = true)
    (h : prolongement g c d (Function.update visite a.destination true) a.destination r) :
    prolongement g c d visite x (a :: r) := by
  obtain ⟨h1, h2, h3, h4⟩ := h
  have hdiff : ∀ b ∈ r, b.destination ≠ a.destination := by
    intro b hb heq
    have := (h4 b hb).1
    rw [heq, Function.update_same] at this
    exact Bool.noConfusion this
  refine ⟨⟨ha, h1⟩, h2, ?_, ?_⟩
  · simp only [List.map_cons, List.nodup_cons]
    refine ⟨?_, h3⟩
    intro hm
    obtain ⟨b, hb, hbd⟩ := List.mem_map.mp hm
    exact hdiff b hb hbd
  · intro b hb
    rcases List.mem_cons.mp hb with h5 | h5
    · subst h5
      exact ⟨hv, he, hc⟩
    · have hb2 := h4 b h5
      rw [Function.update_noteq (hdiff b h5)] at hb2
      exact hb2

/-- The loop of `backtrack_recursif` over the edges `l` of `x`: it returns and
accounts for every way to go on from `x` that starts with an edge of `l`. -/
theorem explorer_voisins_optimal (g : Graphe) (hp : latences_positives g) (c : Contraintes)
    (d k : Nat)
    (appel : ContextBacktrack → Nat → Int → Int → Int → Option ContextBacktrack)
    (happel : ∀ ctx n lat cout bw, non_visites g ctx.visite < k → ctx.visite n = true →
      flottant cout →
      ∃ ctx2, appel ctx n lat cout bw = some ctx2 ∧
        PostBacktrack g c d ctx n lat cout (fun _ => True) ctx2)
    (x : Nat) (lat cout bw : Int) (l : List Arete)
    (hl : ∀ a ∈ l, a ∈ aretes_de g x ∧ a.destination < g.capacite_max)
    (ctx : ContextBacktrack) (hk : non_visites g ctx.visite ≤ k) :
    ∃ ctx2, explorer_voisins c appel lat cout bw l ctx = some ctx2 ∧
      PostBacktrack g c d ctx x lat cout (fun es => ∃ a ∈ l, ∃ r, es = a :: r) ctx2 := by
  induction l generalizing ctx with
  | nil =>
    refine ⟨ctx, rfl, rfl, fun m hm => ⟨m, hm, le_refl _⟩, ?_, fun m2 hm2 => Or.inl ⟨m2, hm2, rfl⟩⟩
    intro es hP _ _
    obtain ⟨a, ha, _⟩ := hP
    cases ha
  | cons a r ih =>
    have hr : ∀ b ∈ r, b ∈ aretes_de g x ∧ b.destination < g.capacite_max :=
      fun b hb => hl b (List.mem_cons_of_mem _ hb)
    -- what the rest of the loop gives when the edge `a` is skipped
    have hsaute : (∀ r2, prolongement g c d ctx.visite x (a :: r2) →
        cumul_cout cout (a :: r2) ≤ c.cout_max_autorise →
        ∃ m, ctx.meilleur = some m ∧ m.latence_totale ≤ cumul lat (a :: r2)) →
        ∃ ctx2, explorer_voisins c appel lat cout bw r ctx = some ctx2 ∧
          PostBacktrack g c d ctx x lat cout (fun es => ∃ b ∈ a :: r, ∃ r2, es = b :: r2)
            ctx2 := by
      intro hcouv
      obtain ⟨ctx2, h1, h2⟩ := ih hr ctx hk
      refine ⟨ctx2, h1, h2.visite, h2.mono, ?_, ?_⟩
      · intro es hP hpro hcout
        obtain ⟨b, hb, r2, he⟩ := hP
        rcases List.mem_cons.mp hb with h3 | h3
        · subst h3
          subst he
          obtain ⟨m, hm1, hm2⟩ := hcouv r2 hpro hcout
          obtain ⟨m2, hm3, hm4⟩ := h2.mono m hm1
          exact ⟨m2, hm3, le_trans hm4 hm2⟩
        · exact h2.couvre es ⟨b, h3, r2, he⟩ hpro hcout
      · intro m2 hm2
        rcases h2.atteint m2 hm2 with h3 | ⟨es, ⟨b, hb, r2, he⟩, h4⟩
        · exact Or.inl h3
        · exact Or.inr ⟨es, ⟨b, List.mem_cons_of_mem _ hb, r2, he⟩, h4⟩
    unfold explorer_voisins
    simp only
    split
    · rename_i hcond
      simp only [Bool.and_eq_true, Bool.not_eq_true'] at hcond
      obtain ⟨⟨hvf, hex⟩, hcr⟩ := hcond
      split
      · rename_i hprune
        apply hsaute
        intro r2 hpro _
        cases hm : ctx.meilleur with
        | none => rw [hm] at hprune; exact Bool.noConfusion hprune
        | some m =>
          rw [hm] at hprune
          simp only [decide_eq_true_eq] at hprune
          refine ⟨m, rfl, ?_⟩
          have := cumul_croit g hp r2 a.destination (fadd lat a.latence) hpro.1.2
            (fadd_flottant lat a.latence)
          rw [cumul_cons]
          omega
      · have hnv := non_visites_marquer g ctx.visite a.destination
          (hl a (List.mem_cons_self _ _)).2 hvf
        obtain ⟨ctx3, h1, h2⟩ := happel
          { ctx with
              visite := Function.update ctx.visite a.destination true
              courant := ajouter_noeud_chemin ctx.courant a.destination }
          a.destination (fadd lat a.latence) (fadd cout a.cout)
          (if bw < a.bande_passante then bw else a.bande_passante)
          (by show non_visites g (Function.update ctx.visite a.destination true) < k; omega)
          (by show Function.update ctx.visite a.destination true a.destination = true
              rw [Function.update_same])
          (fadd_flottant cout a.cout)
        rw [h1]
        simp only
        have h3 : Function.update ctx3.visite a.destination false = ctx.visite := by
          rw [h2.visite]
          show Function.update (Function.update ctx.visite a.destination true)
            a.destination false = ctx.visite
          rw [Function.update_idem, ← hvf, Function.update_eq_self]
        obtain ⟨ctx4, h4, h5⟩ := ih hr
          { ctx3 with visite := Function.update ctx3.visite a.destination false }
          (by show non_visites g (Function.update ctx3.visite a.destination false) ≤ k
              rw [h3]; exact hk)
        have h5v : ({ ctx3 with visite := Function.update ctx3.visite a.destination false } :
            ContextBacktrack).visite = ctx.visite := h3
        refine ⟨ctx4, h4, ?_, ?_, ?_, ?_⟩
        · rw [h5.visite]; exact h3
        · intro m hm
          obtain ⟨m3, e1, e2⟩ := h2.mono m hm
          obtain ⟨m4, e3, e4⟩ := h5.mono m3 e1
          exact ⟨m4, e3, le_trans e4 e2⟩
        · intro es hP hpro hcout
          obtain ⟨b, hb, r2, he⟩ := hP
          rcases List.mem_cons.mp hb with h6 | h6
          · subst h6
            subst he
            have hd := prolongement_descend g c d ctx.visite x b r2 hpro
            rw [cumul_cout_cons] at hcout
            obtain ⟨m3, e1, e2⟩ := h2.couvre r2 trivial hd hcout
            obtain ⟨m4, e3, e4⟩ := h5.mono m3 e1
            refine ⟨m4, e3, ?_⟩
            rw [cumul_cons]
            omega
          · have := h5.couvre es ⟨b, h6, r2, he⟩ (by rw [h5v]; exact hpro) hcout
            exact this
        · intro m4 hm4
          rcases h5.atteint m4 hm4 with ⟨m3, e1, e2⟩ | ⟨es, ⟨b, hb, r2, he⟩, e3, e4⟩
          · rcases h2.atteint m3 e1 with ⟨m, f1, f2⟩ | ⟨es, _, f3, f4, f5⟩
            · exact Or.inl ⟨m, f1, by rw [f2, e2]⟩
            · refine Or.inr ⟨a :: es, ⟨a, List.mem_cons_self _ _, es, rfl⟩,
                prolongement_monte g c d ctx.visite x a es (hl a (List.mem_cons_self _ _)).1
                  hvf hex hcr f3, ?_, ?_⟩
              · rw [cumul_cout_cons]; exact f4
              · rw [cumul_cons, ← e2, f5]
          · refine Or.inr ⟨es, ⟨b, List.mem_cons_of_mem _ hb, r2, he⟩, ?_, e4⟩
            rw [h5v] at e3
            exact e3
    · rename_i hcond
      apply hsaute
      intro r2 hpro _
      exfalso
      have h1 := hpro.2.2.2 a (List.mem_cons_self _ _)
      apply hcond
      simp only [Bool.and_eq_true, Bool.not_eq_true']
      exact ⟨⟨h1.1, h1.2.1⟩, h1.2.2⟩

/-- A call of `backtrack_recursif` on a marked node `x`, without required
nodes and with non-negative latencies and costs: it returns and accounts for
every way to go on from `x`. -/
theorem backtrack_recursif_optimal (g : Graphe) (hb : bien_forme g)
    (hp : latences_positives g) (hc : couts_positifs g) (c : Contraintes)
    (hob : c.noeuds_oblgatoires = []) (d : Nat) (fuel : Nat) :
    ∀ (ctx : ContextBacktrack) (x : Nat) (lat cout bw : Int),
      non_visites g ctx.visite < fuel → ctx.visite x = true → flottant cout →
      ∃ ctx2, backtrack_recursif g c d fuel ctx x lat cout bw = some ctx2 ∧
        PostBacktrack g c d ctx x lat cout (fun _ => True) ctx2 := by
  induction fuel with
  | zero => intro ctx x lat cout bw h; omega
  | succ k ih =>
    intro ctx x lat cout bw hfuel hx hfc
    unfold backtrack_recursif
    split
    · rename_i hbudget
      refine ⟨ctx, rfl, rfl, fun m hm => ⟨m, hm, le_refl _⟩, ?_,
        fun m2 hm2 => Or.inl ⟨m2, hm2, rfl⟩⟩
      intro es _ hpro hcout
      have := cumul_cout_croit g hc es x cout hpro.1 hfc
      omega
    · rename_i hbudget
      split
      · rename_i hxd
        subst hxd
        have htous : tous_obligatoires_visites ctx.courant c = true := by
          unfold tous_obligatoires_visites
          rw [hob]
          rfl
        rw [htous]
        simp only [Bool.not_true, Bool.false_eq_true, if_false]
        split
        · rename_i hmieux
          refine ⟨_, rfl, rfl, ?_, ?_, ?_⟩
          · intro m hm
            rw [hm] at hmieux
            simp only [decide_eq_true_eq] at hmieux
            exact ⟨_, rfl, le_of_lt hmieux⟩
          · intro es _ hpro _
            have := prolongement_sur_place g c x ctx.visite es hx hpro
            subst this
            exact ⟨_, rfl, le_refl _⟩
          · intro m2 hm2
            right
            refine ⟨[], trivial, ⟨trivial, rfl, List.nodup_nil, fun a ha => by cases ha⟩, ?_, ?_⟩
            · show cout ≤ c.cout_max_autorise
              omega
            · have := Option.some.inj hm2
              rw [← this]
              rfl
        · rename_i hmieux
          refine ⟨ctx, rfl, rfl, fun m hm => ⟨m, hm, le_refl _⟩, ?_,
            fun m2 hm2 => Or.inl ⟨m2, hm2, rfl⟩⟩
          intro es _ hpro _
          have := prolongement_sur_place g c x ctx.visite es hx hpro
          subst this
          cases hm : ctx.meilleur with
          | none => rw [hm] at hmieux; exact absurd rfl hmieux
          | some m =>
            rw [hm] at hmieux
            simp only [decide_eq_true_eq] at hmieux
            exact ⟨m, rfl, by show m.latence_totale ≤ lat; omega⟩
      · rename_i hxd
        obtain ⟨ctx2, h1, h2⟩ := explorer_voisins_optimal g hp c d k
          (backtrack_recursif g c d k) (fun ctx3 n3 lat3 cout3 bw3 h3 h4 h5 =>
            ih ctx3 n3 lat3 cout3 bw3 h3 h4 h5)
          x lat cout bw (aretes_de g x)
          (fun a ha => ⟨ha, (arete_origine g hb x a ha).2.2⟩) ctx (by omega)
        refine ⟨ctx2, h1, h2.visite, h2.mono, ?_, ?_⟩
        · intro es _ hpro hcout
          cases es with
          | nil =>
            exfalso
            exact hxd hpro.2.1
          | cons a r => exact h2.couvre (a :: r) ⟨a, hpro.1.1, r, rfl⟩ hpro hcout
        · intro m2 hm2
          rcases h2.atteint m2 hm2 with h3 | ⟨es, _, h4⟩
          · exact Or.inl h3
          · exact Or.inr ⟨es, trivial, h4⟩

/-- The simple admissible paths from a source that is not excluded are the ways
to go on from the source when only the source is marked. -/
theorem chemin_admissible_prolongement (g : Graphe) (c : Contraintes) (s d : Nat)
    (hs : noeud_exclu s c = false) (es : List Arete) :
    chemin_admissible g c s d es ↔
      prolongement g c d (Function.update (fun _ => false) s true) s es ∧
        cumul_cout 0 es ≤ c.cout_max_autorise := by
  constructor
  · rintro ⟨h1, h2, h3, h4, h5, h6⟩
    simp only [sommets, List.nodup_cons] at h3
    refine ⟨⟨h1, h2, h3.2, ?_⟩, h6⟩
    intro a ha
    have hm : a.destination ∈ es.map Arete.destination := List.mem_map_of_mem _ ha
    refine ⟨?_, h5 _ (List.mem_cons_of_mem _ hm), h4 a ha⟩
    have hne : a.destination ≠ s := fun he => h3.1 (by rw [← he]; exact hm)
    rw [Function.update_noteq hne]
  · rintro ⟨⟨h1, h2, h3, h4⟩, h6⟩
    refine ⟨h1, h2, ?_, fun a ha => (h4 a ha).2.2, ?_, h6⟩
    · simp only [sommets, List.nodup_cons]
      refine ⟨?_, h3⟩
      intro hm
      obtain ⟨a, ha, had⟩ := List.mem_map.mp hm
      have := (h4 a ha).1
      rw [had, Function.update_same] at this
      exact Bool.noConfusion this
    · intro x hx
      simp only [sommets, List.mem_cons] at hx
      rcases hx with h | h
      · rw [h]; exact hs
      · obtain ⟨a, ha, had⟩ := List.mem_map.mp h
        rw [← had]
        exact (h4 a ha).2.1

/-- The only walk from node 0 to node 2 of `g_budget` is the chain of its two
edges, of total cost `2 ^ 24 + 1`. -/
theorem g_budget_marches (es : List Arete) (hm : est_marche g_budget 0 es)
    (he : extremite 0 es = 2) : cout_marche es = 16777217 := by
  have h0 : aretes_de g_budget 0 = [⟨1, 1, 10, 16777216, 5⟩] := by decide
  have h1 : aretes_de g_budget 1 = [⟨2, 1, 10, 1, 5⟩] := by decide
  have h2 : aretes_de g_budget 2 = [] := by decide
  cases es with
  | nil => simp [extremite] at he
  | cons a r =>
    obtain ⟨ha, hr⟩ := hm
    rw [h0] at ha
    simp only [List.mem_singleton] at ha
    subst ha
    cases r with
    | nil => simp [extremite] at he
    | cons b r2 =>
      obtain ⟨hb2, hr2⟩ := hr
      simp only at hb2 hr2
      rw [h1] at hb2
      simp only [List.mem_singleton] at hb2
      subst hb2
      cases r2 with
      | nil => simp [cout_marche]
      | cons c r3 =>
        obtain ⟨hc, _⟩ := hr2
        simp only at hc
        rw [h2] at hc
        simp at hc

/-- C34 (as amended): on a well-formed graph with non-negative latencies and
costs, between active nodes, without required nodes and with a source that is
not excluded, `chemin_contraint_backtracking` returns; it returns no path
exactly when no simple path from the source to the destination has every edge
at or above the two floors, no excluded node and a cost, accumulated edge by
edge from the source in binary32, within the budget; and otherwise the
`latence_totale` returned is the latency accumulated in binary32 along such a
path and is at most the latency accumulated along every such path. -/
theorem chemin_contraint_latence_minimale (g : Graphe) (source destination fuel : Nat)
    (c : Contraintes) (hb : bien_forme g) (hp : latences_positives g)
    (hc : couts_positifs g) (hfuel : g.capacite_max < fuel)
    (hs : noeud_existe g source = true) (hd : noeud_existe g destination = true)
    (hob : c.noeuds_oblgatoires = []) (hex : noeud_exclu source c = false) :
    ∃ r, chemin_contraint_backtracking fuel g source destination c = some r ∧
      (r = none ↔ ¬ ∃ es, chemin_admissible g c source destination es) ∧
      ∀ p, r = some p →
        (∃ es, chemin_admissible g c source destination es ∧ cumul 0 es = p.latence_totale) ∧
        ∀ es, chemin_admissible g c source destination es →
          p.latence_totale ≤ cumul 0 es := by
  obtain ⟨ctx2, h1, h2⟩ := backtrack_recursif_optimal g hb hp hc c hob destination fuel
    { visite := Function.update (fun _ => false) source true
      meilleur := none
      courant := ajouter_noeud_chemin creer_chemin source } source 0 0 INFINI
    (lt_of_le_of_lt (non_visites_le g _) hfuel)
    (by show Function.update (fun _ => false) source true source = true
        rw [Function.update_same])
    flottant_zero
  have hcouvre : ∀ es, chemin_admissible g c source destination es →
      ∃ m2, ctx2.meilleur = some m2 ∧ m2.latence_totale ≤ cumul 0 es := by
    intro es hes
    obtain ⟨a1, a2⟩ := (chemin_admissible_prolongement g c source destination hex es).mp hes
    exact h2.couvre es trivial a1 a2
  have hatteint : ∀ m2, ctx2.meilleur = some m2 →
      ∃ es, chemin_admissible g c source destination es ∧ cumul 0 es = m2.latence_totale := by
    intro m2 hm2
    rcases h2.atteint m2 hm2 with ⟨m, f1, _⟩ | ⟨es, _, f2, f3, f4⟩
    · exact Option.noConfusion f1
    · exact ⟨es, (chemin_admissible_prolongement g c source destination hex es).mpr
        ⟨f2, f3⟩, f4.symm⟩
  refine ⟨ctx2.meilleur, ?_, ?_, ?_⟩
  · unfold chemin_contraint_backtracking
    rw [hs, hd]
    simp only [Bool.not_true, Bool.or_self, Bool.false_eq_true, if_false]
    rw [h1]
  · constructor
    · intro hn ⟨es, hes⟩
      obtain ⟨m2, e1, _⟩ := hcouvre es hes
      rw [hn] at e1
      exact Option.noConfusion e1
    · intro hn
      cases hm : ctx2.meilleur with
      | none => rfl
      | some m2 =>
        exfalso
        obtain ⟨es, hes, _⟩ := hatteint m2 hm
        exact hn ⟨es, hes⟩
  · intro p hpr
    refine ⟨hatteint p hpr, ?_⟩
    intro es hes
    obtain ⟨m2, e1, e2⟩ := hcouvre es hes
    rw [hpr] at e1
    rw [Option.some.inj e1]
    exact e2

/-- Instance of C34 on `g_detour`: the direct edge has latency 10 and the
detour latency 2. -/
theorem chemin_contraint_latence_minimale_witness :
    (bien_forme g_detour ∧ latences_positives g_detour ∧ couts_positifs g_detour ∧
      g_detour.capacite_max < 4 ∧ noeud_existe g_detour 0 = true ∧
      noeud_existe g_detour 2 = true ∧ c_libre.noeuds_oblgatoires = [] ∧
      noeud_exclu 0 c_libre = false ∧
      (chemin_contraint_backtracking 4 g_detour 0 2 c_libre).map
        (fun r => r.map (fun p => p.latence_totale)) = some (some 2)) ∧
    ∃ r, chemin_contraint_backtracking 4 g_detour 0 2 c_libre = some r ∧
      (r = none ↔ ¬ ∃ es, chemin_admissible g_detour c_libre 0 2 es) ∧
      ∀ p, r = some p →
        (∃ es, chemin_admissible g_detour c_libre 0 2 es ∧ cumul 0 es = p.latence_totale) ∧
        ∀ es, chemin_admissible g_detour c_libre 0 2 es → p.latence_totale ≤ cumul 0 es :=
  ⟨by decide,
    chemin_contraint_latence_minimale g_detour 0 2 4 c_libre (by decide) (by decide)
      (by decide) (by decide) (by decide) (by decide) (by decide) (by decide)⟩

/-- C34 as stated fails, in two ways. On `g_budget`, with the budget `2 ^ 24`
and no other constraint, every walk from node 0 to node 2 has the total cost
`2 ^ 24 + 1`, above the budget, yet the search returns a path, of `cout_total`
`2 ^ 24`: the costs are added in binary32, which rounds the sum. On
`g_un_actif`, whose slot 1 is not active, the search from 1 to 1 returns no
path, although the walk without edge is a simple path from 1 to 1 that meets
every constraint: the search answers for active nodes only. -/
theorem chemin_contraint_latence_minimale_contre_exemple :
    (bien_forme g_budget ∧ latences_positives g_budget ∧ couts_positifs g_budget ∧
      noeud_existe g_budget 0 = true ∧ noeud_existe g_budget 2 = true ∧
      (∀ es, est_marche g_budget 0 es → extremite 0 es = 2 → cout_marche es = 16777217) ∧
      (16777216 : Int) < 16777217 ∧
      chemin_contraint_backtracking 10 g_budget 0 2 ⟨0, 16777216, 0, [], []⟩ =
        some (some ⟨[0, 1, 2], 3, 2, 10, 16777216, 0⟩)) ∧
    (bien_forme g_un_actif ∧ latences_positives g_un_actif ∧ couts_positifs g_un_actif ∧
      noeud_existe g_un_actif 1 = false ∧ noeud_exclu 1 c_libre = false ∧
      c_libre.noeuds_oblgatoires = [] ∧
      (est_marche g_un_actif 1 [] ∧ extremite 1 [] = 1 ∧ (sommets 1 []).Nodup ∧
        cout_marche [] ≤ c_libre.cout_max_autorise) ∧
      chemin_contraint_backtracking 10 g_un_actif 1 1 c_libre = some none) := by
  exact ⟨⟨by decide, by decide, by decide, by decide, by decide, g_budget_marches, by decide,
    by decide⟩, by decide⟩

/-! ## Counting connected components -/

/-- A list without repetition sent one-to-one into another list is not longer;
it is shorter when an element of the other list is missed. -/
theorem compte_injection (R R2 : List Nat) (f : Nat → Nat) (hn : R.Nodup)
    (hf : ∀ r ∈ R, f r ∈ R2) (hinj : ∀ r1 ∈ R, ∀ r2 ∈ R, f r1 = f r2 → r1 = r2) :
    R.length ≤ R2.length ∧ ((∃ z ∈ R2, ∀ r ∈ R, f r ≠ z) → R.length < R2.length) := by
  have hmap : (R.map f).Nodup := List.Nodup.map_on (fun x hx y hy h => hinj x hx y hy h) hn
  have hsub : R.map f ⊆ R2 := by
    intro z hz
    obtain ⟨r, hr, e⟩ := List.mem_map.mp hz
    rw [← e]; exact hf r hr
  constructor
  · have := (List.Nodup.subperm hmap hsub).length_le
    simpa using this
  · rintro ⟨z, hz, hmiss⟩
    have hnz : (z :: R.map f).Nodup := by
      refine List.nodup_cons.mpr ⟨?_, hmap⟩
      intro hm
      obtain ⟨r, hr, e⟩ := List.mem_map.mp hm
      exact hmiss r hr e
    have hsub2 : z :: R.map f ⊆ R2 := by
      intro w hw
      rcases List.mem_cons.mp hw with h | h
      · rw [h]; exact hz
      · exact hsub h
    have := (List.Nodup.subperm hnz hsub2).length_le
    simp only [List.length_cons, List.length_map] at this
    omega

/-- Two joined nodes of a system of representatives are the same node. -/
theorem representants_meme (g : Graphe) (S : Nat → Prop) (R : List Nat)
    (h : representants g S R) (x y : Nat) (hx : x ∈ R) (hy : y ∈ R)
    (hxy : connectes_dans g S x y) : x = y := by
  by_contra hne
  have hsym : Symmetric (fun x y => ¬ connectes_dans g S x y) :=
    fun a b hab hba => hab (connectes_dans_symm g S b a hba)
  exact h.2.1.forall hsym hx hy hne hxy

/-- A system of representatives holds no node twice. -/
theorem representants_nodup (g : Graphe) (S : Nat → Prop) (R : List Nat)
    (h : representants g S R) : R.Nodup := by
  refine List.Pairwise.imp_of_mem ?_ h.2.1
  intro x y hx _ hn he
  apply hn
  rw [← he]
  exact connectes_dans_refl g S x (h.1 x hx)

/-- Among nodes below a bound, a system of representatives exists. -/
theorem representants_existe (g : Graphe) (S : Nat → Prop) (N : Nat)
    (hS : ∀ x, S x → x < N) : ∃ R, representants g S R := by
  have key : ∀ n, ∃ R : List Nat, (∀ r ∈ R, S r) ∧
      R.Pairwise (fun x y => ¬ connectes_dans g S x y) ∧
      ∀ x, x < n → S x → ∃ r ∈ R, connectes_dans g S x r := by
    intro n
    induction n with
    | zero => exact ⟨[], by simp, List.Pairwise.nil, fun x hx => absurd hx (Nat.not_lt_zero x)⟩
    | succ k ih =>
      obtain ⟨R, h1, h2, h3⟩ := ih
      by_cases hk : S k ∧ ¬ ∃ r ∈ R, connectes_dans g S k r
      · refine ⟨k :: R, ?_, ?_, ?_⟩
        · intro r hr
          rcases List.mem_cons.mp hr with h | h
          · rw [h]; exact hk.1
          · exact h1 r h
        · refine List.Pairwise.cons ?_ h2
          intro r hr hc
          exact hk.2 ⟨r, hr, hc⟩
        · intro x hx hSx
          by_cases hxk : x = k
          · subst hxk
            exact ⟨x, List.mem_cons_self _ _, connectes_dans_refl g S x hSx⟩
          · obtain ⟨r, hr, hc⟩ := h3 x (by omega) hSx
            exact ⟨r, List.mem_cons_of_mem _ hr, hc⟩
      · refine ⟨R, h1, h2, ?_⟩
        intro x hx hSx
        by_cases hxk : x = k
        · subst hxk
          by_contra hno
          exact hk ⟨hSx, hno⟩
        · exact h3 x (by omega) hSx
  obtain ⟨R, h1, h2, h3⟩ := key N
  exact ⟨R, h1, h2, fun x hx => h3 x (hS x hx) hx⟩

/-- Two systems of representatives of the same nodes have the same length:
the number of connected components is well defined. -/
theorem nombre_composantes_unique (g : Graphe) (S : Nat → Prop) (n m : Nat)
    (hn : nombre_composantes g S n) (hm : nombre_composantes g S m) : n = m := by
  have key : ∀ R R2 : List Nat, representants g S R → representants g S R2 →
      R.length ≤ R2.length := by
    intro R R2 h h2
    classical
    let f : Nat → Nat := fun r =>
      if hr : ∃ z, z ∈ R2 ∧ connectes_dans g S r z then Classical.choose hr else 0
    have hf : ∀ r ∈ R, f r ∈ R2 ∧ connectes_dans g S r (f r) := by
      intro r hr
      have hex : ∃ z, z ∈ R2 ∧ connectes_dans g S r z := by
        obtain ⟨z, hz, hc⟩ := h2.2.2 r (h.1 r hr)
        exact ⟨z, hz, hc⟩
      have : f r = Classical.choose hex := dif_pos hex
      rw [this]
      exact Classical.choose_spec hex
    refine (compte_injection R R2 f (representants_nodup g S R h)
      (fun r hr => (hf r hr).1) ?_).1
    intro r1 hr1 r2 hr2 he
    refine representants_meme g S R h r1 r2 hr1 hr2 ?_
    have c1 := (hf r1 hr1).2
    have c2 := (hf r2 hr2).2
    rw [he] at c1
    exact connectes_dans_trans g S _ _ _ c1 (connectes_dans_symm g S _ _ c2)
  obtain ⟨R, h1, e1⟩ := hn
  obtain ⟨R2, h2, e2⟩ := hm
  have a := key R R2 h1 h2
  have b := key R2 R h2 h1
  omega

/-- A chain between active nodes avoids `u` or reaches it. -/
theorem chaine_evite_ou_passe (g : Graphe) (u : Nat) (l : List Nat) : ∀ x y,
    chaine g x l → bout x l = y → (∀ v ∈ x :: l, noeud_existe g v = true) →
    connectes_sans g u x y ∨ connectes g x u := by
  induction l with
  | nil =>
    intro x y _ hb hS
    have hx := hS x (List.mem_cons_self _ _)
    by_cases hxu : x = u
    · right
      rw [hxu] at hx ⊢
      exact connectes_dans_refl g _ u hx
    · left
      have e : x = y := hb
      rw [← e]
      exact connectes_dans_refl g _ x ⟨hx, hxu⟩
  | cons z r ih =>
    intro x y hc hb hS
    have hx := hS x (List.mem_cons_self _ _)
    have hz := hS z (List.mem_cons_of_mem _ (List.mem_cons_self _ _))
    by_cases hxu : x = u
    · right
      rw [hxu] at hx ⊢
      exact connectes_dans_refl g _ u hx
    · rcases ih z y hc.2 hb (fun v hv => hS v (List.mem_cons_of_mem _ hv)) with h | h
      · left
        have hz2 := (connectes_dans_gauche g _ z y h).1
        exact connectes_dans_trans g _ x z y
          (connectes_dans_pas g _ x z hc.1 ⟨hx, hxu⟩ hz2) h
      · right
        exact connectes_dans_trans g _ x z u (connectes_dans_pas g _ x z hc.1 hx hz) h

/-- Removing the node `u` disconnects two connected nodes exactly when it
makes the number of connected components grow. -/
theorem separe_compte (g : Graphe) (u : Nat) (R R2 : List Nat)
    (h : representants g (fun v => noeud_existe g v = true) R)
    (h2 : representants g (fun v => noeud_existe g v = true ∧ v ≠ u) R2) :
    separe g u ↔ R.length < R2.length := by
  classical
  have hmono : ∀ a b, connectes_sans g u a b → connectes g a b :=
    fun a b hab => connectes_dans_mono g _ _ a b (fun v hv => hv.1) hab
  constructor
  · rintro ⟨x, y, hxu, hyu, hxy, hnxy⟩
    obtain ⟨hxa, hya⟩ := connectes_dans_gauche g _ x y hxy
    have hxpasse : connectes g x u := by
      obtain ⟨l, a1, a2, a3⟩ := hxy
      rcases chaine_evite_ou_passe g u l x y a1 a2 a3 with h3 | h3
      · exact absurd h3 hnxy
      · exact h3
    obtain ⟨rx, hrx, hcx⟩ := h2.2.2 x ⟨hxa, hxu⟩
    obtain ⟨ry, hry, hcy⟩ := h2.2.2 y ⟨hya, hyu⟩
    let f : Nat → Nat := fun r =>
      if connectes g r u then rx
      else if hr : ∃ z, z ∈ R2 ∧ connectes_sans g u r z then Classical.choose hr else 0
    have hf1 : ∀ r, connectes g r u → f r = rx := fun r hr => if_pos hr
    have hf2 : ∀ r ∈ R, ¬ connectes g r u → f r ∈ R2 ∧ connectes_sans g u r (f r) := by
      intro r hr hnc
      have hru : r ≠ u := by
        intro e
        apply hnc
        rw [e]
        exact connectes_dans_refl g _ u (by rw [← e]; exact h.1 r hr)
      have hex : ∃ z, z ∈ R2 ∧ connectes_sans g u r z := by
        obtain ⟨z, hz, hc⟩ := h2.2.2 r ⟨h.1 r hr, hru⟩
        exact ⟨z, hz, hc⟩
      have : f r = Classical.choose hex := by
        show (if connectes g r u then rx
          else if hr : ∃ z, z ∈ R2 ∧ connectes_sans g u r z then Classical.choose hr else 0) = _
        rw [if_neg hnc, dif_pos hex]
      rw [this]
      exact Classical.choose_spec hex
    refine (compte_injection R R2 f (representants_nodup g _ R h) ?_ ?_).2 ⟨ry, hry, ?_⟩
    · intro r hr
      by_cases hc : connectes g r u
      · rw [hf1 r hc]; exact hrx
      · exact (hf2 r hr hc).1
    · intro r1 hr1 r2 hr2 he
      refine representants_meme g _ R h r1 r2 hr1 hr2 ?_
      by_cases c1 : connectes g r1 u
      · by_cases c2 : connectes g r2 u
        · exact connectes_dans_trans g _ _ _ _ c1 (connectes_dans_symm g _ _ _ c2)
        · exfalso
          obtain ⟨_, d2⟩ := hf2 r2 hr2 c2
          rw [← he, hf1 r1 c1] at d2
          apply c2
          have e1 : connectes_sans g u r2 x :=
            connectes_dans_trans g _ _ _ _ d2 (connectes_dans_symm g _ _ _ hcx)
          exact connectes_dans_trans g _ _ _ _ (hmono _ _ e1) hxpasse
      · by_cases c2 : connectes g r2 u
        · exfalso
          obtain ⟨_, d1⟩ := hf2 r1 hr1 c1
          rw [he, hf1 r2 c2] at d1
          apply c1
          have e1 : connectes_sans g u r1 x :=
            connectes_dans_trans g _ _ _ _ d1 (connectes_dans_symm g _ _ _ hcx)
          exact connectes_dans_trans g _ _ _ _ (hmono _ _ e1) hxpasse
        · obtain ⟨_, d1⟩ := hf2 r1 hr1 c1
          obtain ⟨_, d2⟩ := hf2 r2 hr2 c2
          rw [he] at d1
          exact hmono _ _
            (connectes_dans_trans g _ _ _ _ d1 (connectes_dans_symm g _ _ _ d2))
    · intro r hr he
      by_cases c1 : connectes g r u
      · rw [hf1 r c1] at he
        apply hnxy
        rw [he] at hcx
        exact connectes_dans_trans g _ _ _ _ hcx (connectes_dans_symm g _ _ _ hcy)
      · obtain ⟨_, d1⟩ := hf2 r hr c1
        rw [he] at d1
        apply c1
        have e1 : connectes_sans g u r y :=
          connectes_dans_trans g _ _ _ _ d1 (connectes_dans_symm g _ _ _ hcy)
        have e2 : connectes g r x :=
          connectes_dans_trans g _ _ _ _ (hmono _ _ e1) (connectes_dans_symm g _ _ _ hxy)
        exact connectes_dans_trans g _ _ _ _ e2 hxpasse
  · intro hlt
    by_contra hns
    let f : Nat → Nat := fun r =>
      if hr : ∃ z, z ∈ R ∧ connectes g r z then Classical.choose hr else 0
    have hf : ∀ r ∈ R2, f r ∈ R ∧ connectes g r (f r) := by
      intro r hr
      have hex : ∃ z, z ∈ R ∧ connectes g r z := by
        obtain ⟨z, hz, hc⟩ := h.2.2 r (h2.1 r hr).1
        exact ⟨z, hz, hc⟩
      have : f r = Classical.choose hex := dif_pos hex
      rw [this]
      exact Classical.choose_spec hex
    have hle := (compte_injection R2 R f (representants_nodup g _ R2 h2)
      (fun r hr => (hf r hr).1) ?_).1
    · omega
    · intro r1 hr1 r2 hr2 he
      refine representants_meme g _ R2 h2 r1 r2 hr1 hr2 ?_
      have c1 := (hf r1 hr1).2
      have c2 := (hf r2 hr2).2
      rw [he] at c1
      have c3 : connectes g r1 r2 :=
        connectes_dans_trans g _ _ _ _ c1 (connectes_dans_symm g _ _ _ c2)
      by_contra hn
      exact hns ⟨r1, r2, (h2.1 r1 hr1).2, (h2.1 r2 hr2).2, c3, hn⟩

/-- C32: on a well-formed symmetric graph (every arc has its reverse arc) and
with more fuel than node slots, `trouver_points_articulation` returns, and for
every active node `u` the active nodes form some number `n` of connected
components, the active nodes other than `u` form some number `m` of them, and
`u` is reported exactly when `n < m`: removing `u` increases the number of
connected components of the underlying undirected graph. -/
theorem points_articulation_composantes (g : Graphe) (fuel : Nat) (res : ResultatSecurite)
    (hb : bien_forme g) (hs : symetrique g) (hfuel : g.capacite_max < fuel) :
    ∃ r, trouver_points_articulation fuel g res = some r ∧
      ∀ u, noeud_existe g u = true →
        (∃ n, nombre_composantes g (fun v => noeud_existe g v = true) n) ∧
        (∃ m, nombre_composantes g (fun v => noeud_existe g v = true ∧ v ≠ u) m) ∧
        ∀ n m, nombre_composantes g (fun v => noeud_existe g v = true) n →
          nombre_composantes g (fun v => noeud_existe g v = true ∧ v ≠ u) m →
          (u ∈ r.points_articulation ↔ n < m) := by
  obtain ⟨c, r1, hinv, hvis⟩ := ap_parcours_ok g hb hs fuel hfuel
  unfold trouver_points_articulation
  rw [r1]
  refine ⟨_, rfl, fun u hu => ?_⟩
  obtain ⟨R, hR⟩ := representants_existe g (fun v => noeud_existe g v = true) g.capacite_max
    (fun x hx => noeud_existe_lt g x hx)
  obtain ⟨R2, hR2⟩ := representants_existe g (fun v => noeud_existe g v = true ∧ v ≠ u)
    g.capacite_max (fun x hx => noeud_existe_lt g x hx.1)
  refine ⟨⟨R.length, R, hR, rfl⟩, ⟨R2.length, R2, hR2, rfl⟩, ?_⟩
  rintro n m ⟨S1, hS1, e1⟩ ⟨S2, hS2, e2⟩
  show u ∈ (List.range g.capacite_max).filter (fun i => c.est_ap i) ↔ n < m
  rw [List.mem_filter, ← e1, ← e2, ← separe_compte g u S1 S2 hS1 hS2]
  constructor
  · intro h
    exact (hinv.ap_sur u h.2).2
  · intro h
    refine ⟨List.mem_range.mpr (noeud_existe_lt g u hu), ?_⟩
    by_contra hf
    exact hinv.ap_complet u (hvis u hu) (fun hm => by cases hm) (by simpa using hf) h

/-- Instance of C32 on the path `0 - 1 - 2` stored as four arcs, whose middle
node is the one reported. -/
theorem points_articulation_composantes_witness :
    (bien_forme g_chemin_sym ∧ symetrique g_chemin_sym ∧ g_chemin_sym.capacite_max < 4 ∧
      (trouver_points_articulation 4 g_chemin_sym ⟨[], 0, [], 0, [], 0, 0⟩).map
        (fun r => r.points_articulation) = some [1]) ∧
    ∃ r, trouver_points_articulation 4 g_chemin_sym ⟨[], 0, [], 0, [], 0, 0⟩ = some r ∧
      ∀ u, noeud_existe g_chemin_sym u = true →
        (∃ n, nombre_composantes g_chemin_sym (fun v => noeud_existe g_chemin_sym v = true) n) ∧
        (∃ m, nombre_composantes g_chemin_sym
          (fun v => noeud_existe g_chemin_sym v = true ∧ v ≠ u) m) ∧
        ∀ n m, nombre_composantes g_chemin_sym (fun v => noeud_existe g_chemin_sym v = true) n →
          nombre_composantes g_chemin_sym
            (fun v => noeud_existe g_chemin_sym v = true ∧ v ≠ u) m →
          (u ∈ r.points_articulation ↔ n < m) :=
  ⟨by decide, points_articulation_composantes g_chemin_sym 4 ⟨[], 0, [], 0, [], 0, 0⟩
    (by decide) (by decide) (by decide)⟩

/-! ## The graph without an edge -/

theorem sans_arete_noeud (g : Graphe) (u v i : Nat) (hi : i < g.noeuds.length) :
    noeud (sans_arete g u v) i =
      { noeud g i with
          aretes := (aretes_de g i).filter (fun a =>
            !((i == u && a.destination == v) || (i == v && a.destination == u))) } := by
  show ((List.range g.noeuds.length).map _).getD i noeud_vide = _
  rw [List.getD_eq_getElem _ _ (by rw [List.length_map, List.length_range]; exact hi)]
  rw [List.getElem_map, List.getElem_range]

theorem sans_arete_noeud_hors (g : Graphe) (u v i : Nat) (hi : ¬ i < g.noeuds.length) :
    noeud (sans_arete g u v) i = noeud_vide ∧ noeud g i = noeud_vide := by
  constructor
  · show ((List.range g.noeuds.length).map _).getD i noeud_vide = _
    rw [List.getD_eq_default _ _
      (by rw [List.length_map, List.length_range]; exact Nat.le_of_not_lt hi)]
  · unfold noeud
    rw [List.getD_eq_default _ _ (Nat.le_of_not_lt hi)]

theorem sans_arete_aretes (g : Graphe) (u v i : Nat) :
    aretes_de (sans_arete g u v) i = (aretes_de g i).filter (fun a =>
      !((i == u && a.destination == v) || (i == v && a.destination == u))) := by
  by_cases hi : i < g.noeuds.length
  · unfold aretes_de
    rw [sans_arete_noeud g u v i hi]
    rfl
  · obtain ⟨h1, h2⟩ := sans_arete_noeud_hors g u v i hi
    unfold aretes_de
    rw [h1, h2]
    rfl

theorem sans_arete_existe (g : Graphe) (u v i : Nat) :
    noeud_existe (sans_arete g u v) i = noeud_existe g i := by
  unfold noeud_existe
  have hc : (sans_arete g u v).capacite_max = g.capacite_max := rfl
  rw [hc]
  split
  · rfl
  · by_cases hi : i < g.noeuds.length
    · rw [sans_arete_noeud g u v i hi]
    · obtain ⟨h1, h2⟩ := sans_arete_noeud_hors g u v i hi
      rw [h1, h2]

/-- The edge `{x, y}` is not the edge `{u, v}`. -/
theorem sans_arete_arc (g : Graphe) (u v x : Nat) (a : Arete) :
    a ∈ aretes_de (sans_arete g u v) x ↔
      a ∈ aretes_de g x ∧ ¬((x = u ∧ a.destination = v) ∨ (x = v ∧ a.destination = u)) := by
  rw [sans_arete_aretes, List.mem_filter]
  simp
  intro _
  tauto

/-- Adjacency in the graph without the edge `{u, v}`. -/
theorem sans_arete_lies (g : Graphe) (u v x y : Nat) :
    lies (sans_arete g u v) x y ↔
      lies g x y ∧ ¬((x = u ∧ y = v) ∨ (x = v ∧ y = u)) := by
  unfold lies
  constructor
  · rintro (⟨a, ha, hd⟩ | ⟨a, ha, hd⟩)
    · obtain ⟨h1, h2⟩ := (sans_arete_arc g u v x a).mp ha
      rw [hd] at h2
      exact ⟨Or.inl ⟨a, h1, hd⟩, h2⟩
    · obtain ⟨h1, h2⟩ := (sans_arete_arc g u v y a).mp ha
      rw [hd] at h2
      refine ⟨Or.inr ⟨a, h1, hd⟩, ?_⟩
      rintro (⟨e1, e2⟩ | ⟨e1, e2⟩)
      · exact h2 (Or.inr ⟨e2, e1⟩)
      · exact h2 (Or.inl ⟨e2, e1⟩)
  · rintro ⟨(⟨a, ha, hd⟩ | ⟨a, ha, hd⟩), h2⟩
    · exact Or.inl ⟨a, (sans_arete_arc g u v x a).mpr ⟨ha, by rw [hd]; exact h2⟩, hd⟩
    · refine Or.inr ⟨a, (sans_arete_arc g u v y a).mpr ⟨ha, ?_⟩, hd⟩
      rw [hd]
      rintro (⟨e1, e2⟩ | ⟨e1, e2⟩)
      · exact h2 (Or.inr ⟨e2, e1⟩)
      · exact h2 (Or.inl ⟨e2, e1⟩)

/-- A chain of the graph without an edge is a chain of the graph. -/
theorem sans_arete_connectes (g : Graphe) (u v : Nat) (S : Nat → Prop) (x y : Nat)
    (h : connectes_dans (sans_arete g u v) S x y) : connectes_dans g S x y := by
  obtain ⟨l, a1, a2, a3⟩ := h
  refine ⟨l, ?_, a2, a3⟩
  clear a2 a3
  induction l generalizing x with
  | nil => trivial
  | cons z r ih => exact ⟨((sans_arete_lies g u v x z).mp a1.1).1, ih z a1.2⟩

/-- A chain through nodes other than `u` is a chain of the graph without an
edge at `u`. -/
theorem connectes_sans_arete (g : Graphe) (u v : Nat) (S : Nat → Prop) (x y : Nat)
    (hS : ∀ z, S z → z ≠ u) (h : connectes_dans g S x y) :
    connectes_dans (sans_arete g u v) S x y := by
  obtain ⟨l, a1, a2, a3⟩ := h
  refine ⟨l, ?_, a2, a3⟩
  clear a2
  induction l generalizing x with
  | nil => trivial
  | cons z r ih =>
    have hx := hS x (a3 x (List.mem_cons_self _ _))
    have hz := hS z (a3 z (List.mem_cons_of_mem _ (List.mem_cons_self _ _)))
    refine ⟨(sans_arete_lies g u v x z).mpr ⟨a1.1, ?_⟩,
      ih z a1.2 (fun w hw => a3 w (List.mem_cons_of_mem _ hw))⟩
    rintro (⟨e1, _⟩ | ⟨_, e2⟩)
    · exact hx e1
    · exact hz e2

/-- The edge `{u, v}` is the edge `{v, u}`. -/
theorem sans_arete_comm (g : Graphe) (u v : Nat) : sans_arete g u v = sans_arete g v u := by
  unfold sans_arete
  congr 1
  apply List.map_congr_left
  intro i _
  have e : ∀ a : Arete,
      (!((i == u && a.destination == v) || (i == v && a.destination == u))) =
        (!((i == v && a.destination == u) || (i == u && a.destination == v))) :=
    fun a => by rw [Bool.or_comm]
  simp only [e]

theorem pont_symm (g : Graphe) (x y : Nat) (h : pont g x y) : pont g y x := by
  obtain ⟨h1, h2⟩ := h
  refine ⟨lies_symm g x y h1, ?_⟩
  intro hc
  apply h2
  rw [sans_arete_comm]
  exact connectes_dans_symm _ _ y x hc

/-- A loop is not a bridge. -/
theorem pont_boucle (g : Graphe) (x : Nat) (hx : noeud_existe g x = true) : ¬ pont g x x := by
  rintro ⟨_, h⟩
  apply h
  exact connectes_dans_refl _ _ x (by rw [sans_arete_existe]; exact hx)

theorem sans_arete_vers_connectes (g : Graphe) (u v a b : Nat)
    (h : connectes (sans_arete g u v) a b) : connectes g a b := by
  have h1 := sans_arete_connectes g u v _ a b h
  exact connectes_dans_mono g _ _ a b (fun w hw => by rw [← sans_arete_existe g u v w]; exact hw) h1

/-- When the ends of an edge stay connected without it, so does every pair of
connected nodes. -/
theorem connectes_detour (g : Graphe) (u v : Nat) (h : connectes (sans_arete g u v) u v)
    (x y : Nat) (hc : connectes g x y) : connectes (sans_arete g u v) x y := by
  obtain ⟨l, a1, a2, a3⟩ := hc
  induction l generalizing x with
  | nil =>
    have e : x = y := a2
    rw [← e]
    exact connectes_dans_refl _ _ x
      (by rw [sans_arete_existe]; exact a3 x (List.mem_cons_self _ _))
  | cons z r ih =>
    have hx : noeud_existe (sans_arete g u v) x = true := by
      rw [sans_arete_existe]; exact a3 x (List.mem_cons_self _ _)
    have hz : noeud_existe (sans_arete g u v) z = true := by
      rw [sans_arete_existe]
      exact a3 z (List.mem_cons_of_mem _ (List.mem_cons_self _ _))
    have hreste := ih z a1.2 a2 (fun w hw => a3 w (List.mem_cons_of_mem _ hw))
    have hpas : connectes (sans_arete g u v) x z := by
      by_cases hh : (x = u ∧ z = v) ∨ (x = v ∧ z = u)
      · rcases hh with ⟨e1, e2⟩ | ⟨e1, e2⟩
        · rw [e1, e2]; exact h
        · rw [e1, e2]; exact connectes_dans_symm _ _ u v h
      · exact connectes_dans_pas _ _ x z ((sans_arete_lies g u v x z).mpr ⟨a1.1, hh⟩) hx hz
    exact connectes_dans_trans _ _ x z y hpas hreste

/-- An edge between active nodes is a bridge exactly when removing it makes
the number of connected components grow. -/
theorem pont_compte (g : Graphe) (x y : Nat) (hx : noeud_existe g x = true)
    (hy : noeud_existe g y = true) (hl : lies g x y) (R R2 : List Nat)
    (h : representants g (fun v => noeud_existe g v = true) R)
    (h2 : representants (sans_arete g x y)
      (fun v => noeud_existe (sans_arete g x y) v = true) R2) :
    pont g x y ↔ R.length < R2.length := by
  classical
  have hmono : ∀ a b, connectes (sans_arete g x y) a b → connectes g a b :=
    fun a b hab => sans_arete_vers_connectes g x y a b hab
  have hxy : connectes g x y := connectes_dans_pas g _ x y hl hx hy
  have hx2 : noeud_existe (sans_arete g x y) x = true := by rw [sans_arete_existe]; exact hx
  have hy2 : noeud_existe (sans_arete g x y) y = true := by rw [sans_arete_existe]; exact hy
  constructor
  · rintro ⟨_, hn⟩
    obtain ⟨rx, hrx, hcx⟩ := h2.2.2 x hx2
    obtain ⟨ry, hry, hcy⟩ := h2.2.2 y hy2
    let f : Nat → Nat := fun r =>
      if connectes g r x then rx
      else if hr : ∃ z, z ∈ R2 ∧ connectes (sans_arete g x y) r z then Classical.choose hr
      else 0
    have hf1 : ∀ r, connectes g r x → f r = rx := fun r hr => if_pos hr
    have hf2 : ∀ r ∈ R, ¬ connectes g r x →
        f r ∈ R2 ∧ connectes (sans_arete g x y) r (f r) := by
      intro r hr hnc
      have hex : ∃ z, z ∈ R2 ∧ connectes (sans_arete g x y) r z := by
        obtain ⟨z, hz, hc⟩ := h2.2.2 r (by
          show noeud_existe (sans_arete g x y) r = true
          rw [sans_arete_existe]; exact h.1 r hr)
        exact ⟨z, hz, hc⟩
      have : f r = Classical.choose hex := by
        show (if connectes g r x then rx
          else if hr : ∃ z, z ∈ R2 ∧ connectes (sans_arete g x y) r z then Classical.choose hr
          else 0) = _
        rw [if_neg hnc, dif_pos hex]
      rw [this]
      exact Classical.choose_spec hex
    refine (compte_injection R R2 f (representants_nodup g _ R h) ?_ ?_).2 ⟨ry, hry, ?_⟩
    · intro r hr
      by_cases hc : connectes g r x
      · rw [hf1 r hc]; exact hrx
      · exact (hf2 r hr hc).1
    · intro r1 hr1 r2 hr2 he
      refine representants_meme g _ R h r1 r2 hr1 hr2 ?_
      by_cases c1 : connectes g r1 x
      · by_cases c2 : connectes g r2 x
        · exact connectes_dans_trans g _ _ _ _ c1 (connectes_dans_symm g _ _ _ c2)
        · exfalso
          obtain ⟨_, d2⟩ := hf2 r2 hr2 c2
          rw [← he, hf1 r1 c1] at d2
          apply c2
          exact hmono _ _ (connectes_dans_trans _ _ _ _ _ d2 (connectes_dans_symm _ _ _ _ hcx))
      · by_cases c2 : connectes g r2 x
        · exfalso
          obtain ⟨_, d1⟩ := hf2 r1 hr1 c1
          rw [he, hf1 r2 c2] at d1
          apply c1
          exact hmono _ _ (connectes_dans_trans _ _ _ _ _ d1 (connectes_dans_symm _ _ _ _ hcx))
        · obtain ⟨_, d1⟩ := hf2 r1 hr1 c1
          obtain ⟨_, d2⟩ := hf2 r2 hr2 c2
          rw [he] at d1
          exact hmono _ _
            (connectes_dans_trans _ _ _ _ _ d1 (connectes_dans_symm _ _ _ _ d2))
    · intro r hr he
      by_cases c1 : connectes g r x
      · rw [hf1 r c1] at he
        apply hn
        rw [he] at hcx
        exact connectes_dans_trans _ _ _ _ _ hcx (connectes_dans_symm _ _ _ _ hcy)
      · obtain ⟨_, d1⟩ := hf2 r hr c1
        rw [he] at d1
        apply c1
        have e1 : connectes (sans_arete g x y) r y :=
          connectes_dans_trans _ _ _ _ _ d1 (connectes_dans_symm _ _ _ _ hcy)
        exact connectes_dans_trans g _ _ _ _ (hmono _ _ e1) (connectes_dans_symm g _ _ _ hxy)
  · intro hlt
    refine ⟨hl, ?_⟩
    intro hc
    let f : Nat → Nat := fun r =>
      if hr : ∃ z, z ∈ R ∧ connectes g r z then Classical.choose hr else 0
    have hf : ∀ r ∈ R2, f r ∈ R ∧ connectes g r (f r) := by
      intro r hr
      have hex : ∃ z, z ∈ R ∧ connectes g r z := by
        obtain ⟨z, hz, hcz⟩ := h.2.2 r (by
          show noeud_existe g r = true
          rw [← sans_arete_existe g x y]; exact h2.1 r hr)
        exact ⟨z, hz, hcz⟩
      have : f r = Classical.choose hex := dif_pos hex
      rw [this]
      exact Classical.choose_spec hex
    have hle := (compte_injection R2 R f (representants_nodup _ _ R2 h2)
      (fun r hr => (hf r hr).1) ?_).1
    · omega
    · intro r1 hr1 r2 hr2 he
      refine representants_meme _ _ R2 h2 r1 r2 hr1 hr2 ?_
      have c1 := (hf r1 hr1).2
      have c2 := (hf r2 hr2).2
      rw [he] at c1
      exact connectes_detour g x y hc r1 r2
        (connectes_dans_trans g _ _ _ _ c1 (connectes_dans_symm g _ _ _ c2))

/-! ## Bridges: what the return of a child decides -/

/-- The bridge list after the updates that follow the return of the child
`v`. -/
theorem ap_retour_ponts (u v : Nat) (n : Int) (c1 : ContextArticulation) (hvu : v ≠ u) :
    (ap_retour u v n c1).ponts =
      if c1.low v > c1.disc u then c1.ponts ++ [(u, v)] else c1.ponts := by
  unfold ap_retour
  simp only
  split_ifs <;> simp_all [Function.update_noteq hvu]

/-- The open calls were discovered before `u`. -/
theorem gris_avant (g : Graphe) (P : List Nat) (c0 c cp c1 : ContextArticulation) (u : Nat)
    (n : Int) (v : Nat) (hbo : BoucleAP g P c0 u n c) (hcd : cp.disc = c.disc)
    (hpost : PostAP g (u :: P) cp v c1) :
    ∀ b ∈ u :: P, c1.disc b ≤ c1.disc u := by
  intro b hb
  rcases List.mem_cons.mp hb with e | e
  · rw [e]
  · have hinv0 := hbo.base.1
    have hb0 : c0.disc b ≠ -1 := hinv0.gris b e
    have hbt : c0.disc b < c0.timer := by
      rcases hinv0.temps.2 b with h | h
      · exact absurd h hb0
      · exact h.2
    have hbc : c.disc b = c0.disc b := (hbo.etend.anciens b hb0).1
    have huc : c.disc u ≠ -1 := hbo.inv.gris u (List.mem_cons_self _ _)
    have h1 : c1.disc b = c.disc b := by
      rw [(hpost.etend.anciens b (by rw [hcd, hbc]; exact hb0)).1, hcd]
    have h2 : c1.disc u = c.disc u := by
      rw [(hpost.etend.anciens u (by rw [hcd]; exact huc)).1, hcd]
    rw [h1, h2, hbc, hbo.racine.1]
    exact le_of_lt hbt

/-- The bridge rule is sound: when the child `v` returns with
`low[v] > disc[u]`, the edge `{u, v}` is a bridge. -/
theorem pont_retour_sur (g : Graphe) (hb : bien_forme g) (hs : symetrique g) (P : List Nat)
    (u : Nat) (n : Int) (c0 c cp c1 : ContextArticulation) (hbo : BoucleAP g P c0 u n c)
    (a : Arete) (ha : a ∈ aretes_de g u) (hv : c.disc a.destination = -1)
    (hcd : cp.disc = c.disc) (hcp : cp.parent a.destination = (u : Int))
    (hcinv : InvAP g (u :: P) cp) (hpost : PostAP g (u :: P) cp a.destination c1)
    (hlow : c1.low a.destination > c1.disc u) : pont g u a.destination := by
  refine ⟨lies_arete g u a ha, ?_⟩
  intro hc
  have huc : c.disc u ≠ -1 := hbo.inv.gris u (List.mem_cons_self _ _)
  have hNv : nouveau cp c1 a.destination := by
    refine ⟨by rw [hcd]; exact hv, ?_⟩
    rw [hpost.racine.1]
    have := hcinv.temps.1
    omega
  have hNu : ¬ nouveau cp c1 u := fun h => huc (by rw [← hcd]; exact h.1)
  obtain ⟨x, y, hx, hy, hxy, _, _⟩ := chaine_sortie (sans_arete g u a.destination) _
    (nouveau cp c1) a.destination u (connectes_dans_symm _ _ u a.destination hc) hNv hNu
  obtain ⟨hl, hhors⟩ := (sans_arete_lies g u a.destination x y).mp hxy
  obtain ⟨e, he, hed⟩ := symetrique_arete g hb hs x y hl
  have hxP : x ∉ u :: P := fun hm => hcinv.gris x hm hx.1
  have hyP : y ∈ u :: P := by
    rcases nouveau_aretes g hb hs (u :: P) (u :: P) cp c1 hcinv hpost.inv x hx hxP e he with h | h
    · rw [hed] at h; exact absurd h hy
    · rw [hed] at h; exact h
  rcases hpost.low_min x hx e he (by rw [hed]; exact hyP) with ⟨h1, h2⟩ | h1
  · apply hhors
    right
    refine ⟨h1, ?_⟩
    rw [hed, hcp] at h2
    exact_mod_cast h2
  · rw [hed] at h1
    have := gris_avant g P c0 c cp c1 u n a.destination hbo hcd hpost y hyP
    omega

/-- The bridge rule is complete: when the child `v` returns with
`low[v] <= disc[u]`, the nodes `u` and `v` stay connected without the edge
`{u, v}`. -/
theorem pont_retour_complet (g : Graphe) (hb : bien_forme g) (hs : symetrique g) (P : List Nat)
    (u : Nat) (n : Int) (c0 c cp c1 : ContextArticulation) (hbo : BoucleAP g P c0 u n c)
    (a : Arete) (hv : c.disc a.destination = -1)
    (hcd : cp.disc = c.disc) (hct : cp.timer = c.timer)
    (hcp : cp.parent a.destination = (u : Int))
    (hcinv : InvAP g (u :: P) cp) (hpost : PostAP g (u :: P) cp a.destination c1)
    (hpp : PostPonts g (u :: P) cp a.destination c1)
    (hlow : c1.low a.destination ≤ c1.disc u) : ¬ pont g u a.destination := by
  rintro ⟨_, hn⟩
  apply hn
  obtain ⟨hinv0, hgris0, hu0, hactu, hpere⟩ := hbo.base
  have huc : c.disc u ≠ -1 := hbo.inv.gris u (List.mem_cons_self _ _)
  have hvu : a.destination ≠ u := fun e => huc (e ▸ hv)
  have hu1 : c1.disc u = c.disc u := by
    rw [(hpost.etend.anciens u (by rw [hcd]; exact huc)).1, hcd]
  have hut : c.disc u < c.timer := by
    rcases hbo.inv.temps.2 u with h | h
    · exact absurd h huc
    · exact h.2
  have hv1 : c1.disc a.destination = c.timer := by rw [hpost.racine.1, hct]
  obtain ⟨x, hx, e, he, hed, hpar⟩ := hpp.low_hors_pere (by omega)
  have hw0 : cp.disc e.destination ≠ -1 := by
    intro hw
    rcases hpost.etend.nouveaux e.destination hw with h | h
    · have := hpost.low_borne.1
      omega
    · omega
  have hxP : x ∉ u :: P := fun hm => hcinv.gris x hm hx.1
  have hwP : e.destination ∈ u :: P := by
    rcases nouveau_aretes g hb hs (u :: P) (u :: P) cp c1 hcinv hpost.inv x hx hxP e he with h | h
    · exact absurd h.1 hw0
    · exact h
  have hvP : a.destination ∉ u :: P := fun hm => hcinv.gris _ hm (by rw [hcd]; exact hv)
  have hxu : x ≠ u := fun e2 => huc (by rw [← hcd, ← e2]; exact hx.1)
  have hact : ∀ z, c1.disc z ≠ -1 →
      noeud_existe (sans_arete g u a.destination) z = true := by
    intro z hz
    rw [sans_arete_existe]
    exact hpost.inv.actifs z hz
  -- from `v` to `x` among the nodes discovered by the call
  have h1 : connectes (sans_arete g u a.destination) a.destination x := by
    have := connectes_sans_arete g u a.destination (nouveau cp c1) a.destination x
      (fun z hz e2 => huc (by rw [← hcd, ← e2]; exact hz.1)) (hpost.dans x hx)
    exact connectes_dans_mono _ _ _ _ _ (fun z hz => hact z hz.2) this
  -- the edge from `x` to the open call `w`
  have hw1 : c1.disc e.destination ≠ -1 := by
    rw [(hpost.etend.anciens _ hw0).1]; exact hw0
  have h2 : connectes (sans_arete g u a.destination) x e.destination := by
    refine connectes_dans_pas _ _ x e.destination ?_ (hact x hx.2) (hact _ hw1)
    refine (sans_arete_lies g u a.destination x e.destination).mpr ⟨lies_arete g x e he, ?_⟩
    rintro (⟨e1, _⟩ | ⟨e1, e2⟩)
    · exact hxu e1
    · apply hpar e1
      rw [hcp, e2]
  -- from `w` to `u` among the open calls
  have hgris : chemin_gris g (u :: P) := by
    apply chemin_gris_cons g P u hgris0
    rcases hpere with ⟨e1, _⟩ | ⟨p, Q, e1, _, hp⟩
    · exact Or.inl e1
    · exact Or.inr ⟨p, Q, e1, hp⟩
  have h3 : connectes (sans_arete g u a.destination) e.destination u := by
    have := connectes_sans_arete g a.destination u (fun z => z ∈ u :: P) e.destination u
      (fun z hz e2 => hvP (e2 ▸ hz)) (hgris e.destination hwP u (List.mem_cons_self _ _))
    rw [sans_arete_comm] at this
    refine connectes_dans_mono _ _ _ _ _ (fun z hz => hact z ?_) this
    have hz0 : cp.disc z ≠ -1 := hcinv.gris z hz
    rw [(hpost.etend.anciens z hz0).1]
    exact hz0
  exact connectes_dans_symm _ _ _ _
    (connectes_dans_trans _ _ _ _ _ h1 (connectes_dans_trans _ _ _ _ _ h2 h3))

/-- An edge from `u` to a node discovered below the child `v`, other than `v`,
is not a bridge. -/
theorem pont_descendant (g : Graphe) (P : List Nat) (u : Nat) (cp c1 : ContextArticulation)
    (a : Arete) (ha : a ∈ aretes_de g u) (hud : cp.disc u ≠ -1)
    (hactu : noeud_existe g u = true)
    (hpost : PostAP g (u :: P) cp a.destination c1) (y : Nat) (hy : nouveau cp c1 y)
    (hyv : y ≠ a.destination) : ¬ pont g u y := by
  rintro ⟨_, hn⟩
  apply hn
  have hNv : nouveau cp c1 a.destination :=
    (connectes_dans_gauche g _ _ _ (hpost.dans y hy)).1
  have hvu : a.destination ≠ u := fun e => hud (e ▸ hNv.1)
  have hyu : y ≠ u := fun e => hud (e ▸ hy.1)
  have hact : ∀ z, c1.disc z ≠ -1 → noeud_existe (sans_arete g u y) z = true := by
    intro z hz
    rw [sans_arete_existe]
    exact hpost.inv.actifs z hz
  have h1 : connectes (sans_arete g u y) u a.destination := by
    refine connectes_dans_pas _ _ u a.destination ?_
      (by rw [sans_arete_existe]; exact hactu) (hact _ hNv.2)
    refine (sans_arete_lies g u y u a.destination).mpr ⟨lies_arete g u a ha, ?_⟩
    rintro (⟨_, e2⟩ | ⟨e1, _⟩)
    · exact hyv e2.symm
    · exact hyu e1.symm
  have h2 : connectes (sans_arete g u y) a.destination y := by
    have := connectes_sans_arete g u y (nouveau cp c1) a.destination y
      (fun z hz e2 => hud (e2 ▸ hz.1)) (hpost.dans y hy)
    exact connectes_dans_mono _ _ _ _ _ (fun z hz => hact z hz.2) this
  exact connectes_dans_trans _ _ _ _ _ h1 h2

/-- An edge from `u` to an open call other than its parent is not a bridge. -/
theorem pont_gris (g : Graphe) (P : List Nat) (c0 : ContextArticulation) (u : Nat)
    (hpre : PreAP g P c0 u) (y : Nat) (hy : y ∈ P) (hyp : (y : Int) ≠ c0.parent u) :
    ¬ pont g u y := by
  rintro ⟨_, hn⟩
  apply hn
  obtain ⟨hinv0, hgris0, hu0, hactu, hpere⟩ := hpre
  have huP : u ∉ P := fun hm => hinv0.gris u hm hu0
  rcases hpere with ⟨e, _⟩ | ⟨p, Q, e, hp, hl⟩
  · rw [e] at hy; cases hy
  · have hpP : p ∈ P := by rw [e]; exact List.mem_cons_self _ _
    have hpy : p ≠ y := fun e2 => hyp (by rw [hp, e2])
    have hpu : p ≠ u := fun e2 => huP (e2 ▸ hpP)
    have hyu : y ≠ u := fun e2 => huP (e2 ▸ hy)
    have hact : ∀ z ∈ P, noeud_existe (sans_arete g u y) z = true := by
      intro z hz
      rw [sans_arete_existe]
      exact hinv0.actifs z (hinv0.gris z hz)
    have h1 : connectes (sans_arete g u y) u p := by
      refine connectes_dans_pas _ _ u p ?_ (by rw [sans_arete_existe]; exact hactu)
        (hact p hpP)
      refine (sans_arete_lies g u y u p).mpr ⟨lies_symm g p u hl, ?_⟩
      rintro (⟨_, e2⟩ | ⟨e1, _⟩)
      · exact hpy e2
      · exact hyu e1.symm
    have h2 : connectes (sans_arete g u y) p y := by
      have := connectes_sans_arete g u y (fun z => z ∈ P) p y
        (fun z hz e2 => huP (e2 ▸ hz)) (hgris0 p hpP y hy)
      exact connectes_dans_mono _ _ _ _ _ (fun z hz => hact z hz) this
    exact connectes_dans_trans _ _ _ _ _ h1 h2

/-- The loop invariant of the bridge list after the recursive call on a white
neighbour and the updates that follow it. -/
theorem boucle_ponts_appel (g : Graphe) (hb : bien_forme g) (hs : symetrique g) (P : List Nat)
    (c0 c c1 : ContextArticulation) (u : Nat) (n : Int) (a : Arete)
    (hbo : BoucleAP g P c0 u n c) (hpo : BouclePonts g P c0 u c)
    (ha : a ∈ aretes_de g u) (hv : c.disc a.destination = -1)
    (hpost : PostAP g (u :: P)
      { c with parent := Function.update c.parent a.destination (u : Int) } a.destination c1)
    (hpp : PostPonts g (u :: P)
      { c with parent := Function.update c.parent a.destination (u : Int) } a.destination c1) :
    BouclePonts g P c0 u (ap_retour u a.destination n c1) := by
  obtain ⟨hinv0, hgris0, hu0, hactu, hpere⟩ := hbo.base
  have huc : c.disc u ≠ -1 := hbo.inv.gris u (List.mem_cons_self _ _)
  have hvu : a.destination ≠ u := fun e => huc (e ▸ hv)
  have hcinv : InvAP g (u :: P)
      { c with parent := Function.update c.parent a.destination (u : Int) } :=
    inv_ap_cadre g _ c _ rfl rfl rfl hbo.inv
  have hcp : ({ c with parent := Function.update c.parent a.destination (u : Int) } :
      ContextArticulation).parent a.destination = (u : Int) := by
    show Function.update c.parent a.destination (u : Int) a.destination = (u : Int)
    rw [Function.update_same]
  obtain ⟨r1, r2, r3, r4, r5, r6, r7⟩ := ap_retour_champs u a.destination n c1 hvu
  have rp := ap_retour_ponts u a.destination n c1 hvu
  have hanc : ∀ x, c.disc x ≠ -1 → c1.disc x = c.disc x :=
    fun x hx => (hpost.etend.anciens x hx).1
  have hu1 : c1.disc u = c.disc u := hanc u huc
  have hut : c.disc u < c.timer ∧ 0 ≤ c.disc u := by
    rcases hbo.inv.temps.2 u with h | h
    · exact absurd h huc
    · exact ⟨h.2, h.1⟩
  have hv1 : c1.disc a.destination = c.timer := hpost.racine.1
  have hsub : ∀ p ∈ c1.ponts, p ∈ (ap_retour u a.destination n c1).ponts := by
    intro p hp
    rw [rp]
    split
    · exact List.mem_append_left _ hp
    · exact hp
  have hsur := pont_retour_sur g hb hs P u n c0 c
    { c with parent := Function.update c.parent a.destination (u : Int) } c1 hbo a ha hv rfl hcp
    hcinv hpost
  have hcomp := pont_retour_complet g hb hs P u n c0 c
    { c with parent := Function.update c.parent a.destination (u : Int) } c1 hbo a hv rfl rfl
    hcp hcinv hpost hpp
  have hdecide : pont g u a.destination → (u, a.destination) ∈
      (ap_retour u a.destination n c1).ponts := by
    intro hp
    rw [rp]
    by_cases hlow : c1.low a.destination > c1.disc u
    · rw [if_pos hlow]
      exact List.mem_append_right _ (List.mem_singleton_self _)
    · exact absurd hp (hcomp (by omega))
  have hwhite : ∀ x, c.disc x = -1 → c0.disc x = -1 := by
    intro x hx
    by_contra h0
    rw [(hbo.etend.anciens x h0).1] at hx
    exact h0 hx
  refine ⟨⟨?_, ?_⟩, ?_, ?_, ?_, ?_, ?_⟩
  · -- every recorded pair is a bridge
    intro p hp
    have hold : p ∈ c1.ponts → pont g p.1 p.2 ∧
        (ap_retour u a.destination n c1).parent p.2 = (p.1 : Int) ∧
        (ap_retour u a.destination n c1).disc p.1 ≠ -1 ∧
        (ap_retour u a.destination n c1).disc p.1 <
          (ap_retour u a.destination n c1).disc p.2 := by
      intro h
      rw [r1, r3]
      exact hpp.inv.sur p h
    rw [rp] at hp
    by_cases hlow : c1.low a.destination > c1.disc u
    · rw [if_pos hlow] at hp
      rcases List.mem_append.mp hp with h | h
      · exact hold h
      · have e : p = (u, a.destination) := by simpa using h
        rw [e]
        refine ⟨hsur hlow, ?_, ?_, ?_⟩
        · show (ap_retour u a.destination n c1).parent a.destination = (u : Int)
          rw [r3, hpost.racine.2]
          exact hcp
        · show (ap_retour u a.destination n c1).disc u ≠ -1
          rw [r1, hu1]; exact huc
        · show (ap_retour u a.destination n c1).disc u <
            (ap_retour u a.destination n c1).disc a.destination
          rw [r1, hu1, hv1]
          exact hut.1
    · rw [if_neg hlow] at hp
      exact hold hp
  · -- no pair is recorded twice
    rw [rp]
    split
    · rw [List.nodup_append]
      refine ⟨hpp.inv.nodup, List.nodup_singleton _, ?_⟩
      intro p hp1 hp2
      have e : p = (u, a.destination) := by simpa using hp2
      rw [e] at hp1
      rcases hpp.ajouts _ hp1 with h | h
      · have := (hpo.inv.sur _ h).2.2.2
        simp only at this
        rw [hv] at this
        omega
      · exact h.2 rfl
    · exact hpp.inv.nodup
  · -- the bridges at the closed nodes are recorded
    intro x hx hxP e he hpont
    rw [r1] at hx
    rcases hpp.complet x hx hxP e he hpont with h | h | ⟨h1, h2⟩
    · exact Or.inl (hsub _ h)
    · exact Or.inr (Or.inl (hsub _ h))
    · right; left
      rw [hcp] at h2
      have e2 : e.destination = u := by exact_mod_cast h2
      rw [h1, e2] at hpont ⊢
      exact hdecide (pont_symm g _ _ hpont)
  · intro p hp
    exact hsub p (hpp.garde p (hpo.garde p hp))
  · -- the pairs added
    intro p hp
    rw [rp] at hp
    have hold : p ∈ c1.ponts → p ∈ c0.ponts ∨
        (nouveau c0 (ap_retour u a.destination n c1) p.2 ∧ p.2 ≠ u) := by
      intro h
      rcases hpp.ajouts p h with h1 | ⟨h1, h2⟩
      · rcases hpo.ajouts p h1 with h3 | ⟨h3, h4⟩
        · exact Or.inl h3
        · right
          refine ⟨⟨h3.1, ?_⟩, h4⟩
          rw [r1, hanc _ h3.2]
          exact h3.2
      · right
        refine ⟨⟨hwhite _ h1.1, by rw [r1]; exact h1.2⟩, ?_⟩
        intro e
        exact huc (e ▸ h1.1)
    by_cases hlow : c1.low a.destination > c1.disc u
    · rw [if_pos hlow] at hp
      rcases List.mem_append.mp hp with h | h
      · exact hold h
      · have e : p = (u, a.destination) := by simpa using h
        rw [e]
        right
        refine ⟨⟨hwhite _ hv, ?_⟩, hvu⟩
        show (ap_retour u a.destination n c1).disc a.destination ≠ -1
        rw [r1, hv1]
        have := hbo.inv.temps.1
        omega
    · rw [if_neg hlow] at hp
      exact hold hp
  · -- `low[u]` is reached outside the edge to the parent
    intro hlt
    rw [r5, r1, hu1] at hlt
    rw [r5, r1]
    have hlu : c1.low u = c.low u := (hpost.etend.anciens u huc).2.1
    by_cases hmin : c1.low u ≤ c1.low a.destination
    · rw [min_eq_left hmin] at hlt ⊢
      rw [hlu] at hlt ⊢
      obtain ⟨x, hx, e, he, hed, hpar⟩ := hpo.low_hors_pere hlt
      have hd0 : c.disc e.destination ≠ -1 := by
        have := hbo.low_borne.1
        omega
      refine ⟨x, ⟨hx.1, by rw [r1, hanc x hx.2]; exact hx.2⟩, e, he, ?_, hpar⟩
      rw [hanc _ hd0]
      exact hed
    · rw [min_eq_right (by omega)] at hlt ⊢
      have hlv : c1.low a.destination < c1.disc a.destination := by
        rw [hv1]; omega
      obtain ⟨x, hx, e, he, hed, _⟩ := hpp.low_hors_pere hlv
      refine ⟨x, ⟨hwhite x hx.1, by rw [r1]; exact hx.2⟩, e, he, hed, ?_⟩
      intro e2
      exact absurd hx.1 (by rw [e2]; exact huc)
  · -- the edges from `u` down to the nodes discovered so far
    intro y hy hyu hpont
    have hy2 : c1.disc y ≠ -1 := by
      have := hy.2
      rw [r1] at this
      exact this
    by_cases hyc : c.disc y = -1
    · by_cases hyv : y = a.destination
      · rw [hyv] at hpont ⊢
        exact hdecide hpont
      · exact absurd hpont
          (pont_descendant g P u
            { c with parent := Function.update c.parent a.destination (u : Int) } c1 a ha huc
            hactu hpost y ⟨hyc, hy2⟩ hyv)
    · exact hsub _ (hpp.garde _ (hpo.fils y ⟨hy.1, hyc⟩ hyu hpont))

/-! ## Bridges: the loop, the call and the traversal -/

/-- The loop invariant of the bridge list holds when the loop of `ap_dfs`
starts. -/
theorem boucle_ponts_init (g : Graphe) (P : List Nat) (c : ContextArticulation) (u : Nat)
    (h : PreAP g P c u) (hp : PrePonts g P c) :
    BouclePonts g P c u
      { c with
          disc := Function.update c.disc u c.timer
          low := Function.update c.low u c.timer
          timer := c.timer + 1 } := by
  obtain ⟨hinv, _, hw, _, _⟩ := h
  have hpos : ∀ x, c.disc x ≠ -1 → 0 ≤ c.disc x := by
    intro x hx
    rcases hinv.temps.2 x with e | e
    · exact absurd e hx
    · exact e.1
  have hautre : ∀ x, c.disc x ≠ -1 → Function.update c.disc u c.timer x = c.disc x := by
    intro x hx
    rw [Function.update_noteq (fun e => hx (by rw [e]; exact hw))]
  refine ⟨⟨?_, hp.1.nodup⟩, ?_, fun p hp2 => hp2, fun p hp2 => Or.inl hp2, ?_, ?_⟩
  · intro p hp2
    obtain ⟨h1, h2, h3, h4⟩ := hp.1.sur p hp2
    have h5 : c.disc p.2 ≠ -1 := by
      have := hpos p.1 h3
      omega
    refine ⟨h1, h2, ?_, ?_⟩
    · show Function.update c.disc u c.timer p.1 ≠ -1
      rw [hautre _ h3]; exact h3
    · show Function.update c.disc u c.timer p.1 < Function.update c.disc u c.timer p.2
      rw [hautre _ h3, hautre _ h5]; exact h4
  · intro x hx hxP a ha hpont
    have hxu : x ≠ u := fun e => hxP (e ▸ List.mem_cons_self _ _)
    have hx0 : c.disc x ≠ -1 := by
      have h1 : Function.update c.disc u c.timer x ≠ -1 := hx
      rw [Function.update_noteq hxu] at h1
      exact h1
    exact hp.2 x hx0 (fun hm => hxP (List.mem_cons_of_mem _ hm)) a ha hpont
  · intro hlt
    exfalso
    have h1 : Function.update c.low u c.timer u < Function.update c.disc u c.timer u := hlt
    rw [Function.update_same, Function.update_same] at h1
    omega
  · intro y hy hyu _
    exfalso
    have h1 : Function.update c.disc u c.timer y ≠ -1 := hy.2
    rw [Function.update_noteq hyu] at h1
    exact h1 hy.1

/-- The loop invariant of the bridge list after `low[u]` is lowered to the
discovery time of a neighbour of `u` other than its parent. -/
theorem boucle_ponts_low (g : Graphe) (P : List Nat) (c0 c : ContextArticulation) (u : Nat)
    (n : Int) (hbo : BoucleAP g P c0 u n c) (hpo : BouclePonts g P c0 u c) (a : Arete)
    (ha : a ∈ aretes_de g u) (hnp : (a.destination : Int) ≠ c.parent u) :
    BouclePonts g P c0 u { c with low := Function.update c.low u (c.disc a.destination) } := by
  have hu0 : c0.disc u = -1 := hbo.base.2.2.1
  have huc : c.disc u ≠ -1 := hbo.inv.gris u (List.mem_cons_self _ _)
  refine ⟨⟨hpo.inv.sur, hpo.inv.nodup⟩, hpo.complet, hpo.garde, hpo.ajouts, ?_, hpo.fils⟩
  intro _
  refine ⟨u, ⟨hu0, huc⟩, a, ha, ?_, fun _ => ?_⟩
  · show c.disc a.destination = Function.update c.low u (c.disc a.destination) u
    rw [Function.update_same]
  · rw [← hbo.racine.2]
    exact hnp

/-- The bridge list before a recursive call, the parent of the white
neighbour being set. -/
theorem pre_ponts_appel (g : Graphe) (P : List Nat) (c0 c : ContextArticulation) (u : Nat)
    (n : Int) (v : Nat) (hbo : BoucleAP g P c0 u n c) (hpo : BouclePonts g P c0 u c)
    (hv : c.disc v = -1) :
    PrePonts g (u :: P) { c with parent := Function.update c.parent v (u : Int) } := by
  refine ⟨⟨?_, hpo.inv.nodup⟩, hpo.complet⟩
  intro p hp
  obtain ⟨h1, h2, h3, h4⟩ := hpo.inv.sur p hp
  refine ⟨h1, ?_, h3, h4⟩
  show Function.update c.parent v (u : Int) p.2 = (p.1 : Int)
  have h5 : p.2 ≠ v := by
    intro e
    rw [e, hv] at h4
    rcases hbo.inv.temps.2 p.1 with e2 | e2
    · exact h3 e2
    · omega
  rw [Function.update_noteq h5]
  exact h2

/-- The loop of `ap_dfs` keeps the invariant of the bridge list and discovers
every neighbour. -/
theorem ponts_voisins_ok (g : Graphe) (hb : bien_forme g) (hs : symetrique g) (k u : Nat)
    (P : List Nat) (c0 : ContextArticulation)
    (appel : ContextArticulation → Nat → Option ContextArticulation)
    (happel : ∀ Q c v, PreAP g Q c v → PrePonts g Q c → ap_blancs g c < k →
      ∃ c1, appel c v = some c1 ∧ PostAP g Q c v c1 ∧ PostPonts g Q c v c1)
    (l : List Arete) (hl : ∀ a ∈ l, a ∈ aretes_de g u) (n : Int) (c : ContextArticulation)
    (hinv : BoucleAP g P c0 u n c) (hpo : BouclePonts g P c0 u c) (hk : ap_blancs g c < k) :
    ∃ c1 n1, ap_voisins appel u l n c = some c1 ∧ BoucleAP g P c0 u n1 c1 ∧
      BouclePonts g P c0 u c1 ∧ (∀ x, c.disc x ≠ -1 → c1.disc x = c.disc x) ∧
      ∀ a ∈ l, c1.disc a.destination ≠ -1 := by
  induction l generalizing c n with
  | nil => exact ⟨c, n, rfl, hinv, hpo, fun _ _ => rfl, by simp⟩
  | cons a reste ih =>
    have hr : ∀ b ∈ reste, b ∈ aretes_de g u := fun b hb2 => hl b (List.mem_cons_of_mem _ hb2)
    have ha : a ∈ aretes_de g u := hl a (List.mem_cons_self _ _)
    obtain ⟨hinv0, hgris0, hu0, hactu, hpere⟩ := hinv.base
    have huc : c.disc u ≠ -1 := hinv.inv.gris u (List.mem_cons_self _ _)
    by_cases hv : c.disc a.destination = -1
    · -- recursive call on a white neighbour
      have hvu : a.destination ≠ u := fun e => huc (e ▸ hv)
      have hlies : lies g u a.destination := lies_arete g u a ha
      have hpre : PreAP g (u :: P)
          { c with parent := Function.update c.parent a.destination (u : Int) }
          a.destination := by
        refine ⟨inv_ap_cadre g _ c _ rfl rfl rfl hinv.inv, ?_, hv,
          (symetrique_actifs g hb hs u a.destination hlies).2, Or.inr ⟨u, P, rfl, ?_, hlies⟩⟩
        · apply chemin_gris_cons g P u hgris0
          rcases hpere with ⟨e, _⟩ | ⟨p, Q, e, _, hp⟩
          · exact Or.inl e
          · exact Or.inr ⟨p, Q, e, hp⟩
        · show Function.update c.parent a.destination (u : Int) a.destination = (u : Int)
          rw [Function.update_same]
      obtain ⟨c1, q1, q2, q3⟩ := happel (u :: P) _ a.destination hpre
        (pre_ponts_appel g P c0 c u n a.destination hinv hpo hv) hk
      rw [ap_voisins_appel appel u a reste n c hv, q1]
      simp only
      have hb2 := boucle_ap_appel g hb hs P c0 c c1 u n a hinv ha hv q2
      have hp2 := boucle_ponts_appel g hb hs P c0 c c1 u n a hinv hpo ha hv q2 q3
      obtain ⟨r1, _, _, _, _, _, _⟩ := ap_retour_champs u a.destination n c1 hvu
      have hanc : ∀ x, c.disc x ≠ -1 → (ap_retour u a.destination n c1).disc x = c.disc x := by
        intro x hx
        rw [r1]
        exact (q2.etend.anciens x hx).1
      have hk2 : ap_blancs g (ap_retour u a.destination n c1) < k :=
        lt_of_le_of_lt (ap_blancs_mono g c _ hanc) hk
      obtain ⟨c3, n3, t1, t2, t3, t4, t5⟩ := ih hr (n + 1) _ hb2 hp2 hk2
      refine ⟨c3, n3, t1, t2, t3, ?_, ?_⟩
      · intro x hx
        rw [t4 x (by rw [hanc x hx]; exact hx), hanc x hx]
      · intro e he
        rcases List.mem_cons.mp he with he | he
        · subst he
          have hd1 : (ap_retour u e.destination n c1).disc e.destination ≠ -1 := by
            rw [r1, q2.racine.1]
            have h0 : 0 ≤ c.timer := hinv.inv.temps.1
            show c.timer ≠ -1
            omega
          rw [t4 _ hd1]; exact hd1
        · exact t5 e he
    · have hstep : ap_voisins appel u (a :: reste) n c =
          if (a.destination : Int) ≠ c.parent u then
            ap_voisins appel u reste n
              (if c.disc a.destination < c.low u then
                { c with low := Function.update c.low u (c.disc a.destination) }
               else c)
          else ap_voisins appel u reste n c := by
        show (if c.disc a.destination = -1 then _ else _) = _
        rw [if_neg hv]
      rw [hstep]
      have hv0 : 0 ≤ c.disc a.destination := by
        rcases hinv.inv.temps.2 a.destination with e | e
        · exact absurd e hv
        · exact e.1
      split
      · rename_i hnp
        -- an edge to a discovered node other than the parent
        have hb2 : BoucleAP g P c0 u n
            (if c.disc a.destination < c.low u then
              { c with low := Function.update c.low u (c.disc a.destination) } else c) := by
          split
          · rename_i hlt
            exact boucle_ap_low g P c0 c u n _ hinv hv0 (le_of_lt hlt)
              (fun _ => ⟨u, ⟨hu0, huc⟩, a, ha, rfl⟩)
          · exact hinv
        have hp2 : BouclePonts g P c0 u
            (if c.disc a.destination < c.low u then
              { c with low := Function.update c.low u (c.disc a.destination) } else c) := by
          split
          · exact boucle_ponts_low g P c0 c u n hinv hpo a ha hnp
          · exact hpo
        have hd12 : (if c.disc a.destination < c.low u then
            ({ c with low := Function.update c.low u (c.disc a.destination) } :
              ContextArticulation) else c).disc = c.disc := by
          split <;> rfl
        have hk2 : ap_blancs g (if c.disc a.destination < c.low u then
            { c with low := Function.update c.low u (c.disc a.destination) } else c) < k := by
          refine lt_of_le_of_lt (ap_blancs_mono g c _ ?_) hk
          intro x _
          rw [hd12]
        obtain ⟨c3, n3, t1, t2, t3, t4, t5⟩ := ih hr n _ hb2 hp2 hk2
        refine ⟨c3, n3, t1, t2, t3, ?_, ?_⟩
        · intro x hx
          rw [t4 x (by rw [hd12]; exact hx), hd12]
        · intro e he
          rcases List.mem_cons.mp he with he | he
          · subst he
            have h3 := t4 e.destination (by rw [hd12]; exact hv)
            rw [hd12] at h3
            rw [h3]; exact hv
          · exact t5 e he
      · -- the edge back to the parent is skipped
        obtain ⟨c3, n3, t1, t2, t3, t4, t5⟩ := ih hr n c hinv hpo hk
        refine ⟨c3, n3, t1, t2, t3, t4, ?_⟩
        intro e he
        rcases List.mem_cons.mp he with he | he
        · subst he
          rw [t4 _ hv]; exact hv
        · exact t5 e he

/-- Total correctness of `ap_dfs` for the bridge list, on a symmetric graph. -/
theorem ponts_dfs_ok (g : Graphe) (hb : bien_forme g) (hs : symetrique g) (k : Nat) :
    ∀ (P : List Nat) (c : ContextArticulation) (u : Nat), PreAP g P c u → PrePonts g P c →
      ap_blancs g c < k →
      ∃ c1, ap_dfs g k c u = some c1 ∧ PostAP g P c u c1 ∧ PostPonts g P c u c1 := by
  induction k with
  | zero => intro P c u _ _ hk; omega
  | succ m ih =>
    intro P c u hpre hprep hk
    obtain ⟨c2, e2, hpost⟩ := ap_dfs_ok g hb hs (m + 1) P c u hpre hk
    obtain ⟨hinv0, hgris0, hu0, hactu, hpere⟩ := hpre
    have hinit := boucle_ap_init g P c u ⟨hinv0, hgris0, hu0, hactu, hpere⟩
    have hinitp := boucle_ponts_init g P c u ⟨hinv0, hgris0, hu0, hactu, hpere⟩ hprep
    have hbl := ap_blancs_visiter g c
      { c with
          disc := Function.update c.disc u c.timer
          low := Function.update c.low u c.timer
          timer := c.timer + 1 } u (noeud_existe_lt g u hactu) hu0
      (by
        show Function.update c.disc u c.timer u ≠ -1
        rw [Function.update_same]
        have := hinv0.temps.1
        omega)
      (fun x hx => by
        show Function.update c.disc u c.timer x = c.disc x
        rw [Function.update_noteq hx])
    obtain ⟨c1, n1, r1, r2, r3, _, r5⟩ := ponts_voisins_ok g hb hs m u P c (ap_dfs g m) ih
      (aretes_de g u) (fun a ha => ha) 0 _ hinit hinitp (by omega)
    have hdfs : ap_dfs g (m + 1) c u = some c1 := r1
    have hc : c2 = c1 := by
      rw [hdfs] at e2
      exact (Option.some.inj e2).symm
    subst hc
    refine ⟨c2, hdfs, hpost, r3.inv, ?_, r3.garde, r3.ajouts, r3.low_hors_pere⟩
    have huP : u ∉ P := fun hm => hinv0.gris u hm hu0
    intro x hx hxP a ha hpont
    by_cases hxu : x = u
    · subst hxu
      have hd := r5 a ha
      by_cases hy0 : c.disc a.destination = -1
      · by_cases hyx : a.destination = x
        · rw [hyx] at hpont
          exact absurd hpont (pont_boucle g x hactu)
        · exact Or.inl (r3.fils a.destination ⟨hy0, hd⟩ hyx hpont)
      · have hyP : a.destination ∈ P := by
          rcases hinv0.clos a.destination hy0 with e | e
          · exact e
          · obtain ⟨b, hb1, hb2⟩ := symetrique_arete g hb hs a.destination x
              (lies_symm g x a.destination (lies_arete g x a ha))
            have := e b hb1
            rw [hb2] at this
            exact absurd hu0 this
        by_cases hpar : (a.destination : Int) = c.parent x
        · exact Or.inr (Or.inr ⟨rfl, hpar⟩)
        · exact absurd hpont
            (pont_gris g P c x ⟨hinv0, hgris0, hu0, hactu, hpere⟩ a.destination hyP hpar)
    · rcases r3.complet x hx (fun hm => by
        rcases List.mem_cons.mp hm with e | e
        · exact hxu e
        · exact hxP e) a ha hpont with h | h | h
      · exact Or.inl h
      · exact Or.inr (Or.inl h)
      · exact absurd h (fun hf => hf)

/-- The loop over the roots keeps the bridge list right. -/
theorem ponts_racines_ok (g : Graphe) (hb : bien_forme g) (hs : symetrique g) (fuel : Nat)
    (hf : g.capacite_max < fuel) (l : List Nat) (hl : ∀ i ∈ l, i < g.capacite_max)
    (c : ContextArticulation) (hinv : InvAP g [] c) (hp : PrePonts g [] c)
    (hpar : ∀ x, c.disc x = -1 → c.parent x = -1) :
    ∃ c1, ap_racines fuel g l c = some c1 ∧ InvAP g [] c1 ∧ PrePonts g [] c1 ∧
      (∀ x, c1.disc x = -1 → c1.parent x = -1) ∧
      (∀ x, c.disc x ≠ -1 → c1.disc x ≠ -1) ∧
      ∀ i ∈ l, (noeud g i).actif = true → c1.disc i ≠ -1 := by
  induction l generalizing c with
  | nil => exact ⟨c, rfl, hinv, hp, hpar, fun _ hx => hx, by simp⟩
  | cons i r ih =>
    have hr : ∀ j ∈ r, j < g.capacite_max := fun j hj => hl j (List.mem_cons_of_mem _ hj)
    have hi : i < g.capacite_max := hl i (List.mem_cons_self _ _)
    unfold ap_racines
    split
    · rename_i hc
      simp only [Bool.and_eq_true, decide_eq_true_eq] at hc
      have hpre : PreAP g [] c i := by
        have hg : chemin_gris g [] := by
          intro x hx
          cases hx
        refine ⟨hinv, hg, hc.2, ?_, Or.inl ⟨rfl, hpar i hc.2⟩⟩
        unfold noeud_existe
        rw [if_neg (by omega)]
        exact hc.1
      obtain ⟨c1, r1, q, qp⟩ := ponts_dfs_ok g hb hs fuel [] c i hpre hp
        (lt_of_le_of_lt (ap_blancs_le g c) hf)
      rw [r1]
      simp only
      have hpar1 : ∀ x, c1.disc x = -1 → c1.parent x = -1 := by
        intro x hx
        rw [q.etend.parents x (Or.inr hx)]
        apply hpar
        by_contra h0
        rw [(q.etend.anciens x h0).1] at hx
        exact h0 hx
      have hp1 : PrePonts g [] c1 := by
        refine ⟨qp.inv, ?_⟩
        intro x hx hxP a ha hpont
        rcases qp.complet x hx hxP a ha hpont with h | h | ⟨_, h2⟩
        · exact Or.inl h
        · exact Or.inr (Or.inl h)
        · exfalso
          rw [hpar i hc.2] at h2
          omega
      obtain ⟨c2, s1, s2, s3, s4, s5, s6⟩ := ih hr c1 q.inv hp1 hpar1
      have hdi : c1.disc i ≠ -1 := by
        rw [q.racine.1]
        have := hinv.temps.1
        omega
      refine ⟨c2, s1, s2, s3, s4, ?_, ?_⟩
      · intro x hx
        apply s5
        rw [(q.etend.anciens x hx).1]
        exact hx
      · intro j hj hact
        rcases List.mem_cons.mp hj with e | e
        · rw [e]; exact s5 i hdi
        · exact s6 j e hact
    · rename_i hc
      simp only [Bool.and_eq_true, decide_eq_true_eq, not_and] at hc
      obtain ⟨c2, s1, s2, s3, s4, s5, s6⟩ := ih hr c hinv hp hpar
      refine ⟨c2, s1, s2, s3, s4, s5, ?_⟩
      intro j hj hact
      rcases List.mem_cons.mp hj with e | e
      · subst e
        exact s5 j (hc hact)
      · exact s6 j e hact

/-- Total correctness of the traversal of `trouver_points_articulation` for
the bridge list, on a symmetric graph. -/
theorem ponts_parcours_ok (g : Graphe) (hb : bien_forme g) (hs : symetrique g) (fuel : Nat)
    (hf : g.capacite_max < fuel) :
    ∃ c, ap_parcours fuel g = some c ∧ InvAP g [] c ∧ PrePonts g [] c ∧
      ∀ u, noeud_existe g u = true → c.disc u ≠ -1 := by
  have h0 : InvAP g []
      { disc := fun _ => -1
        low := fun _ => -1
        parent := fun _ => -1
        est_ap := fun _ => false
        timer := 0
        ponts := [] } := by
    refine ⟨?_, ?_, ?_, ?_, ?_, ?_⟩
    · exact ⟨le_refl _, fun _ => Or.inl rfl⟩
    · intro x hx; exact absurd rfl hx
    · intro x hx; cases hx
    · intro x hx; exact absurd rfl hx
    · intro x hx; cases hx
    · intro x hx; exact absurd rfl hx
  have hp0 : PrePonts g []
      { disc := fun _ => -1
        low := fun _ => -1
        parent := fun _ => -1
        est_ap := fun _ => false
        timer := 0
        ponts := [] } := by
    refine ⟨⟨?_, List.nodup_nil⟩, ?_⟩
    · intro p hp; cases hp
    · intro x hx; exact absurd rfl hx
  obtain ⟨c, r1, r2, r3, _, _, r6⟩ := ponts_racines_ok g hb hs fuel hf
    (List.range g.capacite_max) (fun i hi => List.mem_range.mp hi) _ h0 hp0 (fun _ _ => rfl)
  refine ⟨c, r1, r2, r3, fun u hu => ?_⟩
  have hlt := noeud_existe_lt g u hu
  have hact : (noeud g u).actif = true := by
    unfold noeud_existe at hu
    rw [if_neg (by omega)] at hu
    exact hu
  exact r6 u (List.mem_range.mpr hlt) hact

/-- C33: on a well-formed symmetric graph (every arc has its reverse arc) and
with more fuel than node slots, `trouver_points_articulation` returns a bridge
list that holds no pair twice; every pair `(x, y)` of the list is an edge of
the graph recorded from the DFS parent `x` to its child `y`, and the reversed
pair is not in the list; and an edge `{x, y}` of the graph is in the list, in
one direction or the other, exactly when the graph without that edge has more
connected components than the graph. -/
theorem ponts_corrects (g : Graphe) (fuel : Nat) (res : ResultatSecurite)
    (hb : bien_forme g) (hs : symetrique g) (hfuel : g.capacite_max < fuel) :
    ∃ r c, trouver_points_articulation fuel g res = some r ∧ ap_parcours fuel g = some c ∧
      r.ponts.Nodup ∧
      (∀ x y, (x, y) ∈ r.ponts → lies g x y ∧ c.parent y = (x : Int) ∧ (y, x) ∉ r.ponts) ∧
      ∀ x y, lies g x y →
        (∃ n, nombre_composantes g (fun v => noeud_existe g v = true) n) ∧
        (∃ m, nombre_composantes (sans_arete g x y)
          (fun v => noeud_existe (sans_arete g x y) v = true) m) ∧
        ∀ n m, nombre_composantes g (fun v => noeud_existe g v = true) n →
          nombre_composantes (sans_arete g x y)
            (fun v => noeud_existe (sans_arete g x y) v = true) m →
          (((x, y) ∈ r.ponts ∨ (y, x) ∈ r.ponts) ↔ n < m) := by
  obtain ⟨c, r1, hinv, hp, hvis⟩ := ponts_parcours_ok g hb hs fuel hfuel
  have htpa : trouver_points_articulation fuel g res =
      some { res with
        points_articulation := (List.range g.capacite_max).filter (fun i => c.est_ap i)
        nb_points_articulation := ((List.range g.capacite_max).filter (fun i => c.est_ap i)).length
        ponts := c.ponts
        nb_ponts := c.ponts.length } := by
    unfold trouver_points_articulation
    rw [r1]
  refine ⟨_, c, htpa, r1, hp.1.nodup, ?_, ?_⟩
  · intro x y hxy
    have hxy2 : (x, y) ∈ c.ponts := hxy
    obtain ⟨h1, h2, _, h4⟩ := hp.1.sur (x, y) hxy2
    refine ⟨h1.1, h2, ?_⟩
    intro hyx
    have hyx2 : (y, x) ∈ c.ponts := hyx
    have := (hp.1.sur (y, x) hyx2).2.2.2
    simp only at this h4
    omega
  · intro x y hl
    obtain ⟨hx, hy⟩ := symetrique_actifs g hb hs x y hl
    obtain ⟨R, hR⟩ := representants_existe g (fun v => noeud_existe g v = true) g.capacite_max
      (fun v hv => noeud_existe_lt g v hv)
    obtain ⟨R2, hR2⟩ := representants_existe (sans_arete g x y)
      (fun v => noeud_existe (sans_arete g x y) v = true) g.capacite_max
      (fun v hv => noeud_existe_lt (sans_arete g x y) v hv)
    refine ⟨⟨R.length, R, hR, rfl⟩, ⟨R2.length, R2, hR2, rfl⟩, ?_⟩
    rintro n m ⟨S1, hS1, e1⟩ ⟨S2, hS2, e2⟩
    show ((x, y) ∈ c.ponts ∨ (y, x) ∈ c.ponts) ↔ n < m
    rw [← e1, ← e2, ← pont_compte g x y hx hy hl S1 S2 hS1 hS2]
    constructor
    · rintro (h | h)
      · exact (hp.1.sur (x, y) h).1
      · exact pont_symm g y x (hp.1.sur (y, x) h).1
    · intro hpont
      obtain ⟨a, ha, had⟩ := symetrique_arete g hb hs x y hl
      rcases hp.2 x (hvis x hx) (fun hm => by cases hm) a ha (by rw [had]; exact hpont)
        with h | h | h
      · left; rw [had] at h; exact h
      · right; rw [had] at h; exact h
      · exact absurd h (fun hf => hf)

/-- Instance of C33 on the path `0 - 1 - 2` stored as four arcs, whose two
edges are bridges. -/
theorem ponts_corrects_witness :
    (bien_forme g_chemin_sym ∧ symetrique g_chemin_sym ∧ g_chemin_sym.capacite_max < 4 ∧
      (trouver_points_articulation 4 g_chemin_sym ⟨[], 0, [], 0, [], 0, 0⟩).map
        (fun r => r.ponts) = some [(1, 2), (0, 1)]) ∧
    ∃ r c, trouver_points_articulation 4 g_chemin_sym ⟨[], 0, [], 0, [], 0, 0⟩ = some r ∧
      ap_parcours 4 g_chemin_sym = some c ∧
      r.ponts.Nodup ∧
      (∀ x y, (x, y) ∈ r.ponts →
        lies g_chemin_sym x y ∧ c.parent y = (x : Int) ∧ (y, x) ∉ r.ponts) ∧
      ∀ x y, lies g_chemin_sym x y →
        (∃ n, nombre_composantes g_chemin_sym (fun v => noeud_existe g_chemin_sym v = true) n) ∧
        (∃ m, nombre_composantes (sans_arete g_chemin_sym x y)
          (fun v => noeud_existe (sans_arete g_chemin_sym x y) v = true) m) ∧
        ∀ n m, nombre_composantes g_chemin_sym (fun v => noeud_existe g_chemin_sym v = true) n →
          nombre_composantes (sans_arete g_chemin_sym x y)
            (fun v => noeud_existe (sans_arete g_chemin_sym x y) v = true) m →
          (((x, y) ∈ r.ponts ∨ (y, x) ∈ r.ponts) ↔ n < m) :=
  ⟨by decide, ponts_corrects g_chemin_sym 4 ⟨[], 0, [], 0, [], 0, 0⟩
    (by decide) (by decide) (by decide)⟩

end NetFlow
